import Mathlib

/-!
# Transaction pool: sub-pool markers, heaps, scoring and promotion

A shallow embedding of `txpool/pool.go`.  Go pointers `*metaTx` are addresses
(`Ptr`) into an explicit memory `Mem`; the two heaps of a sub-pool are slices of
such addresses, and the back-indices live inside the records, exactly as in the
source.  Machine integers are natural numbers, reduced explicitly where the
source can wrap.  Every loop is structurally recursive on a counter that is
computed from the state and bounds the number of iterations of the source loop.
-/

namespace TxPool

/-! ## Data model -/

/-- Address of a `metaTx` record (a Go `*metaTx`). -/
abbrev Ptr := Nat

/-- Modelled from the spec: the declaration of `TxSlot` is not among the sources;
these are the fields of the normalized transaction record that `pool.go` reads
(identity hash, sender id, nonce, gas limit, fee cap, tip, transferred value). -/
structure TxSlot where
  idHash : Nat
  senderID : Nat
  nonce : Nat
  gas : Nat
  feeCap : Nat
  tip : Nat
  value : Nat
  deriving DecidableEq

/-- The record `metaTx` of the source. -/
structure metaTx where
  subPool : Nat
  effectiveTip : Nat
  Tx : TxSlot
  bestIndex : Int
  worstIndex : Int
  currentSubPool : Nat
  deriving DecidableEq

instance : Inhabited TxSlot := ⟨⟨0, 0, 0, 0, 0, 0, 0⟩⟩

instance : Inhabited metaTx := ⟨⟨0, 0, default, -1, -1, 0⟩⟩

/-- The memory holding every `metaTx` record, by address. -/
abbrev Mem := Ptr → metaTx

def EnoughFeeCapProtocol : Nat := 0b10000
def NoNonceGaps : Nat := 0b01000
def EnoughBalance : Nat := 0b00100
def EnoughFeeCapBlock : Nat := 0b00010
def IsLocal : Nat := 0b00001

def PendingSubPool : Nat := 1
def BaseFeeSubPool : Nat := 2
def QueuedSubPool : Nat := 3

def PendingSubPoolLimit : Nat := 10 * 1024
def BaseFeeSubPoolLimit : Nat := 10 * 1024
def QueuedSubPoolLimit : Nat := 10 * 1024

/-- Largest value of a `uint64` plus one. -/
def two64 : Nat := 2 ^ 64

/-- Largest value of a `uint256.Int` plus one. -/
def two256 : Nat := 2 ^ 256

/-- The function `newMetaTx`: a fresh record, outside every heap. -/
def newMetaTx (slot : TxSlot) (isLocal : Bool) : metaTx :=
  { subPool := if isLocal then IsLocal else 0
    effectiveTip := 0
    Tx := slot
    bestIndex := -1
    worstIndex := -1
    currentSubPool := 0 }

/-- The method `metaTx.Less`: marker, then effective tip, then nonce. -/
def metaTx.Less (mt than : metaTx) : Bool :=
  if mt.subPool ≠ than.subPool then decide (mt.subPool < than.subPool)
  else if mt.effectiveTip ≠ than.effectiveTip then decide (mt.effectiveTip < than.effectiveTip)
  else if mt.Tx.nonce ≠ than.Tx.nonce then decide (mt.Tx.nonce < than.Tx.nonce)
  else false

/-! ## The two queues

A queue is a slice of addresses together with the memory its `Swap`, `Push` and
`Pop` write the back-indices to.  Reading a slice outside its bounds panics in
the source; here it yields address `0`, and no such read happens on a state
that satisfies the structural invariant `SubPool.Struct` below. -/

/-- A slice of `*metaTx` with the memory it points into. -/
structure Heap where
  mem : Mem
  q : List Ptr

/-- The element `p[i]` of a slice. -/
def elemAt (q : List Ptr) (i : Nat) : Ptr := q.getD i 0

/-- The assignment `p[i], p[j] = p[j], p[i]` on a slice. -/
def swapSlice (q : List Ptr) (i j : Nat) : List Ptr :=
  (q.set i (elemAt q j)).set j (elemAt q i)

def BestQueue.Len (h : Heap) : Nat := h.q.length

def BestQueue.Less (h : Heap) (i j : Nat) : Bool :=
  !(h.mem (elemAt h.q i)).Less (h.mem (elemAt h.q j))

def BestQueue.Swap (h : Heap) (i j : Nat) : Heap :=
  let p := swapSlice h.q i j
  let m1 := Function.update h.mem (elemAt p i) { h.mem (elemAt p i) with bestIndex := (i : Int) }
  let m2 := Function.update m1 (elemAt p j) { m1 (elemAt p j) with bestIndex := (j : Int) }
  ⟨m2, p⟩

def BestQueue.Push (h : Heap) (x : Ptr) : Heap :=
  let n := h.q.length
  ⟨Function.update h.mem x { h.mem x with bestIndex := (n : Int) }, h.q ++ [x]⟩

def BestQueue.Pop (h : Heap) : Heap × Ptr :=
  let n := h.q.length
  let item := elemAt h.q (n - 1)
  (⟨Function.update h.mem item { h.mem item with bestIndex := -1, currentSubPool := 0 },
    h.q.take (n - 1)⟩, item)

def WorstQueue.Len (h : Heap) : Nat := h.q.length

def WorstQueue.Less (h : Heap) (i j : Nat) : Bool :=
  (h.mem (elemAt h.q i)).Less (h.mem (elemAt h.q j))

def WorstQueue.Swap (h : Heap) (i j : Nat) : Heap :=
  let p := swapSlice h.q i j
  let m1 := Function.update h.mem (elemAt p i) { h.mem (elemAt p i) with worstIndex := (i : Int) }
  let m2 := Function.update m1 (elemAt p j) { m1 (elemAt p j) with worstIndex := (j : Int) }
  ⟨m2, p⟩

def WorstQueue.Push (h : Heap) (x : Ptr) : Heap :=
  let n := h.q.length
  ⟨Function.update h.mem x { h.mem x with worstIndex := (n : Int) }, h.q ++ [x]⟩

def WorstQueue.Pop (h : Heap) : Heap × Ptr :=
  let n := h.q.length
  let item := elemAt h.q (n - 1)
  (⟨Function.update h.mem item { h.mem item with worstIndex := -1, currentSubPool := 0 },
    h.q.take (n - 1)⟩, item)

/-! ## Go's `container/heap`

The standard library functions the sub-pools call, over the interface
`heap.Interface` (`Len`, `Less`, `Swap`, `Push`, `Pop`). -/

/-- The interface `heap.Interface` over a state `σ`. -/
structure heap.Interface (σ : Type) where
  Len : σ → Nat
  Less : σ → Nat → Nat → Bool
  Swap : σ → Nat → Nat → σ
  Push : σ → Ptr → σ
  Pop : σ → σ × Ptr

/-- The two implementations of `heap.Interface` in `pool.go`. -/
inductive Kind where
  | best
  | worst
  deriving DecidableEq

/-- The methods of `BestQueue` and of `WorstQueue` as a `heap.Interface`. -/
def Queue : Kind → heap.Interface Heap
  | .best => ⟨BestQueue.Len, BestQueue.Less, BestQueue.Swap, BestQueue.Push, BestQueue.Pop⟩
  | .worst => ⟨WorstQueue.Len, WorstQueue.Less, WorstQueue.Swap, WorstQueue.Push, WorstQueue.Pop⟩

/-- The loop of `heap.up`; the counter bounds the iterations (`j` strictly
decreases). -/
def heap.upLoop {σ : Type} (I : heap.Interface σ) : Nat → σ → Nat → σ
  | 0, h, _ => h
  | fuel + 1, h, j =>
    let i := (j - 1) / 2
    if i = j ∨ I.Less h j i = false then h
    else heap.upLoop I fuel (I.Swap h i j) i

def heap.up {σ : Type} (I : heap.Interface σ) (h : σ) (j : Nat) : σ :=
  heap.upLoop I (j + 1) h j

/-- The child `heap.down` compares position `i` with: `j := j1`, and `j = j2`
when `j2 < n && h.Less(j2, j1)`. -/
def heap.child {σ : Type} (I : heap.Interface σ) (h : σ) (i n : Nat) : Nat :=
  if 2 * i + 1 + 1 < n ∧ I.Less h (2 * i + 1 + 1) (2 * i + 1) = true then 2 * i + 1 + 1
  else 2 * i + 1

/-- The loop of `heap.down`, returning the state and the final `i`; the
counter bounds the iterations (`i` strictly increases below `n`). -/
def heap.downLoop {σ : Type} (I : heap.Interface σ) : Nat → σ → Nat → Nat → σ × Nat
  | 0, h, i, _ => (h, i)
  | fuel + 1, h, i, n =>
    if n ≤ 2 * i + 1 then (h, i)
    else if I.Less h (heap.child I h i n) i = false then (h, i)
    else heap.downLoop I fuel (I.Swap h i (heap.child I h i n)) (heap.child I h i n) n

def heap.down {σ : Type} (I : heap.Interface σ) (h : σ) (i0 n : Nat) : σ × Bool :=
  let r := heap.downLoop I (n + 1) h i0 n
  (r.1, decide (i0 < r.2))

/-- The function `heap.Init`: `down` at `n/2 - 1`, ..., `1`, `0`. -/
def heap.Init {σ : Type} (I : heap.Interface σ) (h : σ) : σ :=
  let n := I.Len h
  (List.range (n / 2)).reverse.foldl (fun s i => (heap.down I s i n).1) h

def heap.Push {σ : Type} (I : heap.Interface σ) (h : σ) (x : Ptr) : σ :=
  let h1 := I.Push h x
  heap.up I h1 (I.Len h1 - 1)

def heap.Pop {σ : Type} (I : heap.Interface σ) (h : σ) : σ × Ptr :=
  let n := I.Len h - 1
  let h1 := I.Swap h 0 n
  let h2 := (heap.down I h1 0 n).1
  I.Pop h2

/-- The part of `heap.Remove` before its final `h.Pop()`. -/
def heap.removeFix {σ : Type} (I : heap.Interface σ) (h : σ) (i : Nat) : σ :=
  let n := I.Len h - 1
  if n ≠ i then
    let h1 := I.Swap h i n
    let r := heap.down I h1 i n
    if r.2 = false then heap.up I r.1 i else r.1
  else h

def heap.Remove {σ : Type} (I : heap.Interface σ) (h : σ) (i : Nat) : σ × Ptr :=
  I.Pop (heap.removeFix I h i)

/-! ## Sub-pools -/

/-- The type `SubPool`: tag and the two queues. -/
structure SubPool where
  t : Nat
  best : List Ptr
  worst : List Ptr
  deriving DecidableEq

def NewSubPool (t : Nat) : SubPool := ⟨t, [], []⟩

def SubPool.EnforceInvariants (m : Mem) (p : SubPool) : Mem × SubPool :=
  let w := heap.Init (Queue .worst) ⟨m, p.worst⟩
  let b := heap.Init (Queue .best) ⟨w.mem, p.best⟩
  (b.mem, { p with best := b.q, worst := w.q })

def SubPool.Best (p : SubPool) : Option Ptr :=
  if p.best.length = 0 then none else some (elemAt p.best 0)

def SubPool.Worst (p : SubPool) : Option Ptr :=
  if p.worst.length = 0 then none else some (elemAt p.worst 0)

def SubPool.PopBest (m : Mem) (p : SubPool) : (Mem × SubPool) × Ptr :=
  let r := heap.Pop (Queue .best) ⟨m, p.best⟩
  let i := r.2
  let w := heap.Remove (Queue .worst) ⟨r.1.mem, p.worst⟩ (r.1.mem i).worstIndex.toNat
  ((w.1.mem, { p with best := r.1.q, worst := w.1.q }), i)

def SubPool.PopWorst (m : Mem) (p : SubPool) : (Mem × SubPool) × Ptr :=
  let r := heap.Pop (Queue .worst) ⟨m, p.worst⟩
  let i := r.2
  let b := heap.Remove (Queue .best) ⟨r.1.mem, p.best⟩ (r.1.mem i).bestIndex.toNat
  ((b.1.mem, { p with best := b.1.q, worst := r.1.q }), i)

def SubPool.Len (p : SubPool) : Nat := p.best.length

def SubPool.Add (m : Mem) (p : SubPool) (i : Ptr) : Mem × SubPool :=
  let m1 := Function.update m i { m i with currentSubPool := p.t }
  let b := heap.Push (Queue .best) ⟨m1, p.best⟩ i
  let w := heap.Push (Queue .worst) ⟨b.mem, p.worst⟩ i
  (w.mem, { p with best := b.q, worst := w.q })

def SubPool.UnsafeRemove (m : Mem) (p : SubPool) (i : Ptr) : Mem × SubPool :=
  if p.Len = 0 then (m, p)
  else if p.Len = 1 ∧ (m i).bestIndex = 0 then
    let w := (Queue .worst).Pop ⟨m, p.worst⟩
    let b := (Queue .best).Pop ⟨w.1.mem, p.best⟩
    (b.1.mem, { p with best := b.1.q, worst := w.1.q })
  else
    let w1 := (Queue .worst).Swap ⟨m, p.worst⟩ (m i).worstIndex.toNat (p.worst.length - 1)
    let w2 := (Queue .worst).Pop w1
    let b1 := (Queue .best).Swap ⟨w2.1.mem, p.best⟩ (w2.1.mem i).bestIndex.toNat (p.best.length - 1)
    let b2 := (Queue .best).Pop b1
    (b2.1.mem, { p with best := b2.1.q, worst := w2.1.q })

def SubPool.UnsafeAdd (m : Mem) (p : SubPool) (i : Ptr) : Mem × SubPool :=
  let m1 := Function.update m i { m i with currentSubPool := p.t }
  let w := (Queue .worst).Push ⟨m1, p.worst⟩ i
  let b := (Queue .best).Push ⟨w.mem, p.best⟩ i
  (b.mem, { p with best := b.q, worst := w.q })

/-! ## Promotion -/

/-- The three sub-pools and the memory their queues point into. -/
structure Pools where
  mem : Mem
  pending : SubPool
  baseFee : SubPool
  queued : SubPool

/-- The marker of the record at an optional address (`worst.subPool`). -/
def markerAt (m : Mem) (x : Option Ptr) : Nat := (m (x.getD 0)).subPool

/-- Step 1 of `promote`: drain `pending.Worst()` while its marker is below
`0b11110`.  The callback `discard` reads the popped record and acts on a state
`D` of its own (it does not touch the sub-pools). -/
def promote.loop1 {D : Type} (discard : Mem → Ptr → D → D) : Nat → Pools × D → Pools × D
  | 0, sd => sd
  | fuel + 1, (s, d) =>
    if 0 < s.pending.Len then
      let worst := s.pending.Worst
      if 0b11110 ≤ markerAt s.mem worst then (s, d)
      else if 0b11100 ≤ markerAt s.mem worst then
        let r := SubPool.PopWorst s.mem s.pending
        let a := SubPool.Add r.1.1 s.baseFee r.2
        promote.loop1 discard fuel ({ s with mem := a.1, pending := r.1.2, baseFee := a.2 }, d)
      else if 0b10000 ≤ markerAt s.mem worst then
        let r := SubPool.PopWorst s.mem s.pending
        let a := SubPool.Add r.1.1 s.queued r.2
        promote.loop1 discard fuel ({ s with mem := a.1, pending := r.1.2, queued := a.2 }, d)
      else
        let r := SubPool.PopWorst s.mem s.pending
        promote.loop1 discard fuel ({ s with mem := r.1.1, pending := r.1.2 }, discard r.1.1 r.2 d)
    else (s, d)

/-- Step 2 of `promote`: while `pending` is over its limit, discard its worst
element, unless that element's marker is `>= 0b11111`. -/
def promote.loop2 {D : Type} (discard : Mem → Ptr → D → D) : Nat → Pools × D → Pools × D
  | 0, sd => sd
  | fuel + 1, (s, d) =>
    if PendingSubPoolLimit < s.pending.Len then
      let worst := s.pending.Worst
      if 0b11111 ≤ markerAt s.mem worst then (s, d)
      else
        let r := SubPool.PopWorst s.mem s.pending
        promote.loop2 discard fuel ({ s with mem := r.1.1, pending := r.1.2 }, discard r.1.1 r.2 d)
    else (s, d)

/-- Step 3 of `promote`: move `baseFee.Best()` to `pending` while its marker is
`>= 0b11110`. -/
def promote.loop3 {D : Type} : Nat → Pools × D → Pools × D
  | 0, sd => sd
  | fuel + 1, (s, d) =>
    if 0 < s.baseFee.Len then
      let best := s.baseFee.Best
      if markerAt s.mem best < 0b11110 then (s, d)
      else
        let r := SubPool.PopBest s.mem s.baseFee
        let a := SubPool.Add r.1.1 s.pending r.2
        promote.loop3 fuel ({ s with mem := a.1, baseFee := r.1.2, pending := a.2 }, d)
    else (s, d)

/-- Step 4 of `promote`: drain `baseFee.Worst()` while its marker is below
`0b11100`. -/
def promote.loop4 {D : Type} (discard : Mem → Ptr → D → D) : Nat → Pools × D → Pools × D
  | 0, sd => sd
  | fuel + 1, (s, d) =>
    if 0 < s.baseFee.Len then
      let worst := s.baseFee.Worst
      if 0b11100 ≤ markerAt s.mem worst then (s, d)
      else if 0b10000 ≤ markerAt s.mem worst then
        let r := SubPool.PopWorst s.mem s.baseFee
        let a := SubPool.Add r.1.1 s.queued r.2
        promote.loop4 discard fuel ({ s with mem := a.1, baseFee := r.1.2, queued := a.2 }, d)
      else
        let r := SubPool.PopWorst s.mem s.baseFee
        promote.loop4 discard fuel ({ s with mem := r.1.1, baseFee := r.1.2 }, discard r.1.1 r.2 d)
    else (s, d)

/-- Step 5 of `promote`: while `baseFee` is over its limit, discard its worst
element, unless that element's marker is `>= 0b11110`. -/
def promote.loop5 {D : Type} (discard : Mem → Ptr → D → D) : Nat → Pools × D → Pools × D
  | 0, sd => sd
  | fuel + 1, (s, d) =>
    if BaseFeeSubPoolLimit < s.baseFee.Len then
      let worst := s.baseFee.Worst
      if 0b11110 ≤ markerAt s.mem worst then (s, d)
      else
        let r := SubPool.PopWorst s.mem s.baseFee
        promote.loop5 discard fuel ({ s with mem := r.1.1, baseFee := r.1.2 }, discard r.1.1 r.2 d)
    else (s, d)

/-- Step 6 of `promote`: move `queued.Best()` to `baseFee` or `pending` while
its marker is `>= 0b11100`. -/
def promote.loop6 {D : Type} : Nat → Pools × D → Pools × D
  | 0, sd => sd
  | fuel + 1, (s, d) =>
    if 0 < s.queued.Len then
      let best := s.queued.Best
      if markerAt s.mem best < 0b11100 then (s, d)
      else if markerAt s.mem best < 0b11110 then
        let r := SubPool.PopBest s.mem s.queued
        let a := SubPool.Add r.1.1 s.baseFee r.2
        promote.loop6 fuel ({ s with mem := a.1, queued := r.1.2, baseFee := a.2 }, d)
      else
        let r := SubPool.PopBest s.mem s.queued
        let a := SubPool.Add r.1.1 s.pending r.2
        promote.loop6 fuel ({ s with mem := a.1, queued := r.1.2, pending := a.2 }, d)
    else (s, d)

/-- Step 7 of `promote`: discard `queued.Worst()` while its marker is below
`0b10000`. -/
def promote.loop7 {D : Type} (discard : Mem → Ptr → D → D) : Nat → Pools × D → Pools × D
  | 0, sd => sd
  | fuel + 1, (s, d) =>
    if 0 < s.queued.Len then
      let worst := s.queued.Worst
      if 0b10000 ≤ markerAt s.mem worst then (s, d)
      else
        let r := SubPool.PopWorst s.mem s.queued
        promote.loop7 discard fuel ({ s with mem := r.1.1, queued := r.1.2 }, discard r.1.1 r.2 d)
    else (s, d)

/-- Step 8 of `promote`: while `queued` is over its limit, discard its worst
element. -/
def promote.loop8 {D : Type} (discard : Mem → Ptr → D → D) : Nat → Pools × D → Pools × D
  | 0, sd => sd
  | fuel + 1, (s, d) =>
    if QueuedSubPoolLimit < s.queued.Len then
      let r := SubPool.PopWorst s.mem s.queued
      promote.loop8 discard fuel ({ s with mem := r.1.1, queued := r.1.2 }, discard r.1.1 r.2 d)
    else (s, d)

/-- The function `promote`.  Each loop removes one element of the sub-pool it
tests per iteration, so the length of that sub-pool bounds its iterations. -/
def promote {D : Type} (discard : Mem → Ptr → D → D) (sd : Pools × D) : Pools × D :=
  let s1 := promote.loop1 discard (sd.1.pending.Len + 1) sd
  let s2 := promote.loop2 discard (s1.1.pending.Len + 1) s1
  let s3 := promote.loop3 (s2.1.baseFee.Len + 1) s2
  let s4 := promote.loop4 discard (s3.1.baseFee.Len + 1) s3
  let s5 := promote.loop5 discard (s4.1.baseFee.Len + 1) s4
  let s6 := promote.loop6 (s5.1.queued.Len + 1) s5
  let s7 := promote.loop7 discard (s6.1.queued.Len + 1) s6
  promote.loop8 discard (s7.1.queued.Len + 1) s7

/-! ## The by-nonce index

The index `ByNonce` wraps a `btree.BTree` (library `google/btree`) of
`sortByNonce` items.  The tree is modelled by the list of its items in
ascending order of `sortByNonce.Less`; the keys are read through the memory. -/

/-- The method `sortByNonce.Less`: sender id, then nonce. -/
def sortByNonce.Less (i than : metaTx) : Bool :=
  if i.Tx.senderID ≠ than.Tx.senderID then decide (i.Tx.senderID < than.Tx.senderID)
  else decide (i.Tx.nonce < than.Tx.nonce)

/-- The items of the tree, ascending. -/
abbrev ByNonce := List Ptr

/-- Two items the tree takes for the same key: neither is less than the other. -/
def sortByNonce.same (a b : metaTx) : Bool :=
  !sortByNonce.Less a b && !sortByNonce.Less b a

/-- The record `&metaTx{Tx: &TxSlot{senderID: senderID, nonce: txNonce}}` used
as a search key. -/
def sortByNonce.key (senderID txNonce : Nat) : metaTx :=
  { (default : metaTx) with Tx := { (default : TxSlot) with senderID := senderID, nonce := txNonce } }

/-- Calls `f` on the given items in turn until it returns `false`. -/
def iterate {σ : Type} (f : σ → Ptr → σ × Bool) : List Ptr → σ → σ
  | [], s => s
  | x :: xs, s =>
    let r := f s x
    if r.2 then iterate f xs r.1 else r.1

/-- The items `ByNonce.ascend` visits: those not less than the key
`(senderID, 0)`, in ascending order, up to the first one of another sender.
The callbacks of the source never write `Tx`, so the sender ids read during
the walk are those of the memory at its start. -/
def ByNonce.ascendItems (m : Mem) (b : ByNonce) (senderID : Nat) : List Ptr :=
  (b.filter (fun x => !sortByNonce.Less (m x) (sortByNonce.key senderID 0))).takeWhile
    (fun x => decide ((m x).Tx.senderID = senderID))

/-- The method `ByNonce.ascend`. -/
def ByNonce.ascend {σ : Type} (m : Mem) (b : ByNonce) (senderID : Nat)
    (f : σ → Ptr → σ × Bool) (s : σ) : σ :=
  iterate f (ByNonce.ascendItems m b senderID) s

/-- The method `ByNonce.count`. -/
def ByNonce.count (m : Mem) (b : ByNonce) (senderID : Nat) : Nat :=
  ByNonce.ascend m b senderID (fun c _ => (c + 1, true)) 0

/-- The method `ByNonce.get`. -/
def ByNonce.get (m : Mem) (b : ByNonce) (senderID txNonce : Nat) : Option Ptr :=
  b.find? (fun x => sortByNonce.same (m x) (sortByNonce.key senderID txNonce))

/-- The method `ByNonce.has`. -/
def ByNonce.has (m : Mem) (b : ByNonce) (mt : Ptr) : Bool :=
  (b.find? (fun x => sortByNonce.same (m x) (m mt))).isSome

/-- The method `ByNonce.delete`. -/
def ByNonce.delete (m : Mem) (b : ByNonce) (mt : Ptr) : ByNonce :=
  b.eraseP (fun x => sortByNonce.same (m x) (m mt))

/-- The method `ByNonce.replaceOrInsert`: the new tree and the replaced item. -/
def ByNonce.replaceOrInsert (m : Mem) (b : ByNonce) (mt : Ptr) : ByNonce × Option Ptr :=
  let old := b.find? (fun x => sortByNonce.same (m x) (m mt))
  let rest := b.eraseP (fun x => sortByNonce.same (m x) (m mt))
  (rest.takeWhile (fun x => sortByNonce.Less (m x) (m mt)) ++ mt ::
    rest.dropWhile (fun x => sortByNonce.Less (m x) (m mt)), old)

/-! ## Scoring -/

/-- The record `senderInfo`. -/
structure senderInfo where
  balance : Nat
  nonce : Nat
  deriving DecidableEq

/-- The function `min` on `uint64`. -/
def min (a b : Nat) : Nat := if a ≤ b then a else b

/-- The operator `x &^ c` on a `uint8` marker. -/
def andNot (x c : Nat) : Nat := x &&& (255 ^^^ c)

/-- The local variables of `onSenderChange` that its callback updates. -/
structure ScoreAcc where
  noGapsNonce : Nat
  cumulativeRequiredBalance : Nat
  minFeeCap : Nat
  minTip : Nat
  deriving DecidableEq

/-- The value `needBalance` of the callback: `gas * feeCap + value` in
`uint256` arithmetic. -/
def needBalance (tx : TxSlot) : Nat :=
  ((tx.gas * tx.feeCap) % two256 + tx.value) % two256

/-- The callback of `onSenderChange` on one record: the new record and the new
local variables. -/
def onSenderChange.score (sender : senderInfo) (protocolBaseFee pendingBaseFee : Nat)
    (acc : ScoreAcc) (mt : metaTx) : metaTx × ScoreAcc :=
  let minFeeCap := min acc.minFeeCap mt.Tx.feeCap
  let minTip := min acc.minTip mt.Tx.tip
  let effectiveTip := if minFeeCap ≤ pendingBaseFee then minTip else minFeeCap - pendingBaseFee
  let acc1 := { acc with minFeeCap := minFeeCap, minTip := minTip }
  let sp0 := andNot mt.subPool EnoughFeeCapProtocol
  if protocolBaseFee ≤ mt.Tx.feeCap then
    let sp1 := sp0 ||| EnoughFeeCapProtocol
    let sp2 := andNot sp1 NoNonceGaps
    let gap := decide (acc.noGapsNonce = mt.Tx.nonce)
    let sp3 := if gap then sp2 ||| NoNonceGaps else sp2
    let noGapsNonce := if gap then (acc.noGapsNonce + 1) % two64 else acc.noGapsNonce
    let sp4 := andNot sp3 EnoughBalance
    let cumulative :=
      if sender.nonce < mt.Tx.nonce then (acc.cumulativeRequiredBalance + needBalance mt.Tx) % two256
      else acc.cumulativeRequiredBalance
    let sp5 := if sender.nonce < mt.Tx.nonce ∧ cumulative ≤ sender.balance then sp4 ||| EnoughBalance else sp4
    let sp6 := andNot sp5 EnoughFeeCapBlock
    let sp7 := if pendingBaseFee ≤ mt.Tx.feeCap then sp6 ||| EnoughFeeCapBlock else sp6
    ({ mt with effectiveTip := effectiveTip, subPool := sp7 },
      { acc1 with noGapsNonce := noGapsNonce, cumulativeRequiredBalance := cumulative })
  else
    ({ mt with effectiveTip := effectiveTip, subPool := 0 }, acc1)

/-- The callback of `onSenderChange` as `ByNonce.ascend` calls it: it writes
the record at the address and always returns `true`. -/
def onSenderChange.visit (sender : senderInfo) (protocolBaseFee pendingBaseFee : Nat)
    (st : Mem × ScoreAcc) (p : Ptr) : (Mem × ScoreAcc) × Bool :=
  let r := onSenderChange.score sender protocolBaseFee pendingBaseFee st.2 (st.1 p)
  ((Function.update st.1 p r.1, r.2), true)

/-- The initial local variables of `onSenderChange`. -/
def onSenderChange.init (sender : senderInfo) : ScoreAcc :=
  { noGapsNonce := (sender.nonce + 1) % two64
    cumulativeRequiredBalance := 0
    minFeeCap := two64 - 1
    minTip := two64 - 1 }

/-- The function `onSenderChange`: the memory after the walk. -/
def onSenderChange (senderID : Nat) (sender : senderInfo) (m : Mem) (byNonce : ByNonce)
    (protocolBaseFee pendingBaseFee : Nat) : Mem :=
  (ByNonce.ascend m byNonce senderID
    (onSenderChange.visit sender protocolBaseFee pendingBaseFee)
    (m, onSenderChange.init sender)).1

/-! ## The sender cache, as far as scoring reads it -/

/-- Modelled from the spec: the key-value transaction `kv.Tx` is an external
collaborator; `GetOne(bucket, key)` yields the stored bytes (none stored: the
empty slice) or fails. -/
structure kvTx where
  GetOne : String → List Nat → Option (List Nat)

/-- Big-endian bytes as a number. -/
def beToNat (v : List Nat) : Nat := v.foldl (fun a b => a * 256 + b) 0

/-- The function `binary.BigEndian.PutUint64` into a fresh 8-byte slice. -/
def putUint64 (x : Nat) : List Nat :=
  (List.range 8).map (fun i => (x / 256 ^ (7 - i)) % 256)

/-- The function `binary.BigEndian.Uint64` on a slice of at least 8 bytes; on a
shorter slice it panics, which the callers model by a test of the length. -/
def getUint64 (v : List Nat) : Nat := beToNat (v.take 8)

/-- The record `SendersCache` without its lock: the two maps as functions (an
address is the list of its bytes), the id counter `senderID`, the counter
`commitID` and the two atomics.  A cache given by its `senderInfo` alone has
every other field at its zero value. -/
structure SendersCache where
  senderInfo : Nat → Option senderInfo
  senderIDs : List Nat → Option Nat := fun _ => none
  senderID : Nat := 0
  commitID : Nat := 0
  blockHeight : Nat := 0
  blockHash : List Nat := []

/-- The ways the intake functions end other than by returning `nil`. -/
inductive Err where
  | senderIDZero
  | backend
  | senderNotLoaded
  | decode
  | panic
  deriving DecidableEq

/-- The method `SendersCache.info` with `expectMiss = false`, as the intake
functions call it: the in-memory record, else the record decoded from the
`PooledSender` table; a read error is returned, a missing record panics, and so
does a stored value of fewer than 8 bytes (`v[8:]`). -/
def SendersCache.info (sc : SendersCache) (id : Nat) (tx : kvTx) : Except Err TxPool.senderInfo :=
  match sc.senderInfo id with
  | some info => .ok info
  | none =>
    match tx.GetOne "PooledSender" (putUint64 id) with
    | none => .error .backend
    | some v =>
      if v.length = 0 then .error .senderNotLoaded
      else if v.length < 8 then .error .panic
      else .ok { nonce := getUint64 v, balance := beToNat (v.drop 8) % two256 }

/-! ## The pool -/

/-- The fields of `TxPool` that `discardLocked` and the intake functions use
besides the sub-pools: the hash map, the by-nonce index, the deletion queue and
the recent-locals cache (keys of the `simplelru.LRU`, most recent first). -/
structure Registry where
  byHash : List (Nat × Ptr)
  byNonce : ByNonce
  deletedTxs : List Ptr
  localsHistory : List Nat

/-- Lookup in the map `byHash`. -/
def byHashGet (h : List (Nat × Ptr)) (k : Nat) : Option Ptr :=
  (h.find? (fun e => e.1 == k)).map (fun e => e.2)

/-- The assignment `byHash[k] = mt`. -/
def byHashSet (h : List (Nat × Ptr)) (k : Nat) (mt : Ptr) : List (Nat × Ptr) :=
  (k, mt) :: h.filter (fun e => !(e.1 == k))

/-- The statement `delete(byHash, k)`. -/
def byHashDelete (h : List (Nat × Ptr)) (k : Nat) : List (Nat × Ptr) :=
  h.filter (fun e => !(e.1 == k))

/-- The method `simplelru.LRU.Add` of a cache of capacity 1024: a present key
moves to the front, a new key is put in front and the oldest key is evicted
when the cache is over capacity. -/
def lruAdd (l : List Nat) (k : Nat) : List Nat :=
  if k ∈ l then k :: l.erase k else (k :: l).take 1024

/-- The method `TxPool.discardLocked`. -/
def discardLocked (m : Mem) (mt : Ptr) (r : Registry) : Registry :=
  { byHash := byHashDelete r.byHash (m mt).Tx.idHash
    deletedTxs := r.deletedTxs ++ [mt]
    byNonce := ByNonce.delete m r.byNonce mt
    localsHistory :=
      if (m mt).subPool &&& IsLocal ≠ 0 then lruAdd r.localsHistory (m mt).Tx.idHash
      else r.localsHistory }

/-- The state the intake functions work on: the sub-pools with their memory,
the next free address, and the registry. -/
structure State where
  pools : Pools
  next : Ptr
  reg : Registry

/-- Removes a record from the sub-pool its `currentSubPool` names (the `switch`
of `unsafeAddToPendingPool` and `removeMined`). -/
def removeFromCurrent (s : Pools) (found : Ptr) : Pools :=
  if (s.mem found).currentSubPool = PendingSubPool then
    let r := SubPool.UnsafeRemove s.mem s.pending found
    { s with mem := r.1, pending := r.2 }
  else if (s.mem found).currentSubPool = BaseFeeSubPool then
    let r := SubPool.UnsafeRemove s.mem s.baseFee found
    { s with mem := r.1, baseFee := r.2 }
  else if (s.mem found).currentSubPool = QueuedSubPool then
    let r := SubPool.UnsafeRemove s.mem s.queued found
    { s with mem := r.1, queued := r.2 }
  else s

/-- The tail of the loop body of `unsafeAddToPendingPool`, after the checks:
register the new record and append it to `pending`. -/
def unsafeAddToPendingPool.insert (st : State) (changed : List Nat) (mt : Ptr) (txn : TxSlot) :
    State × List Nat :=
  let byHash := byHashSet st.reg.byHash txn.idHash mt
  let byNonce := (ByNonce.replaceOrInsert st.pools.mem st.reg.byNonce mt).1
  let changed1 := if txn.senderID ∈ changed then changed else changed ++ [txn.senderID]
  let a := SubPool.UnsafeAdd st.pools.mem st.pools.pending mt
  ({ st with pools := { st.pools with mem := a.1, pending := a.2 },
             reg := { st.reg with byHash := byHash, byNonce := byNonce } }, changed1)

/-- The loop body of `unsafeAddToPendingPool` for one transaction of the batch. -/
def unsafeAddToPendingPool.step (discard : Mem → Ptr → Registry → Registry)
    (acc : State × List Nat) (e : TxSlot × Bool) : State × List Nat :=
  let st := acc.1
  let txn := e.1
  if (byHashGet st.reg.byHash txn.idHash).isSome then acc
  else
    let mt := st.next
    let st1 : State :=
      { st with pools := { st.pools with mem := Function.update st.pools.mem mt (newMetaTx txn e.2) },
                next := st.next + 1 }
    match ByNonce.get st1.pools.mem st1.reg.byNonce txn.senderID txn.nonce with
    | some found =>
      if txn.tip ≤ (st1.pools.mem found).Tx.tip then (st1, acc.2)
      else
        let pools := removeFromCurrent st1.pools found
        let reg := discard pools.mem found st1.reg
        unsafeAddToPendingPool.insert { st1 with pools := pools, reg := reg } acc.2 mt txn
    | none => unsafeAddToPendingPool.insert st1 acc.2 mt txn

/-- The function `unsafeAddToPendingPool`: the new state and the set
`changedSenders`, as the list of its members in order of insertion. -/
def unsafeAddToPendingPool (discard : Mem → Ptr → Registry → Registry) (st : State)
    (newTxs : List (TxSlot × Bool)) : State × List Nat :=
  newTxs.foldl (unsafeAddToPendingPool.step discard) (st, [])

/-- The loop of `onNewTxs` and `onNewBlock` over `changedSenders`: look the
sender up and score it; the first failing lookup ends the function. -/
def scoreSenders (tx : kvTx) (senders : SendersCache) (protocolBaseFee pendingBaseFee : Nat) :
    List Nat → State → State × Option Err
  | [], st => (st, none)
  | id :: ids, st =>
    match senders.info id tx with
    | .error e => (st, some e)
    | .ok sender =>
      let m := onSenderChange id sender st.pools.mem st.reg.byNonce protocolBaseFee pendingBaseFee
      scoreSenders tx senders protocolBaseFee pendingBaseFee ids
        { st with pools := { st.pools with mem := m } }

/-- The three calls of `EnforceInvariants` before `promote`. -/
def enforceAll (s : Pools) : Pools :=
  let p := SubPool.EnforceInvariants s.mem s.pending
  let b := SubPool.EnforceInvariants p.1 s.baseFee
  let q := SubPool.EnforceInvariants b.1 s.queued
  { mem := q.1, pending := p.2, baseFee := b.2, queued := q.2 }

/-- The function `onNewTxs`: the state it leaves and the error it returns. -/
def onNewTxs (tx : kvTx) (senders : SendersCache) (newTxs : List (TxSlot × Bool))
    (protocolBaseFee pendingBaseFee : Nat) (discard : Mem → Ptr → Registry → Registry)
    (st : State) : State × Option Err :=
  if newTxs.any (fun e => e.1.senderID == 0) then (st, some .senderIDZero)
  else
    let a := unsafeAddToPendingPool discard st newTxs
    match scoreSenders tx senders protocolBaseFee pendingBaseFee a.2 a.1 with
    | (st1, some e) => (st1, some e)
    | (st1, none) =>
      let r := promote discard (enforceAll st1.pools, st1.reg)
      ({ st1 with pools := r.1, reg := r.2 }, none)

/-- The two atomics of `TxPool` that `setBaseFee` writes. -/
structure BaseFees where
  protocolBaseFee : Nat
  pendingBaseFee : Nat
  deriving DecidableEq

/-- The method `TxPool.setBaseFee`: the fees the pool holds after the call and
the pair the call returns. -/
def setBaseFee (p : BaseFees) (protocolBaseFee pendingBaseFee : Nat) : BaseFees × (Nat × Nat) :=
  let p1 : BaseFees := { p with protocolBaseFee := protocolBaseFee }
  let hasNewVal := decide (0 < pendingBaseFee)
  let clamp := decide (pendingBaseFee < protocolBaseFee)
  let pendingBaseFee1 := if clamp then protocolBaseFee else pendingBaseFee
  let hasNewVal1 := if clamp then true else hasNewVal
  let p2 : BaseFees := if hasNewVal1 then { p1 with pendingBaseFee := pendingBaseFee1 } else p1
  (p2, (protocolBaseFee, p2.pendingBaseFee))

/-- Lookup in the map `noncesToRemove` of `removeMined`. -/
def removeMined.lookup (ns : List (Nat × Nat)) (senderID : Nat) : Option Nat :=
  (ns.find? (fun e => e.1 == senderID)).map (fun e => e.2)

/-- The assignment `noncesToRemove[senderID] = nonce`; a new key goes to the
end of the list. -/
def removeMined.store (ns : List (Nat × Nat)) (senderID nonce : Nat) : List (Nat × Nat) :=
  if (removeMined.lookup ns senderID).isSome then
    ns.map (fun e => if e.1 == senderID then (e.1, nonce) else e)
  else ns ++ [(senderID, nonce)]

/-- The first loop of `removeMined`: the highest mined nonce of every sender.
The map is modelled by the list of its entries, keys in order of first
insertion; the source ranges over the map in an unspecified order. -/
def removeMined.nonces (minedTxs : List TxSlot) : List (Nat × Nat) :=
  minedTxs.foldl (fun ns txn =>
    match removeMined.lookup ns txn.senderID with
    | some nonce =>
      if nonce < txn.nonce then removeMined.store ns txn.senderID txn.nonce else ns
    | none => removeMined.store ns txn.senderID txn.nonce) []

/-- The callback `removeMined` passes to `ascend`: stop at the first nonce above
the mined one; else note the record in `toDel` and take it out of its sub-pool. -/
def removeMined.visit (nonce : Nat) (acc : Pools × List Ptr) (mt : Ptr) :
    (Pools × List Ptr) × Bool :=
  if nonce < (acc.1.mem mt).Tx.nonce then (acc, false)
  else ((removeFromCurrent acc.1 mt, acc.2 ++ [mt]), true)

/-- The body of the second loop of `removeMined` for one sender: the walk, then
`discard` on every record of `toDel`. -/
def removeMined.sender (discard : Mem → Ptr → Registry → Registry) (st : State)
    (e : Nat × Nat) : State :=
  let r := ByNonce.ascend st.pools.mem st.reg.byNonce e.1 (removeMined.visit e.2) (st.pools, [])
  { st with pools := r.1, reg := r.2.foldl (fun reg mt => discard r.1.mem mt reg) st.reg }

/-- The function `removeMined` (it always returns `nil`). -/
def removeMined (discard : Mem → Ptr → Registry → Registry) (st : State)
    (minedTxs : List TxSlot) : State :=
  (removeMined.nonces minedTxs).foldl (removeMined.sender discard) st

/-- The function `onNewBlock`: the state it leaves and the error it returns. -/
def onNewBlock (tx : kvTx) (senders : SendersCache) (unwindTxs : List (TxSlot × Bool))
    (minedTxs : List TxSlot) (protocolBaseFee pendingBaseFee : Nat)
    (discard : Mem → Ptr → Registry → Registry) (st : State) : State × Option Err :=
  if unwindTxs.any (fun e => e.1.senderID == 0) then (st, some .senderIDZero)
  else if minedTxs.any (fun e => e.senderID == 0) then (st, some .senderIDZero)
  else
    let st0 := removeMined discard st minedTxs
    let a := unsafeAddToPendingPool discard st0 unwindTxs
    match scoreSenders tx senders protocolBaseFee pendingBaseFee a.2 a.1 with
    | (st1, some e) => (st1, some e)
    | (st1, none) =>
      let r := promote discard (enforceAll st1.pools, st1.reg)
      ({ st1 with pools := r.1, reg := r.2 }, none)

/-- The pool built by `New`: three empty sub-pools and an empty registry. -/
def State.empty : State :=
  { pools := { mem := fun _ => default, pending := NewSubPool PendingSubPool,
               baseFee := NewSubPool BaseFeeSubPool, queued := NewSubPool QueuedSubPool }
    next := 1
    reg := { byHash := [], byNonce := [], deletedTxs := [], localsHistory := [] } }

/-! ## Invariants of a sub-pool -/

/-- The back-index a queue of the given kind maintains. -/
def idx : Kind → metaTx → Int
  | .best, mt => mt.bestIndex
  | .worst, mt => mt.worstIndex

/-- Every member's back-index is its position in the queue. -/
def IdxOK (k : Kind) (m : Mem) (q : List Ptr) : Prop :=
  ∀ i, i < q.length → idx k (m (elemAt q i)) = (i : Int)

/-- The record `a` may stand above `b` in a queue of the given kind: `a` is not
less than `b` in the best queue, `b` is not less than `a` in the worst queue. -/
def above : Kind → metaTx → metaTx → Bool
  | .best, a, b => !a.Less b
  | .worst, a, b => !b.Less a

/-- The heap order of Go's `container/heap`: every element's parent may stand
above it. -/
def HeapOrdered (k : Kind) (m : Mem) (q : List Ptr) : Prop :=
  ∀ j, j < q.length → above k (m (elemAt q ((j - 1) / 2))) (m (elemAt q j)) = true

/-- The structural invariant of a sub-pool: both queues hold the same elements
and every member's back-indices are its positions. -/
def SubPool.Struct (m : Mem) (p : SubPool) : Prop :=
  IdxOK .best m p.best ∧ IdxOK .worst m p.worst ∧
    (∀ x ∈ p.best, x ∈ p.worst) ∧ (∀ x ∈ p.worst, x ∈ p.best)

/-- A sub-pool with valid heaps: the structural invariant and the heap order of
both queues (the state `EnforceInvariants` establishes). -/
def SubPool.Valid (m : Mem) (p : SubPool) : Prop :=
  p.Struct m ∧ HeapOrdered .best m p.best ∧ HeapOrdered .worst m p.worst

/-- Two slices share no address. -/
def Disj (a b : List Ptr) : Prop := ∀ x ∈ a, x ∉ b

/-- No record is a member of two sub-pools. -/
def Pools.Disjoint (s : Pools) : Prop :=
  Disj s.pending.best s.baseFee.best ∧ Disj s.pending.best s.queued.best ∧
    Disj s.baseFee.best s.queued.best

/-- The three sub-pools have valid heaps and share no element. -/
def Pools.Valid (s : Pools) : Prop :=
  s.pending.Valid s.mem ∧ s.baseFee.Valid s.mem ∧ s.queued.Valid s.mem ∧ s.Disjoint

instance (k : Kind) (m : Mem) (q : List Ptr) : Decidable (IdxOK k m q) := by
  unfold IdxOK; infer_instance

instance (k : Kind) (m : Mem) (q : List Ptr) : Decidable (HeapOrdered k m q) := by
  unfold HeapOrdered; infer_instance

instance (m : Mem) (p : SubPool) : Decidable (p.Struct m) := by
  unfold SubPool.Struct; infer_instance

instance (m : Mem) (p : SubPool) : Decidable (p.Valid m) := by
  unfold SubPool.Valid; infer_instance

instance (a b : List Ptr) : Decidable (Disj a b) := by
  unfold Disj; infer_instance

instance (s : Pools) : Decidable s.Disjoint := by
  unfold Pools.Disjoint; infer_instance

instance (s : Pools) : Decidable s.Valid := by
  unfold Pools.Valid; infer_instance

/-! ## Views used to reason about the queues -/

/-- A queue seen as a bare slice, compared by a fixed relation on addresses:
the interface a `BestQueue` or `WorstQueue` presents once the keys in memory
are held fixed. -/
def PureQ (lt : Ptr → Ptr → Bool) : heap.Interface (List Ptr) where
  Len q := q.length
  Less q i j := lt (elemAt q i) (elemAt q j)
  Swap q i j := swapSlice q i j
  Push q x := q ++ [x]
  Pop q := (q.take (q.length - 1), elemAt q (q.length - 1))

/-- The comparison `Less` of a queue of the given kind, on records. -/
def qless : Kind → metaTx → metaTx → Bool
  | .best, a, b => !a.Less b
  | .worst, a, b => a.Less b

/-- The comparison of a queue of the given kind, on addresses. -/
def ltOf (k : Kind) (m : Mem) (a b : Ptr) : Bool := qless k (m a) (m b)

/-- Writes the back-index a queue of the given kind maintains. -/
def setIdx : Kind → metaTx → Int → metaTx
  | .best, mt, v => { mt with bestIndex := v }
  | .worst, mt, v => { mt with worstIndex := v }

/-- The other kind of queue. -/
def Kind.other : Kind → Kind
  | .best => .worst
  | .worst => .best

/-- The fields of a record that the queues never write. -/
def core (mt : metaTx) : Nat × Nat × TxSlot := (mt.subPool, mt.effectiveTip, mt.Tx)

/-- What the operations of a queue of kind `k` over the addresses `S` may do
to the memory: they keep the scored fields and the other back-index of every
record, and leave records outside `S` alone. -/
def MemStep (k : Kind) (S : List Ptr) (m m' : Mem) : Prop :=
  ∀ p, core (m' p) = core (m p) ∧ idx k.other (m' p) = idx k.other (m p) ∧ (p ∉ S → m' p = m p)

/-- What the operations of a sub-pool over the addresses `S` may do to the
memory: they keep the scored fields of every record and leave records outside
`S` alone. -/
def Frame (S : List Ptr) (m m' : Mem) : Prop :=
  ∀ p, core (m' p) = core (m p) ∧ (p ∉ S → m' p = m p)

/-- The preorder whose heap order a queue of kind `k` maintains, on addresses. -/
def leOf (k : Kind) (m : Mem) (a b : Ptr) : Prop := above k (m a) (m b) = true

/-- Every member of the slice has a marker with the property `P`. -/
def AllMk (P : Nat → Prop) (m : Mem) (q : List Ptr) : Prop := ∀ x ∈ q, P (m x).subPool

/-- Three sub-pools with valid heaps that share no element, and a property of
the markers of the members of each. -/
structure Inv3 (m : Mem) (A B C : SubPool) (PA PB PC : Nat → Prop) : Prop where
  vA : A.Valid m
  vB : B.Valid m
  vC : C.Valid m
  dAB : Disj A.best B.best
  dAC : Disj A.best C.best
  dBC : Disj B.best C.best
  mA : AllMk PA m A.best
  mB : AllMk PB m B.best
  mC : AllMk PC m C.best

/-- The invariant `Inv3` of the three sub-pools of a state, in the order
`pending`, `baseFee`, `queued`. -/
def Pools.Inv (PP PB PQ : Nat → Prop) (s : Pools) : Prop :=
  Inv3 s.mem s.pending s.baseFee s.queued PP PB PQ

/-! ### Views used to reason about scoring -/

/-- The by-nonce index is in strictly ascending order of `sortByNonce.Less`,
as the B-tree keeps it. -/
def ByNonce.Sorted (m : Mem) (b : ByNonce) : Prop :=
  b.Pairwise (fun x y => sortByNonce.Less (m x) (m y) = true)

instance (m : Mem) (b : ByNonce) : Decidable (ByNonce.Sorted m b) := by
  unfold ByNonce.Sorted; infer_instance

/-- The resident transactions of a sender: the items of the index with its id,
in ascending order of nonce. -/
def ByNonce.residents (m : Mem) (b : ByNonce) (senderID : Nat) : List Ptr :=
  b.filter (fun x => decide ((m x).Tx.senderID = senderID))

/-- The local variables of `onSenderChange` after its callback has visited the
given records in turn. -/
def accFold (sender : senderInfo) (protocolBaseFee pendingBaseFee : Nat) (m : Mem)
    (acc : ScoreAcc) (l : List Ptr) : ScoreAcc :=
  l.foldl (fun a q => (onSenderChange.score sender protocolBaseFee pendingBaseFee a (m q)).2) acc

/-- The marker the callback of `onSenderChange` leaves on a record that meets
the protocol fee, from the marker `y` with the first bit cleared and the three
conditions it tests. -/
def mkMarker (y : Nat) (gap bal fee : Bool) : Nat :=
  let sp1 := y ||| EnoughFeeCapProtocol
  let sp2 := andNot sp1 NoNonceGaps
  let sp3 := if gap then sp2 ||| NoNonceGaps else sp2
  let sp4 := andNot sp3 EnoughBalance
  let sp5 := if bal then sp4 ||| EnoughBalance else sp4
  let sp6 := andNot sp5 EnoughFeeCapBlock
  if fee then sp6 ||| EnoughFeeCapBlock else sp6

/-- The marker has the given bit set (`marker & bit != 0`). -/
def hasBit (marker bit : Nat) : Prop := marker &&& bit ≠ 0

instance (marker bit : Nat) : Decidable (hasBit marker bit) := by
  unfold hasBit; infer_instance

/-- The fields of a transaction are within the range of their Go types. -/
def TxSlot.WF (tx : TxSlot) : Prop :=
  tx.nonce < two64 ∧ tx.gas < two64 ∧ tx.feeCap < two64 ∧ tx.tip < two64 ∧ tx.value < two256

instance (tx : TxSlot) : Decidable tx.WF := by
  unfold TxSlot.WF; infer_instance

/-- The exact cost `gas * feeCap + value` of a transaction. -/
def exactNeed (tx : TxSlot) : Nat := tx.gas * tx.feeCap + tx.value

/-- The exact cost of the resident transactions of a sender with nonce in
`(s, n]`. -/
def claimedCost (m : Mem) (b : ByNonce) (senderID s n : Nat) : Nat :=
  (((ByNonce.residents m b senderID).filter
    (fun q => decide (s < (m q).Tx.nonce ∧ (m q).Tx.nonce ≤ n))).map
      (fun q => exactNeed (m q).Tx)).sum

/-- The exact cost of the resident transactions of a sender with nonce in
`(s, n]` that meet the protocol fee. -/
def countedCost (m : Mem) (b : ByNonce) (senderID s n protocolBaseFee : Nat) : Nat :=
  (((ByNonce.residents m b senderID).filter
    (fun q => decide (protocolBaseFee ≤ (m q).Tx.feeCap ∧ s < (m q).Tx.nonce ∧
      (m q).Tx.nonce ≤ n))).map (fun q => exactNeed (m q).Tx)).sum

/-- A queue of kind `k` in state `r`, reached from the memory `m0` by queue
operations over the addresses `S`, and the bare slice `pq` that mirrors it. -/
def Tracks (k : Kind) (S : List Ptr) (m0 : Mem) (r : Heap) (pq : List Ptr) : Prop :=
  r.q = pq ∧ (∀ x ∈ pq, x ∈ S) ∧ MemStep k S m0 r.mem ∧ IdxOK k r.mem r.q

/-- The edge of the implicit binary tree into position `j` is in order: the
parent of `j` may stand above `j`. -/
def EdgeOK (le : Ptr → Ptr → Prop) (q : List Ptr) (j : Nat) : Prop :=
  le (elemAt q ((j - 1) / 2)) (elemAt q j)

/-- The heap order of a slice under a relation `le` on addresses, on the
positions below `n` whose parent is at `lo` or above. -/
def OrderedFrom (le : Ptr → Ptr → Prop) (q : List Ptr) (n lo : Nat) : Prop :=
  ∀ j, j < n → 0 < j → lo ≤ (j - 1) / 2 → EdgeOK le q j

/-- The edges that do not touch position `i` are in order. -/
def OthersOK (le : Ptr → Ptr → Prop) (q : List Ptr) (n lo i : Nat) : Prop :=
  ∀ j, j < n → 0 < j → lo ≤ (j - 1) / 2 → (j - 1) / 2 ≠ i → j ≠ i → EdgeOK le q j

/-- The edges from position `i` to its children are in order. -/
def OutOK (le : Ptr → Ptr → Prop) (q : List Ptr) (n i : Nat) : Prop :=
  ∀ c, c < n → 0 < c → (c - 1) / 2 = i → EdgeOK le q c

/-- The edge from the parent of position `i` to `i` is in order. -/
def InOK (le : Ptr → Ptr → Prop) (q : List Ptr) (lo i : Nat) : Prop :=
  0 < i → lo ≤ (i - 1) / 2 → EdgeOK le q i

/-- The parent of position `i` may stand above the children of `i`. -/
def GrandOK (le : Ptr → Ptr → Prop) (q : List Ptr) (n lo i : Nat) : Prop :=
  0 < i → lo ≤ (i - 1) / 2 → ∀ c, c < n → 0 < c → (c - 1) / 2 = i →
    le (elemAt q ((i - 1) / 2)) (elemAt q c)

/-- A relation `lt` a queue compares with, and the total preorder `le` whose
heap order it maintains. -/
structure Compat (lt : Ptr → Ptr → Bool) (le : Ptr → Ptr → Prop) : Prop where
  refl : ∀ a, le a a
  trans : ∀ a b c, le a b → le b c → le a c
  of_lt : ∀ a b, lt a b = true → le a b
  of_not_lt : ∀ a b, lt a b = false → le b a

/-! ### Views used to reason about the pool -/

/-- The structural invariant of a sub-pool, spelled out: `best` and `worst`
hold the same elements, each once; every member `x` has `best[x.bestIndex] = x`,
`worst[x.worstIndex] = x` and `x.currentSubPool` equal to the tag of the
sub-pool. -/
def SubPool.Consistent (m : Mem) (p : SubPool) : Prop :=
  p.best.Nodup ∧ p.worst.Nodup ∧ (∀ x ∈ p.best, x ∈ p.worst) ∧ (∀ x ∈ p.worst, x ∈ p.best) ∧
    ∀ x ∈ p.best,
      (0 ≤ (m x).bestIndex ∧ (m x).bestIndex.toNat < p.best.length ∧
        elemAt p.best (m x).bestIndex.toNat = x) ∧
      (0 ≤ (m x).worstIndex ∧ (m x).worstIndex.toNat < p.worst.length ∧
        elemAt p.worst (m x).worstIndex.toNat = x) ∧
      (m x).currentSubPool = p.t

instance (m : Mem) (p : SubPool) : Decidable (p.Consistent m) := by
  unfold SubPool.Consistent; infer_instance

/-- A record outside every sub-pool: tag `0` (none) and both back-indices `-1`. -/
def metaTx.Detached (mt : metaTx) : Prop :=
  mt.currentSubPool = 0 ∧ mt.bestIndex = -1 ∧ mt.worstIndex = -1

instance (mt : metaTx) : Decidable mt.Detached := by
  unfold metaTx.Detached; infer_instance

/-- The structural invariant `SubPool.Struct` together with the tags of the
members. -/
def SubPool.Tagged (m : Mem) (p : SubPool) : Prop :=
  p.Struct m ∧ ∀ x ∈ p.best, (m x).currentSubPool = p.t

instance (m : Mem) (p : SubPool) : Decidable (p.Tagged m) := by
  unfold SubPool.Tagged; infer_instance

/-- The fields of a record that scoring never writes. -/
def shape (mt : metaTx) : TxSlot × Int × Int × Nat :=
  (mt.Tx, mt.bestIndex, mt.worstIndex, mt.currentSubPool)

/-- The three sub-pools of the pool. -/
inductive Which where
  | pending
  | baseFee
  | queued
  deriving DecidableEq

/-- The tag (`SubPoolType`) of each sub-pool. -/
def Which.tag : Which → Nat
  | .pending => PendingSubPool
  | .baseFee => BaseFeeSubPool
  | .queued => QueuedSubPool

def Pools.get (s : Pools) : Which → SubPool
  | .pending => s.pending
  | .baseFee => s.baseFee
  | .queued => s.queued

/-- The state after an operation on one sub-pool: the new memory and the new
sub-pool. -/
def Pools.put (s : Pools) (w : Which) (m : Mem) (p : SubPool) : Pools :=
  match w with
  | .pending => { s with mem := m, pending := p }
  | .baseFee => { s with mem := m, baseFee := p }
  | .queued => { s with mem := m, queued := p }

/-- The statement `b.Add(a.PopWorst())` of `promote`. -/
def Pools.moveWorst (s : Pools) (a b : Which) : Pools :=
  let r := SubPool.PopWorst s.mem (s.get a)
  let u := SubPool.Add r.1.1 (s.get b) r.2
  (s.put a r.1.1 r.1.2).put b u.1 u.2

/-- The statement `b.Add(a.PopBest())` of `promote`. -/
def Pools.moveBest (s : Pools) (a b : Which) : Pools :=
  let r := SubPool.PopBest s.mem (s.get a)
  let u := SubPool.Add r.1.1 (s.get b) r.2
  (s.put a r.1.1 r.1.2).put b u.1 u.2

/-- The statement `discard(a.PopWorst())` of `promote`. -/
def Pools.dropWorst {D : Type} (discard : Mem → Ptr → D → D) (sd : Pools × D) (a : Which) :
    Pools × D :=
  let r := SubPool.PopWorst sd.1.mem (sd.1.get a)
  (sd.1.put a r.1.1 r.1.2, discard r.1.1 r.2 sd.2)

/-- One iteration of a loop of `promote`: an element of a sub-pool that is not
empty moves to another sub-pool, or is discarded. -/
inductive promote.Step {D : Type} (discard : Mem → Ptr → D → D) :
    Pools × D → Pools × D → Prop where
  | moveWorst (sd : Pools × D) (a b : Which) (hab : a ≠ b) (hl : 0 < (sd.1.get a).Len) :
    promote.Step discard sd (sd.1.moveWorst a b, sd.2)
  | moveBest (sd : Pools × D) (a b : Which) (hab : a ≠ b) (hl : 0 < (sd.1.get a).Len) :
    promote.Step discard sd (sd.1.moveBest a b, sd.2)
  | dropWorst (sd : Pools × D) (a : Which) (hl : 0 < (sd.1.get a).Len) :
    promote.Step discard sd (Pools.dropWorst discard sd a)

/-- The sub-pools against the list `R` of resident records: every sub-pool has
its tag and satisfies the structural invariant, its members are resident, and
a resident record whose `currentSubPool` names a sub-pool is a member of it. -/
def Pools.Placed (s : Pools) (R : List Ptr) : Prop :=
  (s.pending.t = PendingSubPool ∧ s.baseFee.t = BaseFeeSubPool ∧ s.queued.t = QueuedSubPool) ∧
    (s.pending.Tagged s.mem ∧ s.baseFee.Tagged s.mem ∧ s.queued.Tagged s.mem) ∧
    (∀ x ∈ s.pending.best ++ (s.baseFee.best ++ s.queued.best), x ∈ R) ∧
    (∀ x ∈ R, ((s.mem x).currentSubPool = PendingSubPool → x ∈ s.pending.best) ∧
      ((s.mem x).currentSubPool = BaseFeeSubPool → x ∈ s.baseFee.best) ∧
      ((s.mem x).currentSubPool = QueuedSubPool → x ∈ s.queued.best))

instance (s : Pools) (R : List Ptr) : Decidable (s.Placed R) := by
  unfold Pools.Placed; infer_instance

/-- The hash map and the by-nonce index hold the same records: the index is
in strictly ascending order of `(senderID, nonce)`, the map has one entry per
key, every entry of the map is keyed by the hash of its record and its record
is in the index, and every record of the index is in the map. -/
def Registry.Consistent (m : Mem) (r : Registry) : Prop :=
  ByNonce.Sorted m r.byNonce ∧ (r.byHash.map Prod.fst).Nodup ∧
    (∀ e ∈ r.byHash, (m e.2).Tx.idHash = e.1 ∧ e.2 ∈ r.byNonce) ∧
    (∀ p ∈ r.byNonce, ((m p).Tx.idHash, p) ∈ r.byHash)

instance (m : Mem) (r : Registry) : Decidable (r.Consistent m) := by
  unfold Registry.Consistent; infer_instance

/-- The representation invariant of the pool: the hash map and the by-nonce
index hold the same records, the sub-pools are placed against them, and the
addresses in use are below the next free one. -/
def State.Inv (st : State) : Prop :=
  st.reg.Consistent st.pools.mem ∧ st.pools.Placed st.reg.byNonce ∧
    ∀ p ∈ st.reg.byNonce, p < st.next

instance (st : State) : Decidable st.Inv := by
  unfold State.Inv; infer_instance

/-! ## Concrete states -/

/-- A callback `discard` that logs the discarded addresses. -/
def logDiscard (_ : Mem) (p : Ptr) (d : List Ptr) : List Ptr := d ++ [p]

/-- A memory with records `0, 1, ...` of the given markers, effective tip `0`,
each of a sender of its own. -/
def memOfMarkers (l : List Nat) : Mem := fun p =>
  { subPool := l.getD p 0, effectiveTip := 0,
    Tx := { idHash := p, senderID := p + 1, nonce := 0, gas := 0, feeCap := 0, tip := 0,
            value := 0 },
    bestIndex := -1, worstIndex := -1, currentSubPool := 0 }

/-- Eight records of mixed markers, all appended to `pending` by `UnsafeAdd`,
after `EnforceInvariants`. -/
def mixedPools : Pools :=
  let m := memOfMarkers [31, 30, 29, 28, 16, 15, 0, 31]
  let a := [0, 1, 2, 3, 4, 5, 6, 7].foldl
    (fun (mp : Mem × SubPool) x => SubPool.UnsafeAdd mp.1 mp.2 x) (m, NewSubPool PendingSubPool)
  let e := SubPool.EnforceInvariants a.1 a.2
  { mem := e.1, pending := e.2, baseFee := NewSubPool BaseFeeSubPool,
    queued := NewSubPool QueuedSubPool }

/-- A memory whose record at every address `p` has the given marker, equal
priority, and back-indices `p`. -/
def uniformMem (marker tag : Nat) : Mem := fun p =>
  { subPool := marker, effectiveTip := 0,
    Tx := { idHash := p, senderID := p + 1, nonce := 0, gas := 0, feeCap := 0, tip := 0,
            value := 0 },
    bestIndex := (p : Int), worstIndex := (p : Int), currentSubPool := tag }

/-- A pool whose `pending` holds `PendingSubPoolLimit + 1` local transactions
with all five bits set. -/
def pendingFull : Pools :=
  { mem := uniformMem 0b11111 PendingSubPool,
    pending := ⟨PendingSubPool, List.range (PendingSubPoolLimit + 1),
      List.range (PendingSubPoolLimit + 1)⟩,
    baseFee := NewSubPool BaseFeeSubPool, queued := NewSubPool QueuedSubPool }

/-- A memory for `baseFeeFull`: marker `0b11100` everywhere, back-indices `p`
below the limit and `0` at the limit. -/
def baseFeeFullMem : Mem := fun p =>
  { subPool := 0b11100, effectiveTip := 0,
    Tx := { idHash := p, senderID := p + 1, nonce := 0, gas := 0, feeCap := 0, tip := 0,
            value := 0 },
    bestIndex := if p < BaseFeeSubPoolLimit then (p : Int) else 0,
    worstIndex := if p < BaseFeeSubPoolLimit then (p : Int) else 0,
    currentSubPool := if p < BaseFeeSubPoolLimit then BaseFeeSubPool else QueuedSubPool }

/-- A pool whose `baseFee` holds `BaseFeeSubPoolLimit` transactions of marker
`0b11100` and whose `queued` holds one more transaction of that marker. -/
def baseFeeFull : Pools :=
  { mem := baseFeeFullMem,
    pending := NewSubPool PendingSubPool,
    baseFee := ⟨BaseFeeSubPool, List.range BaseFeeSubPoolLimit, List.range BaseFeeSubPoolLimit⟩,
    queued := ⟨QueuedSubPool, [BaseFeeSubPoolLimit], [BaseFeeSubPoolLimit]⟩ }

/-- The sender of the scenarios: state nonce `0`, balance `10^18`. -/
def scenarioSender : senderInfo := { balance := 10 ^ 18, nonce := 0 }

/-- A sender with state nonce `0` and balance `2200000`. -/
def tightSender : senderInfo := { balance := 2200000, nonce := 0 }

/-- Three resident transactions of sender `1`, at addresses `1`, `2`, `3`, with
nonces `1`, `2`, `4`; the first one is local. -/
def scoreMem : Mem := fun p =>
  if p = 1 then newMetaTx ⟨101, 1, 1, 21000, 100, 10, 0⟩ true
  else if p = 2 then newMetaTx ⟨102, 1, 2, 21000, 90, 5, 0⟩ false
  else if p = 3 then newMetaTx ⟨103, 1, 4, 21000, 120, 20, 0⟩ false
  else default

/-- The index over the records of `scoreMem`. -/
def scoreIndex : ByNonce := [1, 2, 3]

/-- Two resident transactions of sender `1`, at addresses `1` and `2`, with
nonces `1` and `2`; the fee cap of the first one is `10`, of the second `100`. -/
def lowFeeMem : Mem := fun p =>
  if p = 1 then newMetaTx ⟨201, 1, 1, 21000, 10, 1, 0⟩ false
  else if p = 2 then newMetaTx ⟨202, 1, 2, 21000, 100, 10, 0⟩ false
  else default

/-- The index over the records of `lowFeeMem`. -/
def lowFeeIndex : ByNonce := [1, 2]

/-- The transaction of scenario 1: nonce `0`, fee cap `100`, tip `10`, gas
`21000`, value `0`, of sender `1`. -/
def scenarioTx : TxSlot :=
  { idHash := 7001, senderID := 1, nonce := 0, gas := 21000, feeCap := 100, tip := 10,
    value := 0 }

/-- The sender cache of scenario 1: sender `1` is loaded. -/
def scenarioSenders : SendersCache :=
  { senderInfo := fun id => if id = 1 then some scenarioSender else none }

/-- A key-value transaction over empty tables. -/
def emptyKv : kvTx := { GetOne := fun _ _ => some [] }

/-- Scenario 1: `onNewTxs` on the empty pool with the single local transaction,
`protocolBaseFee = 50`, `pendingBaseFee = 70`, `discard = discardLocked`. -/
def scenario1 : State × Option Err :=
  onNewTxs emptyKv scenarioSenders [(scenarioTx, true)] 50 70 discardLocked State.empty

/-- A local transaction of sender `1` with nonce `1`, fee cap `100`, tip `10`. -/
def blockTxA : TxSlot :=
  { idHash := 7001, senderID := 1, nonce := 1, gas := 21000, feeCap := 100, tip := 10,
    value := 0 }

/-- A transaction of sender `1` with nonce `3`, fee cap `100`, tip `10`. -/
def blockTxB : TxSlot :=
  { idHash := 7002, senderID := 1, nonce := 3, gas := 21000, feeCap := 100, tip := 10,
    value := 0 }

/-- A transaction of sender `1` with nonce `2` that never entered the pool. -/
def blockTxM : TxSlot :=
  { idHash := 7003, senderID := 1, nonce := 2, gas := 21000, feeCap := 100, tip := 10,
    value := 0 }

/-- A transaction with the `(senderID, nonce)` of `blockTxA`, another hash
and a larger tip. -/
def blockTxRaise : TxSlot := { blockTxA with idHash := 7009, tip := 11 }

/-- A transaction with the `(senderID, nonce)` and tip of `blockTxA` and another
hash. -/
def blockTxSame : TxSlot := { blockTxA with idHash := 7010 }

/-- The pool after `onNewTxs` took `blockTxA` (local) and `blockTxB` (remote)
with `protocolBaseFee = 50` and `pendingBaseFee = 70`, the sender having state
nonce `0` and balance `10^18`. -/
def afterIntake : State × Option Err :=
  onNewTxs emptyKv scenarioSenders [(blockTxA, true), (blockTxB, false)] 50 70 discardLocked
    State.empty

/-- The sender of the scenarios once `blockTxA` and `blockTxM` are mined: state
nonce `2`. -/
def minedSender : senderInfo := { balance := 10 ^ 18, nonce := 2 }

/-- The sender cache once `blockTxA` and `blockTxM` are mined. -/
def minedSenders : SendersCache :=
  { senderInfo := fun id => if id = 1 then some minedSender else none }

/-- The pool after a block that mines `blockTxA` and `blockTxM`, the base fees
staying at `50` and `70`. -/
def afterMined : State × Option Err :=
  onNewBlock emptyKv minedSenders [] [blockTxA, blockTxM] 50 70 discardLocked afterIntake.1

/-- The pool after the next block unwinds `blockTxA`, the unwound batch
carrying `isLocal = false`. -/
def afterUnwind : State × Option Err :=
  onNewBlock emptyKv scenarioSenders [(blockTxA, false)] [] 50 70 discardLocked afterMined.1

/-- A local record of sender `1` with nonce `1` and fee cap `10`. -/
def localLowFeeMem : Mem := fun p =>
  if p = 1 then newMetaTx ⟨301, 1, 1, 21000, 10, 1, 0⟩ true else default

/-! ### Effects of the operations of a sub-pool -/

/-- The effect of taking the member `x` out of the sub-pool `p`: the sub-pool
keeps its tag and the structural invariant, loses exactly `x`, the memory
changes at members of `p` only and in no scored field, `x` ends detached and no
other tag changes. -/
def SubPool.Removed (m : Mem) (p : SubPool) (x : Ptr) (m' : Mem) (p' : SubPool) : Prop :=
  p'.t = p.t ∧ p'.Tagged m' ∧ (x :: p'.best).Perm p.best ∧ Frame p.best m m' ∧
    (m' x).Detached ∧ ∀ q, q ≠ x → (m' q).currentSubPool = (m q).currentSubPool

/-- The effect of putting the record `x` into the sub-pool `p`: the sub-pool
keeps its tag and the structural invariant, gains exactly `x`, the memory
changes at `x` and at members of `p` only and in no scored field, and no tag
other than that of `x` changes. -/
def SubPool.Added (m : Mem) (p : SubPool) (x : Ptr) (m' : Mem) (p' : SubPool) : Prop :=
  p'.t = p.t ∧ p'.Tagged m' ∧ p'.best.Perm (x :: p.best) ∧ Frame (x :: p.best) m m' ∧
    ∀ q, q ≠ x → (m' q).currentSubPool = (m q).currentSubPool

/-- A record is in no sub-pool. -/
def Pools.Out (s : Pools) (x : Ptr) : Prop :=
  x ∉ s.pending.best ∧ x ∉ s.baseFee.best ∧ x ∉ s.queued.best

instance (s : Pools) (x : Ptr) : Decidable (s.Out x) := by
  unfold Pools.Out; infer_instance

/-- The highest nonce among the mined transactions of a sender, if it has any. -/
def minedBound (minedTxs : List TxSlot) (senderID : Nat) : Option Nat :=
  (minedTxs.filter (fun t => t.senderID == senderID)).foldl
    (fun o t => match o with
      | none => some t.nonce
      | some n => some (max n t.nonce)) none

/-- The record at `p` is covered by the mined batch: its sender has a mined
transaction and its nonce is at most the highest mined nonce of that sender. -/
def minedOut (m : Mem) (minedTxs : List TxSlot) (p : Ptr) : Bool :=
  match minedBound minedTxs (m p).Tx.senderID with
  | some n => decide ((m p).Tx.nonce ≤ n)
  | none => false

/-! ## The sender cache: ids and records -/

instance {ε α : Type} [DecidableEq ε] [DecidableEq α] : DecidableEq (Except ε α)
  | .ok a, .ok b => if h : a = b then isTrue (by rw [h]) else isFalse (fun e => h (Except.ok.inj e))
  | .error a, .error b =>
    if h : a = b then isTrue (by rw [h]) else isFalse (fun e => h (Except.error.inj e))
  | .ok _, .error _ => isFalse (fun e => by cases e)
  | .error _, .ok _ => isFalse (fun e => by cases e)

/-- A loop over a list whose body may fail: the state the loop leaves (the
changes made before a failure stay) and the error, if any, that ended it. -/
def forErr {σ α : Type} (f : σ → α → σ × Option Err) : σ → List α → σ × Option Err
  | s, [] => (s, none)
  | s, a :: rest =>
    match f s a with
    | (s1, some e) => (s1, some e)
    | (s1, none) => forErr f s1 rest

/-- The method `SendersCache.id`: the id of an address from the in-memory map,
else from the table `PooledSenderID` (no bytes stored: no id); a read error is
returned, and a stored value of fewer than 8 bytes panics. -/
def SendersCache.id (sc : SendersCache) (addr : List Nat) (tx : kvTx) :
    Except Err (Option Nat) :=
  match sc.senderIDs addr with
  | some id => .ok (some id)
  | none =>
    match tx.GetOne "PooledSenderID" addr with
    | none => .error .backend
    | some v =>
      if v.length = 0 then .ok none
      else if v.length < 8 then .error .panic
      else .ok (some (getUint64 v))

/-- The statements `sc.senderID++; sc.senderIDs[addr] = sc.senderID`, the
counter being a `uint64`. -/
def SendersCache.alloc (sc : SendersCache) (addr : List Nat) : SendersCache :=
  { sc with senderID := (sc.senderID + 1) % two64,
            senderIDs := Function.update sc.senderIDs addr (some ((sc.senderID + 1) % two64)) }

/-- The loop body of `ensureSenderIDOnNewTxs` for the sender of one
transaction. -/
def SendersCache.ensureSenderIDOnNewTxs.step (tx : kvTx) (sc : SendersCache)
    (addr : List Nat) : SendersCache × Option Err :=
  match sc.id addr tx with
  | .error e => (sc, some e)
  | .ok (some _) => (sc, none)
  | .ok none => (sc.alloc addr, none)

/-- The method `SendersCache.ensureSenderIDOnNewTxs` on the sender addresses of
the batch, in order. -/
def SendersCache.ensureSenderIDOnNewTxs (sc : SendersCache) (tx : kvTx)
    (senders : List (List Nat)) : SendersCache × Option Err :=
  forErr (SendersCache.ensureSenderIDOnNewTxs.step tx) sc senders

/-- The method `SendersCache.info` with `expectMiss = true`: the in-memory
record, else the record decoded from the table `PooledSender`, else nothing; a
stored value of fewer than 8 bytes panics (`v[8:]`). -/
def SendersCache.infoExpectMiss (sc : SendersCache) (id : Nat) (tx : kvTx) :
    Except Err (Option TxPool.senderInfo) :=
  match sc.senderInfo id with
  | some info => .ok (some info)
  | none =>
    match tx.GetOne "PooledSender" (putUint64 id) with
    | none => .error .backend
    | some v =>
      if v.length = 0 then .ok none
      else if v.length < 8 then .error .panic
      else .ok (some { nonce := getUint64 v, balance := beToNat (v.drop 8) % two256 })

/-- The first loop of `mergeStateChangesLocked`, for one entry of
`stateChanges`. -/
def SendersCache.mergeStateChangesLocked.change (tx : kvTx) (sc : SendersCache)
    (e : List Nat × TxPool.senderInfo) : SendersCache × Option Err :=
  match sc.id e.1 tx with
  | .error err => (sc, some err)
  | .ok (some id) => ({ sc with senderInfo := Function.update sc.senderInfo id (some e.2) }, none)
  | .ok none =>
    ({ sc.alloc e.1 with
        senderInfo := Function.update sc.senderInfo ((sc.senderID + 1) % two64) (some e.2) }, none)

/-- The second and third loop of `mergeStateChangesLocked`, for the sender of
one unwound or mined transaction. -/
def SendersCache.mergeStateChangesLocked.sender (tx : kvTx)
    (stateChanges : List (List Nat × TxPool.senderInfo)) (sc : SendersCache) (addr : List Nat) :
    SendersCache × Option Err :=
  match sc.id addr tx with
  | .error err => (sc, some err)
  | .ok r =>
    let sc1 := match r with
      | some _ => sc
      | none => sc.alloc addr
    let id := match r with
      | some id => id
      | none => sc1.senderID
    if (sc1.senderInfo id).isSome then (sc1, none)
    else if stateChanges.any (fun e => e.1 == addr) then (sc1, none)
    else ({ sc1 with senderInfo :=
              Function.update sc1.senderInfo id (some { nonce := 0, balance := 0 }) }, none)

/-- The method `SendersCache.mergeStateChangesLocked`.  The map `stateChanges`
is the list of its entries in the order `range` visits them; the unwound and the
mined transactions are given by their sender addresses. -/
def SendersCache.mergeStateChangesLocked (sc : SendersCache) (tx : kvTx)
    (stateChanges : List (List Nat × TxPool.senderInfo)) (unwindedTxs minedTxs : List (List Nat)) :
    SendersCache × Option Err :=
  match forErr (SendersCache.mergeStateChangesLocked.change tx) sc stateChanges with
  | (sc1, some e) => (sc1, some e)
  | (sc1, none) =>
    match forErr (SendersCache.mergeStateChangesLocked.sender tx stateChanges) sc1
        unwindedTxs with
    | (sc2, some e) => (sc2, some e)
    | (sc2, none) =>
      forErr (SendersCache.mergeStateChangesLocked.sender tx stateChanges) sc2 minedTxs

/-- The loop body of `setTxSenderID`: the transaction with its sender id
assigned and the map `toLoad` (entries in order of insertion). -/
def SendersCache.setTxSenderID.step (sc : SendersCache) (tx : kvTx)
    (acc : List (List Nat × TxSlot) × List (Nat × List Nat)) (e : List Nat × TxSlot) :
    (List (List Nat × TxSlot) × List (Nat × List Nat)) × Option Err :=
  match sc.id e.1 tx with
  | .error err => ((acc.1 ++ [e], acc.2), some err)
  | .ok none => ((acc.1 ++ [e], acc.2), some .panic)
  | .ok (some id) =>
    let e1 : List Nat × TxSlot := (e.1, { e.2 with senderID := id })
    match sc.infoExpectMiss id tx with
    | .error err => ((acc.1 ++ [e1], acc.2), some err)
    | .ok (some _) => ((acc.1 ++ [e1], acc.2), none)
    | .ok none =>
      if acc.2.any (fun l => l.1 == id) then ((acc.1 ++ [e1], acc.2), none)
      else ((acc.1 ++ [e1], acc.2 ++ [(id, e.1)]), none)

/-- The method `SendersCache.setTxSenderID` on a batch given as pairs of sender
address and transaction: the transactions it has visited, with their sender ids,
the map `toLoad`, and the error that ended it. -/
def SendersCache.setTxSenderID (sc : SendersCache) (tx : kvTx) (txs : List (List Nat × TxSlot)) :
    (List (List Nat × TxSlot) × List (Nat × List Nat)) × Option Err :=
  forErr (SendersCache.setTxSenderID.step sc tx) ([], []) txs

/-- The result of `SendersCache.onNewBlock`: the cache and the two batches as
the call leaves them. -/
structure BlockSenders where
  sc : SendersCache
  unwindTxs : List (List Nat × TxSlot)
  minedTxs : List (List Nat × TxSlot)

/-- The method `SendersCache.onNewBlock`. -/
def SendersCache.onNewBlock (sc : SendersCache) (tx : kvTx)
    (stateChanges : List (List Nat × TxPool.senderInfo))
    (unwindTxs minedTxs : List (List Nat × TxSlot)) (blockHeight : Nat) (blockHash : List Nat) :
    BlockSenders × Option Err :=
  let sc0 : SendersCache := { sc with blockHeight := blockHeight, blockHash := blockHash }
  match sc0.mergeStateChangesLocked tx stateChanges (unwindTxs.map Prod.fst)
      (minedTxs.map Prod.fst) with
  | (sc1, some e) => (⟨sc1, unwindTxs, minedTxs⟩, some e)
  | (sc1, none) =>
    match sc1.setTxSenderID tx unwindTxs with
    | (u, some e) => (⟨sc1, u.1 ++ unwindTxs.drop u.1.length, minedTxs⟩, some e)
    | (u, none) =>
      match sc1.setTxSenderID tx minedTxs with
      | (m, some e) => (⟨sc1, u.1, m.1 ++ minedTxs.drop m.1.length⟩, some e)
      | (m, none) => (⟨sc1, u.1, m.1⟩, none)

/-- The method `SendersCache.onNewTxs`: sender ids are ensured and assigned;
the cache, the batch and the cache misses as the call leaves them. -/
def SendersCache.onNewTxs (sc : SendersCache) (tx : kvTx) (newTxs : List (List Nat × TxSlot)) :
    (SendersCache × List (List Nat × TxSlot)) × Except Err (List (Nat × List Nat)) :=
  match sc.ensureSenderIDOnNewTxs tx (newTxs.map Prod.fst) with
  | (sc1, some e) => ((sc1, newTxs), .error e)
  | (sc1, none) =>
    match sc1.setTxSenderID tx newTxs with
    | (r, some e) => ((sc1, r.1 ++ newTxs.drop r.1.length), .error e)
    | (r, none) => ((sc1, r.1), .ok r.2)

/-- The function `loadSender`.  The function `DecodeSender` is not among the
sources: `decode` stands for it, yielding nonce and balance or failing. -/
def loadSender (decode : List Nat → Option (Nat × Nat)) (coreTx : kvTx) (addr : List Nat) :
    Except Err TxPool.senderInfo :=
  match coreTx.GetOne "PlainState" addr with
  | none => .error .backend
  | some encoded =>
    if encoded.length = 0 then .ok { nonce := 0, balance := 0 }
    else
      match decode encoded with
      | none => .error .decode
      | some nb => .ok { nonce := nb.1, balance := nb.2 }

/-- The first loop of `loadFromCore`: the map `diff`, or the first error. -/
def SendersCache.loadFromCore.read (decode : List Nat → Option (Nat × Nat)) (coreTx : kvTx) :
    List (Nat × List Nat) → Except Err (List (Nat × TxPool.senderInfo))
  | [] => .ok []
  | e :: rest =>
    match loadSender decode coreTx e.2 with
    | .error err => .error err
    | .ok info =>
      match SendersCache.loadFromCore.read decode coreTx rest with
      | .error err => .error err
      | .ok d => .ok ((e.1, info) :: d)

/-- The method `SendersCache.loadFromCore`; the map `toLoad` is the list of its
entries in the order `range` visits them. -/
def SendersCache.loadFromCore (decode : List Nat → Option (Nat × Nat)) (sc : SendersCache)
    (coreTx : kvTx) (toLoad : List (Nat × List Nat)) : SendersCache × Option Err :=
  match SendersCache.loadFromCore.read decode coreTx toLoad with
  | .error e => (sc, some e)
  | .ok diff =>
    ({ sc with senderInfo :=
         diff.foldl (fun m e => Function.update m e.1 (some e.2)) sc.senderInfo }, none)

/-! ## The stored form of a sender record -/

/-- The big-endian bytes of a number without leading zeros, at most `fuel` of
them. -/
def beBytes : Nat → Nat → List Nat
  | 0, _ => []
  | fuel + 1, x => if x = 0 then [] else beBytes fuel (x / 256) ++ [x % 256]

/-- The method `uint256.Int.Bytes`: the big-endian bytes of the value, without
leading zeros. -/
def uint256Bytes (x : Nat) : List Nat := beBytes 32 (x % two256)

/-- The value `SendersCache.flush` stores in the table `PooledSender` for a
sender record: `PutUint64(v, info.nonce)` followed by `info.balance.Bytes()`. -/
def encodeSender (info : TxPool.senderInfo) : List Nat :=
  putUint64 info.nonce ++ uint256Bytes info.balance

/-! ## The key-value store -/

/-- Modelled from the spec: the operations of the key-value store (an external
collaborator, "a transactional map with prefix scans") that can fail. -/
inductive Op where
  | get (bucket : String) (key : List Nat)
  | put (bucket : String) (key : List Nat)
  | delete (bucket : String) (key : List Nat)
  | append (bucket : String) (key : List Nat)
  | clear (bucket : String)
  | cursor (bucket : String)
  deriving DecidableEq

/-- Modelled from the spec: a write transaction `kv.RwTx` of the key-value
store: the pairs of every bucket in ascending order of their keys, and the
operations that fail in this transaction. -/
structure Db where
  data : String → List (List Nat × List Nat)
  fails : Op → Bool

/-- The order of keys: byte strings, compared byte by byte. -/
def bytesLt : List Nat → List Nat → Bool
  | [], [] => false
  | [], _ :: _ => true
  | _ :: _, [] => false
  | a :: as, b :: bs => decide (a < b) || (a == b && bytesLt as bs)

/-- The value stored under a key among the pairs of a bucket; no bytes when
the key is absent. -/
def Db.find (l : List (List Nat × List Nat)) (key : List Nat) : List Nat :=
  match l.find? (fun e => e.1 == key) with
  | some e => e.2
  | none => []

/-- Modelled from the spec: `tx.GetOne(bucket, key)`. -/
def Db.GetOne (db : Db) (bucket : String) (key : List Nat) : Except Err (List Nat) :=
  if db.fails (.get bucket key) then .error .backend else .ok (Db.find (db.data bucket) key)

/-- The write transaction as the read interface `kv.Tx`. -/
def Db.tx (db : Db) : kvTx :=
  { GetOne := fun bucket key =>
      if db.fails (.get bucket key) then none else some (Db.find (db.data bucket) key) }

/-- The pairs of a bucket with one bucket replaced. -/
def Db.set (db : Db) (bucket : String) (l : List (List Nat × List Nat)) : Db :=
  { db with data := fun b => if b = bucket then l else db.data b }

/-- Modelled from the spec: `tx.Put(bucket, key, value)`: the pair takes its
place in the order of keys, replacing a pair with the same key. -/
def Db.Put (db : Db) (bucket : String) (key value : List Nat) : Except Err Db :=
  if db.fails (.put bucket key) then .error .backend
  else .ok (db.set bucket
    ((db.data bucket).filter (fun e => bytesLt e.1 key) ++
      (key, value) :: (db.data bucket).filter (fun e => bytesLt key e.1)))

/-- Modelled from the spec: `tx.Delete(bucket, key, nil)`. -/
def Db.Delete (db : Db) (bucket : String) (key : List Nat) : Except Err Db :=
  if db.fails (.delete bucket key) then .error .backend
  else .ok (db.set bucket ((db.data bucket).filter (fun e => !(e.1 == key))))

/-- Modelled from the spec: `tx.ClearBucket(bucket)`. -/
def Db.ClearBucket (db : Db) (bucket : String) : Except Err Db :=
  if db.fails (.clear bucket) then .error .backend else .ok (db.set bucket [])

/-- Modelled from the spec: `tx.Append(bucket, key, value)`: the pair is put at
the end of the bucket; a key that is not above the last key of the bucket is
refused. -/
def Db.Append (db : Db) (bucket : String) (key value : List Nat) : Except Err Db :=
  if db.fails (.append bucket key) then .error .backend
  else
    match (db.data bucket).getLast? with
    | none => .ok (db.set bucket [(key, value)])
    | some e =>
      if bytesLt e.1 key then .ok (db.set bucket (db.data bucket ++ [(key, value)]))
      else .error .backend

/-- The bytes of a key of the bucket `PoolInfo` given as a string. -/
def infoKey (name : String) : List Nat := name.toList.map Char.toNat

/-- The 32 bytes of an identity hash (`idHash[:]`). -/
def hashBytes (h : Nat) : List Nat := (List.range 32).map (fun i => (h / 256 ^ (31 - i)) % 256)

/-- The statements `hashID := [32]byte{}; copy(hashID[:], k)`, the array as a
number. -/
def hashOfBytes (k : List Nat) : Nat := beToNat (k.take 32 ++ List.replicate (32 - k.length) 0)

/-! ## Flushing to the store -/

/-- The in-memory state of the pool that `flushLocked` and `fromDB` work on:
the state of the intake functions, the field `rlp` of the transaction of every
record (`none`: `nil`), the two base fees and the sender cache. -/
structure PoolMem where
  st : State
  rlp : Ptr → Option (List Nat)
  fees : BaseFees
  sc : SendersCache

/-- The first loop of `flushLocked`, for one entry of the deletion queue: the
senders without transactions collected so far, the store, and the number of
entries of the queue already set to `nil`. -/
def flushLocked.deleted (m : Mem) (byNonce : ByNonce) (acc : List Nat × Db × Nat) (p : Ptr) :
    (List Nat × Db × Nat) × Option Err :=
  let without :=
    if ByNonce.count m byNonce (m p).Tx.senderID = 0 then acc.1 ++ [(m p).Tx.senderID]
    else acc.1
  match acc.2.1.Delete "PooledTransaction" (hashBytes (m p).Tx.idHash) with
  | .error e => ((without, acc.2.1, acc.2.2), some e)
  | .ok db => ((without, db, acc.2.2 + 1), none)

/-- The loop of `flushLocked` over the hash map, for one entry: a transaction
that still holds its bytes is stored under its hash as sender id, eight zero
bytes and the bytes, and then drops them. -/
def flushLocked.store (m : Mem) (acc : (Ptr → Option (List Nat)) × Db) (e : Nat × Ptr) :
    ((Ptr → Option (List Nat)) × Db) × Option Err :=
  match acc.1 e.2 with
  | none => (acc, none)
  | some rlp =>
    match acc.2.Put "PooledTransaction" (hashBytes e.1)
        (putUint64 (m e.2).Tx.senderID ++ putUint64 0 ++ rlp) with
    | .error err => (acc, some err)
    | .ok db => ((Function.update acc.1 e.2 none, db), none)

/-- The inner loop of the eviction in `SendersCache.flush`, over the sender ids
of one stored list; `encID` is the buffer as the first loop of `flush` left
it. -/
def SendersCache.flush.evict (sc : SendersCache) (count : Nat → Nat) (encID : List Nat) :
    Nat → List Nat → Db × Nat → (Db × Nat) × Option Err
  | 0, _, acc => (acc, none)
  | fuel + 1, v, acc =>
    if v.length = 0 then (acc, none)
    else if v.length < 8 then (acc, some .panic)
    else
      let senderID := getUint64 v
      if (sc.senderInfo senderID).isSome then SendersCache.flush.evict sc count encID fuel (v.drop 8) acc
      else if 0 < count senderID then SendersCache.flush.evict sc count encID fuel (v.drop 8) acc
      else
        match acc.1.GetOne "PooledSenderID" encID with
        | .error e => (acc, some e)
        | .ok addr =>
          if (sc.senderIDs addr).isSome then
            SendersCache.flush.evict sc count encID fuel (v.drop 8) acc
          else
            match acc.1.Delete "PooledSenderID" addr with
            | .error e => (acc, some e)
            | .ok db1 =>
              match db1.Delete "PooledSenderIDToAdress" encID with
              | .error e => ((db1, acc.2), some e)
              | .ok db2 =>
                match db2.Delete "PooledSender" encID with
                | .error e => ((db2, acc.2), some e)
                | .ok db3 =>
                  SendersCache.flush.evict sc count encID fuel (v.drop 8) (db3, acc.2 + 1)

/-- The cursor loop of `SendersCache.flush` over the pairs of the bucket
`PoolStateEviction`: it ends at the first list that is younger than
`evictAfterRounds` commits; a key of fewer than 8 bytes panics. -/
def SendersCache.flush.cursor (sc : SendersCache) (count : Nat → Nat) (encID : List Nat)
    (evictAfterRounds : Nat) :
    List (List Nat × List Nat) → Db × Nat → (Db × Nat) × Option Err
  | [], acc => (acc, none)
  | e :: rest, acc =>
    if acc.1.fails (.get "PoolStateEviction" e.1) then (acc, some .backend)
    else if e.1.length < 8 then (acc, some .panic)
    else if (sc.commitID + two64 - getUint64 e.1) % two64 < evictAfterRounds then (acc, none)
    else
      match SendersCache.flush.evict sc count encID (e.2.length + 1) e.2 acc with
      | (acc1, some err) => (acc1, some err)
      | (acc1, none) =>
        match acc1.1.Delete "PoolStateEviction" e.1 with
        | .error err => (acc1, some err)
        | .ok db => SendersCache.flush.cursor sc count encID evictAfterRounds rest (db, acc1.2)

/-- The loop of `SendersCache.flush` over the map `senderIDs`, for one
address. -/
def SendersCache.flush.putID (sc : SendersCache) (db : Db) (addr : List Nat) : Db × Option Err :=
  match sc.senderIDs addr with
  | none => (db, none)
  | some id =>
    match db.GetOne "PooledSenderID" addr with
    | .error e => (db, some e)
    | .ok currentV =>
      if currentV = putUint64 id then (db, none)
      else
        match db.Put "PooledSenderID" addr (putUint64 id) with
        | .error e => (db, some e)
        | .ok db1 =>
          match db1.Put "PooledSenderIDToAdress" (putUint64 id) addr with
          | .error e => (db1, some e)
          | .ok db2 => (db2, none)

/-- The loop of `SendersCache.flush` over the map `senderInfo`, for one id. -/
def SendersCache.flush.putInfo (sc : SendersCache) (db : Db) (id : Nat) : Db × Option Err :=
  match sc.senderInfo id with
  | none => (db, none)
  | some info =>
    match db.Put "PooledSender" (putUint64 id) (encodeSender info) with
    | .error e => (db, some e)
    | .ok db1 => (db1, none)

/-- The writes of `SendersCache.flush` to the bucket `PoolInfo`; `now` is the
encoded current time. -/
def SendersCache.flush.info (sc : SendersCache) (now : List Nat) (db : Db) : Except Err Db :=
  match db.Put "PoolInfo" (infoKey "sender_cache_block_height") (putUint64 sc.blockHeight) with
  | .error e => .error e
  | .ok db1 =>
    match db1.Put "PoolInfo" (infoKey "sender_cache_block_hash") sc.blockHash with
    | .error e => .error e
    | .ok db2 =>
      match db2.Put "PoolInfo" (infoKey "sender_cache_id") (putUint64 sc.senderID) with
      | .error e => .error e
      | .ok db3 =>
        match db3.Put "PoolInfo" (infoKey "sender_commit_id") (putUint64 sc.commitID) with
        | .error e => .error e
        | .ok db4 => db4.Put "PoolInfo" (infoKey "sender_commit_time") now

/-- What `SendersCache.flush` leaves: the cache, the store, the number of
evicted senders and the error. -/
structure SendersFlushed where
  sc : SendersCache
  db : Db
  evicted : Nat
  err : Option Err

/-- The method `SendersCache.flush`.  The maps `senderIDs` and `senderInfo`
are visited in the orders `idOrder` and `infoOrder` of their keys; `count` is
`byNonce.count`. -/
def SendersCache.flush (sc : SendersCache) (db : Db) (count : Nat → Nat)
    (sendersWithoutTransactions : List Nat) (evictAfterRounds : Nat) (now : List Nat)
    (idOrder : List (List Nat)) (infoOrder : List Nat) : SendersFlushed :=
  let sc1 : SendersCache := { sc with commitID := (sc.commitID + 1) % two64 }
  let encIDs := (sendersWithoutTransactions.map putUint64).flatten
  let encID :=
    if sendersWithoutTransactions = [] then List.replicate 8 0 else putUint64 sc1.commitID
  match (if 0 < encIDs.length then db.Append "PoolStateEviction" encID encIDs else .ok db) with
  | .error e => ⟨sc1, db, 0, some e⟩
  | .ok db1 =>
    if db1.fails (.cursor "PoolStateEviction") then ⟨sc1, db1, 0, some .backend⟩
    else
      match SendersCache.flush.cursor sc1 count encID evictAfterRounds
          (db1.data "PoolStateEviction") (db1, 0) with
      | (acc, some e) => ⟨sc1, acc.1, acc.2, some e⟩
      | (acc, none) =>
        match forErr (SendersCache.flush.putID sc1) acc.1 idOrder with
        | (db2, some e) => ⟨sc1, db2, acc.2, some e⟩
        | (db2, none) =>
          match forErr (SendersCache.flush.putInfo sc1) db2 infoOrder with
          | (db3, some e) => ⟨sc1, db3, acc.2, some e⟩
          | (db3, none) =>
            match SendersCache.flush.info sc1 now db3 with
            | .error e => ⟨sc1, db3, acc.2, some e⟩
            | .ok db4 =>
              ⟨{ sc1 with senderIDs := fun _ => none, senderInfo := fun _ => none }, db4,
                acc.2, none⟩

/-- What `flushLocked` leaves: the deletion queue (an entry set to `nil` is
`none`), the bytes the transactions hold, the sender cache, the store, the
number of evicted senders and the error. -/
structure Flushed where
  deletedTxs : List (Option Ptr)
  rlp : Ptr → Option (List Nat)
  sc : SendersCache
  db : Db
  evicted : Nat
  err : Option Err

/-- The method `TxPool.flushLocked`, the blocks under `ASSERT` left out (the
constant is `false`).  The keys of the recent-locals cache are arrays
(`discardLocked` adds `mt.Tx.idHash`, which the source compares with `!=`, and
`fromDB` adds a `[32]byte`), so the type assertion `txHashes[i].([]byte)` of the
loop over them panics in its first iteration. -/
def flushLocked (evictSendersAfterRounds : Nat) (now : List Nat) (idOrder : List (List Nat))
    (infoOrder : List Nat) (pm : PoolMem) (db : Db) : Flushed :=
  let queue := pm.st.reg.deletedTxs
  match forErr (flushLocked.deleted pm.st.pools.mem pm.st.reg.byNonce) ([], db, 0) queue with
  | (a, some e) =>
    ⟨List.replicate a.2.2 none ++ (queue.drop a.2.2).map some, pm.rlp, pm.sc, a.2.1, 0, some e⟩
  | (a, none) =>
    let nils : List (Option Ptr) := List.replicate queue.length none
    let sendersWithoutTransactions := a.1.insertionSort (· ≤ ·)
    match a.2.1.ClearBucket "RecentLocalTransaction" with
    | .error e => ⟨nils, pm.rlp, pm.sc, a.2.1, 0, some e⟩
    | .ok db1 =>
      if pm.st.reg.localsHistory ≠ [] then ⟨nils, pm.rlp, pm.sc, db1, 0, some .panic⟩
      else
        match forErr (flushLocked.store pm.st.pools.mem) (pm.rlp, db1) pm.st.reg.byHash with
        | (b, some e) => ⟨nils, b.1, pm.sc, b.2, 0, some e⟩
        | (b, none) =>
          match b.2.Put "PoolInfo" (infoKey "protocol_base_fee")
              (putUint64 pm.fees.protocolBaseFee) with
          | .error e => ⟨nils, b.1, pm.sc, b.2, 0, some e⟩
          | .ok db2 =>
            match db2.Put "PoolInfo" (infoKey "pending_base_fee")
                (putUint64 pm.fees.pendingBaseFee) with
            | .error e => ⟨nils, b.1, pm.sc, db2, 0, some e⟩
            | .ok db3 =>
              let f := pm.sc.flush db3 (ByNonce.count pm.st.pools.mem pm.st.reg.byNonce)
                sendersWithoutTransactions evictSendersAfterRounds now idOrder infoOrder
              match f.err with
              | some e => ⟨nils, b.1, f.sc, f.db, f.evicted, some e⟩
              | none => ⟨[], b.1, f.sc, f.db, f.evicted, none⟩

/-! ## Restart from the store -/

/-- The method `simplelru.LRU.Get` as `fromDB` uses it: whether the key is
present; a present key moves to the front. -/
def lruGet (l : List Nat) (k : Nat) : Bool × List Nat :=
  if k ∈ l then (true, k :: l.erase k) else (false, l)

/-- The reads of `SendersCache.fromDB` from the bucket `PoolInfo`, in order: a
stored value replaces the field, no stored value leaves it; a failing read ends
the function, and a stored number of fewer than 8 bytes panics. -/
def SendersCache.fromDB.info (sc : SendersCache) (db : Db) : SendersCache × Option Err :=
  match db.GetOne "PoolInfo" (infoKey "sender_cache_block_height") with
  | .error e => (sc, some e)
  | .ok v1 =>
    if 0 < v1.length ∧ v1.length < 8 then (sc, some .panic)
    else
      let sc1 : SendersCache :=
        { sc with blockHeight := if 0 < v1.length then getUint64 v1 else sc.blockHeight }
      match db.GetOne "PoolInfo" (infoKey "sender_cache_block_hash") with
      | .error e => (sc1, some e)
      | .ok v2 =>
        let sc2 : SendersCache :=
          { sc1 with blockHash := if 0 < v2.length then v2 else sc1.blockHash }
        match db.GetOne "PoolInfo" (infoKey "sender_cache_id") with
        | .error e => (sc2, some e)
        | .ok v3 =>
          if 0 < v3.length ∧ v3.length < 8 then (sc2, some .panic)
          else
            let sc3 : SendersCache :=
              { sc2 with senderID := if 0 < v3.length then getUint64 v3 else sc2.senderID }
            match db.GetOne "PoolInfo" (infoKey "sender_commit_id") with
            | .error e => (sc3, some e)
            | .ok v4 =>
              if 0 < v4.length ∧ v4.length < 8 then (sc3, some .panic)
              else
                ({ sc3 with commitID := if 0 < v4.length then getUint64 v4 else sc3.commitID },
                  none)

/-- The function `isCanonical`. -/
def isCanonical (coreTx : kvTx) (num : Nat) (hash : List Nat) : Except Err Bool :=
  match coreTx.GetOne "HeaderCanonical" (putUint64 num) with
  | none => .error .backend
  | some canonical => .ok (decide (hash = canonical))

/-- The method `SendersCache.syncMissedStateDiff` with `missedTo = 0`, as
`SendersCache.fromDB` calls it.  The clock and the change sets of the chain
are outside the sources: `stale` says of the stored commit time whether it is
older than three days (or fails to decode), `changes` stands for the function
`changesets` on the chain transaction. -/
def SendersCache.syncMissedStateDiff (sc : SendersCache) (db : Db)
    (stale : List Nat → Except Err Bool) (coreTx : Option kvTx)
    (changes : kvTx → Nat → Except Err (List (List Nat × TxPool.senderInfo))) :
    (SendersCache × Db) × Option Err :=
  match db.GetOne "PoolInfo" (infoKey "sender_commit_time") with
  | .error e => ((sc, db), some e)
  | .ok t =>
    match (if 0 < t.length then stale t else .ok false) with
    | .error e => ((sc, db), some e)
    | .ok old =>
      match (match coreTx with
          | none => Except.ok true
          | some c => isCanonical c sc.blockHeight sc.blockHash) with
      | .error e => ((sc, db), some e)
      | .ok canonical =>
        match (if old || !canonical then
            (match db.ClearBucket "PooledSender" with
              | .error e => Except.error e
              | .ok db1 =>
                Except.ok (({ sc with senderInfo := fun _ => none } : SendersCache), db1))
            else Except.ok (sc, db)) with
        | .error e => ((sc, db), some e)
        | .ok r =>
          if r.1.blockHeight = 0 then (r, none)
          else
            match coreTx with
            | none => (r, none)
            | some c =>
              match changes c r.1.blockHeight with
              | .error e => (r, some e)
              | .ok diff =>
                let mr := r.1.mergeStateChangesLocked r.2.tx diff [] []
                ((mr.1, r.2), mr.2)

/-- The method `SendersCache.fromDB`. -/
def SendersCache.fromDB (sc : SendersCache) (db : Db) (stale : List Nat → Except Err Bool)
    (coreTx : Option kvTx)
    (changes : kvTx → Nat → Except Err (List (List Nat × TxPool.senderInfo))) :
    (SendersCache × Db) × Option Err :=
  match SendersCache.fromDB.info sc db with
  | (sc1, some e) => ((sc1, db), some e)
  | (sc1, none) => sc1.syncMissedStateDiff db stale coreTx changes

/-- The walk of `fromDB` over the bucket `RecentLocalTransaction`: every stored
hash is added to the recent-locals cache. -/
def fromDB.locals (l : List (List Nat × List Nat)) (history : List Nat) : List Nat :=
  l.foldl (fun h e => lruAdd h (hashOfBytes e.2)) history

/-- The statement `copy(hashID[:], k)` on the array `hashID` that `fromDB`
declares before its walk: the bytes of `k` (at most 32) take the place of the
first bytes of the array. -/
def copyHash (hashID k : List Nat) : List Nat := k.take 32 ++ hashID.drop (k.take 32).length

/-- The local variables of the walk of `fromDB` over the bucket
`PooledTransaction`: the batch built so far (address of the sender,
transaction, flag `isLocal`), the recent-locals cache and the array
`hashID`. -/
structure Walk where
  txs : List (List Nat × TxSlot × Bool)
  history : List Nat
  hashID : List Nat

/-- The walk of `fromDB` over the bucket `PooledTransaction`, for one pair: the
parsed transaction with the stored sender id, the address of the sender and the
flag `isLocal` read from the recent-locals cache.  The parser is outside the
sources: `parse` stands for `ParseTransaction`. -/
def fromDB.walk (parse : List Nat → Option TxSlot) (db : Db) (acc : Walk)
    (e : List Nat × List Nat) : Walk × Option Err :=
  if e.2.length < 16 then (acc, some .panic)
  else
    match parse (e.2.drop 16) with
    | none => (acc, some .decode)
    | some slot =>
      match db.GetOne "PooledSenderIDToAdress" (e.2.take 8) with
      | .error err => (acc, some err)
      | .ok senderAddr =>
        if senderAddr.length = 0 then (acc, some .panic)
        else
          let hashID := copyHash acc.hashID e.1
          let g := lruGet acc.history (beToNat hashID)
          ({ txs := acc.txs ++ [(senderAddr, { slot with senderID := getUint64 e.2 }, g.1)],
             history := g.2, hashID := hashID }, none)

/-- The base fee `fromDB` reads under a key of the bucket `PoolInfo`: zero when
nothing is stored; a stored value of fewer than 8 bytes panics. -/
def fromDB.fee (db : Db) (key : String) : Except Err Nat :=
  match db.GetOne "PoolInfo" (infoKey key) with
  | .error e => .error e
  | .ok v =>
    if 0 < v.length ∧ v.length < 8 then .error .panic
    else .ok (if 0 < v.length then getUint64 v else 0)

/-- The method `TxPool.fromDB`, the block under `ASSERT` left out.  The store
is read through the transaction `db`; `parse`, `stale`, `changes` and `decode`
stand for the parser, the clock, the change sets of the chain and
`DecodeSender`.  The transactions it restores hold no bytes. -/
def fromDB (parse : List Nat → Option TxSlot) (stale : List Nat → Except Err Bool)
    (coreTx : Option kvTx)
    (changes : kvTx → Nat → Except Err (List (List Nat × TxPool.senderInfo)))
    (decode : List Nat → Option (Nat × Nat)) (pm : PoolMem) (db : Db) :
    (PoolMem × Db) × Option Err :=
  match pm.sc.fromDB db stale coreTx changes with
  | (r, some e) => (({ pm with sc := r.1 }, r.2), some e)
  | (r, none) =>
    if r.2.fails (.cursor "RecentLocalTransaction") then
      (({ pm with sc := r.1 }, r.2), some .backend)
    else
      let history := fromDB.locals (r.2.data "RecentLocalTransaction") pm.st.reg.localsHistory
      let pm1 : PoolMem :=
        { pm with sc := r.1,
                  st := { pm.st with reg := { pm.st.reg with localsHistory := history } } }
      if r.2.fails (.cursor "PooledTransaction") then ((pm1, r.2), some .backend)
      else
        match forErr (fromDB.walk parse r.2) ⟨[], history, List.replicate 32 0⟩
            (r.2.data "PooledTransaction") with
        | (w, some e) =>
          (({ pm1 with
              st := { pm1.st with reg := { pm1.st.reg with localsHistory := w.history } } },
            r.2), some e)
        | (w, none) =>
          let pm2 : PoolMem :=
            { pm1 with
              st := { pm1.st with reg := { pm1.st.reg with localsHistory := w.history } } }
          match fromDB.fee r.2 "protocol_base_fee" with
          | .error e => ((pm2, r.2), some e)
          | .ok protocolBaseFee =>
            match fromDB.fee r.2 "pending_base_fee" with
            | .error e => ((pm2, r.2), some e)
            | .ok pendingBaseFee =>
              match pm2.sc.onNewTxs r.2.tx (w.txs.map (fun t => (t.1, t.2.1))) with
              | (c, .error e) => (({ pm2 with sc := c.1 }, r.2), some e)
              | (c, .ok cacheMisses) =>
                match (if 0 < cacheMisses.length then
                    (match coreTx with
                      | none => (c.1, some Err.panic)
                      | some core => c.1.loadFromCore decode core cacheMisses)
                    else (c.1, none)) with
                | (sc3, some e) => (({ pm2 with sc := sc3 }, r.2), some e)
                | (sc3, none) =>
                  let txs := (c.2.zip (w.txs.map (fun t => t.2.2))).map (fun t => (t.1.2, t.2))
                  match onNewTxs r.2.tx sc3 txs protocolBaseFee pendingBaseFee discardLocked
                      pm2.st with
                  | (st1, some e) =>
                    (({ pm2 with sc := sc3, st := st1,
                                 rlp := fun p => if pm2.st.next ≤ p then none else pm2.rlp p },
                      r.2), some e)
                  | (st1, none) =>
                    (({ sc := sc3, st := st1,
                        rlp := fun p => if pm2.st.next ≤ p then none else pm2.rlp p,
                        fees := { protocolBaseFee := protocolBaseFee,
                                  pendingBaseFee := pendingBaseFee } }, r.2), none)

/-! ## The iterator utility `iter.Union` -/

/-- Modelled from the spec: the package `kv/iter` is not among the sources, only
its test `iter_test.go` is, and the specification names the iterator utilities
as collaborators without describing them.  A stream of `uint64` values
(`iter.Array`, `iter.EmptyU64`) is the list of the values it yields, and
`iter.Union` is the two-way merge `TestUnion` exercises: of the two next values
the smaller is yielded, a value both streams offer is yielded once and both
streams advance, and when one stream is exhausted the rest of the other
follows.  The first argument bounds the number of steps. -/
def iter.Union.loop : Nat → List Nat → List Nat → List Nat
  | 0, _, _ => []
  | _ + 1, [], ys => ys
  | _ + 1, xs, [] => xs
  | fuel + 1, x :: xs, y :: ys =>
    if x < y then x :: iter.Union.loop fuel xs (y :: ys)
    else if x = y then x :: iter.Union.loop fuel xs ys
    else y :: iter.Union.loop fuel (x :: xs) ys

/-- Modelled from the spec: `iter.ToArr(iter.Union(x, y))`, the values the
union of two streams yields, as `iter.Union.loop` with enough steps for both
streams. -/
def iter.Union (xs ys : List Nat) : List Nat :=
  iter.Union.loop (xs.length + ys.length + 1) xs ys

/-! ## Views used to reason about the sender cache -/

/-- Every id the cache finds for an address is positive and at most the
counter `senderID`, and no two addresses are found with the same id. -/
def SendersCache.IdsOK (sc : SendersCache) (tx : kvTx) : Prop :=
  (∀ a id, sc.id a tx = .ok (some id) → 0 < id ∧ id ≤ sc.senderID) ∧
    (∀ a b id, sc.id a tx = .ok (some id) → sc.id b tx = .ok (some id) → a = b)

/-- What allocation of at most `k` ids does to the cache: the counter grows
by at most `k`; an address that had an id keeps it; an address that has an id
now had it before or had none and got one above the old counter; two addresses
that got ids got different ones; an address without id had none before. -/
def SendersCache.Grows (tx : kvTx) (k : Nat) (sc sc' : SendersCache) : Prop :=
  sc.senderID ≤ sc'.senderID ∧ sc'.senderID ≤ sc.senderID + k ∧
    (∀ a id, sc.id a tx = .ok (some id) → sc'.id a tx = .ok (some id)) ∧
    (∀ a id, sc'.id a tx = .ok (some id) →
      sc.id a tx = .ok (some id) ∨
        (sc.id a tx = .ok none ∧ sc.senderID < id ∧ id ≤ sc'.senderID)) ∧
    (∀ a b id, sc.id a tx = .ok none → sc.id b tx = .ok none →
      sc'.id a tx = .ok (some id) → sc'.id b tx = .ok (some id) → a = b) ∧
    (∀ a, sc'.id a tx = .ok none → sc.id a tx = .ok none)

/-! ## Concrete caches and batches -/

/-- The function `NewSendersCache`: both maps empty, both counters zero. -/
def NewSendersCache : SendersCache := { senderInfo := fun _ => none }

/-- A map `stateChanges` with one entry: the address `[1]` with nonce and
balance zero. -/
def zeroChanges : List (List Nat × TxPool.senderInfo) := [([1], { nonce := 0, balance := 0 })]

/-- A map `stateChanges` with one entry: the address `[1]` with nonce `5` and
balance `900`. -/
def oneChange : List (List Nat × TxPool.senderInfo) := [([1], { nonce := 5, balance := 900 })]

/-- A chain state that holds the account `[1]` only; reading the account `[9]`
fails. -/
def coreKv : kvTx :=
  { GetOne := fun _ k => if k = [9] then none else if k = [1] then some [7] else some [] }

/-- A decoder for `coreKv`: every stored account has nonce `3` and balance
`1000`. -/
def coreDecode (_ : List Nat) : Option (Nat × Nat) := some (3, 1000)

/-! ## Concrete pools and stores -/

/-- A store with no pairs in which every operation succeeds. -/
def emptyDb : Db := { data := fun _ => [], fails := fun _ => false }

/-- A sender cache with two senders in memory: the id `4` (address `[4]`) with
nonce `9` and balance zero, and the id `5` (address `[5]`) with nonce `2` and
balance `70000`. -/
def twoSenders : SendersCache :=
  { senderInfo := fun id =>
      if id = 4 then some { nonce := 9, balance := 0 }
      else if id = 5 then some { nonce := 2, balance := 70000 }
      else none
    senderIDs := fun a => if a = [4] then some 4 else if a = [5] then some 5 else none
    senderID := 5 }

/-- The flush of `twoSenders` into the empty store, when both senders have a
resident transaction and no sender has lost its last one; the map `senderInfo`
is visited in the order `5`, `4`. -/
def twoSendersFlushed : SendersFlushed :=
  twoSenders.flush emptyDb (fun _ => 1) [] 10 [1] [[4], [5]] [5, 4]

/-- The pool after `onNewTxs` of the local transaction `blockTxA` on the empty
pool at base fees `50` and `70`; the transaction (address `1`) holds the bytes
`[170]`; the sender `[1]` has the id `1` and the record of `scenarioSender`. -/
def localPool : PoolMem :=
  { st := (onNewTxs emptyKv scenarioSenders [(blockTxA, true)] 50 70 discardLocked State.empty).1
    rlp := fun p => if p = 1 then some [170] else none
    fees := { protocolBaseFee := 50, pendingBaseFee := 70 }
    sc := { senderInfo := fun id => if id = 1 then some scenarioSender else none
            senderIDs := fun a => if a = [1] then some 1 else none
            senderID := 1 } }

/-- A pool that has never held a transaction. -/
def freshPool : PoolMem :=
  { st := State.empty, rlp := fun _ => none,
    fees := { protocolBaseFee := 0, pendingBaseFee := 0 }, sc := NewSendersCache }

/-- A parser for the bytes `[170]`: they are the transaction `blockTxA`. -/
def parseA (b : List Nat) : Option TxSlot := if b = [170] then some blockTxA else none

/-- A clock for which no stored commit time is older than three days. -/
def freshClock (_ : List Nat) : Except Err Bool := .ok false

/-- Change sets of a chain that are never read. -/
def noChanges (_ : kvTx) (_ : Nat) : Except Err (List (List Nat × TxPool.senderInfo)) := .ok []

/-- The flush of `localPool` into the empty store. -/
def localFlushed : Flushed := flushLocked 10 [1] [[1]] [1] localPool emptyDb

/-- The restart of a fresh pool from the store `localFlushed` leaves. -/
def localRestored : (PoolMem × Db) × Option Err :=
  fromDB parseA freshClock none noChanges coreDecode freshPool localFlushed.db

/-- The pool `localPool` after the transaction `blockTxB` of the same sender has
come and has been replaced by one with a higher tip: the deletion queue holds
the replaced record (address `2`). -/
def queuePool : PoolMem :=
  { localPool with
    st := (onNewTxs emptyKv scenarioSenders
      [(blockTxB, false), ({ blockTxB with idHash := 7005, tip := 11 }, false)] 50 70
      discardLocked localPool.st).1
    rlp := fun p => if p = 1 then some [170] else if p = 3 then some [171] else none }

/-- A store with no pairs in which clearing the bucket `RecentLocalTransaction`
fails. -/
def clearFailsDb : Db :=
  { data := fun _ => [], fails := fun o => decide (o = Op.clear "RecentLocalTransaction") }

/-- A store with no pairs in which every write to the bucket `PoolInfo`
fails. -/
def infoFailsDb : Db :=
  { data := fun _ => [],
    fails := fun o => match o with
      | .put b _ => decide (b = "PoolInfo")
      | _ => false }

/-- A store with no pairs in which opening a cursor on the bucket
`PoolStateEviction` fails. -/
def cursorFailsDb : Db :=
  { data := fun _ => [], fails := fun o => decide (o = Op.cursor "PoolStateEviction") }

/-- The local transaction number `i` of the capacity scenario: hash `i + 1`, of
the sender with id `i + 1`, nonce `1`, gas `21000`, fee cap `100`, tip `10`,
value `0`. -/
def capacityTx (i : Nat) : TxSlot :=
  { idHash := i + 1, senderID := i + 1, nonce := 1, gas := 21000, feeCap := 100, tip := 10,
    value := 0 }

/-- The batch of the first `n` transactions of the capacity scenario, all
submitted as local. -/
def capacityBatch (n : Nat) : List (TxSlot × Bool) :=
  (List.range n).map (fun i => (capacityTx i, true))

/-- A sender cache in which every sender has state nonce `0` and balance
`10^18`. -/
def capacitySenders : SendersCache := { senderInfo := fun _ => some scenarioSender }

/-- A transaction of a further sender (id `10241`) of the capacity scenario
with nonce `2`, which leaves a gap after the state nonce `0`. -/
def gapTx : TxSlot :=
  { idHash := 20002, senderID := 10241, nonce := 2, gas := 21000, feeCap := 100, tip := 10,
    value := 0 }

/-- The transaction of the same sender with nonce `1`, which fills the gap. -/
def fillTx : TxSlot :=
  { idHash := 20001, senderID := 10241, nonce := 1, gas := 21000, feeCap := 100, tip := 10,
    value := 0 }

/-- The call of `onNewTxs` with 10240 local transactions of the capacity
scenario on the empty pool, at base fees `50` and `70`. -/
def fullRun : State × Option Err :=
  onNewTxs emptyKv capacitySenders (capacityBatch 10240) 50 70 discardLocked State.empty

/-- The call of `onNewTxs` with the transaction `gapTx` on the pool `fullRun`
leaves. -/
def gapRun : State × Option Err :=
  onNewTxs emptyKv capacitySenders [(gapTx, false)] 50 70 discardLocked fullRun.1

/-- The call of `onNewTxs` with the batch of `fillTx` on the pool `gapRun`
leaves. -/
def fillOnce : State × Option Err :=
  onNewTxs emptyKv capacitySenders [(fillTx, false)] 50 70 discardLocked gapRun.1

/-- The call of `onNewTxs` with the same batch on the pool `fillOnce` leaves. -/
def fillTwice : State × Option Err :=
  onNewTxs emptyKv capacitySenders [(fillTx, false)] 50 70 discardLocked fillOnce.1

/-! ## The iterator utility `iter.Intersect` -/

/-- Modelled from the spec: the package `kv/iter` is not among the sources, only
its test `iter_test.go` is.  On streams as the lists of the values they yield
(`nil` and `iter.EmptyU64` are the empty list), `iter.Intersect` is the two-way
merge `TestIntersect` exercises: of the two next values the smaller is dropped,
a value both streams offer is yielded and both streams advance, and the result
ends when one stream is exhausted.  The first argument bounds the number of
steps. -/
def iter.Intersect.loop : Nat → List Nat → List Nat → List Nat
  | 0, _, _ => []
  | _ + 1, [], _ => []
  | _ + 1, _ :: _, [] => []
  | fuel + 1, x :: xs, y :: ys =>
    if x < y then iter.Intersect.loop fuel xs (y :: ys)
    else if x = y then x :: iter.Intersect.loop fuel xs ys
    else iter.Intersect.loop fuel (x :: xs) ys

/-- Modelled from the spec: `iter.ToArr(iter.Intersect(x, y))`, the values the
intersection of two streams yields, as `iter.Intersect.loop` with enough steps
for both streams. -/
def iter.Intersect (xs ys : List Nat) : List Nat :=
  iter.Intersect.loop (xs.length + ys.length + 1) xs ys

/-! ## Byte slices and the buffers of `BroadcastLoop` -/

/-- A Go slice of bytes that starts at the beginning of its backing array: the
array it points into, its length and its capacity. -/
structure GoSlice where
  arr : Nat
  len : Nat
  cap : Nat
  deriving DecidableEq

/-- The backing arrays of the byte slices, and the next array to allocate. -/
structure GoHeap where
  arrays : Nat → List Nat
  next : Nat

/-- The bytes `bs` written into the array `a` from position `i` on. -/
def writeAt (a : List Nat) (i : Nat) (bs : List Nat) : List Nat :=
  a.take i ++ bs ++ a.drop (i + bs.length)

/-- Modelled from the spec: the capacity of the array the built-in `append`
allocates when the old one is too small is chosen by the Go runtime; the model
doubles the old capacity, or takes the needed length if that is larger. -/
def growCap (cap need : Nat) : Nat := max (2 * cap) need

/-- The built-in `append(s, bs...)`: when the capacity of `s` suffices the bytes
are written into the backing array of `s` behind its length, and the result
shares that array; otherwise a new array receives the contents of `s` and the
bytes. -/
def goAppend (h : GoHeap) (s : GoSlice) (bs : List Nat) : GoHeap × GoSlice :=
  if s.len + bs.length ≤ s.cap then
    ({ h with arrays := Function.update h.arrays s.arr (writeAt (h.arrays s.arr) s.len bs) },
      { s with len := s.len + bs.length })
  else
    let c := growCap s.cap (s.len + bs.length)
    ({ arrays := Function.update h.arrays h.next
        ((h.arrays s.arr).take s.len ++ bs ++ List.replicate (c - (s.len + bs.length)) 0),
       next := h.next + 1 },
      { arr := h.next, len := s.len + bs.length, cap := c })

/-- The bytes a slice holds. -/
def GoSlice.bytes (h : GoHeap) (s : GoSlice) : List Nat := (h.arrays s.arr).take s.len

/-- The two buffers of `BroadcastLoop` and the arrays they point into. -/
structure Buffers where
  heap : GoHeap
  localTxHashes : GoSlice
  remoteTxHashes : GoSlice

/-- The buffers as `BroadcastLoop` allocates them:
`make([]byte, 0, 128)` twice. -/
def Buffers.new : Buffers :=
  { heap := { arrays := fun _ => List.replicate 128 0, next := 2 }
    localTxHashes := { arr := 0, len := 0, cap := 128 }
    remoteTxHashes := { arr := 1, len := 0, cap := 128 } }

/-- The method `TxPool.IdHashIsLocal`. -/
def IdHashIsLocal (st : State) (hash : Nat) : Bool :=
  match byHashGet st.reg.byHash hash with
  | none => false
  | some txn => decide ((st.pools.mem txn).subPool &&& IsLocal ≠ 0)

/-- One iteration of the loop of `BroadcastLoop` over the notified hashes; the
hash `h.At(i)` is the 32 bytes of the hash.  Both branches append to
`localTxHashes`. -/
def BroadcastLoop.step (st : State) (b : Buffers) (hash : Nat) : Buffers :=
  if IdHashIsLocal st hash then
    let r := goAppend b.heap b.localTxHashes (hashBytes hash)
    { b with heap := r.1, localTxHashes := r.2 }
  else
    let r := goAppend b.heap b.localTxHashes (hashBytes hash)
    { b with heap := r.1, remoteTxHashes := r.2 }

/-- What the branch `case h := <-newTxs` of `BroadcastLoop` does with a
notified batch: the buffers it leaves, the bytes it passes to
`BroadcastLocalPooledTxs` and the bytes it passes to
`BroadcastRemotePooledTxs`. -/
def BroadcastLoop.newTxs (st : State) (b : Buffers) (h : List Nat) :
    Buffers × List Nat × List Nat :=
  let b0 : Buffers :=
    { b with localTxHashes := { b.localTxHashes with len := 0 },
             remoteTxHashes := { b.remoteTxHashes with len := 0 } }
  let b1 := h.foldl (BroadcastLoop.step st) b0
  (b1, b1.localTxHashes.bytes b1.heap, b1.remoteTxHashes.bytes b1.heap)

/-- The bytes of the hashes of a batch for which `IdHashIsLocal` has the given
value, in the order of the batch. -/
def hashesWhere (st : State) (isLocal : Bool) (h : List Nat) : List Nat :=
  ((h.filter (fun x => IdHashIsLocal st x == isLocal)).map hashBytes).flatten

/-! ## Views used to reason about the iterations of `promote` -/

/-- The members of the three sub-pools. -/
def Pools.members (s : Pools) : List Ptr :=
  s.pending.best ++ (s.baseFee.best ++ s.queued.best)

/-- The limit of each sub-pool. -/
def Which.limit : Which → Nat
  | .pending => PendingSubPoolLimit
  | .baseFee => BaseFeeSubPoolLimit
  | .queued => QueuedSubPoolLimit

/-- One iteration of a loop of `promote`, with what the loop has tested before
it discards: an element moves to another sub-pool; or the worst element of a
sub-pool has a marker below `0b10000` and is discarded; or a sub-pool is over
its limit and its worst element is discarded. -/
inductive promote.Iter {D : Type} (discard : Mem → Ptr → D → D) :
    Pools × D → Pools × D → Prop where
  | moveWorst (sd : Pools × D) (a b : Which) (hab : a ≠ b) (hl : 0 < (sd.1.get a).Len) :
    promote.Iter discard sd (sd.1.moveWorst a b, sd.2)
  | moveBest (sd : Pools × D) (a b : Which) (hab : a ≠ b) (hl : 0 < (sd.1.get a).Len) :
    promote.Iter discard sd (sd.1.moveBest a b, sd.2)
  | dropLow (sd : Pools × D) (a : Which) (hl : 0 < (sd.1.get a).Len)
      (hm : markerAt sd.1.mem (sd.1.get a).Worst < 0b10000) :
    promote.Iter discard sd (Pools.dropWorst discard sd a)
  | dropOver (sd : Pools × D) (a : Which) (hl : a.limit < (sd.1.get a).Len) :
    promote.Iter discard sd (Pools.dropWorst discard sd a)

/-- Every resident record is a member of a sub-pool. -/
def State.Housed (st : State) : Prop :=
  ∀ p ∈ st.reg.byNonce, ∃ w, p ∈ (st.pools.get w).best

/-- Residency is membership: every record of the hash map is a member of
exactly one sub-pool, at back-indices that are not negative, and every member
of a sub-pool is in the hash map under its hash. -/
def State.Resident (st : State) : Prop :=
  (∀ e ∈ st.reg.byHash, ∃ w, e.2 ∈ (st.pools.get w).best ∧
      (∀ w', e.2 ∈ (st.pools.get w').best → w' = w) ∧
      0 ≤ (st.pools.mem e.2).bestIndex ∧ 0 ≤ (st.pools.mem e.2).worstIndex) ∧
    ∀ w, ∀ x ∈ (st.pools.get w).best, ((st.pools.mem x).Tx.idHash, x) ∈ st.reg.byHash

/-! ## Concrete states of the fourth group of scenarios -/

/-- A record of sender `1` with nonce `1`, fee cap `100` and tip `50`. -/
def highTipMem : Mem := fun p =>
  if p = 1 then newMetaTx ⟨401, 1, 1, 21000, 100, 50, 0⟩ false else default

/-- The pool `afterMined` with the bytes of its resident transaction: the block
has mined the local transaction `blockTxA`, whose hash is in the recent-locals
cache. -/
def minedPool : PoolMem :=
  { st := afterMined.1
    rlp := fun p => if p = 2 then some [171] else none
    fees := { protocolBaseFee := 50, pendingBaseFee := 70 }
    sc := { senderInfo := fun id => if id = 1 then some minedSender else none
            senderIDs := fun a => if a = [1] then some 1 else none
            senderID := 1 } }

/-- A sender cache after two commits and a restart: three ids are allocated and
no sender is in memory. -/
def evictCache : SendersCache :=
  { senderInfo := fun _ => none, senderID := 3, commitID := 2 }

/-- A store that holds the rows of the senders `2` (address `[2]`) and `3`
(address `[3]`), and the list of commit `1`, which names the sender `2`. -/
def evictDb : Db :=
  { data := fun b =>
      if b = "PoolStateEviction" then [(putUint64 1, putUint64 2)]
      else if b = "PooledSenderID" then [([2], putUint64 2), ([3], putUint64 3)]
      else if b = "PooledSenderIDToAdress" then [(putUint64 2, [2]), (putUint64 3, [3])]
      else if b = "PooledSender" then
        [(putUint64 2, encodeSender { nonce := 4, balance := 500 }),
         (putUint64 3, encodeSender { nonce := 7, balance := 900 })]
      else []
    fails := fun _ => false }

/-- The flush of `evictCache` into `evictDb` when the sender `1` has lost its
last transaction in this round, the sender `3` has one resident transaction,
and senders are evicted after two rounds. -/
def evictFlushed : SendersFlushed :=
  evictCache.flush evictDb (fun id => if id = 3 then 1 else 0) [1] 2 [9] [] []

/-- The call of `promote` on `baseFeeFull`, with the callback that logs. -/
def baseFeeOnce : Pools × List Ptr := promote logDiscard (baseFeeFull, [])

/-- The call of `promote` on the sub-pools `baseFeeOnce` leaves. -/
def baseFeeTwice : Pools × List Ptr := promote logDiscard (baseFeeOnce.1, [])

/-! ## Slices -/

theorem elemAt_of_lt {q : List Ptr} {i : Nat} (h : i < q.length) : elemAt q i = q[i] := by
  simp [elemAt, List.getD_eq_getElem?_getD, List.getElem?_eq_getElem h]

theorem elemAt_mem {q : List Ptr} {i : Nat} (h : i < q.length) : elemAt q i ∈ q := by
  rw [elemAt_of_lt h]; exact List.getElem_mem h

theorem exists_elemAt_of_mem {q : List Ptr} {x : Ptr} (h : x ∈ q) :
    ∃ i, i < q.length ∧ elemAt q i = x := by
  obtain ⟨i, hi, rfl⟩ := List.getElem_of_mem h
  exact ⟨i, hi, elemAt_of_lt hi⟩

theorem elemAt_set (q : List Ptr) (i k : Nat) (a : Ptr) :
    elemAt (q.set i a) k = if i = k ∧ i < q.length then a else elemAt q k := by
  simp only [elemAt, List.getD_eq_getElem?_getD, List.getElem?_set]
  by_cases h : i = k
  · subst h
    by_cases h2 : i < q.length
    · simp [h2]
    · have : q[i]? = none := List.getElem?_eq_none (by omega)
      simp [h2, this]
  · simp [h]

@[simp] theorem length_swapSlice (q : List Ptr) (i j : Nat) :
    (swapSlice q i j).length = q.length := by
  simp [swapSlice]

theorem elemAt_swapSlice {q : List Ptr} {i j : Nat} (hi : i < q.length) (hj : j < q.length)
    (k : Nat) :
    elemAt (swapSlice q i j) k =
      if k = j then elemAt q i else if k = i then elemAt q j else elemAt q k := by
  simp only [swapSlice, elemAt_set, List.length_set]
  by_cases h1 : k = j
  · simp [h1, hj]
  · by_cases h2 : k = i
    · subst h2
      have h3 : ¬ j = k := fun h => h1 h.symm
      simp [h1, h3, hi]
    · have h3 : ¬ j = k := fun h => h1 h.symm
      have h4 : ¬ i = k := fun h => h2 h.symm
      simp [h1, h2, h3, h4]

theorem swapSlice_perm {q : List Ptr} {i j : Nat} (hi : i < q.length) (hj : j < q.length) :
    (swapSlice q i j).Perm q := by
  rw [List.perm_iff_count]
  intro b
  have hj' : j < (q.set i (elemAt q j)).length := by simpa using hj
  have e1 : (q.set i (elemAt q j))[j] = q[j] := by
    rw [List.getElem_set]; split
    · rename_i h; subst h; exact elemAt_of_lt hj
    · rfl
  simp only [swapSlice]
  rw [List.count_set _ _ _ _ hj', List.count_set _ _ _ _ hi, e1, elemAt_of_lt hi, elemAt_of_lt hj]
  have c1 : (q[i] == b) = true → 0 < List.count b q := by
    intro h; rw [List.count_pos_iff]; rw [beq_iff_eq] at h; exact h ▸ List.getElem_mem hi
  by_cases h1 : (q[i] == b) = true <;> by_cases h2 : (q[j] == b) = true
  · have := c1 h1; simp [h1, h2]; omega
  · have := c1 h1; simp [h1, h2]; omega
  · simp [h1, h2]
  · simp [h1, h2]

/-! ## `heap.up` on a bare slice -/

theorem pure_upLoop_length (lt : Ptr → Ptr → Bool) (f : Nat) (q : List Ptr) (j : Nat) :
    (heap.upLoop (PureQ lt) f q j).length = q.length := by
  induction f generalizing q j with
  | zero => rfl
  | succ f ih =>
    simp only [heap.upLoop]
    split
    · rfl
    · rw [ih]; exact length_swapSlice q _ _

theorem pure_upLoop_perm (lt : Ptr → Ptr → Bool) (f : Nat) (q : List Ptr) (j : Nat)
    (hj : j < q.length) : (heap.upLoop (PureQ lt) f q j).Perm q := by
  induction f generalizing q j with
  | zero => exact List.Perm.refl _
  | succ f ih =>
    simp only [heap.upLoop]
    split
    · exact List.Perm.refl _
    · have hi : (j - 1) / 2 < q.length := by omega
      refine (ih _ _ ?_).trans (swapSlice_perm hi hj)
      show (j - 1) / 2 < (swapSlice q ((j - 1) / 2) j).length
      rw [length_swapSlice]; exact hi

theorem pure_upLoop_ordered {lt : Ptr → Ptr → Bool} {le : Ptr → Ptr → Prop} (C : Compat lt le)
    (f : Nat) (q : List Ptr) (j n : Nat) (hn : n ≤ q.length) (hj : j < n) (hf : j < f)
    (hpre : ∀ c, c < n → 0 < c → c ≠ j → EdgeOK le q c) (hgp : GrandOK le q n 0 j) :
    OrderedFrom le (heap.upLoop (PureQ lt) f q j) n 0 := by
  induction f generalizing q j with
  | zero => omega
  | succ f ih =>
    simp only [heap.upLoop]
    split
    · rename_i hstop
      intro c hc hc0 _
      by_cases hcj : c = j
      · subst hcj
        rcases hstop with h | h
        · omega
        · exact C.of_not_lt _ _ h
      · exact hpre c hc hc0 hcj
    · rename_i hgo
      have hgo' : ¬ (j - 1) / 2 = j ∧ lt (elemAt q j) (elemAt q ((j - 1) / 2)) = true := by
        constructor
        · exact fun h => hgo (Or.inl h)
        · by_contra h
          exact hgo (Or.inr (by simpa using h))
      obtain ⟨hne, hlt⟩ := hgo'
      have hj0 : 0 < j := by omega
      have hi : (j - 1) / 2 < q.length := by omega
      have hjq : j < q.length := by omega
      have hji : le (elemAt q j) (elemAt q ((j - 1) / 2)) := C.of_lt _ _ hlt
      have hlen : n ≤ (swapSlice q ((j - 1) / 2) j).length := by rw [length_swapSlice]; exact hn
      refine ih (swapSlice q ((j - 1) / 2) j) ((j - 1) / 2) hlen (by omega) (by omega) ?_ ?_
      · intro c hc hc0 hci
        unfold EdgeOK
        rw [elemAt_swapSlice hi hjq, elemAt_swapSlice hi hjq]
        by_cases hcj : c = j
        · subst hcj
          simp only [if_true, if_neg hne]
          simpa using hji
        · rw [if_neg hcj, if_neg hci]
          by_cases hp1 : (c - 1) / 2 = j
          · rw [if_pos hp1]
            have := hgp hj0 (Nat.zero_le _) c hc hc0 hp1
            exact this
          · rw [if_neg hp1]
            by_cases hp2 : (c - 1) / 2 = (j - 1) / 2
            · rw [if_pos hp2]
              have h1 := hpre c hc hc0 hcj
              unfold EdgeOK at h1
              rw [hp2] at h1
              exact C.trans _ _ _ hji h1
            · rw [if_neg hp2]
              exact hpre c hc hc0 hcj
      · intro hi0 _ c hc hc0 hpc
        have hpi : (((j - 1) / 2 - 1) / 2) ≠ j ∧ (((j - 1) / 2 - 1) / 2) ≠ (j - 1) / 2 := by omega
        rw [elemAt_swapSlice hi hjq, elemAt_swapSlice hi hjq, if_neg hpi.1, if_neg hpi.2]
        have hedge : le (elemAt q (((j - 1) / 2 - 1) / 2)) (elemAt q ((j - 1) / 2)) :=
          hpre _ (by omega) hi0 (by omega)
        by_cases hcj : c = j
        · rw [if_pos hcj]; exact hedge
        · rw [if_neg hcj, if_neg (by omega)]
          have h1 := hpre c hc hc0 hcj
          unfold EdgeOK at h1
          rw [hpc] at h1
          exact C.trans _ _ _ hedge h1

/-! ## `heap.down` on a bare slice -/

theorem heap.child_cases {σ : Type} (I : heap.Interface σ) (h : σ) (i n : Nat)
    (h1 : 2 * i + 1 < n) :
    heap.child I h i n < n ∧ (heap.child I h i n - 1) / 2 = i ∧ i < heap.child I h i n := by
  unfold heap.child
  split <;> omega

theorem pure_downLoop_length (lt : Ptr → Ptr → Bool) (f : Nat) (q : List Ptr) (i n : Nat) :
    (heap.downLoop (PureQ lt) f q i n).1.length = q.length := by
  induction f generalizing q i with
  | zero => rfl
  | succ f ih =>
    simp only [heap.downLoop]
    split
    · rfl
    · split
      · rfl
      · rw [ih]; exact length_swapSlice q _ _

theorem pure_downLoop_ge (lt : Ptr → Ptr → Bool) (f : Nat) (q : List Ptr) (i n : Nat) :
    i ≤ (heap.downLoop (PureQ lt) f q i n).2 := by
  induction f generalizing q i with
  | zero => exact Nat.le_refl _
  | succ f ih =>
    simp only [heap.downLoop]
    split
    · exact Nat.le_refl _
    · split
      · exact Nat.le_refl _
      · have := heap.child_cases (PureQ lt) q i n (by omega)
        exact Nat.le_trans (by omega) (ih _ _)

theorem pure_downLoop_perm (lt : Ptr → Ptr → Bool) (f : Nat) (q : List Ptr) (i n : Nat)
    (hn : n ≤ q.length) : (heap.downLoop (PureQ lt) f q i n).1.Perm q := by
  induction f generalizing q i with
  | zero => exact List.Perm.refl _
  | succ f ih =>
    simp only [heap.downLoop]
    split
    · exact List.Perm.refl _
    · rename_i h1
      split
      · exact List.Perm.refl _
      · have hi : i < q.length := by omega
        have hj : (heap.child (PureQ lt) q i n) < q.length := by
          have := heap.child_cases (PureQ lt) q i n (by omega)
          omega
        refine (ih _ _ ?_).trans (swapSlice_perm hi hj)
        show n ≤ (swapSlice q _ _).length
        rw [length_swapSlice]; exact hn

theorem pure_downLoop_elemAt_ge (lt : Ptr → Ptr → Bool) (f : Nat) (q : List Ptr) (i n : Nat)
    (hn : n ≤ q.length) (k : Nat) (hk : n ≤ k) :
    elemAt (heap.downLoop (PureQ lt) f q i n).1 k = elemAt q k := by
  induction f generalizing q i with
  | zero => rfl
  | succ f ih =>
    simp only [heap.downLoop]
    split
    · rfl
    · rename_i h1
      split
      · rfl
      · have hi : i < q.length := by omega
        have hj : (heap.child (PureQ lt) q i n) < n :=
          (heap.child_cases (PureQ lt) q i n (by omega)).1
        rw [ih _ _ (by show n ≤ (swapSlice q _ _).length; rw [length_swapSlice]; exact hn)]
        show elemAt (swapSlice q _ _) k = _
        rw [elemAt_swapSlice hi (by omega), if_neg (by omega), if_neg (by omega)]

/-- The child `heap.down` compares the parent with may stand above its sibling. -/
theorem pure_child_le {lt : Ptr → Ptr → Bool} {le : Ptr → Ptr → Prop} (C : Compat lt le)
    (q : List Ptr) (i n : Nat) (c : Nat) (hc : c < n) (hc0 : 0 < c) (hpc : (c - 1) / 2 = i) :
    le (elemAt q (heap.child (PureQ lt) q i n)) (elemAt q c) := by
  have hcc : c = 2 * i + 1 ∨ c = 2 * i + 1 + 1 := by omega
  unfold heap.child
  split
  · rename_i h
    rcases hcc with h1 | h1
    · subst h1; exact C.of_lt _ _ h.2
    · rw [h1]; exact C.refl _
  · rename_i h
    rcases hcc with h1 | h1
    · rw [h1]; exact C.refl _
    · have h2 : lt (elemAt q (2 * i + 1 + 1)) (elemAt q (2 * i + 1)) = false := by
        by_contra h3
        exact h ⟨by omega, by simpa using h3⟩
      rw [h1]; exact C.of_not_lt _ _ h2

/-- One iteration of `heap.down` that swaps re-establishes, one level down, what
the loop needs. -/
theorem pure_down_step {lt : Ptr → Ptr → Bool} {le : Ptr → Ptr → Prop} (C : Compat lt le)
    (q : List Ptr) (i n lo j : Nat) (hn : n ≤ q.length) (h1 : 2 * i + 1 < n)
    (hj : j = heap.child (PureQ lt) q i n)
    (hlt : lt (elemAt q j) (elemAt q i) = true)
    (ho : OthersOK le q n lo i) (hgp : GrandOK le q n lo i) :
    OthersOK le (swapSlice q i j) n lo j ∧ InOK le (swapSlice q i j) lo j ∧
      GrandOK le (swapSlice q i j) n lo j := by
  have hcs := heap.child_cases (PureQ lt) q i n h1
  rw [← hj] at hcs
  have hjn : j < n := hcs.1
  have hji : (j - 1) / 2 = i := hcs.2.1
  have hj0 : 0 < j := by omega
  have hiq : i < q.length := by omega
  have hjq : j < q.length := by omega
  have hij : i ≠ j := by omega
  have hle : le (elemAt q j) (elemAt q i) := C.of_lt _ _ hlt
  have hch : ∀ c, c < n → 0 < c → (c - 1) / 2 = i → le (elemAt q j) (elemAt q c) := by
    intro c hc hc0 hpc
    have := pure_child_le C q i n c hc hc0 hpc
    rw [← hj] at this; exact this
  refine ⟨?_, ?_, ?_⟩
  · intro c hc hc0 hlo hpc hcj
    unfold EdgeOK
    rw [elemAt_swapSlice hiq hjq, elemAt_swapSlice hiq hjq, if_neg hpc, if_neg hcj]
    by_cases hci : c = i
    · rw [if_pos hci, if_neg (by omega)]
      have hi0 : 0 < i := by omega
      have := hgp hi0 (by rw [← hci]; exact hlo) j hjn hj0 hji
      rw [hci]; exact this
    · rw [if_neg hci]
      by_cases hp : (c - 1) / 2 = i
      · rw [if_pos hp]; exact hch c hc hc0 hp
      · rw [if_neg hp]; exact ho c hc hc0 hlo hp hci
  · intro _ _
    unfold EdgeOK
    rw [elemAt_swapSlice hiq hjq, elemAt_swapSlice hiq hjq, hji]
    simp only [if_true, if_neg hij]
    exact hle
  · intro _ _ c hc hc0 hpc
    rw [elemAt_swapSlice hiq hjq, elemAt_swapSlice hiq hjq, hji]
    simp only [if_true, if_neg hij]
    rw [if_neg (by omega), if_neg (by omega)]
    have := ho c hc hc0 (by omega) (by omega) (by omega)
    unfold EdgeOK at this
    rw [hpc] at this; exact this

theorem orderedFrom_of_parts {le : Ptr → Ptr → Prop} {q : List Ptr} {n lo i : Nat}
    (ho : OthersOK le q n lo i) (hin : InOK le q lo i) (hout : OutOK le q n i) :
    OrderedFrom le q n lo := by
  intro j hj hj0 hlo
  by_cases h1 : (j - 1) / 2 = i
  · exact hout j hj hj0 h1
  · by_cases h2 : j = i
    · subst h2; exact hin hj0 hlo
    · exact ho j hj hj0 hlo h1 h2

/-- An iteration of `heap.down` that stops leaves the children below their parent. -/
theorem pure_down_stop {lt : Ptr → Ptr → Bool} {le : Ptr → Ptr → Prop} (C : Compat lt le)
    (q : List Ptr) (i n : Nat)
    (hstop : (PureQ lt).Less q (heap.child (PureQ lt) q i n) i
        = false) :
    OutOK le q n i := by
  intro c hc hc0 hpc
  unfold EdgeOK
  rw [hpc]
  exact C.trans _ _ _ (C.of_not_lt _ _ hstop) (pure_child_le C q i n c hc hc0 hpc)

theorem pure_downLoop_ordered {lt : Ptr → Ptr → Bool} {le : Ptr → Ptr → Prop} (C : Compat lt le)
    (f : Nat) (q : List Ptr) (i n lo : Nat) (hn : n ≤ q.length) (hlo : lo ≤ i) (hf : n ≤ f + i)
    (ho : OthersOK le q n lo i) (hin : InOK le q lo i) (hgp : GrandOK le q n lo i) :
    OrderedFrom le (heap.downLoop (PureQ lt) f q i n).1 n lo := by
  induction f generalizing q i with
  | zero =>
    refine orderedFrom_of_parts ho hin ?_
    intro c hc hc0 hpc; omega
  | succ f ih =>
    simp only [heap.downLoop]
    split
    · refine orderedFrom_of_parts ho hin ?_
      intro c hc hc0 hpc; omega
    · rename_i h1
      split
      · rename_i hstop
        exact orderedFrom_of_parts ho hin (pure_down_stop C q i n hstop)
      · rename_i hgo
        have hlt : lt (elemAt q (heap.child (PureQ lt) q i n)) (elemAt q i) = true := by
          simpa using hgo
        obtain ⟨a, b, c⟩ := pure_down_step C q i n lo _ hn (by omega) rfl hlt ho hgp
        have hcs := heap.child_cases (PureQ lt) q i n (by omega)
        exact ih _ _ (by show n ≤ (swapSlice q _ _).length; rw [length_swapSlice]; exact hn)
          (by omega) (by omega) a b c

/-- The function `heap.down` from a position whose own edge may be out of order:
either nothing moves and the children are in order, or the whole slice is. -/
theorem pure_downLoop_weak {lt : Ptr → Ptr → Bool} {le : Ptr → Ptr → Prop} (C : Compat lt le)
    (f : Nat) (q : List Ptr) (i n : Nat) (hn : n ≤ q.length) (hf : n ≤ f + i)
    (ho : OthersOK le q n 0 i) (hgp : GrandOK le q n 0 i) :
    ((heap.downLoop (PureQ lt) f q i n).2 ≤ i ∧ (heap.downLoop (PureQ lt) f q i n).1 = q ∧
        OutOK le q n i) ∨
      (i < (heap.downLoop (PureQ lt) f q i n).2 ∧
        OrderedFrom le (heap.downLoop (PureQ lt) f q i n).1 n 0) := by
  cases f with
  | zero =>
    left
    refine ⟨Nat.le_refl _, rfl, ?_⟩
    intro c hc hc0 hpc; omega
  | succ f =>
    simp only [heap.downLoop]
    split
    · left
      refine ⟨Nat.le_refl _, rfl, ?_⟩
      intro c hc hc0 hpc; omega
    · rename_i h1
      split
      · rename_i hstop
        left
        exact ⟨Nat.le_refl _, rfl, pure_down_stop C q i n hstop⟩
      · rename_i hgo
        right
        have hlt : lt (elemAt q (heap.child (PureQ lt) q i n)) (elemAt q i) = true := by
          simpa using hgo
        obtain ⟨a, b, c⟩ := pure_down_step C q i n 0 _ hn (by omega) rfl hlt ho hgp
        have hcs := heap.child_cases (PureQ lt) q i n (by omega)
        constructor
        · exact Nat.lt_of_lt_of_le hcs.2.2 (pure_downLoop_ge lt f _ _ n)
        · exact pure_downLoop_ordered C f _ _ n 0
            (by show n ≤ (swapSlice q _ _).length; rw [length_swapSlice]; exact hn)
            (Nat.zero_le _) (by omega) a b c

theorem pure_upLoop_elemAt_gt (lt : Ptr → Ptr → Bool) (f : Nat) (q : List Ptr) (j : Nat)
    (hj : j < q.length) (k : Nat) (hk : j < k) :
    elemAt (heap.upLoop (PureQ lt) f q j) k = elemAt q k := by
  induction f generalizing q j with
  | zero => rfl
  | succ f ih =>
    simp only [heap.upLoop]
    split
    · rfl
    · have hi : (j - 1) / 2 < q.length := by omega
      rw [ih _ _ (by show (j - 1) / 2 < (swapSlice q _ _).length; rw [length_swapSlice]; exact hi)
        (by omega)]
      show elemAt (swapSlice q _ _) k = _
      rw [elemAt_swapSlice hi hj, if_neg (by omega), if_neg (by omega)]

/-! ## `heap.Init`, `heap.Push`, `heap.Pop` and `heap.Remove` on a bare slice -/

@[simp] theorem PureQ_Len (lt : Ptr → Ptr → Bool) (q : List Ptr) :
    (PureQ lt).Len q = q.length := rfl

@[simp] theorem PureQ_Less (lt : Ptr → Ptr → Bool) (q : List Ptr) (i j : Nat) :
    (PureQ lt).Less q i j = lt (elemAt q i) (elemAt q j) := rfl

@[simp] theorem PureQ_Swap (lt : Ptr → Ptr → Bool) (q : List Ptr) (i j : Nat) :
    (PureQ lt).Swap q i j = swapSlice q i j := rfl

@[simp] theorem PureQ_Push (lt : Ptr → Ptr → Bool) (q : List Ptr) (x : Ptr) :
    (PureQ lt).Push q x = q ++ [x] := rfl

@[simp] theorem PureQ_Pop (lt : Ptr → Ptr → Bool) (q : List Ptr) :
    (PureQ lt).Pop q = (q.take (q.length - 1), elemAt q (q.length - 1)) := rfl

theorem pure_down_length (lt : Ptr → Ptr → Bool) (q : List Ptr) (i n : Nat) :
    (heap.down (PureQ lt) q i n).1.length = q.length :=
  pure_downLoop_length lt _ q i n

theorem pure_down_perm (lt : Ptr → Ptr → Bool) (q : List Ptr) (i n : Nat) (hn : n ≤ q.length) :
    (heap.down (PureQ lt) q i n).1.Perm q :=
  pure_downLoop_perm lt _ q i n hn

theorem pure_initLoop (lt : Ptr → Ptr → Bool) (n k : Nat) (q : List Ptr) (hn : n = q.length) :
    ((List.range k).reverse.foldl (fun s i => (heap.down (PureQ lt) s i n).1) q).length = n ∧
      ((List.range k).reverse.foldl (fun s i => (heap.down (PureQ lt) s i n).1) q).Perm q := by
  induction k generalizing q with
  | zero => exact ⟨hn.symm, List.Perm.refl _⟩
  | succ k ih =>
    rw [List.range_succ, List.reverse_append, List.reverse_singleton, List.singleton_append,
      List.foldl_cons]
    have h1 : n = (heap.down (PureQ lt) q k n).1.length := by rw [pure_down_length]; exact hn
    obtain ⟨a, b⟩ := ih _ h1
    exact ⟨a, b.trans (pure_down_perm lt q k n (by omega))⟩

theorem pure_initLoop_ordered {lt : Ptr → Ptr → Bool} {le : Ptr → Ptr → Prop} (C : Compat lt le)
    (n k : Nat) (q : List Ptr) (hn : n = q.length) (ho : OrderedFrom le q n k) :
    OrderedFrom le ((List.range k).reverse.foldl (fun s i => (heap.down (PureQ lt) s i n).1) q)
      n 0 := by
  induction k generalizing q with
  | zero => exact ho
  | succ k ih =>
    rw [List.range_succ, List.reverse_append, List.reverse_singleton, List.singleton_append,
      List.foldl_cons]
    have h1 : n = (heap.down (PureQ lt) q k n).1.length := by rw [pure_down_length]; exact hn
    refine ih _ h1 ?_
    refine pure_downLoop_ordered C (n + 1) q k n k (by omega) (Nat.le_refl _) (by omega) ?_ ?_ ?_
    · intro j hj hj0 hlo hp _
      exact ho j hj hj0 (by omega)
    · intro h0 hlo; omega
    · intro h0 hlo; omega

theorem pure_Init_length (lt : Ptr → Ptr → Bool) (q : List Ptr) :
    (heap.Init (PureQ lt) q).length = q.length :=
  (pure_initLoop lt q.length _ q rfl).1

theorem pure_Init_perm (lt : Ptr → Ptr → Bool) (q : List Ptr) :
    (heap.Init (PureQ lt) q).Perm q :=
  (pure_initLoop lt q.length _ q rfl).2

theorem pure_Init_ordered {lt : Ptr → Ptr → Bool} {le : Ptr → Ptr → Prop} (C : Compat lt le)
    (q : List Ptr) : OrderedFrom le (heap.Init (PureQ lt) q) q.length 0 := by
  refine pure_initLoop_ordered C q.length _ q rfl ?_
  intro j hj hj0 hlo
  simp only [PureQ_Len] at hlo
  omega

theorem elemAt_append_left {q : List Ptr} {k : Nat} (x : Ptr) (hk : k < q.length) :
    elemAt (q ++ [x]) k = elemAt q k := by
  simp [elemAt, List.getD_eq_getElem?_getD, List.getElem?_append_left hk]

theorem elemAt_append_length (q : List Ptr) (x : Ptr) : elemAt (q ++ [x]) q.length = x := by
  simp [elemAt, List.getD_eq_getElem?_getD]

theorem pure_Push_length (lt : Ptr → Ptr → Bool) (q : List Ptr) (x : Ptr) :
    (heap.Push (PureQ lt) q x).length = q.length + 1 := by
  unfold heap.Push heap.up
  rw [pure_upLoop_length]
  show (q ++ [x]).length = _
  simp

theorem pure_Push_perm (lt : Ptr → Ptr → Bool) (q : List Ptr) (x : Ptr) :
    (heap.Push (PureQ lt) q x).Perm (x :: q) := by
  unfold heap.Push heap.up
  refine (pure_upLoop_perm lt _ _ _ ?_).trans ?_
  · show (q ++ [x]).length - 1 < (q ++ [x]).length
    simp
  · show (q ++ [x]).Perm (x :: q)
    exact List.perm_append_singleton x q

theorem pure_Push_ordered {lt : Ptr → Ptr → Bool} {le : Ptr → Ptr → Prop} (C : Compat lt le)
    (q : List Ptr) (x : Ptr) (ho : OrderedFrom le q q.length 0) :
    OrderedFrom le (heap.Push (PureQ lt) q x) (q.length + 1) 0 := by
  unfold heap.Push heap.up
  simp only [PureQ_Len, PureQ_Push, List.length_append, List.length_singleton,
    Nat.add_sub_cancel]
  refine pure_upLoop_ordered C _ _ _ _ (by simp) (by omega) (by omega) ?_ ?_
  · intro c hc hc0 hne
    have hc' : c < q.length := by omega
    unfold EdgeOK
    rw [elemAt_append_left x hc', elemAt_append_left x (by omega)]
    exact ho c hc' hc0 (Nat.zero_le _)
  · intro h0 _ c hc hc0 hpc
    omega

theorem elemAt_take {q : List Ptr} {n k : Nat} (hk : k < n) :
    elemAt (q.take n) k = elemAt q k := by
  simp [elemAt, List.getD_eq_getElem?_getD, List.getElem?_take, hk]

theorem take_perm_last (q : List Ptr) (h : 0 < q.length) :
    (elemAt q (q.length - 1) :: q.take (q.length - 1)).Perm q := by
  have h1 : q = q.take (q.length - 1) ++ [elemAt q (q.length - 1)] := by
    rw [elemAt_of_lt (by omega)]
    conv_lhs => rw [← List.take_append_drop (q.length - 1) q]
    congr 1
    rw [List.drop_eq_getElem_cons (by omega)]
    have : q.length - 1 + 1 = q.length := by omega
    simp [this]
  conv_rhs => rw [h1]
  exact (List.perm_append_singleton _ _).symm

theorem orderedFrom_take {le : Ptr → Ptr → Prop} {q : List Ptr} {n : Nat}
    (ho : OrderedFrom le q n 0) : OrderedFrom le (q.take n) n 0 := by
  intro j hj hj0 hlo
  unfold EdgeOK
  rw [elemAt_take hj, elemAt_take (by omega)]
  exact ho j hj hj0 hlo

theorem pure_Pop_fst (lt : Ptr → Ptr → Bool) (q : List Ptr) :
    (heap.Pop (PureQ lt) q).1 =
      (heap.down (PureQ lt) (swapSlice q 0 (q.length - 1)) 0 (q.length - 1)).1.take
        (q.length - 1) := by
  unfold heap.Pop
  simp only [PureQ_Len, PureQ_Swap, PureQ_Pop, pure_down_length, length_swapSlice]

theorem pure_Pop_snd (lt : Ptr → Ptr → Bool) (q : List Ptr) (h : 0 < q.length) :
    (heap.Pop (PureQ lt) q).2 = elemAt q 0 := by
  unfold heap.Pop
  simp only [PureQ_Len, PureQ_Swap, PureQ_Pop, pure_down_length, length_swapSlice]
  unfold heap.down
  simp only []
  rw [pure_downLoop_elemAt_ge lt _ _ _ _ (by simp) _ (Nat.le_refl _),
    elemAt_swapSlice (by omega) (by omega)]
  simp

theorem pure_Pop_length (lt : Ptr → Ptr → Bool) (q : List Ptr) :
    (heap.Pop (PureQ lt) q).1.length = q.length - 1 := by
  rw [pure_Pop_fst, List.length_take, pure_down_length, length_swapSlice]
  omega

theorem pure_Pop_perm (lt : Ptr → Ptr → Bool) (q : List Ptr) (h : 0 < q.length) :
    ((heap.Pop (PureQ lt) q).2 :: (heap.Pop (PureQ lt) q).1).Perm q := by
  have hl : (heap.down (PureQ lt) (swapSlice q 0 (q.length - 1)) 0 (q.length - 1)).1.length
      = q.length := by rw [pure_down_length, length_swapSlice]
  have h1 := take_perm_last
    (heap.down (PureQ lt) (swapSlice q 0 (q.length - 1)) 0 (q.length - 1)).1 (by omega)
  rw [hl] at h1
  have h2 : (heap.Pop (PureQ lt) q).2 =
      elemAt (heap.down (PureQ lt) (swapSlice q 0 (q.length - 1)) 0 (q.length - 1)).1
        (q.length - 1) := by
    unfold heap.Pop
    simp only [PureQ_Len, PureQ_Swap, PureQ_Pop, pure_down_length, length_swapSlice]
  rw [h2, pure_Pop_fst]
  exact h1.trans ((pure_down_perm lt _ _ _ (by simp)).trans
    (swapSlice_perm (by omega) (by omega)))

theorem pure_Pop_ordered {lt : Ptr → Ptr → Bool} {le : Ptr → Ptr → Prop} (C : Compat lt le)
    (q : List Ptr) (ho : OrderedFrom le q q.length 0) :
    OrderedFrom le (heap.Pop (PureQ lt) q).1 (q.length - 1) 0 := by
  rw [pure_Pop_fst]
  apply orderedFrom_take
  by_cases h : q.length = 0
  · intro j hj; omega
  have hq : 0 < q.length := by omega
  refine pure_downLoop_ordered C _ _ 0 _ 0 (by simp) (Nat.le_refl _) (by omega) ?_ ?_ ?_
  · intro j hj hj0 _ hp hj1
    unfold EdgeOK
    have hl : q.length - 1 < q.length := by omega
    have e1 : ¬ j = q.length - 1 := by omega
    have e2 : ¬ (j - 1) / 2 = q.length - 1 := by omega
    simp only [elemAt_swapSlice hq hl, if_neg e1, if_neg e2, if_neg hj1, if_neg hp]
    exact ho j (by omega) hj0 (Nat.zero_le _)
  · intro h0; omega
  · intro h0; omega

theorem pure_up_length (lt : Ptr → Ptr → Bool) (q : List Ptr) (j : Nat) :
    (heap.up (PureQ lt) q j).length = q.length :=
  pure_upLoop_length lt _ q j

theorem pure_removeFix_length (lt : Ptr → Ptr → Bool) (q : List Ptr) (i : Nat) :
    (heap.removeFix (PureQ lt) q i).length = q.length := by
  unfold heap.removeFix
  simp only [PureQ_Len, PureQ_Swap]
  split
  · split
    · rw [pure_up_length, pure_down_length, length_swapSlice]
    · rw [pure_down_length, length_swapSlice]
  · rfl

theorem pure_removeFix_perm (lt : Ptr → Ptr → Bool) (q : List Ptr) (i : Nat)
    (hi : i < q.length) : (heap.removeFix (PureQ lt) q i).Perm q := by
  unfold heap.removeFix
  simp only [PureQ_Len, PureQ_Swap]
  have hs : (swapSlice q i (q.length - 1)).Perm q := swapSlice_perm hi (by omega)
  have hd := pure_down_perm lt (swapSlice q i (q.length - 1)) i (q.length - 1) (by simp)
  split
  · split
    · refine (pure_upLoop_perm lt _ _ _ ?_).trans (hd.trans hs)
      rw [pure_down_length, length_swapSlice]; exact hi
    · exact hd.trans hs
  · exact List.Perm.refl _

theorem pure_removeFix_last (lt : Ptr → Ptr → Bool) (q : List Ptr) (i : Nat)
    (hi : i < q.length) :
    elemAt (heap.removeFix (PureQ lt) q i) (q.length - 1) = elemAt q i := by
  unfold heap.removeFix
  simp only [PureQ_Len, PureQ_Swap]
  have hl : q.length - 1 < q.length := by omega
  have hd : elemAt (heap.down (PureQ lt) (swapSlice q i (q.length - 1)) i (q.length - 1)).1
      (q.length - 1) = elemAt q i := by
    unfold heap.down
    simp only []
    rw [pure_downLoop_elemAt_ge lt _ _ _ _ (by simp) _ (Nat.le_refl _), elemAt_swapSlice hi hl]
    simp
  split
  · rename_i hne
    split
    · unfold heap.up
      rw [pure_upLoop_elemAt_gt lt _ _ _ (by rw [pure_down_length, length_swapSlice]; exact hi)
        _ (by omega)]
      exact hd
    · exact hd
  · rename_i he
    have : q.length - 1 = i := by omega
    rw [this]

theorem pure_removeFix_ordered {lt : Ptr → Ptr → Bool} {le : Ptr → Ptr → Prop}
    (C : Compat lt le) (q : List Ptr) (i : Nat) (hi : i < q.length)
    (ho : OrderedFrom le q q.length 0) :
    OrderedFrom le (heap.removeFix (PureQ lt) q i) (q.length - 1) 0 := by
  unfold heap.removeFix
  simp only [PureQ_Len, PureQ_Swap]
  have hl : q.length - 1 < q.length := by omega
  split
  · rename_i hne
    have hin : i < q.length - 1 := by omega
    have ho' : OthersOK le (swapSlice q i (q.length - 1)) (q.length - 1) 0 i := by
      intro c hc hc0 _ hp hci
      unfold EdgeOK
      have e1 : ¬ c = q.length - 1 := by omega
      have e2 : ¬ (c - 1) / 2 = q.length - 1 := by omega
      simp only [elemAt_swapSlice hi hl, if_neg e1, if_neg e2, if_neg hci, if_neg hp]
      exact ho c (by omega) hc0 (Nat.zero_le _)
    have hgp : GrandOK le (swapSlice q i (q.length - 1)) (q.length - 1) 0 i := by
      intro hi0 _ c hc hc0 hp
      have e1 : ¬ c = q.length - 1 := by omega
      have e2 : ¬ (i - 1) / 2 = q.length - 1 := by omega
      have e3 : ¬ c = i := by omega
      have e4 : ¬ (i - 1) / 2 = i := by omega
      simp only [elemAt_swapSlice hi hl, if_neg e1, if_neg e2, if_neg e3, if_neg e4]
      have h1 := ho i hi hi0 (Nat.zero_le _)
      have h2 := ho c (by omega) hc0 (Nat.zero_le _)
      unfold EdgeOK at h1 h2
      rw [hp] at h2
      exact C.trans _ _ _ h1 h2
    have hw := pure_downLoop_weak C (q.length - 1 + 1) (swapSlice q i (q.length - 1)) i
      (q.length - 1) (by simp) (by omega) ho' hgp
    unfold heap.down
    simp only []
    rcases hw with ⟨h1, h2, h3⟩ | ⟨h1, h2⟩
    · have hst : decide (i < (heap.downLoop (PureQ lt) (q.length - 1 + 1)
          (swapSlice q i (q.length - 1)) i (q.length - 1)).2) = false := by
        simp; exact h1
      rw [if_pos hst, h2]
      unfold heap.up
      refine pure_upLoop_ordered C _ _ _ _ (by simp) hin (by omega) ?_ hgp
      intro c hc hc0 hci
      by_cases hp : (c - 1) / 2 = i
      · exact h3 c hc hc0 hp
      · exact ho' c hc hc0 (Nat.zero_le _) hp hci
    · have hst : ¬ decide (i < (heap.downLoop (PureQ lt) (q.length - 1 + 1)
          (swapSlice q i (q.length - 1)) i (q.length - 1)).2) = false := by
        simp; exact h1
      rw [if_neg hst]
      exact h2
  · intro j hj hj0 hlo
    exact ho j (by omega) hj0 hlo

theorem pure_Remove_eq (lt : Ptr → Ptr → Bool) (q : List Ptr) (i : Nat) :
    heap.Remove (PureQ lt) q i =
      ((heap.removeFix (PureQ lt) q i).take (q.length - 1),
        elemAt (heap.removeFix (PureQ lt) q i) (q.length - 1)) := by
  unfold heap.Remove
  rw [PureQ_Pop, pure_removeFix_length]

theorem pure_Remove_snd (lt : Ptr → Ptr → Bool) (q : List Ptr) (i : Nat) (hi : i < q.length) :
    (heap.Remove (PureQ lt) q i).2 = elemAt q i := by
  rw [pure_Remove_eq]; exact pure_removeFix_last lt q i hi

theorem pure_Remove_length (lt : Ptr → Ptr → Bool) (q : List Ptr) (i : Nat) :
    (heap.Remove (PureQ lt) q i).1.length = q.length - 1 := by
  rw [pure_Remove_eq]
  simp only [List.length_take, pure_removeFix_length]
  omega

theorem pure_Remove_perm (lt : Ptr → Ptr → Bool) (q : List Ptr) (i : Nat) (hi : i < q.length) :
    ((heap.Remove (PureQ lt) q i).2 :: (heap.Remove (PureQ lt) q i).1).Perm q := by
  rw [pure_Remove_eq]
  have h1 := take_perm_last (heap.removeFix (PureQ lt) q i)
    (by rw [pure_removeFix_length]; omega)
  rw [pure_removeFix_length] at h1
  exact h1.trans (pure_removeFix_perm lt q i hi)

theorem pure_Remove_ordered {lt : Ptr → Ptr → Bool} {le : Ptr → Ptr → Prop} (C : Compat lt le)
    (q : List Ptr) (i : Nat) (hi : i < q.length) (ho : OrderedFrom le q q.length 0) :
    OrderedFrom le (heap.Remove (PureQ lt) q i).1 (q.length - 1) 0 := by
  rw [pure_Remove_eq]
  exact orderedFrom_take (pure_removeFix_ordered C q i hi ho)

/-- The root of an ordered slice may stand above every element. -/
theorem root_le {le : Ptr → Ptr → Prop} (hrefl : ∀ a, le a a)
    (htrans : ∀ a b c, le a b → le b c → le a c) (q : List Ptr)
    (ho : OrderedFrom le q q.length 0) (j : Nat) (hj : j < q.length) :
    le (elemAt q 0) (elemAt q j) := by
  induction j using Nat.strong_induction_on with
  | _ j ih =>
    by_cases h0 : j = 0
    · subst h0; exact hrefl _
    · have h1 := ih ((j - 1) / 2) (by omega) (by omega)
      have h2 := ho j hj (by omega) (Nat.zero_le _)
      exact htrans _ _ _ h1 h2

/-! ## The queues of `pool.go` against bare slices -/

@[simp] theorem Queue_Len (k : Kind) (h : Heap) : (Queue k).Len h = h.q.length := by
  cases k <;> rfl

theorem Queue_Less (k : Kind) (h : Heap) (i j : Nat) :
    (Queue k).Less h i j = ltOf k h.mem (elemAt h.q i) (elemAt h.q j) := by
  cases k <;> rfl

theorem Queue_Swap (k : Kind) (h : Heap) (i j : Nat) :
    (Queue k).Swap h i j =
      ⟨Function.update
          (Function.update h.mem (elemAt (swapSlice h.q i j) i)
            (setIdx k (h.mem (elemAt (swapSlice h.q i j) i)) (i : Int)))
          (elemAt (swapSlice h.q i j) j)
          (setIdx k
            ((Function.update h.mem (elemAt (swapSlice h.q i j) i)
              (setIdx k (h.mem (elemAt (swapSlice h.q i j) i)) (i : Int)))
              (elemAt (swapSlice h.q i j) j)) (j : Int)),
        swapSlice h.q i j⟩ := by
  cases k <;> rfl

theorem Queue_Push (k : Kind) (h : Heap) (x : Ptr) :
    (Queue k).Push h x =
      ⟨Function.update h.mem x (setIdx k (h.mem x) (h.q.length : Int)), h.q ++ [x]⟩ := by
  cases k <;> rfl

theorem Queue_Pop (k : Kind) (h : Heap) :
    (Queue k).Pop h =
      (⟨Function.update h.mem (elemAt h.q (h.q.length - 1))
          { setIdx k (h.mem (elemAt h.q (h.q.length - 1))) (-1) with currentSubPool := 0 },
        h.q.take (h.q.length - 1)⟩, elemAt h.q (h.q.length - 1)) := by
  cases k <;> rfl

@[simp] theorem core_setIdx (k : Kind) (mt : metaTx) (v : Int) :
    core (setIdx k mt v) = core mt := by
  cases k <;> rfl

@[simp] theorem idx_setIdx (k : Kind) (mt : metaTx) (v : Int) : idx k (setIdx k mt v) = v := by
  cases k <;> rfl

@[simp] theorem idx_other_setIdx (k : Kind) (mt : metaTx) (v : Int) :
    idx k.other (setIdx k mt v) = idx k.other mt := by
  cases k <;> rfl

theorem Less_core {a a' b b' : metaTx} (ha : core a' = core a) (hb : core b' = core b) :
    a'.Less b' = a.Less b := by
  simp only [core, Prod.mk.injEq] at ha hb
  obtain ⟨a1, a2, a3⟩ := ha
  obtain ⟨b1, b2, b3⟩ := hb
  simp only [metaTx.Less, a1, a2, a3, b1, b2, b3]

theorem qless_core (k : Kind) {a a' b b' : metaTx} (ha : core a' = core a)
    (hb : core b' = core b) : qless k a' b' = qless k a b := by
  cases k <;> simp only [qless, Less_core ha hb]

theorem above_core (k : Kind) {a a' b b' : metaTx} (ha : core a' = core a)
    (hb : core b' = core b) : above k a' b' = above k a b := by
  cases k
  · simp only [above, Less_core ha hb]
  · simp only [above, Less_core hb ha]

/-! ### Steps of the memory -/

theorem MemStep.stepRefl (k : Kind) (S : List Ptr) (m : Mem) : MemStep k S m m :=
  fun _ => ⟨rfl, rfl, fun _ => rfl⟩

theorem MemStep.stepTrans {k : Kind} {S : List Ptr} {m1 m2 m3 : Mem} (h1 : MemStep k S m1 m2)
    (h2 : MemStep k S m2 m3) : MemStep k S m1 m3 := by
  intro p
  obtain ⟨a1, b1, c1⟩ := h1 p
  obtain ⟨a2, b2, c2⟩ := h2 p
  exact ⟨a2.trans a1, b2.trans b1, fun hp => (c2 hp).trans (c1 hp)⟩

theorem MemStep.stepMono {k : Kind} {S T : List Ptr} {m1 m2 : Mem} (h : MemStep k S m1 m2)
    (hST : ∀ x ∈ S, x ∈ T) : MemStep k T m1 m2 := by
  intro p
  obtain ⟨a, b, c⟩ := h p
  exact ⟨a, b, fun hp => c (fun hs => hp (hST p hs))⟩

theorem MemStep.update {k : Kind} {S : List Ptr} {m : Mem} {x : Ptr} {v : metaTx}
    (hx : x ∈ S) (hc : core v = core (m x)) (hi : idx k.other v = idx k.other (m x)) :
    MemStep k S m (Function.update m x v) := by
  intro p
  by_cases hp : p = x
  · subst hp
    rw [Function.update_same]
    exact ⟨hc, hi, fun h => absurd hx h⟩
  · rw [Function.update_noteq hp]
    exact ⟨rfl, rfl, fun _ => rfl⟩

theorem MemStep.ltOf {k k' : Kind} {S : List Ptr} {m m' : Mem} (h : MemStep k S m m') :
    ltOf k' m' = ltOf k' m := by
  funext a b
  exact qless_core k' (h a).1 (h b).1

theorem MemStep.stepSubPool {k : Kind} {S : List Ptr} {m m' : Mem} (h : MemStep k S m m')
    (p : Ptr) : (m' p).subPool = (m p).subPool := by
  have := (h p).1
  simp only [core, Prod.mk.injEq] at this
  exact this.1

/-! ### Back-indices -/

theorem IdxOK.inj {k : Kind} {m : Mem} {q : List Ptr} (h : IdxOK k m q) {i j : Nat}
    (hi : i < q.length) (hj : j < q.length) (e : elemAt q i = elemAt q j) : i = j := by
  have h1 := h i hi
  have h2 := h j hj
  rw [e, h2] at h1
  exact_mod_cast h1.symm

theorem IdxOK.nodup {k : Kind} {m : Mem} {q : List Ptr} (h : IdxOK k m q) : q.Nodup := by
  rw [List.nodup_iff_injective_get]
  intro a b e
  apply Fin.ext
  apply h.inj a.2 b.2
  rw [elemAt_of_lt a.2, elemAt_of_lt b.2]
  simpa using e

/-! ### Tracking a queue by a bare slice -/

theorem Tracks.start {k : Kind} {S : List Ptr} {m : Mem} {q : List Ptr} (hS : ∀ x ∈ q, x ∈ S)
    (hi : IdxOK k m q) : Tracks k S m ⟨m, q⟩ q :=
  ⟨rfl, hS, MemStep.stepRefl k S m, hi⟩

theorem Tracks.less {k : Kind} {S : List Ptr} {m0 : Mem} {r : Heap} {pq : List Ptr}
    (h : Tracks k S m0 r pq) (i j : Nat) :
    (Queue k).Less r i j = ltOf k m0 (elemAt pq i) (elemAt pq j) := by
  obtain ⟨hq, _, hm, _⟩ := h
  rw [Queue_Less, hq, hm.ltOf]

theorem Tracks.swap {k : Kind} {S : List Ptr} {m0 : Mem} {r : Heap} {pq : List Ptr}
    (h : Tracks k S m0 r pq) {i j : Nat} (hi : i < pq.length) (hj : j < pq.length) :
    Tracks k S m0 ((Queue k).Swap r i j) (swapSlice pq i j) := by
  obtain ⟨hq, hS, hm, hidx⟩ := h
  subst hq
  have ha : elemAt (swapSlice r.q i j) i ∈ S :=
    hS _ ((swapSlice_perm hi hj).mem_iff.1 (elemAt_mem (by simpa using hi)))
  have hb : elemAt (swapSlice r.q i j) j ∈ S :=
    hS _ ((swapSlice_perm hi hj).mem_iff.1 (elemAt_mem (by simpa using hj)))
  rw [Queue_Swap]
  refine ⟨rfl, fun x hx => hS x ((swapSlice_perm hi hj).mem_iff.1 hx), ?_, ?_⟩
  · have s1 : MemStep k S r.mem (Function.update r.mem (elemAt (swapSlice r.q i j) i)
        (setIdx k (r.mem (elemAt (swapSlice r.q i j) i)) (i : Int))) :=
      MemStep.update ha (core_setIdx _ _ _) (idx_other_setIdx _ _ _)
    exact hm.stepTrans (s1.stepTrans (MemStep.update hb (core_setIdx _ _ _) (idx_other_setIdx _ _ _)))
  · intro t ht
    have ht' : t < r.q.length := by simpa using ht
    dsimp only
    by_cases h1 : t = j
    · subst h1
      rw [Function.update_same, idx_setIdx]
    · have e1 : elemAt (swapSlice r.q i j) t ≠ elemAt (swapSlice r.q i j) j := by
        rw [elemAt_swapSlice hi hj, elemAt_swapSlice hi hj, if_neg h1]
        simp only [if_true]
        by_cases h2 : t = i
        · rw [if_pos h2]
          intro e
          exact h1 (h2.trans (hidx.inj hj hi e).symm)
        · rw [if_neg h2]
          intro e
          exact h2 (hidx.inj ht' hi e)
      rw [Function.update_noteq e1]
      by_cases h2 : t = i
      · subst h2
        rw [Function.update_same, idx_setIdx]
      · have e2 : elemAt (swapSlice r.q i j) t ≠ elemAt (swapSlice r.q i j) i := by
          rw [elemAt_swapSlice hi hj, elemAt_swapSlice hi hj, if_neg h1, if_neg h2]
          by_cases h3 : i = j
          · rw [if_pos h3]
            intro e
            exact h2 (hidx.inj ht' hi e)
          · rw [if_neg h3]
            simp only [if_true]
            intro e
            exact h1 (hidx.inj ht' hj e)
        rw [Function.update_noteq e2, elemAt_swapSlice hi hj, if_neg h1, if_neg h2]
        exact hidx t ht'

theorem Tracks.push {k : Kind} {S : List Ptr} {m0 : Mem} {r : Heap} {pq : List Ptr}
    (h : Tracks k S m0 r pq) {x : Ptr} (hx : x ∈ S) (hn : x ∉ pq) :
    Tracks k S m0 ((Queue k).Push r x) (pq ++ [x]) := by
  obtain ⟨hq, hS, hm, hidx⟩ := h
  subst hq
  rw [Queue_Push]
  refine ⟨rfl, ?_, ?_, ?_⟩
  · intro y hy
    rcases List.mem_append.1 hy with h1 | h1
    · exact hS y h1
    · rw [List.mem_singleton] at h1; rw [h1]; exact hx
  · exact hm.stepTrans (MemStep.update hx (core_setIdx _ _ _) (idx_other_setIdx _ _ _))
  · intro t ht
    have ht' : t < r.q.length + 1 := by simpa using ht
    dsimp only
    by_cases h1 : t = r.q.length
    · subst h1
      rw [elemAt_append_length, Function.update_same, idx_setIdx]
    · have h2 : t < r.q.length := by omega
      rw [elemAt_append_left x h2]
      have e : elemAt r.q t ≠ x := fun e => hn (e ▸ elemAt_mem h2)
      rw [Function.update_noteq e]
      exact hidx t h2

theorem Tracks.pop {k : Kind} {S : List Ptr} {m0 : Mem} {r : Heap} {pq : List Ptr}
    (h : Tracks k S m0 r pq) (hl : 0 < pq.length) :
    Tracks k S m0 ((Queue k).Pop r).1 (pq.take (pq.length - 1)) ∧
      ((Queue k).Pop r).2 = elemAt pq (pq.length - 1) := by
  obtain ⟨hq, hS, hm, hidx⟩ := h
  subst hq
  rw [Queue_Pop]
  refine ⟨⟨rfl, ?_, ?_, ?_⟩, rfl⟩
  · intro y hy
    exact hS y (List.mem_of_mem_take hy)
  · refine hm.stepTrans (MemStep.update (hS _ (elemAt_mem (by omega))) ?_ ?_)
    · cases k <;> rfl
    · cases k <;> rfl
  · intro t ht
    have ht' : t < r.q.length - 1 := by
      simp only [List.length_take] at ht
      omega
    dsimp only
    rw [elemAt_take ht']
    have e : elemAt r.q t ≠ elemAt r.q (r.q.length - 1) := by
      intro e
      have := hidx.inj (by omega) (by omega) e
      omega
    rw [Function.update_noteq e]
    exact hidx t (by omega)

/-! ### The functions of `container/heap` carry the tracking relation -/

theorem upLoop_rel {σ : Type} (I : heap.Interface σ) (lt : Ptr → Ptr → Bool)
    (R : σ → List Ptr → Prop)
    (hless : ∀ s t i j, R s t → I.Less s i j = lt (elemAt t i) (elemAt t j))
    (hswap : ∀ s t i j, R s t → i < t.length → j < t.length →
      R (I.Swap s i j) (swapSlice t i j))
    (f : Nat) (s : σ) (t : List Ptr) (j : Nat) (hj : j < t.length) (h : R s t) :
    R (heap.upLoop I f s j) (heap.upLoop (PureQ lt) f t j) := by
  induction f generalizing s t j with
  | zero => exact h
  | succ f ih =>
    simp only [heap.upLoop, PureQ_Less, PureQ_Swap, hless s t _ _ h]
    split
    · exact h
    · have hi : (j - 1) / 2 < t.length := by omega
      exact ih _ _ _ (by rw [length_swapSlice]; exact hi) (hswap s t _ _ h hi hj)

theorem child_rel {σ : Type} (I : heap.Interface σ) (lt : Ptr → Ptr → Bool)
    (R : σ → List Ptr → Prop)
    (hless : ∀ s t i j, R s t → I.Less s i j = lt (elemAt t i) (elemAt t j))
    (s : σ) (t : List Ptr) (i n : Nat) (h : R s t) :
    heap.child I s i n = heap.child (PureQ lt) t i n := by
  simp only [heap.child, PureQ_Less, hless s t _ _ h]

theorem downLoop_rel {σ : Type} (I : heap.Interface σ) (lt : Ptr → Ptr → Bool)
    (R : σ → List Ptr → Prop)
    (hless : ∀ s t i j, R s t → I.Less s i j = lt (elemAt t i) (elemAt t j))
    (hswap : ∀ s t i j, R s t → i < t.length → j < t.length →
      R (I.Swap s i j) (swapSlice t i j))
    (f : Nat) (s : σ) (t : List Ptr) (i n : Nat) (hn : n ≤ t.length) (h : R s t) :
    R (heap.downLoop I f s i n).1 (heap.downLoop (PureQ lt) f t i n).1 ∧
      (heap.downLoop I f s i n).2 = (heap.downLoop (PureQ lt) f t i n).2 := by
  induction f generalizing s t i with
  | zero => exact ⟨h, rfl⟩
  | succ f ih =>
    simp only [heap.downLoop, PureQ_Less, PureQ_Swap, hless s t _ _ h,
      child_rel I lt R hless s t i n h]
    split
    · exact ⟨h, rfl⟩
    · rename_i h1
      split
      · exact ⟨h, rfl⟩
      · have hc := heap.child_cases (PureQ lt) t i n (by omega)
        exact ih _ _ _ (by rw [length_swapSlice]; exact hn)
          (hswap s t _ _ h (by omega) (by omega))

theorem down_rel {σ : Type} (I : heap.Interface σ) (lt : Ptr → Ptr → Bool)
    (R : σ → List Ptr → Prop)
    (hless : ∀ s t i j, R s t → I.Less s i j = lt (elemAt t i) (elemAt t j))
    (hswap : ∀ s t i j, R s t → i < t.length → j < t.length →
      R (I.Swap s i j) (swapSlice t i j))
    (s : σ) (t : List Ptr) (i n : Nat) (hn : n ≤ t.length) (h : R s t) :
    R (heap.down I s i n).1 (heap.down (PureQ lt) t i n).1 ∧
      (heap.down I s i n).2 = (heap.down (PureQ lt) t i n).2 := by
  obtain ⟨a, b⟩ := downLoop_rel I lt R hless hswap (n + 1) s t i n hn h
  exact ⟨a, by simp only [heap.down, b]⟩

theorem initLoop_rel {σ : Type} (I : heap.Interface σ) (lt : Ptr → Ptr → Bool)
    (R : σ → List Ptr → Prop)
    (hless : ∀ s t i j, R s t → I.Less s i j = lt (elemAt t i) (elemAt t j))
    (hswap : ∀ s t i j, R s t → i < t.length → j < t.length →
      R (I.Swap s i j) (swapSlice t i j))
    (n : Nat) (l : List Nat) (s : σ) (t : List Ptr) (hn : n = t.length) (h : R s t) :
    R (l.foldl (fun s i => (heap.down I s i n).1) s)
      (l.foldl (fun s i => (heap.down (PureQ lt) s i n).1) t) := by
  induction l generalizing s t with
  | nil => exact h
  | cons a l ih =>
    simp only [List.foldl_cons]
    exact ih _ _ (by rw [pure_down_length]; exact hn)
      (down_rel I lt R hless hswap s t a n (by omega) h).1

section tracked

variable {k : Kind} {S : List Ptr} {m0 : Mem}

theorem Tracks.up {r : Heap} {pq : List Ptr} (h : Tracks k S m0 r pq) (j : Nat)
    (hj : j < pq.length) :
    Tracks k S m0 (heap.up (Queue k) r j) (heap.up (PureQ (ltOf k m0)) pq j) :=
  upLoop_rel (Queue k) (ltOf k m0) (Tracks k S m0) (fun _ _ i j h => h.less i j)
    (fun _ _ _ _ h hi hj => h.swap hi hj) _ r pq j hj h

theorem Tracks.down {r : Heap} {pq : List Ptr} (h : Tracks k S m0 r pq) (i n : Nat)
    (hn : n ≤ pq.length) :
    Tracks k S m0 (heap.down (Queue k) r i n).1 (heap.down (PureQ (ltOf k m0)) pq i n).1 ∧
      (heap.down (Queue k) r i n).2 = (heap.down (PureQ (ltOf k m0)) pq i n).2 :=
  down_rel (Queue k) (ltOf k m0) (Tracks k S m0) (fun _ _ i j h => h.less i j)
    (fun _ _ _ _ h hi hj => h.swap hi hj) r pq i n hn h

theorem Tracks.length {r : Heap} {pq : List Ptr} (h : Tracks k S m0 r pq) :
    r.q.length = pq.length := by rw [h.1]

theorem Tracks.Init {r : Heap} {pq : List Ptr} (h : Tracks k S m0 r pq) :
    Tracks k S m0 (heap.Init (Queue k) r) (heap.Init (PureQ (ltOf k m0)) pq) := by
  unfold heap.Init
  simp only [Queue_Len, PureQ_Len, h.length]
  exact initLoop_rel (Queue k) (ltOf k m0) (Tracks k S m0) (fun _ _ i j h => h.less i j)
    (fun _ _ _ _ h hi hj => h.swap hi hj) _ _ r pq rfl h

theorem Tracks.Push {r : Heap} {pq : List Ptr} (h : Tracks k S m0 r pq) {x : Ptr}
    (hx : x ∈ S) (hn : x ∉ pq) :
    Tracks k S m0 (heap.Push (Queue k) r x) (heap.Push (PureQ (ltOf k m0)) pq x) := by
  unfold heap.Push
  have h1 := h.push hx hn
  simp only [Queue_Len, PureQ_Len, PureQ_Push, h1.length]
  exact h1.up _ (by simp)

theorem Tracks.Pop {r : Heap} {pq : List Ptr} (h : Tracks k S m0 r pq) (hl : 0 < pq.length) :
    Tracks k S m0 (heap.Pop (Queue k) r).1 (heap.Pop (PureQ (ltOf k m0)) pq).1 ∧
      (heap.Pop (Queue k) r).2 = (heap.Pop (PureQ (ltOf k m0)) pq).2 := by
  unfold heap.Pop
  simp only [Queue_Len, PureQ_Len, PureQ_Swap, h.length]
  have h1 := h.swap (i := 0) (j := pq.length - 1) hl (by omega)
  have h2 := (h1.down 0 (pq.length - 1) (by simp)).1
  have h3 := h2.pop (by rw [pure_down_length, length_swapSlice]; exact hl)
  rw [PureQ_Pop]
  exact h3

theorem Tracks.removeFix {r : Heap} {pq : List Ptr} (h : Tracks k S m0 r pq) (i : Nat)
    (hi : i < pq.length) :
    Tracks k S m0 (heap.removeFix (Queue k) r i) (heap.removeFix (PureQ (ltOf k m0)) pq i) := by
  unfold heap.removeFix
  simp only [Queue_Len, PureQ_Len, PureQ_Swap, h.length]
  split
  · have h1 := h.swap (i := i) (j := pq.length - 1) hi (by omega)
    obtain ⟨h2, h3⟩ := h1.down i (pq.length - 1) (by simp)
    rw [h3]
    split
    · exact h2.up i (by rw [pure_down_length, length_swapSlice]; exact hi)
    · exact h2
  · exact h

theorem Tracks.Remove {r : Heap} {pq : List Ptr} (h : Tracks k S m0 r pq) (i : Nat)
    (hi : i < pq.length) :
    Tracks k S m0 (heap.Remove (Queue k) r i).1 (heap.Remove (PureQ (ltOf k m0)) pq i).1 ∧
      (heap.Remove (Queue k) r i).2 = (heap.Remove (PureQ (ltOf k m0)) pq i).2 := by
  unfold heap.Remove
  have h1 := (h.removeFix i hi).pop (by rw [pure_removeFix_length]; omega)
  rw [PureQ_Pop]
  exact h1

end tracked

/-! ## The order `metaTx.Less` -/

theorem Less_iff (a b : metaTx) :
    a.Less b = true ↔
      (a.subPool < b.subPool ∨ (a.subPool = b.subPool ∧
        (a.effectiveTip < b.effectiveTip ∨
          (a.effectiveTip = b.effectiveTip ∧ a.Tx.nonce < b.Tx.nonce)))) := by
  unfold metaTx.Less
  split_ifs with h1 h2 h3
  · simp only [decide_eq_true_eq]; omega
  · simp only [decide_eq_true_eq]; omega
  · simp only [decide_eq_true_eq]; omega
  · simp only [Bool.false_eq_true, false_iff]; omega

theorem Less_false_iff (a b : metaTx) :
    a.Less b = false ↔
      ¬ (a.subPool < b.subPool ∨ (a.subPool = b.subPool ∧
        (a.effectiveTip < b.effectiveTip ∨
          (a.effectiveTip = b.effectiveTip ∧ a.Tx.nonce < b.Tx.nonce)))) := by
  rw [← Less_iff]; simp

theorem Less_irrefl (a : metaTx) : a.Less a = false := by
  rw [Less_false_iff]; omega

theorem Less_asymm {a b : metaTx} (h : a.Less b = true) : b.Less a = false := by
  rw [Less_iff] at h; rw [Less_false_iff]; omega

theorem Less_negtrans {a b c : metaTx} (h1 : a.Less b = false) (h2 : b.Less c = false) :
    a.Less c = false := by
  rw [Less_false_iff] at h1 h2 ⊢; omega

/-- An element that is not less than another has a marker at least as large. -/
theorem subPool_le_of_not_Less {a b : metaTx} (h : a.Less b = false) :
    b.subPool ≤ a.subPool := by
  rw [Less_false_iff] at h; omega

theorem compat (k : Kind) (m : Mem) : Compat (ltOf k m) (leOf k m) := by
  cases k
  · refine ⟨?_, ?_, ?_, ?_⟩
    · intro a; simp [leOf, above, Less_irrefl]
    · intro a b c h1 h2
      simp only [leOf, above, Bool.not_eq_true'] at h1 h2 ⊢
      exact Less_negtrans h1 h2
    · intro a b h; exact h
    · intro a b h
      simp only [ltOf, qless, Bool.not_eq_false'] at h
      simp only [leOf, above, Bool.not_eq_true']
      exact Less_asymm h
  · refine ⟨?_, ?_, ?_, ?_⟩
    · intro a; simp [leOf, above, Less_irrefl]
    · intro a b c h1 h2
      simp only [leOf, above, Bool.not_eq_true'] at h1 h2 ⊢
      exact Less_negtrans h2 h1
    · intro a b h
      simp only [ltOf, qless] at h
      simp only [leOf, above, Bool.not_eq_true']
      exact Less_asymm h
    · intro a b h
      simp only [ltOf, qless] at h
      simp only [leOf, above, Bool.not_eq_true']
      exact h

theorem heapOrdered_iff (k : Kind) (m : Mem) (q : List Ptr) :
    HeapOrdered k m q ↔ OrderedFrom (leOf k m) q q.length 0 := by
  constructor
  · intro h j hj _ _
    exact h j hj
  · intro h j hj
    by_cases h0 : j = 0
    · subst h0
      exact (compat k m).refl _
    · exact h j hj (by omega) (Nat.zero_le _)

theorem leOf_congr (k : Kind) {m m' : Mem} (h : ∀ p, core (m' p) = core (m p)) :
    leOf k m' = leOf k m := by
  funext a b
  simp only [leOf, above_core k (h a) (h b)]

theorem HeapOrdered.congrMem {k : Kind} {m m' : Mem} {q : List Ptr} (ho : HeapOrdered k m q)
    (h : ∀ p, core (m' p) = core (m p)) : HeapOrdered k m' q := by
  rw [heapOrdered_iff, leOf_congr k h, ← heapOrdered_iff]
  exact ho

theorem IdxOK.congr {k : Kind} {m m' : Mem} {q : List Ptr} (hi : IdxOK k m q)
    (h : ∀ p ∈ q, idx k (m' p) = idx k (m p)) : IdxOK k m' q := by
  intro i hl
  rw [h _ (elemAt_mem hl)]
  exact hi i hl

/-! ### Frames -/

theorem Frame.refl (S : List Ptr) (m : Mem) : Frame S m m := fun _ => ⟨rfl, fun _ => rfl⟩

theorem Frame.trans {S : List Ptr} {m1 m2 m3 : Mem} (h1 : Frame S m1 m2) (h2 : Frame S m2 m3) :
    Frame S m1 m3 := fun p =>
  ⟨((h2 p).1).trans (h1 p).1, fun hp => ((h2 p).2 hp).trans ((h1 p).2 hp)⟩

theorem Frame.mono {S T : List Ptr} {m1 m2 : Mem} (h : Frame S m1 m2) (hST : ∀ x ∈ S, x ∈ T) :
    Frame T m1 m2 := fun p => ⟨(h p).1, fun hp => (h p).2 (fun hs => hp (hST p hs))⟩

theorem MemStep.toFrame {k : Kind} {S : List Ptr} {m m' : Mem} (h : MemStep k S m m') :
    Frame S m m' := fun p => ⟨(h p).1, (h p).2.2⟩

theorem Frame.subPool {S : List Ptr} {m m' : Mem} (h : Frame S m m') (p : Ptr) :
    (m' p).subPool = (m p).subPool := by
  have := (h p).1
  simp only [core, Prod.mk.injEq] at this
  exact this.1

theorem Frame.core {S : List Ptr} {m m' : Mem} (h : Frame S m m') :
    ∀ p, core (m' p) = core (m p) := fun p => (h p).1

theorem Frame.update_tag {m : Mem} {x : Ptr} {S : List Ptr} (hx : x ∈ S) (t : Nat) :
    Frame S m (Function.update m x { m x with currentSubPool := t }) := by
  intro p
  by_cases hp : p = x
  · subst hp
    rw [Function.update_same]
    exact ⟨rfl, fun h => absurd hx h⟩
  · rw [Function.update_noteq hp]
    exact ⟨rfl, fun _ => rfl⟩

/-! ## The functions of `container/heap` on the queues of a sub-pool -/

theorem orderedFrom_congr_len {le : Ptr → Ptr → Prop} {q : List Ptr} {n n' : Nat} (h : n = n')
    (ho : OrderedFrom le q n 0) : OrderedFrom le q n' 0 := h ▸ ho

theorem heap_Init_spec (k : Kind) (m : Mem) (q : List Ptr) (hi : IdxOK k m q) :
    IdxOK k (heap.Init (Queue k) ⟨m, q⟩).mem (heap.Init (Queue k) ⟨m, q⟩).q ∧
      HeapOrdered k (heap.Init (Queue k) ⟨m, q⟩).mem (heap.Init (Queue k) ⟨m, q⟩).q ∧
      (heap.Init (Queue k) ⟨m, q⟩).q.Perm q ∧
      MemStep k q m (heap.Init (Queue k) ⟨m, q⟩).mem := by
  have ht := (Tracks.start (S := q) (fun _ h => h) hi).Init
  obtain ⟨hq, _, hm, hidx⟩ := ht
  refine ⟨hidx, ?_, ?_, hm⟩
  · rw [heapOrdered_iff, leOf_congr k (fun p => (hm p).1), hq, pure_Init_length]
    exact pure_Init_ordered (compat k m) q
  · rw [hq]; exact pure_Init_perm _ q

theorem heap_Push_spec (k : Kind) (m : Mem) (q : List Ptr) (x : Ptr) (hi : IdxOK k m q)
    (ho : HeapOrdered k m q) (hx : x ∉ q) :
    IdxOK k (heap.Push (Queue k) ⟨m, q⟩ x).mem (heap.Push (Queue k) ⟨m, q⟩ x).q ∧
      HeapOrdered k (heap.Push (Queue k) ⟨m, q⟩ x).mem (heap.Push (Queue k) ⟨m, q⟩ x).q ∧
      (heap.Push (Queue k) ⟨m, q⟩ x).q.Perm (x :: q) ∧
      MemStep k (x :: q) m (heap.Push (Queue k) ⟨m, q⟩ x).mem := by
  have ht := (Tracks.start (S := x :: q) (fun _ h => List.mem_cons_of_mem _ h) hi).Push
    (List.mem_cons_self _ _) hx
  obtain ⟨hq, _, hm, hidx⟩ := ht
  refine ⟨hidx, ?_, ?_, hm⟩
  · rw [heapOrdered_iff, leOf_congr k (fun p => (hm p).1), hq, pure_Push_length]
    exact pure_Push_ordered (compat k m) q x ((heapOrdered_iff k m q).1 ho)
  · rw [hq]; exact pure_Push_perm _ q x

theorem heap_Pop_spec (k : Kind) (m : Mem) (q : List Ptr) (hi : IdxOK k m q)
    (ho : HeapOrdered k m q) (hl : 0 < q.length) :
    (heap.Pop (Queue k) ⟨m, q⟩).2 = elemAt q 0 ∧
      IdxOK k (heap.Pop (Queue k) ⟨m, q⟩).1.mem (heap.Pop (Queue k) ⟨m, q⟩).1.q ∧
      HeapOrdered k (heap.Pop (Queue k) ⟨m, q⟩).1.mem (heap.Pop (Queue k) ⟨m, q⟩).1.q ∧
      ((heap.Pop (Queue k) ⟨m, q⟩).2 :: (heap.Pop (Queue k) ⟨m, q⟩).1.q).Perm q ∧
      MemStep k q m (heap.Pop (Queue k) ⟨m, q⟩).1.mem := by
  obtain ⟨⟨hq, _, hm, hidx⟩, h2⟩ := (Tracks.start (S := q) (fun _ h => h) hi).Pop hl
  refine ⟨?_, hidx, ?_, ?_, hm⟩
  · rw [h2]; exact pure_Pop_snd _ q hl
  · rw [heapOrdered_iff, leOf_congr k (fun p => (hm p).1), hq, pure_Pop_length]
    exact pure_Pop_ordered (compat k m) q ((heapOrdered_iff k m q).1 ho)
  · rw [h2, hq]; exact pure_Pop_perm _ q hl

theorem heap_Remove_spec (k : Kind) (m : Mem) (q : List Ptr) (i : Nat) (hi : IdxOK k m q)
    (ho : HeapOrdered k m q) (hl : i < q.length) :
    (heap.Remove (Queue k) ⟨m, q⟩ i).2 = elemAt q i ∧
      IdxOK k (heap.Remove (Queue k) ⟨m, q⟩ i).1.mem (heap.Remove (Queue k) ⟨m, q⟩ i).1.q ∧
      HeapOrdered k (heap.Remove (Queue k) ⟨m, q⟩ i).1.mem
        (heap.Remove (Queue k) ⟨m, q⟩ i).1.q ∧
      ((heap.Remove (Queue k) ⟨m, q⟩ i).2 :: (heap.Remove (Queue k) ⟨m, q⟩ i).1.q).Perm q ∧
      MemStep k q m (heap.Remove (Queue k) ⟨m, q⟩ i).1.mem := by
  obtain ⟨⟨hq, _, hm, hidx⟩, h2⟩ := (Tracks.start (S := q) (fun _ h => h) hi).Remove i hl
  refine ⟨?_, hidx, ?_, ?_, hm⟩
  · rw [h2]; exact pure_Remove_snd _ q i hl
  · rw [heapOrdered_iff, leOf_congr k (fun p => (hm p).1), hq, pure_Remove_length]
    exact pure_Remove_ordered (compat k m) q i hl ((heapOrdered_iff k m q).1 ho)
  · rw [h2, hq]; exact pure_Remove_perm _ q i hl

/-- The root of a valid queue may stand above every member. -/
theorem heap_root (k : Kind) (m : Mem) (q : List Ptr) (ho : HeapOrdered k m q) (y : Ptr)
    (hy : y ∈ q) : above k (m (elemAt q 0)) (m y) = true := by
  obtain ⟨j, hj, rfl⟩ := exists_elemAt_of_mem hy
  exact root_le (compat k m).refl (compat k m).trans q ((heapOrdered_iff k m q).1 ho) j hj

/-! ## Operations of a sub-pool -/

theorem Kind.other_other (k : Kind) : k.other.other = k := by cases k <;> rfl

theorem MemStep.idx_same {k : Kind} {S : List Ptr} {m m' : Mem} (h : MemStep k.other S m m')
    (p : Ptr) : idx k (m' p) = idx k (m p) := by
  have := (h p).2.1
  rw [Kind.other_other] at this
  exact this

/-- Popping the root of one queue and removing the same element from the other
queue through its back-index. -/
theorem pop_both (k : Kind) (m : Mem) (qa qb : List Ptr) (hia : IdxOK k m qa)
    (hib : IdxOK k.other m qb) (hab : ∀ x ∈ qa, x ∈ qb) (hba : ∀ x ∈ qb, x ∈ qa)
    (hoa : HeapOrdered k m qa) (hob : HeapOrdered k.other m qb) (hl : 0 < qa.length)
    (r : Heap × Ptr) (hr : r = heap.Pop (Queue k) ⟨m, qa⟩)
    (w : Heap × Ptr)
    (hw : w = heap.Remove (Queue k.other) ⟨r.1.mem, qb⟩ (idx k.other (r.1.mem r.2)).toNat) :
    r.2 = elemAt qa 0 ∧ IdxOK k w.1.mem r.1.q ∧ IdxOK k.other w.1.mem w.1.q ∧
      HeapOrdered k w.1.mem r.1.q ∧ HeapOrdered k.other w.1.mem w.1.q ∧
      (r.2 :: r.1.q).Perm qa ∧ (r.2 :: w.1.q).Perm qb ∧ Frame qa m w.1.mem := by
  obtain ⟨e1, i1, o1, p1, s1⟩ := heap_Pop_spec k m qa hia hoa hl
  rw [← hr] at e1 i1 o1 p1 s1
  have hx : r.2 ∈ qb := hab _ (e1 ▸ elemAt_mem hl)
  obtain ⟨j, hj, hjx⟩ := exists_elemAt_of_mem hx
  have hidx : (idx k.other (r.1.mem r.2)).toNat = j := by
    rw [(s1 r.2).2.1, ← hjx, hib j hj]
    simp
  rw [hidx] at hw
  have hib' : IdxOK k.other r.1.mem qb := hib.congr (fun p _ => (s1 p).2.1)
  have hob' : HeapOrdered k.other r.1.mem qb := hob.congrMem (fun p => (s1 p).1)
  obtain ⟨e2, i2, o2, p2, s2⟩ := heap_Remove_spec k.other r.1.mem qb j hib' hob' hj
  rw [← hw] at e2 i2 o2 p2 s2
  refine ⟨e1, ?_, i2, ?_, o2, p1, ?_, ?_⟩
  · exact i1.congr (fun p _ => s2.idx_same p)
  · exact o1.congrMem (fun p => (s2 p).1)
  · rw [e2, hjx] at p2; exact p2
  · exact s1.toFrame.trans (s2.toFrame.mono hba)

theorem SubPool.Valid.bestNodup {m : Mem} {p : SubPool} (hv : p.Valid m) : p.best.Nodup :=
  hv.1.1.nodup

theorem SubPool.Valid.transport {m m' : Mem} {p : SubPool} (hv : p.Valid m)
    (hc : ∀ y, core (m' y) = core (m y)) (hb : ∀ y ∈ p.best, m' y = m y) : p.Valid m' := by
  obtain ⟨⟨ib, iw, hbw, hwb⟩, ob, ow⟩ := hv
  refine ⟨⟨?_, ?_, hbw, hwb⟩, ob.congrMem hc, ow.congrMem hc⟩
  · exact ib.congr (fun y hy => by rw [hb y hy])
  · exact iw.congr (fun y hy => by rw [hb y (hwb y hy)])

theorem SubPool.Valid.of_frame {m m' : Mem} {p : SubPool} {S : List Ptr} (hv : p.Valid m)
    (hf : Frame S m m') (hd : ∀ y ∈ p.best, y ∉ S) : p.Valid m' :=
  hv.transport hf.core (fun y hy => (hf y).2 (hd y hy))

theorem SubPool.PopWorst_spec (m : Mem) (p : SubPool) (hv : p.Valid m) (hl : 0 < p.Len) :
    (SubPool.PopWorst m p).2 = elemAt p.worst 0 ∧
      (SubPool.PopWorst m p).1.2.Valid (SubPool.PopWorst m p).1.1 ∧
      ((SubPool.PopWorst m p).2 :: (SubPool.PopWorst m p).1.2.best).Perm p.best ∧
      Frame p.best m (SubPool.PopWorst m p).1.1 ∧
      (∀ y ∈ p.best, (m y).Less (m (SubPool.PopWorst m p).2) = false) := by
  obtain ⟨⟨ib, iw, hbw, hwb⟩, ob, ow⟩ := hv
  have hlw : 0 < p.worst.length := by
    have hb : 0 < p.best.length := hl
    obtain ⟨x, hx⟩ := List.exists_mem_of_length_pos hb
    exact List.length_pos_of_mem (hbw x hx)
  obtain ⟨e, i1, i2, o1, o2, p1, p2, f⟩ := pop_both .worst m p.worst p.best iw ib hwb hbw ow ob hlw
    _ rfl _ rfl
  refine ⟨e, ⟨⟨i2, i1, ?_, ?_⟩, o2, o1⟩, p2, f.mono hwb, ?_⟩
  · intro x hx
    have hx1 : x ∈ p.best := p2.mem_iff.1 (List.mem_cons_of_mem _ hx)
    have hne : x ≠ (heap.Pop (Queue .worst) ⟨m, p.worst⟩).2 := by
      intro h
      have := (p2.nodup_iff.2 ib.nodup)
      rw [List.nodup_cons] at this
      exact this.1 (by have hx' := hx; rw [h] at hx'; exact hx')
    rcases List.mem_cons.1 (p1.mem_iff.2 (hbw x hx1)) with h | h
    · exact absurd h hne
    · exact h
  · intro x hx
    have hx1 : x ∈ p.worst := p1.mem_iff.1 (List.mem_cons_of_mem _ hx)
    have hne : x ≠ (heap.Pop (Queue .worst) ⟨m, p.worst⟩).2 := by
      intro h
      have := (p1.nodup_iff.2 iw.nodup)
      rw [List.nodup_cons] at this
      exact this.1 (by have hx' := hx; rw [h] at hx'; exact hx')
    rcases List.mem_cons.1 (p2.mem_iff.2 (hwb x hx1)) with h | h
    · exact absurd h hne
    · exact h
  · intro y hy
    have := heap_root .worst m p.worst ow y (hbw y hy)
    show (m y).Less (m (heap.Pop (Queue .worst) ⟨m, p.worst⟩).2) = false
    rw [e]
    simpa [above] using this

theorem SubPool.PopBest_spec (m : Mem) (p : SubPool) (hv : p.Valid m) (hl : 0 < p.Len) :
    (SubPool.PopBest m p).2 = elemAt p.best 0 ∧
      (SubPool.PopBest m p).1.2.Valid (SubPool.PopBest m p).1.1 ∧
      ((SubPool.PopBest m p).2 :: (SubPool.PopBest m p).1.2.best).Perm p.best ∧
      Frame p.best m (SubPool.PopBest m p).1.1 ∧
      (∀ y ∈ p.best, (m (SubPool.PopBest m p).2).Less (m y) = false) := by
  obtain ⟨⟨ib, iw, hbw, hwb⟩, ob, ow⟩ := hv
  have hlb : 0 < p.best.length := hl
  obtain ⟨e, i1, i2, o1, o2, p1, p2, f⟩ := pop_both .best m p.best p.worst ib iw hbw hwb ob ow hlb
    _ rfl _ rfl
  refine ⟨e, ⟨⟨i1, i2, ?_, ?_⟩, o1, o2⟩, p1, f, ?_⟩
  · intro x hx
    have hx1 : x ∈ p.best := p1.mem_iff.1 (List.mem_cons_of_mem _ hx)
    have hne : x ≠ (heap.Pop (Queue .best) ⟨m, p.best⟩).2 := by
      intro h
      have := (p1.nodup_iff.2 ib.nodup)
      rw [List.nodup_cons] at this
      exact this.1 (by have hx' := hx; rw [h] at hx'; exact hx')
    rcases List.mem_cons.1 (p2.mem_iff.2 (hbw x hx1)) with h | h
    · exact absurd h hne
    · exact h
  · intro x hx
    have hx1 : x ∈ p.worst := p2.mem_iff.1 (List.mem_cons_of_mem _ hx)
    have hne : x ≠ (heap.Pop (Queue .best) ⟨m, p.best⟩).2 := by
      intro h
      have := (p2.nodup_iff.2 iw.nodup)
      rw [List.nodup_cons] at this
      exact this.1 (by have hx' := hx; rw [h] at hx'; exact hx')
    rcases List.mem_cons.1 (p1.mem_iff.2 (hwb x hx1)) with h | h
    · exact absurd h hne
    · exact h
  · intro y hy
    have := heap_root .best m p.best ob y hy
    show (m (heap.Pop (Queue .best) ⟨m, p.best⟩).2).Less (m y) = false
    rw [e]
    simpa [above] using this

theorem SubPool.Add_spec (m : Mem) (p : SubPool) (x : Ptr) (hv : p.Valid m) (hx : x ∉ p.best) :
    (SubPool.Add m p x).2.Valid (SubPool.Add m p x).1 ∧
      (SubPool.Add m p x).2.best.Perm (x :: p.best) ∧
      Frame (x :: p.best) m (SubPool.Add m p x).1 := by
  obtain ⟨⟨ib, iw, hbw, hwb⟩, ob, ow⟩ := hv
  have f0 : Frame (x :: p.best) m (Function.update m x { m x with currentSubPool := p.t }) :=
    Frame.update_tag (List.mem_cons_self _ _) p.t
  have hxw : x ∉ p.worst := fun h => hx (hwb x h)
  have hm1 : ∀ y, y ≠ x → (Function.update m x { m x with currentSubPool := p.t }) y = m y :=
    fun y hy => Function.update_noteq hy _ _
  have ib1 : IdxOK .best (Function.update m x { m x with currentSubPool := p.t }) p.best :=
    ib.congr (fun y hy => by rw [hm1 y (fun h => hx (h ▸ hy))])
  have iw1 : IdxOK .worst (Function.update m x { m x with currentSubPool := p.t }) p.worst :=
    iw.congr (fun y hy => by rw [hm1 y (fun h => hxw (h ▸ hy))])
  obtain ⟨i1, o1, p1, s1⟩ := heap_Push_spec .best _ p.best x ib1 (ob.congrMem f0.core) hx
  have iw2 : IdxOK .worst (heap.Push (Queue .best)
      ⟨Function.update m x { m x with currentSubPool := p.t }, p.best⟩ x).mem p.worst :=
    iw1.congr (fun y _ => (s1 y).2.1)
  obtain ⟨i2, o2, p2, s2⟩ := heap_Push_spec .worst _ p.worst x iw2
    ((ow.congrMem f0.core).congrMem (fun y => (s1 y).1)) hxw
  have hsub : ∀ y ∈ x :: p.worst, y ∈ x :: p.best := by
    intro y hy
    rcases List.mem_cons.1 hy with h | h
    · exact h ▸ List.mem_cons_self _ _
    · exact List.mem_cons_of_mem _ (hwb y h)
  refine ⟨⟨⟨?_, i2, ?_, ?_⟩, ?_, o2⟩, p1, ?_⟩
  · exact i1.congr (fun y _ => s2.idx_same (k := .best) y)
  · intro y hy
    rcases List.mem_cons.1 (p1.mem_iff.1 hy) with h | h
    · exact p2.mem_iff.2 (h ▸ List.mem_cons_self _ _)
    · exact p2.mem_iff.2 (List.mem_cons_of_mem _ (hbw y h))
  · intro y hy
    rcases List.mem_cons.1 (p2.mem_iff.1 hy) with h | h
    · exact p1.mem_iff.2 (h ▸ List.mem_cons_self _ _)
    · exact p1.mem_iff.2 (List.mem_cons_of_mem _ (hwb y h))
  · exact o1.congrMem (fun y => (s2 y).1)
  · exact f0.trans (s1.toFrame.trans (s2.toFrame.mono hsub))

theorem SubPool.EnforceInvariants_spec (m : Mem) (p : SubPool) (hs : p.Struct m) :
    (SubPool.EnforceInvariants m p).2.Valid (SubPool.EnforceInvariants m p).1 ∧
      (SubPool.EnforceInvariants m p).2.best.Perm p.best ∧
      Frame p.best m (SubPool.EnforceInvariants m p).1 := by
  obtain ⟨ib, iw, hbw, hwb⟩ := hs
  obtain ⟨i1, o1, p1, s1⟩ := heap_Init_spec .worst m p.worst iw
  have ib1 : IdxOK .best (heap.Init (Queue .worst) ⟨m, p.worst⟩).mem p.best :=
    ib.congr (fun y _ => (s1 y).2.1)
  obtain ⟨i2, o2, p2, s2⟩ := heap_Init_spec .best _ p.best ib1
  refine ⟨⟨⟨i2, ?_, ?_, ?_⟩, o2, ?_⟩, p2, ?_⟩
  · exact i1.congr (fun y _ => s2.idx_same (k := .worst) y)
  · intro y hy
    exact p1.mem_iff.2 (hbw y (p2.mem_iff.1 hy))
  · intro y hy
    exact p2.mem_iff.2 (hwb y (p1.mem_iff.1 hy))
  · exact o1.congrMem (fun y => (s2 y).1)
  · exact (s1.toFrame.mono hwb).trans s2.toFrame

/-! ## Three sub-pools -/

theorem Disj.symm {a b : List Ptr} (h : Disj a b) : Disj b a :=
  fun x hx hxa => h x hxa hx

theorem Inv3.swap12 {m : Mem} {A B C : SubPool} {PA PB PC : Nat → Prop}
    (h : Inv3 m A B C PA PB PC) : Inv3 m B A C PB PA PC :=
  ⟨h.vB, h.vA, h.vC, h.dAB.symm, h.dBC, h.dAC, h.mB, h.mA, h.mC⟩

theorem Inv3.swap23 {m : Mem} {A B C : SubPool} {PA PB PC : Nat → Prop}
    (h : Inv3 m A B C PA PB PC) : Inv3 m A C B PA PC PB :=
  ⟨h.vA, h.vC, h.vB, h.dAC, h.dAB, h.dBC.symm, h.mA, h.mC, h.mB⟩

theorem Inv3.weaken {m : Mem} {A B C : SubPool} {PA PB PC PA' PB' PC' : Nat → Prop}
    (h : Inv3 m A B C PA PB PC) (hA : ∀ v, PA v → PA' v) (hB : ∀ v, PB v → PB' v)
    (hC : ∀ v, PC v → PC' v) : Inv3 m A B C PA' PB' PC' :=
  ⟨h.vA, h.vB, h.vC, h.dAB, h.dAC, h.dBC, fun x hx => hA _ (h.mA x hx),
    fun x hx => hB _ (h.mB x hx), fun x hx => hC _ (h.mC x hx)⟩

theorem Pools.valid_iff (s : Pools) :
    s.Valid ↔ Inv3 s.mem s.pending s.baseFee s.queued (fun _ => True) (fun _ => True)
      (fun _ => True) := by
  constructor
  · rintro ⟨a, b, c, d1, d2, d3⟩
    exact ⟨a, b, c, d1, d2, d3, fun _ _ => trivial, fun _ _ => trivial, fun _ _ => trivial⟩
  · intro h
    exact ⟨h.vA, h.vB, h.vC, h.dAB, h.dAC, h.dBC⟩

theorem Inv3.valid {s : Pools} {PA PB PC : Nat → Prop}
    (h : Inv3 s.mem s.pending s.baseFee s.queued PA PB PC) : s.Valid :=
  ⟨h.vA, h.vB, h.vC, h.dAB, h.dAC, h.dBC⟩

theorem AllMk.frame {P : Nat → Prop} {m m' : Mem} {q : List Ptr} (h : AllMk P m q)
    (hc : ∀ y, core (m' y) = core (m y)) : AllMk P m' q := by
  intro x hx
  have := hc x
  simp only [core, Prod.mk.injEq] at this
  rw [this.1]
  exact h x hx

/-- What `PopWorst` and `PopBest` do to the sub-pool they act on. -/
theorem Inv3.popped {m : Mem} {A B C : SubPool} {PA PB PC : Nat → Prop}
    (h : Inv3 m A B C PA PB PC) (r : (Mem × SubPool) × Ptr) (hrv : r.1.2.Valid r.1.1)
    (hrp : (r.2 :: r.1.2.best).Perm A.best) (hrf : Frame A.best m r.1.1) :
    Inv3 r.1.1 r.1.2 B C PA PB PC ∧ r.2 ∈ A.best ∧ r.2 ∉ r.1.2.best := by
  have hsub : ∀ y ∈ r.1.2.best, y ∈ A.best := fun y hy => hrp.mem_iff.1 (List.mem_cons_of_mem _ hy)
  have hnd : (r.2 :: r.1.2.best).Nodup := hrp.nodup_iff.2 h.vA.bestNodup
  refine ⟨⟨hrv, ?_, ?_, ?_, ?_, h.dBC, ?_, ?_, ?_⟩, hrp.mem_iff.1 (List.mem_cons_self _ _),
    (List.nodup_cons.1 hnd).1⟩
  · exact h.vB.of_frame hrf (fun y hy => h.dAB.symm y hy)
  · exact h.vC.of_frame hrf (fun y hy => h.dAC.symm y hy)
  · exact fun y hy => h.dAB y (hsub y hy)
  · exact fun y hy => h.dAC y (hsub y hy)
  · exact AllMk.frame (fun y hy => h.mA y (hsub y hy)) hrf.core
  · exact h.mB.frame hrf.core
  · exact h.mC.frame hrf.core

/-- Adding to the second sub-pool an element that is in none of the three. -/
theorem Inv3.added {m : Mem} {A B C : SubPool} {PA PB PC : Nat → Prop}
    (h : Inv3 m A B C PA PB PC) (x : Ptr) (hxA : x ∉ A.best) (hxB : x ∉ B.best)
    (hxC : x ∉ C.best) (hP : PB (m x).subPool) :
    Inv3 (SubPool.Add m B x).1 A (SubPool.Add m B x).2 C PA PB PC ∧
      (SubPool.Add m B x).2.best.Perm (x :: B.best) ∧
      (∀ y, core ((SubPool.Add m B x).1 y) = core (m y)) := by
  obtain ⟨av, ap, af⟩ := SubPool.Add_spec m B x h.vB hxB
  have hd : ∀ {q : List Ptr}, Disj q B.best → x ∉ q → ∀ y ∈ q, y ∉ x :: B.best := by
    intro q hq hx y hy hm
    rcases List.mem_cons.1 hm with e | e
    · exact hx (e ▸ hy)
    · exact hq y hy e
  refine ⟨⟨?_, av, ?_, ?_, h.dAC, ?_, ?_, ?_, ?_⟩, ap, af.core⟩
  · exact h.vA.of_frame af (hd h.dAB hxA)
  · exact h.vC.of_frame af (hd h.dBC.symm hxC)
  · exact fun y hy hm => hd h.dAB hxA y hy (ap.mem_iff.1 hm)
  · intro y hy
    rcases List.mem_cons.1 (ap.mem_iff.1 hy) with e | e
    · rw [e]; exact hxC
    · exact h.dBC y e
  · exact h.mA.frame af.core
  · intro y hy
    have hc := af.core y
    simp only [core, Prod.mk.injEq] at hc
    rw [hc.1]
    rcases List.mem_cons.1 (ap.mem_iff.1 hy) with e | e
    · rw [e]; exact hP
    · exact h.mB y e
  · exact h.mC.frame af.core

/-- Moving the popped element of the first sub-pool to the second. -/
theorem Inv3.moved {m : Mem} {A B C : SubPool} {PA PB PC : Nat → Prop}
    (h : Inv3 m A B C PA PB PC) (r : (Mem × SubPool) × Ptr) (hrv : r.1.2.Valid r.1.1)
    (hrp : (r.2 :: r.1.2.best).Perm A.best) (hrf : Frame A.best m r.1.1)
    (hP : PB (m r.2).subPool) :
    Inv3 (SubPool.Add r.1.1 B r.2).1 r.1.2 (SubPool.Add r.1.1 B r.2).2 C PA PB PC := by
  obtain ⟨h1, hxA, hxA'⟩ := h.popped r hrv hrp hrf
  refine (h1.added r.2 hxA' (h.dAB _ hxA) (h.dAC _ hxA) ?_).1
  rw [hrf.subPool]; exact hP

theorem perm_length_pred {x : Ptr} {q q' : List Ptr} (h : (x :: q').Perm q) :
    q'.length + 1 = q.length := by
  have := h.length_eq
  simpa using this

/-! ## The extremes of a sub-pool with valid heaps -/

theorem SubPool.worst_pos {m : Mem} {p : SubPool} (hv : p.Valid m) (hl : 0 < p.Len) :
    0 < p.worst.length := by
  obtain ⟨x, hx⟩ := List.exists_mem_of_length_pos (show 0 < p.best.length from hl)
  exact List.length_pos_of_mem (hv.1.2.2.1 x hx)

theorem SubPool.worst_eq {m : Mem} {p : SubPool} (hv : p.Valid m) (hl : 0 < p.Len) :
    markerAt m p.Worst = (m (SubPool.PopWorst m p).2).subPool := by
  have h1 := SubPool.worst_pos hv hl
  rw [(SubPool.PopWorst_spec m p hv hl).1]
  simp [markerAt, SubPool.Worst, Nat.pos_iff_ne_zero.1 h1]

theorem SubPool.worst_min {m : Mem} {p : SubPool} (hv : p.Valid m) (hl : 0 < p.Len) :
    ∀ y ∈ p.best, markerAt m p.Worst ≤ (m y).subPool := by
  intro y hy
  rw [SubPool.worst_eq hv hl]
  exact subPool_le_of_not_Less ((SubPool.PopWorst_spec m p hv hl).2.2.2.2 y hy)

theorem SubPool.best_eq {m : Mem} {p : SubPool} (hv : p.Valid m) (hl : 0 < p.Len) :
    markerAt m p.Best = (m (SubPool.PopBest m p).2).subPool := by
  have h1 : 0 < p.best.length := hl
  rw [(SubPool.PopBest_spec m p hv hl).1]
  simp [markerAt, SubPool.Best, Nat.pos_iff_ne_zero.1 h1]

theorem SubPool.best_max {m : Mem} {p : SubPool} (hv : p.Valid m) (hl : 0 < p.Len) :
    ∀ y ∈ p.best, (m y).subPool ≤ markerAt m p.Best := by
  intro y hy
  rw [SubPool.best_eq hv hl]
  exact subPool_le_of_not_Less ((SubPool.PopBest_spec m p hv hl).2.2.2.2 y hy)

theorem SubPool.PopWorst_len {m : Mem} {p : SubPool} (hv : p.Valid m) (hl : 0 < p.Len) :
    (SubPool.PopWorst m p).1.2.Len + 1 = p.Len :=
  perm_length_pred (SubPool.PopWorst_spec m p hv hl).2.2.1

theorem SubPool.PopBest_len {m : Mem} {p : SubPool} (hv : p.Valid m) (hl : 0 < p.Len) :
    (SubPool.PopBest m p).1.2.Len + 1 = p.Len :=
  perm_length_pred (SubPool.PopBest_spec m p hv hl).2.2.1

theorem AllMk.of_empty {P : Nat → Prop} {m : Mem} {p : SubPool} (h : ¬ 0 < p.Len) :
    AllMk P m p.best := by
  have : p.best = [] := List.length_eq_zero.1 (by unfold SubPool.Len at h; omega)
  rw [this]
  intro x hx
  cases hx

/-! ## The loops of `promote` -/

theorem promote.loop1_spec {D : Type} (discard : Mem → Ptr → D → D) (PP PB PQ : Nat → Prop)
    (hB : ∀ v, 0b11100 ≤ v → v < 0b11110 → PB v) (hQ : ∀ v, 0b10000 ≤ v → v < 0b11100 → PQ v)
    (f : Nat) (sd : Pools × D) (h : sd.1.Inv PP PB PQ) (hf : sd.1.pending.Len < f) :
    (promote.loop1 discard f sd).1.Inv (fun v => PP v ∧ 0b11110 ≤ v) PB PQ := by
  induction f generalizing sd with
  | zero => omega
  | succ f ih =>
    obtain ⟨s, d⟩ := sd
    dsimp only at h hf
    rw [promote.loop1]
    split
    · rename_i hl
      obtain ⟨_, hrv, hrp, hrf, _⟩ := SubPool.PopWorst_spec s.mem s.pending h.vA hl
      have hlen := SubPool.PopWorst_len h.vA hl
      have hmk := SubPool.worst_eq h.vA hl
      dsimp only
      split
      · rename_i h30
        exact ⟨h.vA, h.vB, h.vC, h.dAB, h.dAC, h.dBC,
          fun y hy => ⟨h.mA y hy, Nat.le_trans h30 (SubPool.worst_min h.vA hl y hy)⟩, h.mB, h.mC⟩
      · rename_i h30
        split
        · rename_i h28
          refine ih _ (Inv3.moved h _ hrv hrp hrf (hB _ (hmk ▸ h28) (hmk ▸ (by omega)))) ?_
          show (SubPool.PopWorst s.mem s.pending).1.2.Len < f
          omega
        · rename_i h28
          split
          · rename_i h16
            refine ih _ (Inv3.moved (Inv3.swap23 h) _ hrv hrp hrf
              (hQ _ (hmk ▸ h16) (hmk ▸ (by omega)))).swap23 ?_
            show (SubPool.PopWorst s.mem s.pending).1.2.Len < f
            omega
          · refine ih _ (Inv3.popped h _ hrv hrp hrf).1 ?_
            show (SubPool.PopWorst s.mem s.pending).1.2.Len < f
            omega
    · rename_i hl
      exact ⟨h.vA, h.vB, h.vC, h.dAB, h.dAC, h.dBC, AllMk.of_empty hl, h.mB, h.mC⟩

theorem Inv3.swap13 {m : Mem} {A B C : SubPool} {PA PB PC : Nat → Prop}
    (h : Inv3 m A B C PA PB PC) : Inv3 m C B A PC PB PA :=
  ⟨h.vC, h.vB, h.vA, h.dBC.symm, h.dAC.symm, h.dAB.symm, h.mC, h.mB, h.mA⟩

theorem promote.loop2_spec {D : Type} (discard : Mem → Ptr → D → D) (PP PB PQ : Nat → Prop)
    (f : Nat) (sd : Pools × D) (h : sd.1.Inv PP PB PQ) :
    (promote.loop2 discard f sd).1.Inv PP PB PQ := by
  induction f generalizing sd with
  | zero => exact h
  | succ f ih =>
    obtain ⟨s, d⟩ := sd
    dsimp only at h
    rw [promote.loop2]
    split
    · rename_i hl
      have hl0 : 0 < s.pending.Len := by unfold PendingSubPoolLimit at hl; omega
      obtain ⟨_, hrv, hrp, hrf, _⟩ := SubPool.PopWorst_spec s.mem s.pending h.vA hl0
      dsimp only
      split
      · exact h
      · exact ih _ (Inv3.popped h _ hrv hrp hrf).1
    · exact h

theorem promote.loop3_spec {D : Type} (PP PB PQ : Nat → Prop)
    (hP : ∀ v, 0b11110 ≤ v → PP v)
    (f : Nat) (sd : Pools × D) (h : sd.1.Inv PP PB PQ) (hf : sd.1.baseFee.Len < f) :
    (promote.loop3 f sd).1.Inv PP (fun v => PB v ∧ v < 0b11110) PQ := by
  induction f generalizing sd with
  | zero => omega
  | succ f ih =>
    obtain ⟨s, d⟩ := sd
    dsimp only at h hf
    rw [promote.loop3]
    split
    · rename_i hl
      obtain ⟨_, hrv, hrp, hrf, _⟩ := SubPool.PopBest_spec s.mem s.baseFee h.vB hl
      have hlen := SubPool.PopBest_len h.vB hl
      have hmk := SubPool.best_eq h.vB hl
      dsimp only
      split
      · rename_i h30
        exact ⟨h.vA, h.vB, h.vC, h.dAB, h.dAC, h.dBC, h.mA,
          fun y hy => ⟨h.mB y hy, Nat.lt_of_le_of_lt (SubPool.best_max h.vB hl y hy) h30⟩, h.mC⟩
      · rename_i h30
        refine ih _ (Inv3.moved (Inv3.swap12 h) _ hrv hrp hrf
          (hP _ (hmk ▸ (by omega)))).swap12 ?_
        show (SubPool.PopBest s.mem s.baseFee).1.2.Len < f
        omega
    · rename_i hl
      exact ⟨h.vA, h.vB, h.vC, h.dAB, h.dAC, h.dBC, h.mA, AllMk.of_empty hl, h.mC⟩

theorem promote.loop4_spec {D : Type} (discard : Mem → Ptr → D → D) (PP PB PQ : Nat → Prop)
    (hQ : ∀ v, 0b10000 ≤ v → v < 0b11100 → PQ v)
    (f : Nat) (sd : Pools × D) (h : sd.1.Inv PP PB PQ) (hf : sd.1.baseFee.Len < f) :
    (promote.loop4 discard f sd).1.Inv PP (fun v => PB v ∧ 0b11100 ≤ v) PQ := by
  induction f generalizing sd with
  | zero => omega
  | succ f ih =>
    obtain ⟨s, d⟩ := sd
    dsimp only at h hf
    rw [promote.loop4]
    split
    · rename_i hl
      obtain ⟨_, hrv, hrp, hrf, _⟩ := SubPool.PopWorst_spec s.mem s.baseFee h.vB hl
      have hlen := SubPool.PopWorst_len h.vB hl
      have hmk := SubPool.worst_eq h.vB hl
      dsimp only
      split
      · rename_i h28
        exact ⟨h.vA, h.vB, h.vC, h.dAB, h.dAC, h.dBC, h.mA,
          fun y hy => ⟨h.mB y hy, Nat.le_trans h28 (SubPool.worst_min h.vB hl y hy)⟩, h.mC⟩
      · rename_i h28
        split
        · rename_i h16
          refine ih _ (Inv3.moved (Inv3.swap23 (Inv3.swap12 h)) _ hrv hrp hrf
            (hQ _ (hmk ▸ h16) (hmk ▸ (by omega)))).swap23.swap12 ?_
          show (SubPool.PopWorst s.mem s.baseFee).1.2.Len < f
          omega
        · refine ih _ (Inv3.popped (Inv3.swap12 h) _ hrv hrp hrf).1.swap12 ?_
          show (SubPool.PopWorst s.mem s.baseFee).1.2.Len < f
          omega
    · rename_i hl
      exact ⟨h.vA, h.vB, h.vC, h.dAB, h.dAC, h.dBC, h.mA, AllMk.of_empty hl, h.mC⟩

theorem promote.loop5_spec {D : Type} (discard : Mem → Ptr → D → D) (PP PB PQ : Nat → Prop)
    (f : Nat) (sd : Pools × D) (h : sd.1.Inv PP PB PQ) :
    (promote.loop5 discard f sd).1.Inv PP PB PQ := by
  induction f generalizing sd with
  | zero => exact h
  | succ f ih =>
    obtain ⟨s, d⟩ := sd
    dsimp only at h
    rw [promote.loop5]
    split
    · rename_i hl
      have hl0 : 0 < s.baseFee.Len := by unfold BaseFeeSubPoolLimit at hl; omega
      obtain ⟨_, hrv, hrp, hrf, _⟩ := SubPool.PopWorst_spec s.mem s.baseFee h.vB hl0
      dsimp only
      split
      · exact h
      · exact ih _ (Inv3.popped (Inv3.swap12 h) _ hrv hrp hrf).1.swap12
    · exact h

theorem promote.loop6_spec {D : Type} (PP PB PQ : Nat → Prop)
    (hP : ∀ v, 0b11110 ≤ v → PP v) (hB : ∀ v, 0b11100 ≤ v → v < 0b11110 → PB v)
    (f : Nat) (sd : Pools × D) (h : sd.1.Inv PP PB PQ) (hf : sd.1.queued.Len < f) :
    (promote.loop6 f sd).1.Inv PP PB (fun v => PQ v ∧ v < 0b11100) := by
  induction f generalizing sd with
  | zero => omega
  | succ f ih =>
    obtain ⟨s, d⟩ := sd
    dsimp only at h hf
    rw [promote.loop6]
    split
    · rename_i hl
      obtain ⟨_, hrv, hrp, hrf, _⟩ := SubPool.PopBest_spec s.mem s.queued h.vC hl
      have hlen := SubPool.PopBest_len h.vC hl
      have hmk := SubPool.best_eq h.vC hl
      dsimp only
      split
      · rename_i h28
        exact ⟨h.vA, h.vB, h.vC, h.dAB, h.dAC, h.dBC, h.mA, h.mB,
          fun y hy => ⟨h.mC y hy, Nat.lt_of_le_of_lt (SubPool.best_max h.vC hl y hy) h28⟩⟩
      · rename_i h28
        split
        · rename_i h30
          refine ih _ (Inv3.moved (Inv3.swap13 h) _ hrv hrp hrf
            (hB _ (hmk ▸ (by omega)) (hmk ▸ h30))).swap13 ?_
          show (SubPool.PopBest s.mem s.queued).1.2.Len < f
          omega
        · rename_i h30
          refine ih _ (Inv3.moved (Inv3.swap13 (Inv3.swap12 h)) _ hrv hrp hrf
            (hP _ (hmk ▸ (by omega)))).swap13.swap12 ?_
          show (SubPool.PopBest s.mem s.queued).1.2.Len < f
          omega
    · rename_i hl
      exact ⟨h.vA, h.vB, h.vC, h.dAB, h.dAC, h.dBC, h.mA, h.mB, AllMk.of_empty hl⟩

theorem promote.loop7_spec {D : Type} (discard : Mem → Ptr → D → D) (PP PB PQ : Nat → Prop)
    (f : Nat) (sd : Pools × D) (h : sd.1.Inv PP PB PQ) (hf : sd.1.queued.Len < f) :
    (promote.loop7 discard f sd).1.Inv PP PB (fun v => PQ v ∧ 0b10000 ≤ v) := by
  induction f generalizing sd with
  | zero => omega
  | succ f ih =>
    obtain ⟨s, d⟩ := sd
    dsimp only at h hf
    rw [promote.loop7]
    split
    · rename_i hl
      obtain ⟨_, hrv, hrp, hrf, _⟩ := SubPool.PopWorst_spec s.mem s.queued h.vC hl
      have hlen := SubPool.PopWorst_len h.vC hl
      dsimp only
      split
      · rename_i h16
        exact ⟨h.vA, h.vB, h.vC, h.dAB, h.dAC, h.dBC, h.mA, h.mB,
          fun y hy => ⟨h.mC y hy, Nat.le_trans h16 (SubPool.worst_min h.vC hl y hy)⟩⟩
      · refine ih _ (Inv3.popped (Inv3.swap13 h) _ hrv hrp hrf).1.swap13 ?_
        show (SubPool.PopWorst s.mem s.queued).1.2.Len < f
        omega
    · rename_i hl
      exact ⟨h.vA, h.vB, h.vC, h.dAB, h.dAC, h.dBC, h.mA, h.mB, AllMk.of_empty hl⟩

theorem promote.loop8_spec {D : Type} (discard : Mem → Ptr → D → D) (PP PB PQ : Nat → Prop)
    (f : Nat) (sd : Pools × D) (h : sd.1.Inv PP PB PQ) (hf : sd.1.queued.Len < f) :
    (promote.loop8 discard f sd).1.Inv PP PB PQ ∧
      (promote.loop8 discard f sd).1.queued.Len ≤ QueuedSubPoolLimit := by
  induction f generalizing sd with
  | zero => omega
  | succ f ih =>
    obtain ⟨s, d⟩ := sd
    dsimp only at h hf
    rw [promote.loop8]
    split
    · rename_i hl
      have hl0 : 0 < s.queued.Len := by unfold QueuedSubPoolLimit at hl; omega
      obtain ⟨_, hrv, hrp, hrf, _⟩ := SubPool.PopWorst_spec s.mem s.queued h.vC hl0
      have hlen := SubPool.PopWorst_len h.vC hl0
      dsimp only
      refine ih _ (Inv3.popped (Inv3.swap13 h) _ hrv hrp hrf).1.swap13 ?_
      show (SubPool.PopWorst s.mem s.queued).1.2.Len < f
      omega
    · rename_i hl
      exact ⟨h, Nat.le_of_not_lt hl⟩

/-- The function `promote` on three sub-pools with valid heaps: the heaps stay
valid, every element is left in the sub-pool of its marker, and `queued` is
within its limit. -/
theorem promote_spec {D : Type} (discard : Mem → Ptr → D → D) (sd : Pools × D)
    (h : sd.1.Valid) :
    (promote discard sd).1.Inv (fun v => 0b11110 ≤ v)
        (fun v => 0b11100 ≤ v ∧ v < 0b11110) (fun v => 0b10000 ≤ v ∧ v < 0b11100) ∧
      (promote discard sd).1.queued.Len ≤ QueuedSubPoolLimit := by
  have h0 : sd.1.Inv (fun _ => True) (fun _ => True) (fun _ => True) :=
    (Pools.valid_iff sd.1).1 h
  simp only [promote]
  have h1 := promote.loop1_spec discard _ _ _ (fun _ _ _ => trivial) (fun _ _ _ => trivial)
      (sd.1.pending.Len + 1) sd h0 (Nat.lt_succ_self _)
  generalize promote.loop1 discard (sd.1.pending.Len + 1) sd = s1 at h1 ⊢
  have h2 := promote.loop2_spec discard _ _ _ (s1.1.pending.Len + 1) s1 h1
  generalize promote.loop2 discard (s1.1.pending.Len + 1) s1 = s2 at h2 ⊢
  have h3 := promote.loop3_spec _ _ _ (fun v hv => ⟨trivial, hv⟩) (s2.1.baseFee.Len + 1) s2 h2
    (Nat.lt_succ_self _)
  generalize promote.loop3 (s2.1.baseFee.Len + 1) s2 = s3 at h3 ⊢
  have h4 := promote.loop4_spec discard _ _ _ (fun _ _ _ => trivial) (s3.1.baseFee.Len + 1) s3
    h3 (Nat.lt_succ_self _)
  generalize promote.loop4 discard (s3.1.baseFee.Len + 1) s3 = s4 at h4 ⊢
  have h5 := promote.loop5_spec discard _ _ _ (s4.1.baseFee.Len + 1) s4 h4
  generalize promote.loop5 discard (s4.1.baseFee.Len + 1) s4 = s5 at h5 ⊢
  have h6 := promote.loop6_spec _ _ _ (fun v hv => ⟨trivial, hv⟩)
    (fun v h1 h2 => ⟨⟨trivial, h2⟩, h1⟩) (s5.1.queued.Len + 1) s5 h5 (Nat.lt_succ_self _)
  generalize promote.loop6 (s5.1.queued.Len + 1) s5 = s6 at h6 ⊢
  have h7 := promote.loop7_spec discard _ _ _ (s6.1.queued.Len + 1) s6 h6 (Nat.lt_succ_self _)
  generalize promote.loop7 discard (s6.1.queued.Len + 1) s6 = s7 at h7 ⊢
  have h8 := promote.loop8_spec discard _ _ _ (s7.1.queued.Len + 1) s7 h7 (Nat.lt_succ_self _)
  refine ⟨Inv3.weaken h8.1 ?_ ?_ ?_, h8.2⟩
  · intro v hv; exact hv.2
  · intro v hv; exact ⟨hv.2, hv.1.2⟩
  · intro v hv; exact ⟨hv.2, hv.1.2⟩

/-! ## Scoring: the walk of `onSenderChange` -/

theorem iterate_visit (sender : senderInfo) (pbf pend : Nat) (l : List Ptr)
    (st : Mem × ScoreAcc) :
    iterate (onSenderChange.visit sender pbf pend) l st =
      l.foldl (fun st p => (onSenderChange.visit sender pbf pend st p).1) st := by
  induction l generalizing st with
  | nil => rfl
  | cons x xs ih =>
    simp only [iterate, List.foldl_cons]
    rw [if_pos (by rfl)]
    exact ih _

theorem score_Tx (sender : senderInfo) (pbf pend : Nat) (acc : ScoreAcc) (mt : metaTx) :
    (onSenderChange.score sender pbf pend acc mt).1.Tx = mt.Tx := by
  unfold onSenderChange.score
  dsimp only
  split <;> rfl

theorem score_acc_congr (sender : senderInfo) (pbf pend : Nat) (acc : ScoreAcc)
    {mt mt' : metaTx} (h : mt.Tx = mt'.Tx) :
    (onSenderChange.score sender pbf pend acc mt).2 =
      (onSenderChange.score sender pbf pend acc mt').2 := by
  unfold onSenderChange.score
  dsimp only
  rw [h]
  split <;> rfl

theorem foldVisit_not_mem (sender : senderInfo) (pbf pend : Nat) (l : List Ptr)
    (st : Mem × ScoreAcc) (p : Ptr) (hp : p ∉ l) :
    (l.foldl (fun st p => (onSenderChange.visit sender pbf pend st p).1) st).1 p = st.1 p := by
  induction l generalizing st with
  | nil => rfl
  | cons x xs ih =>
    simp only [List.foldl_cons]
    rw [ih _ (fun h => hp (List.mem_cons_of_mem _ h))]
    simp only [onSenderChange.visit]
    have hpx : p ≠ x := by
      intro h; subst h; exact hp (List.mem_cons_self _ _)
    exact Function.update_noteq hpx _ _

theorem foldVisit_Tx (sender : senderInfo) (pbf pend : Nat) (l : List Ptr)
    (st : Mem × ScoreAcc) (p : Ptr) :
    ((l.foldl (fun st p => (onSenderChange.visit sender pbf pend st p).1) st).1 p).Tx
      = (st.1 p).Tx := by
  induction l generalizing st with
  | nil => rfl
  | cons x xs ih =>
    simp only [List.foldl_cons]
    rw [ih]
    simp only [onSenderChange.visit]
    by_cases h : p = x
    · subst h
      rw [Function.update_same, score_Tx]
    · rw [Function.update_noteq h]

theorem accFold_congr (sender : senderInfo) (pbf pend : Nat) {m m' : Mem} (acc : ScoreAcc)
    (l : List Ptr) (h : ∀ q ∈ l, (m q).Tx = (m' q).Tx) :
    accFold sender pbf pend m acc l = accFold sender pbf pend m' acc l := by
  induction l generalizing acc with
  | nil => rfl
  | cons x xs ih =>
    simp only [accFold, List.foldl_cons]
    rw [score_acc_congr sender pbf pend acc (h x (List.mem_cons_self _ _))]
    exact ih _ (fun q hq => h q (List.mem_cons_of_mem _ hq))

/-- The record the walk leaves at an address it visits: the callback applied
to the original record, with the local variables as the earlier visits left
them. -/
theorem foldVisit_at (sender : senderInfo) (pbf pend : Nat) (pre : List Ptr) (p : Ptr)
    (post : List Ptr) (st : Mem × ScoreAcc) (hnd : (pre ++ p :: post).Nodup) :
    ((pre ++ p :: post).foldl (fun st p => (onSenderChange.visit sender pbf pend st p).1) st).1 p
      = (onSenderChange.score sender pbf pend (accFold sender pbf pend st.1 st.2 pre)
          (st.1 p)).1 := by
  induction pre generalizing st with
  | nil =>
    simp only [List.nil_append, List.foldl_cons, accFold, List.foldl_nil]
    have hp : p ∉ post := (List.nodup_cons.1 hnd).1
    rw [foldVisit_not_mem _ _ _ _ _ _ hp]
    simp only [onSenderChange.visit, Function.update_same]
  | cons x xs ih =>
    have hnd' : (xs ++ p :: post).Nodup := (List.nodup_cons.1 hnd).2
    have hx : x ∉ xs ++ p :: post := (List.nodup_cons.1 hnd).1
    have hpx : p ≠ x := by
      intro h; subst h; exact hx (List.mem_append_right _ (List.mem_cons_self _ _))
    simp only [List.cons_append, List.foldl_cons]
    rw [ih _ hnd']
    have hc : accFold sender pbf pend
        (Function.update st.1 x (onSenderChange.score sender pbf pend st.2 (st.1 x)).1)
        (onSenderChange.score sender pbf pend st.2 (st.1 x)).2 xs =
        accFold sender pbf pend st.1 (onSenderChange.score sender pbf pend st.2 (st.1 x)).2 xs := by
      apply accFold_congr
      intro q hq
      have hqx : q ≠ x := by
        intro h; subst h; exact hx (List.mem_append_left _ hq)
      rw [Function.update_noteq hqx]
    simp only [onSenderChange.visit, Function.update_noteq hpx]
    rw [hc]
    simp only [accFold, List.foldl_cons]

/-! ### The items of a sender in an ordered index -/

theorem sortByNonce_Less_iff (a b : metaTx) :
    sortByNonce.Less a b = true ↔
      (a.Tx.senderID < b.Tx.senderID ∨
        (a.Tx.senderID = b.Tx.senderID ∧ a.Tx.nonce < b.Tx.nonce)) := by
  unfold sortByNonce.Less
  split_ifs with h
  · simp only [decide_eq_true_eq]; omega
  · simp only [decide_eq_true_eq]; omega

theorem takeWhile_eq_filter_sorted (m : Mem) (id : Nat) (l : List Ptr)
    (hs : ByNonce.Sorted m l) (hge : ∀ x ∈ l, id ≤ (m x).Tx.senderID) :
    l.takeWhile (fun x => decide ((m x).Tx.senderID = id)) =
      l.filter (fun x => decide ((m x).Tx.senderID = id)) := by
  induction l with
  | nil => rfl
  | cons x xs ih =>
    have hs' : ByNonce.Sorted m xs := (List.pairwise_cons.1 hs).2
    have hx := (List.pairwise_cons.1 hs).1
    by_cases h : (m x).Tx.senderID = id
    · rw [List.takeWhile_cons_of_pos (by simpa using h), List.filter_cons_of_pos (by simpa using h),
        ih hs' (fun y hy => hge y (List.mem_cons_of_mem _ hy))]
    · rw [List.takeWhile_cons_of_neg (by simpa using h), List.filter_cons_of_neg (by simpa using h)]
      symm
      rw [List.filter_eq_nil_iff]
      intro y hy
      have h1 := (sortByNonce_Less_iff _ _).1 (hx y hy)
      have h2 := hge x (List.mem_cons_self _ _)
      simp only [decide_eq_true_eq]
      omega

theorem ascendItems_eq_residents (m : Mem) (b : ByNonce) (id : Nat)
    (hs : ByNonce.Sorted m b) : ByNonce.ascendItems m b id = ByNonce.residents m b id := by
  unfold ByNonce.ascendItems ByNonce.residents
  rw [takeWhile_eq_filter_sorted m id _ (List.Pairwise.sublist (List.filter_sublist _) hs)]
  · rw [List.filter_filter]
    apply List.filter_congr
    intro x _
    have h1 := sortByNonce_Less_iff (m x) (sortByNonce.key id 0)
    by_cases h : (m x).Tx.senderID = id
    · have h2 : ¬ sortByNonce.Less (m x) (sortByNonce.key id 0) = true := by
        rw [h1]; simp [sortByNonce.key, h]
      simp [h, h2]
    · simp [h]
  · intro x hx
    have h1 := (List.mem_filter.1 hx).2
    have h2 := sortByNonce_Less_iff (m x) (sortByNonce.key id 0)
    simp only [Bool.not_eq_true', ← Bool.not_eq_true, h2] at h1
    simp only [sortByNonce.key] at h1
    omega

theorem ByNonce.Sorted.indexNodup {m : Mem} {b : ByNonce} (hs : ByNonce.Sorted m b) : b.Nodup := by
  refine List.Pairwise.imp ?_ hs
  intro x y h e
  subst e
  rw [sortByNonce_Less_iff] at h
  omega

theorem onSenderChange_eq (id : Nat) (sender : senderInfo) (m : Mem) (b : ByNonce)
    (pbf pend : Nat) (hs : ByNonce.Sorted m b) :
    onSenderChange id sender m b pbf pend =
      ((ByNonce.residents m b id).foldl
        (fun st p => (onSenderChange.visit sender pbf pend st p).1)
        (m, onSenderChange.init sender)).1 := by
  unfold onSenderChange ByNonce.ascend
  rw [iterate_visit, ascendItems_eq_residents m b id hs]

/-- The record `onSenderChange` leaves at a resident transaction of the sender. -/
theorem onSenderChange_at (id : Nat) (sender : senderInfo) (m : Mem) (b : ByNonce)
    (pbf pend : Nat) (hs : ByNonce.Sorted m b) (pre : List Ptr) (p : Ptr) (post : List Ptr)
    (hr : ByNonce.residents m b id = pre ++ p :: post) :
    onSenderChange id sender m b pbf pend p =
      (onSenderChange.score sender pbf pend
        (accFold sender pbf pend m (onSenderChange.init sender) pre) (m p)).1 := by
  rw [onSenderChange_eq id sender m b pbf pend hs, hr]
  exact foldVisit_at sender pbf pend pre p post _
    (hr ▸ (List.Nodup.sublist (List.filter_sublist _) hs.indexNodup))

/-- Records other than the resident transactions of the sender are not touched. -/
theorem onSenderChange_other (id : Nat) (sender : senderInfo) (m : Mem) (b : ByNonce)
    (pbf pend : Nat) (hs : ByNonce.Sorted m b) (p : Ptr)
    (hp : p ∉ ByNonce.residents m b id) :
    onSenderChange id sender m b pbf pend p = m p := by
  rw [onSenderChange_eq id sender m b pbf pend hs]
  exact foldVisit_not_mem sender pbf pend _ _ p hp

theorem mem_residents {m : Mem} {b : ByNonce} {id : Nat} {p : Ptr} :
    p ∈ ByNonce.residents m b id ↔ p ∈ b ∧ (m p).Tx.senderID = id := by
  simp [ByNonce.residents, List.mem_filter]

theorem residents_split {m : Mem} {b : ByNonce} {id : Nat} {p : Ptr} (hp : p ∈ b)
    (hid : (m p).Tx.senderID = id) :
    ∃ pre post, ByNonce.residents m b id = pre ++ p :: post :=
  List.append_of_mem (mem_residents.2 ⟨hp, hid⟩)

/-! ### The marker and the effective tip the callback computes -/

set_option maxRecDepth 100000 in
theorem mkMarker_bits : ∀ y, y < 256 → ∀ g b f : Bool,
    (mkMarker y g b f &&& EnoughFeeCapProtocol ≠ 0) ∧
    ((mkMarker y g b f &&& NoNonceGaps ≠ 0) ↔ g = true) ∧
    ((mkMarker y g b f &&& EnoughBalance ≠ 0) ↔ b = true) ∧
    ((mkMarker y g b f &&& EnoughFeeCapBlock ≠ 0) ↔ f = true) ∧
    (mkMarker y g b f &&& IsLocal = y &&& IsLocal) ∧ mkMarker y g b f < 256 := by
  decide

theorem andNot_protocol_lt (x : Nat) : andNot x EnoughFeeCapProtocol < 256 := by
  have h : (255 ^^^ EnoughFeeCapProtocol) = 239 := by decide
  have := @Nat.and_le_right x (255 ^^^ EnoughFeeCapProtocol)
  unfold andNot
  omega

/-- The value `cumulativeRequiredBalance` after the callback has seen a record. -/
theorem score_cumulative (sender : senderInfo) (pbf pend : Nat) (acc : ScoreAcc) (mt : metaTx) :
    (onSenderChange.score sender pbf pend acc mt).2.cumulativeRequiredBalance =
      if pbf ≤ mt.Tx.feeCap ∧ sender.nonce < mt.Tx.nonce then
        (acc.cumulativeRequiredBalance + needBalance mt.Tx) % two256
      else acc.cumulativeRequiredBalance := by
  unfold onSenderChange.score
  dsimp only
  by_cases h1 : pbf ≤ mt.Tx.feeCap
  · rw [if_pos h1]
    by_cases h2 : sender.nonce < mt.Tx.nonce
    · simp [h1, h2]
    · simp [h1, h2]
  · rw [if_neg h1]
    simp [h1]

/-- The value `noGapsNonce` after the callback has seen a record. -/
theorem score_noGapsNonce (sender : senderInfo) (pbf pend : Nat) (acc : ScoreAcc)
    (mt : metaTx) :
    (onSenderChange.score sender pbf pend acc mt).2.noGapsNonce =
      if pbf ≤ mt.Tx.feeCap ∧ acc.noGapsNonce = mt.Tx.nonce then (acc.noGapsNonce + 1) % two64
      else acc.noGapsNonce := by
  unfold onSenderChange.score
  dsimp only
  by_cases h1 : pbf ≤ mt.Tx.feeCap
  · rw [if_pos h1]
    by_cases h2 : acc.noGapsNonce = mt.Tx.nonce
    · simp [h1, h2]
    · simp [h1, h2]
  · rw [if_neg h1]
    simp [h1]

theorem score_minFeeCap (sender : senderInfo) (pbf pend : Nat) (acc : ScoreAcc) (mt : metaTx) :
    (onSenderChange.score sender pbf pend acc mt).2.minFeeCap = min acc.minFeeCap mt.Tx.feeCap := by
  unfold onSenderChange.score
  dsimp only
  split <;> rfl

theorem score_minTip (sender : senderInfo) (pbf pend : Nat) (acc : ScoreAcc) (mt : metaTx) :
    (onSenderChange.score sender pbf pend acc mt).2.minTip = min acc.minTip mt.Tx.tip := by
  unfold onSenderChange.score
  dsimp only
  split <;> rfl

theorem score_effectiveTip (sender : senderInfo) (pbf pend : Nat) (acc : ScoreAcc)
    (mt : metaTx) :
    (onSenderChange.score sender pbf pend acc mt).1.effectiveTip =
      if min acc.minFeeCap mt.Tx.feeCap ≤ pend then min acc.minTip mt.Tx.tip
      else min acc.minFeeCap mt.Tx.feeCap - pend := by
  unfold onSenderChange.score
  dsimp only
  split <;> rfl

/-- The marker the callback leaves on a record. -/
theorem score_subPool (sender : senderInfo) (pbf pend : Nat) (acc : ScoreAcc) (mt : metaTx) :
    (onSenderChange.score sender pbf pend acc mt).1.subPool =
      if pbf ≤ mt.Tx.feeCap then
        mkMarker (andNot mt.subPool EnoughFeeCapProtocol)
          (decide (acc.noGapsNonce = mt.Tx.nonce))
          (decide (sender.nonce < mt.Tx.nonce ∧
            (acc.cumulativeRequiredBalance + needBalance mt.Tx) % two256 ≤ sender.balance))
          (decide (pend ≤ mt.Tx.feeCap))
      else 0 := by
  unfold onSenderChange.score mkMarker
  dsimp only
  by_cases h1 : pbf ≤ mt.Tx.feeCap
  · rw [if_pos h1, if_pos h1]
    by_cases h2 : sender.nonce < mt.Tx.nonce
    · simp only [h2, if_true, true_and, decide_eq_true_eq]
    · simp only [h2, if_false, false_and, decide_False, Bool.false_eq_true, decide_eq_true_eq]
  · rw [if_neg h1, if_neg h1]

theorem min_eq (a b : Nat) : TxPool.min a b = if a ≤ b then a else b := rfl

/-! ### The running minima -/

/-- The running minimum of the fee caps of the records visited. -/
theorem accFold_minFeeCap (sender : senderInfo) (pbf pend : Nat) (m : Mem) (l : List Ptr) :
    (∀ q ∈ l, (accFold sender pbf pend m (onSenderChange.init sender) l).minFeeCap
        ≤ (m q).Tx.feeCap) ∧
      ((accFold sender pbf pend m (onSenderChange.init sender) l).minFeeCap = two64 - 1 ∨
        ∃ q ∈ l, (m q).Tx.feeCap =
          (accFold sender pbf pend m (onSenderChange.init sender) l).minFeeCap) := by
  induction l using List.reverseRecOn with
  | nil => exact ⟨fun q hq => (by cases hq), Or.inl rfl⟩
  | append_singleton xs x ih =>
    have e : accFold sender pbf pend m (onSenderChange.init sender) (xs ++ [x]) =
        (onSenderChange.score sender pbf pend
          (accFold sender pbf pend m (onSenderChange.init sender) xs) (m x)).2 := by
      simp [accFold, List.foldl_append]
    rw [e, score_minFeeCap, min_eq]
    obtain ⟨h1, h2⟩ := ih
    constructor
    · intro q hq
      rcases List.mem_append.1 hq with h | h
      · have := h1 q h
        split <;> omega
      · rw [List.mem_singleton] at h
        subst h
        split <;> omega
    · split
      · rename_i hle
        rcases h2 with h | ⟨q, hq, he⟩
        · exact Or.inl h
        · exact Or.inr ⟨q, List.mem_append_left _ hq, he⟩
      · exact Or.inr ⟨x, List.mem_append_right _ (List.mem_singleton_self _), rfl⟩

/-- The running minimum of the tips of the records visited. -/
theorem accFold_minTip (sender : senderInfo) (pbf pend : Nat) (m : Mem) (l : List Ptr) :
    (∀ q ∈ l, (accFold sender pbf pend m (onSenderChange.init sender) l).minTip
        ≤ (m q).Tx.tip) ∧
      ((accFold sender pbf pend m (onSenderChange.init sender) l).minTip = two64 - 1 ∨
        ∃ q ∈ l, (m q).Tx.tip =
          (accFold sender pbf pend m (onSenderChange.init sender) l).minTip) := by
  induction l using List.reverseRecOn with
  | nil => exact ⟨fun q hq => (by cases hq), Or.inl rfl⟩
  | append_singleton xs x ih =>
    have e : accFold sender pbf pend m (onSenderChange.init sender) (xs ++ [x]) =
        (onSenderChange.score sender pbf pend
          (accFold sender pbf pend m (onSenderChange.init sender) xs) (m x)).2 := by
      simp [accFold, List.foldl_append]
    rw [e, score_minTip, min_eq]
    obtain ⟨h1, h2⟩ := ih
    constructor
    · intro q hq
      rcases List.mem_append.1 hq with h | h
      · have := h1 q h
        split <;> omega
      · rw [List.mem_singleton] at h
        subst h
        split <;> omega
    · split
      · rename_i hle
        rcases h2 with h | ⟨q, hq, he⟩
        · exact Or.inl h
        · exact Or.inr ⟨q, List.mem_append_left _ hq, he⟩
      · exact Or.inr ⟨x, List.mem_append_right _ (List.mem_singleton_self _), rfl⟩

/-! ### The order of the resident transactions of a sender -/

theorem residents_sorted {m : Mem} {b : ByNonce} (id : Nat) (hs : ByNonce.Sorted m b) :
    (ByNonce.residents m b id).Pairwise (fun x y => (m x).Tx.nonce < (m y).Tx.nonce) := by
  have h1 : ByNonce.Sorted m (ByNonce.residents m b id) :=
    List.Pairwise.sublist (List.filter_sublist _) hs
  have h2 : ∀ x ∈ ByNonce.residents m b id, (m x).Tx.senderID = id :=
    fun x hx => (mem_residents.1 hx).2
  refine List.Pairwise.imp_of_mem ?_ h1
  intro x y hx hy h
  rw [sortByNonce_Less_iff, h2 x hx, h2 y hy] at h
  omega

theorem residents_pre_lt {m : Mem} {b : ByNonce} {id : Nat} (hs : ByNonce.Sorted m b)
    {pre post : List Ptr} {p : Ptr} (hr : ByNonce.residents m b id = pre ++ p :: post) :
    (∀ q ∈ pre, (m q).Tx.nonce < (m p).Tx.nonce) ∧
      (∀ q ∈ post, (m p).Tx.nonce < (m q).Tx.nonce) ∧
      pre.Pairwise (fun x y => (m x).Tx.nonce < (m y).Tx.nonce) := by
  have h := residents_sorted id hs
  rw [hr, List.pairwise_append] at h
  obtain ⟨h1, h2, h3⟩ := h
  exact ⟨fun q hq => h3 q hq p (List.mem_cons_self _ _), (List.pairwise_cons.1 h2).1, h1⟩

/-- The resident transactions up to the nonce of `p` are `p` and the ones
visited before it. -/
theorem mem_pre_iff {m : Mem} {b : ByNonce} {id : Nat} (hs : ByNonce.Sorted m b)
    {pre post : List Ptr} {p : Ptr} (hr : ByNonce.residents m b id = pre ++ p :: post)
    (q : Ptr) :
    q ∈ pre ++ [p] ↔ (q ∈ b ∧ (m q).Tx.senderID = id ∧ (m q).Tx.nonce ≤ (m p).Tx.nonce) := by
  obtain ⟨h1, h2, _⟩ := residents_pre_lt hs hr
  have hm : ∀ q, q ∈ ByNonce.residents m b id ↔ q ∈ pre ∨ q = p ∨ q ∈ post := by
    intro q; rw [hr]; simp [List.mem_append, List.mem_cons]
  constructor
  · intro hq
    rcases List.mem_append.1 hq with h | h
    · have := mem_residents.1 ((hm q).2 (Or.inl h))
      exact ⟨this.1, this.2, Nat.le_of_lt (h1 q h)⟩
    · rw [List.mem_singleton] at h
      subst h
      have := mem_residents.1 ((hm q).2 (Or.inr (Or.inl rfl)))
      exact ⟨this.1, this.2, Nat.le_refl _⟩
  · rintro ⟨hb, hid, hn⟩
    rcases (hm q).1 (mem_residents.2 ⟨hb, hid⟩) with h | h | h
    · exact List.mem_append_left _ h
    · exact List.mem_append_right _ (by rw [h]; exact List.mem_singleton_self _)
    · have := h2 q h
      omega

/-! ### The expected nonce and the cumulative balance -/

theorem accFold_snoc (sender : senderInfo) (pbf pend : Nat) (m : Mem) (acc : ScoreAcc)
    (xs : List Ptr) (x : Ptr) :
    accFold sender pbf pend m acc (xs ++ [x]) =
      (onSenderChange.score sender pbf pend (accFold sender pbf pend m acc xs) (m x)).2 := by
  simp [accFold, List.foldl_append]

/-- Over transactions that all meet the protocol fee, in ascending order of
nonce, the expected nonce is the least nonce above the state nonce that has not
been visited. -/
theorem accFold_noGaps (sender : senderInfo) (pbf pend : Nat) (m : Mem) (l : List Ptr)
    (hsn : sender.nonce + 1 < two64)
    (hsorted : l.Pairwise (fun x y => (m x).Tx.nonce < (m y).Tx.nonce))
    (hfee : ∀ q ∈ l, pbf ≤ (m q).Tx.feeCap) (hmax : ∀ q ∈ l, (m q).Tx.nonce + 1 < two64) :
    sender.nonce + 1 ≤ (accFold sender pbf pend m (onSenderChange.init sender) l).noGapsNonce ∧
      (accFold sender pbf pend m (onSenderChange.init sender) l).noGapsNonce < two64 ∧
      (∀ k, sender.nonce + 1 ≤ k →
        k < (accFold sender pbf pend m (onSenderChange.init sender) l).noGapsNonce →
        ∃ q ∈ l, (m q).Tx.nonce = k) ∧
      (∀ q ∈ l, (m q).Tx.nonce ≠
        (accFold sender pbf pend m (onSenderChange.init sender) l).noGapsNonce) := by
  induction l using List.reverseRecOn with
  | nil =>
    have e : (accFold sender pbf pend m (onSenderChange.init sender) []).noGapsNonce =
        sender.nonce + 1 := by
      show (sender.nonce + 1) % two64 = sender.nonce + 1
      exact Nat.mod_eq_of_lt hsn
    rw [e]
    exact ⟨Nat.le_refl _, hsn, fun k h1 h2 => by omega, fun q hq => by cases hq⟩
  | append_singleton xs x ih =>
    rw [List.pairwise_append] at hsorted
    obtain ⟨hs1, _, hs3⟩ := hsorted
    obtain ⟨i1, i2, i3, i4⟩ := ih hs1 (fun q hq => hfee q (List.mem_append_left _ hq))
      (fun q hq => hmax q (List.mem_append_left _ hq))
    have hx : x ∈ xs ++ [x] := List.mem_append_right _ (List.mem_singleton_self _)
    rw [accFold_snoc, score_noGapsNonce]
    by_cases hm : (accFold sender pbf pend m (onSenderChange.init sender) xs).noGapsNonce
        = (m x).Tx.nonce
    · rw [if_pos ⟨hfee x hx, hm⟩]
      have hlt := hmax x hx
      rw [hm, Nat.mod_eq_of_lt hlt]
      refine ⟨by omega, hlt, ?_, ?_⟩
      · intro k h1 h2
        by_cases hk : k = (m x).Tx.nonce
        · exact ⟨x, hx, hk.symm⟩
        · obtain ⟨q, hq, he⟩ := i3 k h1 (by omega)
          exact ⟨q, List.mem_append_left _ hq, he⟩
      · intro q hq
        rcases List.mem_append.1 hq with h | h
        · have := hs3 q h x (List.mem_singleton_self _)
          omega
        · rw [List.mem_singleton] at h
          subst h
          omega
    · rw [if_neg (fun h => hm h.2)]
      refine ⟨i1, i2, ?_, ?_⟩
      · intro k h1 h2
        obtain ⟨q, hq, he⟩ := i3 k h1 h2
        exact ⟨q, List.mem_append_left _ hq, he⟩
      · intro q hq
        rcases List.mem_append.1 hq with h | h
        · exact i4 q h
        · rw [List.mem_singleton] at h
          subst h
          exact fun e => hm e.symm

theorem needBalance_eq (tx : TxSlot) : needBalance tx = exactNeed tx % two256 := by
  unfold needBalance exactNeed
  rw [Nat.add_mod, Nat.mod_mod, ← Nat.add_mod]

/-- The exact cost of the visited transactions that count towards the
cumulative required balance: those that meet the protocol fee and have a nonce
above the state nonce. -/
theorem accFold_cumulative (sender : senderInfo) (pbf pend : Nat) (m : Mem) (l : List Ptr) :
    (accFold sender pbf pend m (onSenderChange.init sender) l).cumulativeRequiredBalance =
      ((l.filter (fun q => decide (pbf ≤ (m q).Tx.feeCap ∧ sender.nonce < (m q).Tx.nonce))).map
        (fun q => exactNeed (m q).Tx)).sum % two256 := by
  induction l using List.reverseRecOn with
  | nil => rfl
  | append_singleton xs x ih =>
    rw [accFold_snoc, score_cumulative, ih, List.filter_append, List.map_append, List.sum_append]
    by_cases hc : pbf ≤ (m x).Tx.feeCap ∧ sender.nonce < (m x).Tx.nonce
    · rw [if_pos hc, List.filter_cons_of_pos (by simpa using hc)]
      simp only [List.filter_nil, List.map_cons, List.map_nil, List.sum_cons, List.sum_nil,
        Nat.add_zero]
      rw [needBalance_eq, ← Nat.add_mod]
    · rw [if_neg hc, List.filter_cons_of_neg (by simpa using hc)]
      simp

/-! ## Promotion: marker ranges and capacity -/

/-- C1: for every state whose three sub-pools have valid heaps (and share no
element), after `promote` the heaps are still valid, every element of Pending
has marker `>= 0b11110`, every element of BaseFee has
`0b11100 <= marker < 0b11110`, and every element of Queued has
`0b10000 <= marker < 0b11100`. -/
theorem promote_marker_ranges {D : Type} (discard : Mem → Ptr → D → D) (sd : Pools × D)
    (h : sd.1.Valid) :
    (promote discard sd).1.Valid ∧
      (∀ x ∈ (promote discard sd).1.pending.best,
        0b11110 ≤ ((promote discard sd).1.mem x).subPool) ∧
      (∀ x ∈ (promote discard sd).1.baseFee.best,
        0b11100 ≤ ((promote discard sd).1.mem x).subPool ∧
          ((promote discard sd).1.mem x).subPool < 0b11110) ∧
      (∀ x ∈ (promote discard sd).1.queued.best,
        0b10000 ≤ ((promote discard sd).1.mem x).subPool ∧
          ((promote discard sd).1.mem x).subPool < 0b11100) := by
  have hs := (promote_spec discard sd h).1
  exact ⟨Inv3.valid hs, hs.mA, hs.mB, hs.mC⟩

theorem promote_marker_ranges_witness :
    mixedPools.Valid ∧ (promote logDiscard (mixedPools, [])).1.Valid ∧
      (∀ x ∈ (promote logDiscard (mixedPools, [])).1.pending.best,
        0b11110 ≤ ((promote logDiscard (mixedPools, [])).1.mem x).subPool) ∧
      (∀ x ∈ (promote logDiscard (mixedPools, [])).1.baseFee.best,
        0b11100 ≤ ((promote logDiscard (mixedPools, [])).1.mem x).subPool ∧
          ((promote logDiscard (mixedPools, [])).1.mem x).subPool < 0b11110) ∧
      (∀ x ∈ (promote logDiscard (mixedPools, [])).1.queued.best,
        0b10000 ≤ ((promote logDiscard (mixedPools, [])).1.mem x).subPool ∧
          ((promote logDiscard (mixedPools, [])).1.mem x).subPool < 0b11100) :=
  ⟨by decide, promote_marker_ranges logDiscard (mixedPools, []) (by decide)⟩

/-- C4: for every state whose three sub-pools have valid heaps, after `promote`
Queued holds at most `QueuedSubPoolLimit = 10240` elements. -/
theorem promote_queued_limit {D : Type} (discard : Mem → Ptr → D → D) (sd : Pools × D)
    (h : sd.1.Valid) :
    (promote discard sd).1.queued.Len ≤ QueuedSubPoolLimit ∧ QueuedSubPoolLimit = 10240 :=
  ⟨(promote_spec discard sd h).2, rfl⟩

theorem promote_queued_limit_witness :
    mixedPools.Valid ∧ (promote logDiscard (mixedPools, [])).1.queued.Len ≤ QueuedSubPoolLimit ∧
      QueuedSubPoolLimit = 10240 :=
  ⟨by decide, promote_queued_limit logDiscard (mixedPools, []) (by decide)⟩

/-! ### Sub-pools over capacity -/

theorem elemAt_range {n i : Nat} (h : i < n) : elemAt (List.range n) i = i := by
  rw [elemAt_of_lt (by simpa using h)]
  simp

theorem valid_empty (m : Mem) (t : Nat) : (NewSubPool t).Valid m := by
  refine ⟨⟨?_, ?_, ?_, ?_⟩, ?_, ?_⟩
  · intro i hi; cases hi
  · intro i hi; cases hi
  · intro x hx; cases hx
  · intro x hx; cases hx
  · intro j hj; cases hj
  · intro j hj; cases hj

/-- A sub-pool over `0, ..., n - 1` whose records have equal priority and their
own address as back-indices has valid heaps. -/
theorem valid_range (m : Mem) (t n : Nat)
    (hb : ∀ p, p < n → (m p).bestIndex = (p : Int) ∧ (m p).worstIndex = (p : Int))
    (hk : ∀ p q, p < n → q < n → (m p).Less (m q) = false) :
    SubPool.Valid m ⟨t, List.range n, List.range n⟩ := by
  refine ⟨⟨?_, ?_, fun _ h => h, fun _ h => h⟩, ?_, ?_⟩
  · intro i hi
    have hi' : i < n := by simpa using hi
    show idx .best (m (elemAt (List.range n) i)) = _
    rw [elemAt_range hi']
    exact (hb i hi').1
  · intro i hi
    have hi' : i < n := by simpa using hi
    show idx .worst (m (elemAt (List.range n) i)) = _
    rw [elemAt_range hi']
    exact (hb i hi').2
  · intro j hj
    have hj' : j < n := by simpa using hj
    show above .best (m (elemAt (List.range n) ((j - 1) / 2))) (m (elemAt (List.range n) j)) = true
    rw [elemAt_range hj', elemAt_range (by omega)]
    simp [above, hk _ _ (by omega : (j - 1) / 2 < n) hj']
  · intro j hj
    have hj' : j < n := by simpa using hj
    show above .worst (m (elemAt (List.range n) ((j - 1) / 2))) (m (elemAt (List.range n) j))
      = true
    rw [elemAt_range hj', elemAt_range (by omega)]
    simp [above, hk _ _ hj' (by omega : (j - 1) / 2 < n)]

theorem disj_nil_left (q : List Ptr) : Disj [] q := fun _ h => by cases h

theorem disj_nil_right (q : List Ptr) : Disj q [] := fun _ _ h => by cases h

theorem Worst_range (t : Nat) (b : List Ptr) (n : Nat) (h : 0 < n) :
    (SubPool.mk t b (List.range n)).Worst = some 0 := by
  unfold SubPool.Worst
  rw [if_neg (by rw [List.length_range]; omega), elemAt_range h]

theorem Best_range (t : Nat) (w : List Ptr) (n : Nat) (h : 0 < n) :
    (SubPool.mk t (List.range n) w).Best = some 0 := by
  unfold SubPool.Best
  rw [if_neg (by rw [List.length_range]; omega), elemAt_range h]

theorem pendingFull_valid : pendingFull.Valid := by
  refine ⟨?_, valid_empty _ _, valid_empty _ _, disj_nil_right _, disj_nil_right _,
    disj_nil_left _⟩
  refine valid_range _ _ _ (fun p _ => ⟨rfl, rfl⟩) ?_
  intro p q _ _
  rw [Less_false_iff]
  simp [pendingFull, uniformMem]

/-- When the worst element of `pending` has all five bits set and the other two
sub-pools are empty, `promote` changes nothing, whatever the size of `pending`. -/
theorem promote_all_local {D : Type} (discard : Mem → Ptr → D → D) (s : Pools) (d : D)
    (hl : 0 < s.pending.Len) (hw : 0b11111 ≤ markerAt s.mem s.pending.Worst)
    (hb : s.baseFee.Len = 0) (hq : s.queued.Len = 0) : promote discard (s, d) = (s, d) := by
  have e1 : promote.loop1 discard (s.pending.Len + 1) (s, d) = (s, d) := by
    rw [promote.loop1, if_pos hl]
    dsimp only
    rw [if_pos (by omega)]
  have e2 : promote.loop2 discard (s.pending.Len + 1) (s, d) = (s, d) := by
    rw [promote.loop2]
    split
    · dsimp only
      rw [if_pos hw]
    · rfl
  have e3 : promote.loop3 (s.baseFee.Len + 1) (s, d) = (s, d) := by
    rw [promote.loop3, if_neg (by omega)]
  have e4 : promote.loop4 discard (s.baseFee.Len + 1) (s, d) = (s, d) := by
    rw [promote.loop4, if_neg (by omega)]
  have e5 : promote.loop5 discard (s.baseFee.Len + 1) (s, d) = (s, d) := by
    rw [promote.loop5, if_neg (by omega)]
  have e6 : promote.loop6 (s.queued.Len + 1) (s, d) = (s, d) := by
    rw [promote.loop6, if_neg (by omega)]
  have e7 : promote.loop7 discard (s.queued.Len + 1) (s, d) = (s, d) := by
    rw [promote.loop7, if_neg (by omega)]
  have e8 : promote.loop8 discard (s.queued.Len + 1) (s, d) = (s, d) := by
    rw [promote.loop8, if_neg (by omega)]
  simp only [promote, e1, e2, e3, e4, e5, e6, e7, e8]

/-- C2 (failing input): `pendingFull` has valid heaps and 10241 elements in
Pending, all with marker `0b11111`; `promote` returns it unchanged, with Pending
over `PendingSubPoolLimit`. -/
theorem promote_pending_over_limit :
    pendingFull.Valid ∧
      (promote logDiscard (pendingFull, [])).1.pending.Len = 10241 ∧
      PendingSubPoolLimit < (promote logDiscard (pendingFull, [])).1.pending.Len := by
  have hp : pendingFull.pending = ⟨PendingSubPool, List.range (PendingSubPoolLimit + 1),
      List.range (PendingSubPoolLimit + 1)⟩ := rfl
  have hlen : pendingFull.pending.Len = 10241 := by
    rw [hp, SubPool.Len, List.length_range]
    norm_num [PendingSubPoolLimit]
  have hw : pendingFull.pending.Worst = some 0 := by
    rw [hp]
    exact Worst_range _ _ _ (Nat.succ_pos _)
  have he := promote_all_local logDiscard pendingFull [] (by rw [hlen]; norm_num)
    (by rw [hw]; exact Nat.le_refl _) rfl rfl
  rw [he]
  refine ⟨pendingFull_valid, hlen, ?_⟩
  rw [hlen]
  norm_num [PendingSubPoolLimit]

theorem SubPool.best_marker_mem {m : Mem} {p : SubPool} (hl : 0 < p.Len) :
    ∃ x ∈ p.best, markerAt m p.Best = (m x).subPool := by
  have h1 : 0 < p.best.length := hl
  refine ⟨elemAt p.best 0, elemAt_mem h1, ?_⟩
  simp [markerAt, SubPool.Best, Nat.pos_iff_ne_zero.1 h1]

theorem SubPool.worst_marker_mem {m : Mem} {p : SubPool} (hv : p.Valid m) (hl : 0 < p.Len) :
    ∃ x ∈ p.best, markerAt m p.Worst = (m x).subPool := by
  have h1 := SubPool.worst_pos hv hl
  refine ⟨elemAt p.worst 0, hv.1.2.2.2 _ (elemAt_mem h1), ?_⟩
  simp [markerAt, SubPool.Worst, Nat.pos_iff_ne_zero.1 h1]

/-- When `baseFee` is within its limit and `queued` holds one element whose
marker puts it in `baseFee`, step 6 of `promote` moves it there after step 5 has
run: `baseFee` ends one element larger. -/
theorem promote_baseFee_grows {D : Type} (discard : Mem → Ptr → D → D) (s : Pools) (d : D)
    (hv : s.Valid) (hp : s.pending.Len = 0) (hbl : 0 < s.baseFee.Len)
    (hble : s.baseFee.Len ≤ BaseFeeSubPoolLimit)
    (hb : AllMk (fun v => 0b11100 ≤ v ∧ v < 0b11110) s.mem s.baseFee.best)
    (hq : s.queued.Len = 1)
    (hqm : AllMk (fun v => 0b11100 ≤ v ∧ v < 0b11110) s.mem s.queued.best) :
    (promote discard (s, d)).1.baseFee.Len = s.baseFee.Len + 1 := by
  have h0 : Inv3 s.mem s.pending s.baseFee s.queued (fun _ => True) (fun _ => True)
      (fun _ => True) := (Pools.valid_iff s).1 hv
  have e1 : promote.loop1 discard (s.pending.Len + 1) (s, d) = (s, d) := by
    rw [promote.loop1, if_neg (by omega)]
  have e2 : promote.loop2 discard (s.pending.Len + 1) (s, d) = (s, d) := by
    rw [promote.loop2, if_neg (by omega)]
  have e3 : promote.loop3 (s.baseFee.Len + 1) (s, d) = (s, d) := by
    obtain ⟨x, hx, he⟩ := SubPool.best_marker_mem (m := s.mem) hbl
    rw [promote.loop3, if_pos hbl]
    dsimp only
    rw [if_pos (by rw [he]; exact (hb x hx).2)]
  have e4 : promote.loop4 discard (s.baseFee.Len + 1) (s, d) = (s, d) := by
    obtain ⟨x, hx, he⟩ := SubPool.worst_marker_mem h0.vB hbl
    rw [promote.loop4, if_pos hbl]
    dsimp only
    rw [if_pos (by rw [he]; exact (hb x hx).1)]
  have e5 : promote.loop5 discard (s.baseFee.Len + 1) (s, d) = (s, d) := by
    rw [promote.loop5, if_neg (by omega)]
  have hql : 0 < s.queued.Len := by omega
  obtain ⟨x, hx, he⟩ := SubPool.best_marker_mem (m := s.mem) hql
  obtain ⟨_, hrv, hrp, hrf, _⟩ := SubPool.PopBest_spec s.mem s.queued h0.vC hql
  have hlen := SubPool.PopBest_len h0.vC hql
  obtain ⟨hi, hxC, _⟩ := Inv3.popped (Inv3.swap13 h0) _ hrv hrp hrf
  have hadd := SubPool.Add_spec (SubPool.PopBest s.mem s.queued).1.1 s.baseFee
    (SubPool.PopBest s.mem s.queued).2 hi.vB (h0.dBC.symm _ hxC)
  have e6 : promote.loop6 (s.queued.Len + 1) (s, d) =
      ({ s with mem := (SubPool.Add (SubPool.PopBest s.mem s.queued).1.1 s.baseFee
                  (SubPool.PopBest s.mem s.queued).2).1,
                queued := (SubPool.PopBest s.mem s.queued).1.2,
                baseFee := (SubPool.Add (SubPool.PopBest s.mem s.queued).1.1 s.baseFee
                  (SubPool.PopBest s.mem s.queued).2).2 }, d) := by
    rw [promote.loop6, if_pos hql]
    dsimp only
    rw [if_neg (by rw [he]; have := (hqm x hx).1; omega), if_pos (by rw [he]; exact (hqm x hx).2),
      hq, promote.loop6, if_neg (by dsimp only; omega)]
  have e7 : ∀ (f : Nat) (t : Pools), t.queued.Len = 0 →
      promote.loop7 discard (f + 1) (t, d) = (t, d) := by
    intro f t ht
    rw [promote.loop7, if_neg (by omega)]
  have e8 : ∀ (f : Nat) (t : Pools), t.queued.Len = 0 →
      promote.loop8 discard (f + 1) (t, d) = (t, d) := by
    intro f t ht
    rw [promote.loop8, if_neg (by omega)]
  have hq0 : (SubPool.PopBest s.mem s.queued).1.2.Len = 0 := by omega
  simp only [promote, e1, e2, e3, e4, e5, e6]
  rw [e7, e8]
  · have := hadd.2.1.length_eq
    simpa [SubPool.Len] using this
  · exact hq0
  · exact hq0

theorem baseFeeFull_valid : baseFeeFull.Valid := by
  refine ⟨valid_empty _ _, ?_, ?_, disj_nil_left _, disj_nil_left _, ?_⟩
  · refine valid_range _ _ _ ?_ ?_
    · intro p hp
      simp [baseFeeFull, baseFeeFullMem, hp]
    · intro p q _ _
      rw [Less_false_iff]
      simp [baseFeeFull, baseFeeFullMem]
  · refine ⟨⟨?_, ?_, fun _ h => h, fun _ h => h⟩, ?_, ?_⟩
    · intro i hi
      have hi0 : i = 0 := by simpa [baseFeeFull] using hi
      subst hi0
      simp [baseFeeFull, baseFeeFullMem, elemAt, idx]
    · intro i hi
      have hi0 : i = 0 := by simpa [baseFeeFull] using hi
      subst hi0
      simp [baseFeeFull, baseFeeFullMem, elemAt, idx]
    · intro j hj
      have hj0 : j = 0 := by simpa [baseFeeFull] using hj
      subst hj0
      simp [above, Less_irrefl]
    · intro j hj
      have hj0 : j = 0 := by simpa [baseFeeFull] using hj
      subst hj0
      simp [above, Less_irrefl]
  · intro x hx
    have hbf : baseFeeFull.baseFee = ⟨BaseFeeSubPool, List.range BaseFeeSubPoolLimit,
      List.range BaseFeeSubPoolLimit⟩ := rfl
    have hqf : baseFeeFull.queued = ⟨QueuedSubPool, [BaseFeeSubPoolLimit],
      [BaseFeeSubPoolLimit]⟩ := rfl
    rw [hbf] at hx
    rw [hqf]
    dsimp only at hx ⊢
    rw [List.mem_range] at hx
    rw [List.mem_singleton]
    exact Nat.ne_of_lt hx

/-- C3 (failing input): `baseFeeFull` has valid heaps, 10240 elements of marker
`0b11100` in BaseFee and one element of marker `0b11100` in Queued; after
`promote` BaseFee holds 10241 elements, over `BaseFeeSubPoolLimit`. -/
theorem promote_baseFee_over_limit :
    baseFeeFull.Valid ∧
      (promote logDiscard (baseFeeFull, [])).1.baseFee.Len = 10241 ∧
      BaseFeeSubPoolLimit < (promote logDiscard (baseFeeFull, [])).1.baseFee.Len := by
  have hbf : baseFeeFull.baseFee = ⟨BaseFeeSubPool, List.range BaseFeeSubPoolLimit,
      List.range BaseFeeSubPoolLimit⟩ := rfl
  have hlen : baseFeeFull.baseFee.Len = 10240 := by
    rw [hbf, SubPool.Len, List.length_range]
    norm_num [BaseFeeSubPoolLimit]
  have hg := promote_baseFee_grows logDiscard baseFeeFull [] baseFeeFull_valid rfl
    (by rw [hlen]; norm_num) (by rw [hlen]; norm_num [BaseFeeSubPoolLimit])
    (fun x _ => ⟨Nat.le_refl _, by show (0b11100 : Nat) < 0b11110; norm_num⟩) rfl
    (fun x _ => ⟨Nat.le_refl _, by show (0b11100 : Nat) < 0b11110; norm_num⟩)
  rw [hg, hlen]
  exact ⟨baseFeeFull_valid, rfl, by norm_num [BaseFeeSubPoolLimit]⟩

/-! ## Scoring: marker bits and effective tip -/

theorem hasBit_zero (bit : Nat) : ¬ hasBit 0 bit := by
  simp [hasBit]

/-- C5: for a sender and base fees with `pendingBaseFee >= protocolBaseFee`,
after `onSenderChange` every resident transaction of the sender has the
`EnoughFeeCapProtocol` bit set iff its fee cap is at least `protocolBaseFee`,
and the `EnoughFeeCapBlock` bit set iff its fee cap is at least
`pendingBaseFee`. -/
theorem onSenderChange_fee_bits (id : Nat) (sender : senderInfo) (m : Mem) (b : ByNonce)
    (protocolBaseFee pendingBaseFee : Nat) (hs : ByNonce.Sorted m b)
    (hfees : protocolBaseFee ≤ pendingBaseFee) (p : Ptr) (hp : p ∈ b)
    (hid : (m p).Tx.senderID = id) :
    (hasBit (onSenderChange id sender m b protocolBaseFee pendingBaseFee p).subPool
        EnoughFeeCapProtocol ↔ protocolBaseFee ≤ (m p).Tx.feeCap) ∧
      (hasBit (onSenderChange id sender m b protocolBaseFee pendingBaseFee p).subPool
        EnoughFeeCapBlock ↔ pendingBaseFee ≤ (m p).Tx.feeCap) := by
  obtain ⟨pre, post, hr⟩ := residents_split hp hid
  rw [onSenderChange_at id sender m b _ _ hs pre p post hr, score_subPool]
  by_cases h1 : protocolBaseFee ≤ (m p).Tx.feeCap
  · rw [if_pos h1]
    obtain ⟨b1, _, _, b4, _, _⟩ := mkMarker_bits _ (andNot_protocol_lt (m p).subPool)
      (decide ((accFold sender protocolBaseFee pendingBaseFee m (onSenderChange.init sender)
        pre).noGapsNonce = (m p).Tx.nonce))
      (decide (sender.nonce < (m p).Tx.nonce ∧
        ((accFold sender protocolBaseFee pendingBaseFee m (onSenderChange.init sender)
          pre).cumulativeRequiredBalance + needBalance (m p).Tx) % two256 ≤ sender.balance))
      (decide (pendingBaseFee ≤ (m p).Tx.feeCap))
    refine ⟨⟨fun _ => h1, fun _ => b1⟩, ?_⟩
    unfold hasBit
    rw [b4, decide_eq_true_eq]
  · rw [if_neg h1]
    refine ⟨⟨fun h => absurd h (hasBit_zero _), fun h => absurd h h1⟩,
      ⟨fun h => absurd h (hasBit_zero _), fun h => absurd (Nat.le_trans hfees h) h1⟩⟩

theorem scoreIndex_sorted : ByNonce.Sorted scoreMem scoreIndex := by decide

theorem onSenderChange_fee_bits_witness :
    (hasBit (onSenderChange 1 scenarioSender scoreMem scoreIndex 50 70 2).subPool
        EnoughFeeCapProtocol ↔ 50 ≤ (scoreMem 2).Tx.feeCap) ∧
      (hasBit (onSenderChange 1 scenarioSender scoreMem scoreIndex 50 70 2).subPool
        EnoughFeeCapBlock ↔ 70 ≤ (scoreMem 2).Tx.feeCap) :=
  onSenderChange_fee_bits 1 scenarioSender scoreMem scoreIndex 50 70 scoreIndex_sorted
    (by decide) 2 (by decide) (by decide)

/-- C6: for a sender with state nonce `s < 2^64 - 1` whose resident
transactions all have a fee cap of at least `protocolBaseFee`, after
`onSenderChange` a resident transaction with nonce `n` has `NoNonceGaps` set iff
`n > s` and the sender has a resident transaction at every nonce in
`s + 1 .. n`. -/
theorem onSenderChange_noNonceGaps (id : Nat) (sender : senderInfo) (m : Mem) (b : ByNonce)
    (protocolBaseFee pendingBaseFee : Nat) (hs : ByNonce.Sorted m b)
    (hnonce : ∀ q ∈ b, (m q).Tx.nonce < two64) (hsn : sender.nonce < two64 - 1)
    (hfee : ∀ q ∈ b, (m q).Tx.senderID = id → protocolBaseFee ≤ (m q).Tx.feeCap)
    (p : Ptr) (hp : p ∈ b) (hid : (m p).Tx.senderID = id) :
    hasBit (onSenderChange id sender m b protocolBaseFee pendingBaseFee p).subPool NoNonceGaps ↔
      (sender.nonce < (m p).Tx.nonce ∧
        ∀ k, sender.nonce + 1 ≤ k → k ≤ (m p).Tx.nonce →
          ∃ q ∈ b, (m q).Tx.senderID = id ∧ (m q).Tx.nonce = k) := by
  obtain ⟨pre, post, hr⟩ := residents_split hp hid
  obtain ⟨hpre, hpost, hsp⟩ := residents_pre_lt hs hr
  have hmem : ∀ q, q ∈ ByNonce.residents m b id ↔ q ∈ pre ∨ q = p ∨ q ∈ post := by
    intro q; rw [hr]; simp [List.mem_append, List.mem_cons]
  have hpreb : ∀ q ∈ pre, q ∈ b ∧ (m q).Tx.senderID = id :=
    fun q hq => mem_residents.1 ((hmem q).2 (Or.inl hq))
  have hnp := hnonce p hp
  have h2 : two64 = 18446744073709551616 := by norm_num [two64]
  obtain ⟨g1, g2, g3, g4⟩ := accFold_noGaps sender protocolBaseFee pendingBaseFee m pre
    (by omega) hsp (fun q hq => hfee q (hpreb q hq).1 (hpreb q hq).2)
    (fun q hq => by have := hpre q hq; omega)
  rw [onSenderChange_at id sender m b _ _ hs pre p post hr, score_subPool,
    if_pos (hfee p hp hid)]
  obtain ⟨_, b2, _, _, _, _⟩ := mkMarker_bits _ (andNot_protocol_lt (m p).subPool)
      (decide ((accFold sender protocolBaseFee pendingBaseFee m (onSenderChange.init sender)
        pre).noGapsNonce = (m p).Tx.nonce))
      (decide (sender.nonce < (m p).Tx.nonce ∧
        ((accFold sender protocolBaseFee pendingBaseFee m (onSenderChange.init sender)
          pre).cumulativeRequiredBalance + needBalance (m p).Tx) % two256 ≤ sender.balance))
      (decide (pendingBaseFee ≤ (m p).Tx.feeCap))
  unfold hasBit
  rw [b2, decide_eq_true_eq]
  constructor
  · intro hg
    refine ⟨by omega, ?_⟩
    intro k hk1 hk2
    by_cases hk : k = (m p).Tx.nonce
    · exact ⟨p, hp, hid, hk.symm⟩
    · obtain ⟨q, hq, he⟩ := g3 k hk1 (by omega)
      exact ⟨q, (hpreb q hq).1, (hpreb q hq).2, he⟩
  · rintro ⟨hlt, hall⟩
    by_contra hne
    rcases Nat.lt_or_gt_of_ne hne with hlt2 | hgt
    · obtain ⟨q, hqb, hqid, hqn⟩ := hall _ g1 (Nat.le_of_lt hlt2)
      rcases (hmem q).1 (mem_residents.2 ⟨hqb, hqid⟩) with h | h | h
      · exact g4 q h hqn
      · rw [h] at hqn; omega
      · have := hpost q h; omega
    · obtain ⟨q, hq, he⟩ := g3 _ (by omega) hgt
      have := hpre q hq
      omega

theorem onSenderChange_noNonceGaps_witness :
    hasBit (onSenderChange 1 scenarioSender scoreMem scoreIndex 50 70 2).subPool NoNonceGaps ↔
      (scenarioSender.nonce < (scoreMem 2).Tx.nonce ∧
        ∀ k, scenarioSender.nonce + 1 ≤ k → k ≤ (scoreMem 2).Tx.nonce →
          ∃ q ∈ scoreIndex, (scoreMem q).Tx.senderID = 1 ∧ (scoreMem q).Tx.nonce = k) :=
  onSenderChange_noNonceGaps 1 scenarioSender scoreMem scoreIndex 50 70 scoreIndex_sorted
    (by decide) (by decide) (by decide) 2 (by decide) (by decide)

/-- C7 (counterexample): sender `1` has state nonce `0`; its resident
transactions at nonces `1` and `2` have gas `21000`, value `0` and fee caps `10`
and `100`, and `protocolBaseFee = 50`. With balance `10^18` the transaction at
nonce `1` costs `210000`, within the balance, yet ends without `EnoughBalance`.
With balance `2200000` the exact cost over nonces `1..2` is `2310000`, above the
balance, yet the transaction at nonce `2` ends with `EnoughBalance`. -/
theorem onSenderChange_balance_counterexample :
    (scenarioSender.nonce < (lowFeeMem 1).Tx.nonce ∧
      claimedCost lowFeeMem lowFeeIndex 1 scenarioSender.nonce (lowFeeMem 1).Tx.nonce = 210000 ∧
      210000 ≤ scenarioSender.balance ∧
      ¬ hasBit (onSenderChange 1 scenarioSender lowFeeMem lowFeeIndex 50 70 1).subPool
        EnoughBalance) ∧
    (tightSender.nonce < (lowFeeMem 2).Tx.nonce ∧
      claimedCost lowFeeMem lowFeeIndex 1 tightSender.nonce (lowFeeMem 2).Tx.nonce = 2310000 ∧
      ¬ 2310000 ≤ tightSender.balance ∧
      hasBit (onSenderChange 1 tightSender lowFeeMem lowFeeIndex 50 70 2).subPool
        EnoughBalance) := by
  decide

theorem filter_counted_split (m : Mem) (pbf s n : Nat) (pre post : List Ptr) (p : Ptr)
    (hpre : ∀ q ∈ pre, (m q).Tx.nonce < n) (hpost : ∀ q ∈ post, n < (m q).Tx.nonce)
    (hn : (m p).Tx.nonce = n) (hpf : pbf ≤ (m p).Tx.feeCap) (hps : s < n) :
    (((pre ++ p :: post).filter
      (fun q => decide (pbf ≤ (m q).Tx.feeCap ∧ s < (m q).Tx.nonce ∧ (m q).Tx.nonce ≤ n))).map
        (fun q => exactNeed (m q).Tx)).sum =
      ((pre.filter (fun q => decide (pbf ≤ (m q).Tx.feeCap ∧ s < (m q).Tx.nonce))).map
        (fun q => exactNeed (m q).Tx)).sum + exactNeed (m p).Tx := by
  have e1 : pre.filter
      (fun q => decide (pbf ≤ (m q).Tx.feeCap ∧ s < (m q).Tx.nonce ∧ (m q).Tx.nonce ≤ n)) =
      pre.filter (fun q => decide (pbf ≤ (m q).Tx.feeCap ∧ s < (m q).Tx.nonce)) := by
    apply List.filter_congr
    intro q hq
    have := hpre q hq
    simp only [decide_eq_decide]
    constructor
    · rintro ⟨a, b, _⟩; exact ⟨a, b⟩
    · rintro ⟨a, b⟩; exact ⟨a, b, by omega⟩
  have e2 : post.filter
      (fun q => decide (pbf ≤ (m q).Tx.feeCap ∧ s < (m q).Tx.nonce ∧ (m q).Tx.nonce ≤ n)) =
      [] := by
    rw [List.filter_eq_nil_iff]
    intro q hq
    have := hpost q hq
    simp only [decide_eq_true_eq]
    omega
  rw [List.filter_append, List.filter_cons_of_pos (by simp only [decide_eq_true_eq]; omega),
    e1, e2]
  simp

/-- C7 (amended): after `onSenderChange`, a resident transaction with nonce `n`
above the sender's state nonce `s` has `EnoughBalance` set iff its own fee cap
is at least `protocolBaseFee` and the exact sum of `gas * feeCap + value` over
the sender's resident transactions with nonce in `(s, n]` and fee cap at least
`protocolBaseFee` is at most the sender's balance, provided that sum is below
`2^256`. -/
theorem onSenderChange_enoughBalance (id : Nat) (sender : senderInfo) (m : Mem) (b : ByNonce)
    (protocolBaseFee pendingBaseFee : Nat) (hs : ByNonce.Sorted m b)
    (p : Ptr) (hp : p ∈ b) (hid : (m p).Tx.senderID = id)
    (hn : sender.nonce < (m p).Tx.nonce)
    (hsum : countedCost m b id sender.nonce (m p).Tx.nonce protocolBaseFee < two256) :
    hasBit (onSenderChange id sender m b protocolBaseFee pendingBaseFee p).subPool
        EnoughBalance ↔
      (protocolBaseFee ≤ (m p).Tx.feeCap ∧
        countedCost m b id sender.nonce (m p).Tx.nonce protocolBaseFee ≤ sender.balance) := by
  obtain ⟨pre, post, hr⟩ := residents_split hp hid
  obtain ⟨hpre, hpost, _⟩ := residents_pre_lt hs hr
  rw [onSenderChange_at id sender m b _ _ hs pre p post hr, score_subPool]
  by_cases h1 : protocolBaseFee ≤ (m p).Tx.feeCap
  · rw [if_pos h1]
    obtain ⟨_, _, b3, _, _, _⟩ := mkMarker_bits _ (andNot_protocol_lt (m p).subPool)
      (decide ((accFold sender protocolBaseFee pendingBaseFee m (onSenderChange.init sender)
        pre).noGapsNonce = (m p).Tx.nonce))
      (decide (sender.nonce < (m p).Tx.nonce ∧
        ((accFold sender protocolBaseFee pendingBaseFee m (onSenderChange.init sender)
          pre).cumulativeRequiredBalance + needBalance (m p).Tx) % two256 ≤ sender.balance))
      (decide (pendingBaseFee ≤ (m p).Tx.feeCap))
    have hc : countedCost m b id sender.nonce (m p).Tx.nonce protocolBaseFee =
        ((pre.filter (fun q => decide (protocolBaseFee ≤ (m q).Tx.feeCap ∧
          sender.nonce < (m q).Tx.nonce))).map (fun q => exactNeed (m q).Tx)).sum
          + exactNeed (m p).Tx := by
      unfold countedCost
      rw [hr]
      exact filter_counted_split m protocolBaseFee sender.nonce _ pre post p hpre hpost rfl h1 hn
    have hcum : ((accFold sender protocolBaseFee pendingBaseFee m (onSenderChange.init sender)
        pre).cumulativeRequiredBalance + needBalance (m p).Tx) % two256 =
        countedCost m b id sender.nonce (m p).Tx.nonce protocolBaseFee := by
      rw [accFold_cumulative, needBalance_eq, ← Nat.add_mod, ← hc]
      exact Nat.mod_eq_of_lt hsum
    unfold hasBit
    rw [b3, decide_eq_true_eq, hcum]
    exact ⟨fun h => ⟨h1, h.2⟩, fun h => ⟨hn, h.2⟩⟩
  · rw [if_neg h1]
    exact ⟨fun h => absurd h (hasBit_zero _), fun h => absurd h.1 h1⟩

theorem onSenderChange_enoughBalance_witness :
    hasBit (onSenderChange 1 scenarioSender scoreMem scoreIndex 50 70 2).subPool
        EnoughBalance ↔
      (50 ≤ (scoreMem 2).Tx.feeCap ∧
        countedCost scoreMem scoreIndex 1 scenarioSender.nonce (scoreMem 2).Tx.nonce 50
          ≤ scenarioSender.balance) :=
  onSenderChange_enoughBalance 1 scenarioSender scoreMem scoreIndex 50 70 scoreIndex_sorted
    2 (by decide) (by decide) (by decide) (by decide)

/-- C8: after `onSenderChange`, for every resident transaction `t` of the
sender, with `minFeeCap` and `minTip` the minima of fee cap and tip over the
sender's resident transactions with nonce `<= t.nonce`, the effective tip of `t`
is `minTip` if `pendingBaseFee >= minFeeCap`, and `minFeeCap - pendingBaseFee`
otherwise. -/
theorem onSenderChange_effectiveTip (id : Nat) (sender : senderInfo) (m : Mem) (b : ByNonce)
    (protocolBaseFee pendingBaseFee : Nat) (hs : ByNonce.Sorted m b)
    (hwf : ∀ q ∈ b, (m q).Tx.WF) (p : Ptr) (hp : p ∈ b) (hid : (m p).Tx.senderID = id) :
    ∃ minFeeCap minTip,
      (∀ q ∈ b, (m q).Tx.senderID = id → (m q).Tx.nonce ≤ (m p).Tx.nonce →
        minFeeCap ≤ (m q).Tx.feeCap ∧ minTip ≤ (m q).Tx.tip) ∧
      (∃ q ∈ b, (m q).Tx.senderID = id ∧ (m q).Tx.nonce ≤ (m p).Tx.nonce ∧
        (m q).Tx.feeCap = minFeeCap) ∧
      (∃ q ∈ b, (m q).Tx.senderID = id ∧ (m q).Tx.nonce ≤ (m p).Tx.nonce ∧
        (m q).Tx.tip = minTip) ∧
      (onSenderChange id sender m b protocolBaseFee pendingBaseFee p).effectiveTip =
        if minFeeCap ≤ pendingBaseFee then minTip else minFeeCap - pendingBaseFee := by
  obtain ⟨pre, post, hr⟩ := residents_split hp hid
  have hmem := mem_pre_iff hs hr
  obtain ⟨f1, f2⟩ := accFold_minFeeCap sender protocolBaseFee pendingBaseFee m (pre ++ [p])
  obtain ⟨t1, t2⟩ := accFold_minTip sender protocolBaseFee pendingBaseFee m (pre ++ [p])
  have hpm : p ∈ pre ++ [p] := List.mem_append_right _ (List.mem_singleton_self _)
  have hwp := hwf p hp
  have h2 : two64 = 18446744073709551616 := by norm_num [two64]
  refine ⟨(accFold sender protocolBaseFee pendingBaseFee m (onSenderChange.init sender)
      (pre ++ [p])).minFeeCap,
    (accFold sender protocolBaseFee pendingBaseFee m (onSenderChange.init sender)
      (pre ++ [p])).minTip, ?_, ?_, ?_, ?_⟩
  · intro q hq hqid hqn
    have := (hmem q).2 ⟨hq, hqid, hqn⟩
    exact ⟨f1 q this, t1 q this⟩
  · rcases f2 with h | ⟨q, hq, he⟩
    · have := f1 p hpm
      have hw := hwp.2.2.1
      rw [h2] at h hw
      exact ⟨p, hp, hid, Nat.le_refl _, by omega⟩
    · obtain ⟨a, b', c⟩ := (hmem q).1 hq
      exact ⟨q, a, b', c, he⟩
  · rcases t2 with h | ⟨q, hq, he⟩
    · have := t1 p hpm
      have hw := hwp.2.2.2.1
      rw [h2] at h hw
      exact ⟨p, hp, hid, Nat.le_refl _, by omega⟩
    · obtain ⟨a, b', c⟩ := (hmem q).1 hq
      exact ⟨q, a, b', c, he⟩
  · rw [onSenderChange_at id sender m b _ _ hs pre p post hr, score_effectiveTip,
      accFold_snoc, score_minFeeCap, score_minTip]

theorem onSenderChange_effectiveTip_witness :
    ∃ minFeeCap minTip,
      (∀ q ∈ scoreIndex, (scoreMem q).Tx.senderID = 1 →
        (scoreMem q).Tx.nonce ≤ (scoreMem 2).Tx.nonce →
        minFeeCap ≤ (scoreMem q).Tx.feeCap ∧ minTip ≤ (scoreMem q).Tx.tip) ∧
      (∃ q ∈ scoreIndex, (scoreMem q).Tx.senderID = 1 ∧
        (scoreMem q).Tx.nonce ≤ (scoreMem 2).Tx.nonce ∧ (scoreMem q).Tx.feeCap = minFeeCap) ∧
      (∃ q ∈ scoreIndex, (scoreMem q).Tx.senderID = 1 ∧
        (scoreMem q).Tx.nonce ≤ (scoreMem 2).Tx.nonce ∧ (scoreMem q).Tx.tip = minTip) ∧
      (onSenderChange 1 scenarioSender scoreMem scoreIndex 50 70 2).effectiveTip =
        if minFeeCap ≤ 70 then minTip else minFeeCap - 70 :=
  onSenderChange_effectiveTip 1 scenarioSender scoreMem scoreIndex 50 70 scoreIndex_sorted
    (by decide) 2 (by decide) (by decide)

/-- C9 (counterexample): in scenario 1 `onNewTxs` returns no error and the
transaction is resident at address `1`, but its marker is not `0b11111`, its
effective tip is not `10`, and it is not in Pending. -/
theorem scenario1_counterexample :
    scenario1.2 = none ∧ byHashGet scenario1.1.reg.byHash scenarioTx.idHash = some 1 ∧
      (scenario1.1.pools.mem 1).Tx = scenarioTx ∧
      (scenario1.1.pools.mem 1).subPool ≠ 0b11111 ∧
      (scenario1.1.pools.mem 1).effectiveTip ≠ 10 ∧
      1 ∉ scenario1.1.pools.pending.best := by
  decide

/-- C9 (amended): in scenario 1 (sender with state nonce `0` and balance
`10^18`, one local transaction with nonce `0`, fee cap `100`, tip `10`, gas
`21000`, value `0`, `protocolBaseFee = 50`, `pendingBaseFee = 70`), after
`onNewTxs` on an empty pool the transaction has marker `0b10011`, effective tip
`30`, and is resident in Queued. -/
theorem scenario1_result :
    scenario1.2 = none ∧ byHashGet scenario1.1.reg.byHash scenarioTx.idHash = some 1 ∧
      (scenario1.1.pools.mem 1).Tx = scenarioTx ∧
      (scenario1.1.pools.mem 1).subPool = 0b10011 ∧
      (scenario1.1.pools.mem 1).effectiveTip = 30 ∧
      (scenario1.1.pools.mem 1).currentSubPool = QueuedSubPool ∧
      scenario1.1.pools.queued.best = [1] ∧ scenario1.1.pools.queued.worst = [1] ∧
      scenario1.1.pools.pending.best = [] ∧ scenario1.1.pools.baseFee.best = [] ∧
      scenario1.1.reg.byNonce = [1] ∧ scenario1.1.reg.deletedTxs = [] := by
  decide

/-- C10 (counterexample): the resident transaction of sender `1` at nonce `1`
has fee cap `10`, below `protocolBaseFee = 50`, and ends with marker `0`; the
resident transaction of the same sender at nonce `2` ends with a marker other
than `0`. -/
theorem onSenderChange_zero_marker_counterexample :
    (lowFeeMem 1).Tx.feeCap < 50 ∧ (lowFeeMem 1).Tx.senderID = (lowFeeMem 2).Tx.senderID ∧
      (lowFeeMem 1).Tx.nonce < (lowFeeMem 2).Tx.nonce ∧
      (onSenderChange 1 scenarioSender lowFeeMem lowFeeIndex 50 70 1).subPool = 0 ∧
      (onSenderChange 1 scenarioSender lowFeeMem lowFeeIndex 50 70 2).subPool = 0b10110 ∧
      (onSenderChange 1 scenarioSender lowFeeMem lowFeeIndex 50 70 2).subPool ≠ 0 := by
  decide

/-- C10 (amended): if a resident transaction of the sender has a fee cap below
`protocolBaseFee`, then after `onSenderChange` its marker is `0`, and a resident
transaction of the same sender with a higher nonce ends with marker `0` exactly
when its own fee cap is below `protocolBaseFee`. -/
theorem onSenderChange_zero_marker (id : Nat) (sender : senderInfo) (m : Mem) (b : ByNonce)
    (protocolBaseFee pendingBaseFee : Nat) (hs : ByNonce.Sorted m b)
    (p : Ptr) (hp : p ∈ b) (hid : (m p).Tx.senderID = id)
    (hlow : (m p).Tx.feeCap < protocolBaseFee) :
    (onSenderChange id sender m b protocolBaseFee pendingBaseFee p).subPool = 0 ∧
      ∀ q ∈ b, (m q).Tx.senderID = id → (m p).Tx.nonce < (m q).Tx.nonce →
        ((onSenderChange id sender m b protocolBaseFee pendingBaseFee q).subPool = 0 ↔
          (m q).Tx.feeCap < protocolBaseFee) := by
  have hmk : ∀ q ∈ b, (m q).Tx.senderID = id →
      ((onSenderChange id sender m b protocolBaseFee pendingBaseFee q).subPool = 0 ↔
        (m q).Tx.feeCap < protocolBaseFee) := by
    intro q hq hqid
    obtain ⟨pre, post, hr⟩ := residents_split hq hqid
    rw [onSenderChange_at id sender m b _ _ hs pre q post hr, score_subPool]
    by_cases h1 : protocolBaseFee ≤ (m q).Tx.feeCap
    · rw [if_pos h1]
      obtain ⟨b1, _⟩ := mkMarker_bits _ (andNot_protocol_lt (m q).subPool)
        (decide ((accFold sender protocolBaseFee pendingBaseFee m (onSenderChange.init sender)
          pre).noGapsNonce = (m q).Tx.nonce))
        (decide (sender.nonce < (m q).Tx.nonce ∧
          ((accFold sender protocolBaseFee pendingBaseFee m (onSenderChange.init sender)
            pre).cumulativeRequiredBalance + needBalance (m q).Tx) % two256 ≤ sender.balance))
        (decide (pendingBaseFee ≤ (m q).Tx.feeCap))
      constructor
      · intro h0
        rw [h0] at b1
        exact absurd (Nat.zero_and _) b1
      · intro h; omega
    · rw [if_neg h1]
      exact ⟨fun _ => by omega, fun _ => rfl⟩
  exact ⟨(hmk p hp hid).2 hlow, fun q hq hqid _ => hmk q hq hqid⟩

theorem lowFeeIndex_sorted : ByNonce.Sorted lowFeeMem lowFeeIndex := by decide

theorem onSenderChange_zero_marker_witness :
    (onSenderChange 1 scenarioSender lowFeeMem lowFeeIndex 50 70 1).subPool = 0 ∧
      ∀ q ∈ lowFeeIndex, (lowFeeMem q).Tx.senderID = 1 →
        (lowFeeMem 1).Tx.nonce < (lowFeeMem q).Tx.nonce →
        ((onSenderChange 1 scenarioSender lowFeeMem lowFeeIndex 50 70 q).subPool = 0 ↔
          (lowFeeMem q).Tx.feeCap < 50) :=
  onSenderChange_zero_marker 1 scenarioSender lowFeeMem lowFeeIndex 50 70 lowFeeIndex_sorted
    1 (by decide) (by decide) (by decide)

/-! ## What the functions of `container/heap` leave alone

A quantity that `Swap` does not change is not changed by `up`, `down`, `Init`
and the fixing part of `Remove`. -/

theorem heap.upLoop_keep {σ α : Type} (I : heap.Interface σ) (g : σ → α)
    (hs : ∀ h i j, g (I.Swap h i j) = g h) (f : Nat) (h : σ) (j : Nat) :
    g (heap.upLoop I f h j) = g h := by
  induction f generalizing h j with
  | zero => rfl
  | succ f ih =>
    simp only [heap.upLoop]
    split
    · rfl
    · rw [ih, hs]

theorem heap.downLoop_keep {σ α : Type} (I : heap.Interface σ) (g : σ → α)
    (hs : ∀ h i j, g (I.Swap h i j) = g h) (f : Nat) (h : σ) (i n : Nat) :
    g (heap.downLoop I f h i n).1 = g h := by
  induction f generalizing h i with
  | zero => rfl
  | succ f ih =>
    simp only [heap.downLoop]
    split
    · rfl
    · split
      · rfl
      · rw [ih, hs]

theorem heap.initLoop_keep {σ α : Type} (I : heap.Interface σ) (g : σ → α)
    (hs : ∀ h i j, g (I.Swap h i j) = g h) (n : Nat) (l : List Nat) (h : σ) :
    g (l.foldl (fun s i => (heap.down I s i n).1) h) = g h := by
  induction l generalizing h with
  | nil => rfl
  | cons a l ih =>
    rw [List.foldl_cons, ih]
    exact heap.downLoop_keep I g hs _ _ _ _

theorem heap.Init_keep {σ α : Type} (I : heap.Interface σ) (g : σ → α)
    (hs : ∀ h i j, g (I.Swap h i j) = g h) (h : σ) : g (heap.Init I h) = g h :=
  heap.initLoop_keep I g hs _ _ h

theorem heap.removeFix_keep {σ α : Type} (I : heap.Interface σ) (g : σ → α)
    (hs : ∀ h i j, g (I.Swap h i j) = g h) (h : σ) (i : Nat) :
    g (heap.removeFix I h i) = g h := by
  unfold heap.removeFix
  dsimp only
  split
  · split
    · unfold heap.up
      rw [heap.upLoop_keep I g hs]
      unfold heap.down
      dsimp only
      rw [heap.downLoop_keep I g hs, hs]
    · unfold heap.down
      dsimp only
      rw [heap.downLoop_keep I g hs, hs]
  · rfl

/-! ### The tag `currentSubPool` under the queue operations -/

theorem setIdx_tag (k : Kind) (mt : metaTx) (v : Int) :
    (setIdx k mt v).currentSubPool = mt.currentSubPool := by
  cases k <;> rfl

theorem Queue_Swap_tag (k : Kind) (h : Heap) (i j : Nat) :
    (fun p => (((Queue k).Swap h i j).mem p).currentSubPool) =
      fun p => (h.mem p).currentSubPool := by
  funext p
  rw [Queue_Swap]
  dsimp only
  by_cases h1 : p = elemAt (swapSlice h.q i j) j
  · subst h1
    rw [Function.update_same, setIdx_tag]
    by_cases h2 : elemAt (swapSlice h.q i j) j = elemAt (swapSlice h.q i j) i
    · rw [h2, Function.update_same, setIdx_tag]
    · rw [Function.update_noteq h2]
  · rw [Function.update_noteq h1]
    by_cases h2 : p = elemAt (swapSlice h.q i j) i
    · subst h2
      rw [Function.update_same, setIdx_tag]
    · rw [Function.update_noteq h2]

theorem Queue_Push_tag (k : Kind) (h : Heap) (x : Ptr) (p : Ptr) :
    (((Queue k).Push h x).mem p).currentSubPool = (h.mem p).currentSubPool := by
  rw [Queue_Push]
  dsimp only
  by_cases h1 : p = x
  · subst h1
    rw [Function.update_same, setIdx_tag]
  · rw [Function.update_noteq h1]

/-- The record `Pop` returns ends with tag `0` and back-index `-1`; no other
tag changes. -/
theorem Queue_Pop_tag (k : Kind) (h : Heap) :
    (((Queue k).Pop h).1.mem ((Queue k).Pop h).2).currentSubPool = 0 ∧
      idx k (((Queue k).Pop h).1.mem ((Queue k).Pop h).2) = -1 ∧
      ∀ p, p ≠ ((Queue k).Pop h).2 →
        (((Queue k).Pop h).1.mem p).currentSubPool = (h.mem p).currentSubPool := by
  rw [Queue_Pop]
  dsimp only
  refine ⟨?_, ?_, ?_⟩
  · rw [Function.update_same]
  · rw [Function.update_same]
    cases k <;> rfl
  · intro p hp
    rw [Function.update_noteq hp]

theorem heap_Init_tag (k : Kind) (h : Heap) (p : Ptr) :
    ((heap.Init (Queue k) h).mem p).currentSubPool = (h.mem p).currentSubPool :=
  congrFun (heap.Init_keep (Queue k) (fun h p => (h.mem p).currentSubPool)
    (Queue_Swap_tag k) h) p

theorem heap_Push_tag (k : Kind) (h : Heap) (x : Ptr) (p : Ptr) :
    ((heap.Push (Queue k) h x).mem p).currentSubPool = (h.mem p).currentSubPool := by
  unfold heap.Push heap.up
  dsimp only
  rw [congrFun (heap.upLoop_keep (Queue k) (fun h p => (h.mem p).currentSubPool)
    (Queue_Swap_tag k) _ _ _) p]
  exact Queue_Push_tag k h x p

theorem heap_Pop_tag (k : Kind) (h : Heap) :
    ((heap.Pop (Queue k) h).1.mem (heap.Pop (Queue k) h).2).currentSubPool = 0 ∧
      idx k ((heap.Pop (Queue k) h).1.mem (heap.Pop (Queue k) h).2) = -1 ∧
      ∀ p, p ≠ (heap.Pop (Queue k) h).2 →
        ((heap.Pop (Queue k) h).1.mem p).currentSubPool = (h.mem p).currentSubPool := by
  unfold heap.Pop heap.down
  dsimp only
  obtain ⟨a, b, c⟩ := Queue_Pop_tag k
    (heap.downLoop (Queue k) ((Queue k).Len h - 1 + 1)
      ((Queue k).Swap h 0 ((Queue k).Len h - 1)) 0 ((Queue k).Len h - 1)).1
  refine ⟨a, b, fun p hp => ?_⟩
  rw [c p hp, congrFun (heap.downLoop_keep (Queue k) (fun h p => (h.mem p).currentSubPool)
    (Queue_Swap_tag k) _ _ _ _) p]
  exact congrFun (Queue_Swap_tag k h _ _) p

theorem heap_Remove_tag (k : Kind) (h : Heap) (i : Nat) :
    ((heap.Remove (Queue k) h i).1.mem (heap.Remove (Queue k) h i).2).currentSubPool = 0 ∧
      idx k ((heap.Remove (Queue k) h i).1.mem (heap.Remove (Queue k) h i).2) = -1 ∧
      ∀ p, p ≠ (heap.Remove (Queue k) h i).2 →
        ((heap.Remove (Queue k) h i).1.mem p).currentSubPool = (h.mem p).currentSubPool := by
  unfold heap.Remove
  obtain ⟨a, b, c⟩ := Queue_Pop_tag k (heap.removeFix (Queue k) h i)
  refine ⟨a, b, fun p hp => ?_⟩
  rw [c p hp]
  exact congrFun (heap.removeFix_keep (Queue k) (fun h p => (h.mem p).currentSubPool)
    (Queue_Swap_tag k) h i) p

/-! ### The queue operations without the heap order

The back-indices follow the elements whether or not the slice is in heap
order. -/

theorem heap_Push_struct (k : Kind) (m : Mem) (q : List Ptr) (x : Ptr) (hi : IdxOK k m q)
    (hx : x ∉ q) :
    IdxOK k (heap.Push (Queue k) ⟨m, q⟩ x).mem (heap.Push (Queue k) ⟨m, q⟩ x).q ∧
      (heap.Push (Queue k) ⟨m, q⟩ x).q.Perm (x :: q) ∧
      MemStep k (x :: q) m (heap.Push (Queue k) ⟨m, q⟩ x).mem := by
  have ht := (Tracks.start (S := x :: q) (fun _ h => List.mem_cons_of_mem _ h) hi).Push
    (List.mem_cons_self _ _) hx
  obtain ⟨hq, _, hm, hidx⟩ := ht
  refine ⟨hidx, ?_, hm⟩
  rw [hq]; exact pure_Push_perm _ q x

theorem heap_Pop_struct (k : Kind) (m : Mem) (q : List Ptr) (hi : IdxOK k m q)
    (hl : 0 < q.length) :
    (heap.Pop (Queue k) ⟨m, q⟩).2 = elemAt q 0 ∧
      IdxOK k (heap.Pop (Queue k) ⟨m, q⟩).1.mem (heap.Pop (Queue k) ⟨m, q⟩).1.q ∧
      ((heap.Pop (Queue k) ⟨m, q⟩).2 :: (heap.Pop (Queue k) ⟨m, q⟩).1.q).Perm q ∧
      MemStep k q m (heap.Pop (Queue k) ⟨m, q⟩).1.mem := by
  obtain ⟨⟨hq, _, hm, hidx⟩, h2⟩ := (Tracks.start (S := q) (fun _ h => h) hi).Pop hl
  refine ⟨?_, hidx, ?_, hm⟩
  · rw [h2]; exact pure_Pop_snd _ q hl
  · rw [h2, hq]; exact pure_Pop_perm _ q hl

theorem heap_Remove_struct (k : Kind) (m : Mem) (q : List Ptr) (i : Nat) (hi : IdxOK k m q)
    (hl : i < q.length) :
    (heap.Remove (Queue k) ⟨m, q⟩ i).2 = elemAt q i ∧
      IdxOK k (heap.Remove (Queue k) ⟨m, q⟩ i).1.mem (heap.Remove (Queue k) ⟨m, q⟩ i).1.q ∧
      ((heap.Remove (Queue k) ⟨m, q⟩ i).2 :: (heap.Remove (Queue k) ⟨m, q⟩ i).1.q).Perm q ∧
      MemStep k q m (heap.Remove (Queue k) ⟨m, q⟩ i).1.mem := by
  obtain ⟨⟨hq, _, hm, hidx⟩, h2⟩ := (Tracks.start (S := q) (fun _ h => h) hi).Remove i hl
  refine ⟨?_, hidx, ?_, hm⟩
  · rw [h2]; exact pure_Remove_snd _ q i hl
  · rw [h2, hq]; exact pure_Remove_perm _ q i hl

/-- The function `Pop` of a queue takes its last element out. -/
theorem queue_pop_struct (k : Kind) (m : Mem) (q : List Ptr) (hi : IdxOK k m q)
    (hl : 0 < q.length) (r : Heap × Ptr) (hr : r = (Queue k).Pop ⟨m, q⟩) :
    r.2 = elemAt q (q.length - 1) ∧ IdxOK k r.1.mem r.1.q ∧ (r.2 :: r.1.q).Perm q ∧
      MemStep k q m r.1.mem ∧ (r.1.mem r.2).currentSubPool = 0 ∧ idx k (r.1.mem r.2) = -1 ∧
      ∀ p, p ≠ r.2 → (r.1.mem p).currentSubPool = (m p).currentSubPool := by
  obtain ⟨⟨hq, _, hm, hidx⟩, e⟩ := (Tracks.start (S := q) (fun _ h => h) hi).pop hl
  obtain ⟨a, b, c⟩ := Queue_Pop_tag k ⟨m, q⟩
  rw [← hr] at hq hm hidx e a b c
  refine ⟨e, hidx, ?_, hm, a, b, c⟩
  rw [e, hq]
  exact take_perm_last q hl

/-- The statements `Swap(i, Len()-1); Pop()` take the element at position `i`
out of a queue. -/
theorem queue_swap_pop_struct (k : Kind) (m : Mem) (q : List Ptr) (i : Nat)
    (hi : IdxOK k m q) (hl : i < q.length) (r : Heap × Ptr)
    (hr : r = (Queue k).Pop ((Queue k).Swap ⟨m, q⟩ i (q.length - 1))) :
    r.2 = elemAt q i ∧ IdxOK k r.1.mem r.1.q ∧ (r.2 :: r.1.q).Perm q ∧
      MemStep k q m r.1.mem ∧ (r.1.mem r.2).currentSubPool = 0 ∧ idx k (r.1.mem r.2) = -1 ∧
      ∀ p, p ≠ r.2 → (r.1.mem p).currentSubPool = (m p).currentSubPool := by
  have hn : q.length - 1 < q.length := by omega
  have t1 := (Tracks.start (S := q) (fun _ h => h) hi).swap hl hn
  obtain ⟨⟨hq, _, hm, hidx⟩, e⟩ := t1.pop (by rw [length_swapSlice]; omega)
  obtain ⟨a, b, c⟩ := Queue_Pop_tag k ((Queue k).Swap ⟨m, q⟩ i (q.length - 1))
  rw [← hr] at hq hm hidx e a b c
  rw [length_swapSlice] at hq e
  have e' : r.2 = elemAt q i := by
    rw [e, elemAt_swapSlice hl hn, if_pos rfl]
  refine ⟨e', hidx, ?_, hm, a, b, fun p hp => ?_⟩
  · have h1 := take_perm_last (swapSlice q i (q.length - 1)) (by rw [length_swapSlice]; omega)
    rw [length_swapSlice] at h1
    rw [e, hq]
    exact h1.trans (swapSlice_perm hl hn)
  · rw [c p hp]
    exact congrFun (Queue_Swap_tag k ⟨m, q⟩ i (q.length - 1)) p

theorem mem_tail_of_perm {a a' b b' : List Ptr} {x : Ptr} (pa : (x :: a').Perm a)
    (pb : (x :: b').Perm b) (ha : a.Nodup) (hab : ∀ y ∈ a, y ∈ b) : ∀ y ∈ a', y ∈ b' := by
  intro y hy
  have hy1 : y ∈ a := pa.mem_iff.1 (List.mem_cons_of_mem _ hy)
  have hne : y ≠ x := by
    intro h
    have := pa.nodup_iff.2 ha
    rw [List.nodup_cons] at this
    exact this.1 (by have hy' := hy; rw [h] at hy'; exact hy')
  rcases List.mem_cons.1 (pb.mem_iff.2 (hab y hy1)) with h | h
  · exact absurd h hne
  · exact h

/-- Taking the same element out of both queues of a sub-pool, first out of the
queue of kind `k`, by any two operations with the effect of `queue_pop_struct`. -/
theorem take_both (k : Kind) (m : Mem) (qa qb : List Ptr) (x : Ptr)
    (hia : IdxOK k m qa) (hib : IdxOK k.other m qb)
    (hab : ∀ y ∈ qa, y ∈ qb) (hba : ∀ y ∈ qb, y ∈ qa)
    (r w : Heap × Ptr)
    (h1 : r.2 = x ∧ IdxOK k r.1.mem r.1.q ∧ (r.2 :: r.1.q).Perm qa ∧
      MemStep k qa m r.1.mem ∧ (r.1.mem r.2).currentSubPool = 0 ∧ idx k (r.1.mem r.2) = -1 ∧
      ∀ p, p ≠ r.2 → (r.1.mem p).currentSubPool = (m p).currentSubPool)
    (h2 : w.2 = x ∧ IdxOK k.other w.1.mem w.1.q ∧ (w.2 :: w.1.q).Perm qb ∧
      MemStep k.other qb r.1.mem w.1.mem ∧ (w.1.mem w.2).currentSubPool = 0 ∧
      idx k.other (w.1.mem w.2) = -1 ∧
      ∀ p, p ≠ w.2 → (w.1.mem p).currentSubPool = (r.1.mem p).currentSubPool) :
    IdxOK k w.1.mem r.1.q ∧ IdxOK k.other w.1.mem w.1.q ∧
      (∀ y ∈ r.1.q, y ∈ w.1.q) ∧ (∀ y ∈ w.1.q, y ∈ r.1.q) ∧
      (x :: r.1.q).Perm qa ∧ (x :: w.1.q).Perm qb ∧ Frame qa m w.1.mem ∧
      (w.1.mem x).currentSubPool = 0 ∧ idx k (w.1.mem x) = -1 ∧ idx k.other (w.1.mem x) = -1 ∧
      ∀ p, p ≠ x → (w.1.mem p).currentSubPool = (m p).currentSubPool := by
  obtain ⟨e1, i1, p1, s1, a1, b1, c1⟩ := h1
  obtain ⟨e2, i2, p2, s2, a2, b2, c2⟩ := h2
  rw [e1] at p1 a1 b1 c1
  rw [e2] at p2 a2 b2 c2
  refine ⟨i1.congr (fun p _ => s2.idx_same p), i2, ?_, ?_, p1, p2, ?_, a2, ?_, b2, ?_⟩
  · exact mem_tail_of_perm p1 p2 hia.nodup hab
  · exact mem_tail_of_perm p2 p1 hib.nodup hba
  · exact s1.toFrame.trans (s2.toFrame.mono hba)
  · rw [s2.idx_same x]; exact b1
  · intro p hp
    rw [c2 p hp, c1 p hp]

theorem heap_Pop_take (k : Kind) (m : Mem) (q : List Ptr) (hi : IdxOK k m q)
    (hl : 0 < q.length) (r : Heap × Ptr) (hr : r = heap.Pop (Queue k) ⟨m, q⟩) :
    r.2 = elemAt q 0 ∧ IdxOK k r.1.mem r.1.q ∧ (r.2 :: r.1.q).Perm q ∧
      MemStep k q m r.1.mem ∧ (r.1.mem r.2).currentSubPool = 0 ∧ idx k (r.1.mem r.2) = -1 ∧
      ∀ p, p ≠ r.2 → (r.1.mem p).currentSubPool = (m p).currentSubPool := by
  obtain ⟨e, i1, p1, s1⟩ := heap_Pop_struct k m q hi hl
  obtain ⟨a, b, c⟩ := heap_Pop_tag k ⟨m, q⟩
  rw [← hr] at e i1 p1 s1 a b c
  exact ⟨e, i1, p1, s1, a, b, c⟩

theorem heap_Remove_take (k : Kind) (m : Mem) (q : List Ptr) (i : Nat) (hi : IdxOK k m q)
    (hl : i < q.length) (r : Heap × Ptr) (hr : r = heap.Remove (Queue k) ⟨m, q⟩ i) :
    r.2 = elemAt q i ∧ IdxOK k r.1.mem r.1.q ∧ (r.2 :: r.1.q).Perm q ∧
      MemStep k q m r.1.mem ∧ (r.1.mem r.2).currentSubPool = 0 ∧ idx k (r.1.mem r.2) = -1 ∧
      ∀ p, p ≠ r.2 → (r.1.mem p).currentSubPool = (m p).currentSubPool := by
  obtain ⟨e, i1, p1, s1⟩ := heap_Remove_struct k m q i hi hl
  obtain ⟨a, b, c⟩ := heap_Remove_tag k ⟨m, q⟩ i
  rw [← hr] at e i1 p1 s1 a b c
  exact ⟨e, i1, p1, s1, a, b, c⟩

/-- The position of a member of a queue is its back-index. -/
theorem IdxOK.position {k : Kind} {m : Mem} {q : List Ptr} (hi : IdxOK k m q) {x : Ptr}
    (hx : x ∈ q) : (idx k (m x)).toNat < q.length ∧ elemAt q (idx k (m x)).toNat = x ∧
      0 ≤ idx k (m x) := by
  obtain ⟨j, hj, hjx⟩ := exists_elemAt_of_mem hx
  have h := hi j hj
  rw [hjx] at h
  rw [h]
  simp only [Int.toNat_ofNat]
  exact ⟨hj, hjx, Int.ofNat_nonneg j⟩

/-! ## Operations of a sub-pool on the structural invariant -/

theorem SubPool.Tagged.len_worst {m : Mem} {p : SubPool} (ht : p.Tagged m) :
    p.worst.length = p.best.length := by
  obtain ⟨⟨ib, iw, hbw, hwb⟩, _⟩ := ht
  exact ((List.perm_ext_iff_of_nodup iw.nodup ib.nodup).2
    (fun a => ⟨hwb a, hbw a⟩)).length_eq

/-- The result of taking `x` out of both queues is a removal. -/
theorem SubPool.removed_of_take {m : Mem} {p : SubPool} (ht : p.Tagged m) (k : Kind)
    (qa qb : List Ptr) (hqa : qa = (match k with | .best => p.best | .worst => p.worst))
    (hqb : qb = (match k with | .best => p.worst | .worst => p.best))
    (x : Ptr) (r w : Heap × Ptr)
    (h : IdxOK k w.1.mem r.1.q ∧ IdxOK k.other w.1.mem w.1.q ∧
      (∀ y ∈ r.1.q, y ∈ w.1.q) ∧ (∀ y ∈ w.1.q, y ∈ r.1.q) ∧
      (x :: r.1.q).Perm qa ∧ (x :: w.1.q).Perm qb ∧ Frame qa m w.1.mem ∧
      (w.1.mem x).currentSubPool = 0 ∧ idx k (w.1.mem x) = -1 ∧ idx k.other (w.1.mem x) = -1 ∧
      ∀ q, q ≠ x → (w.1.mem q).currentSubPool = (m q).currentSubPool)
    (p' : SubPool) (hp' : p' = (match k with
      | .best => { p with best := r.1.q, worst := w.1.q }
      | .worst => { p with best := w.1.q, worst := r.1.q })) :
    p.Removed m x w.1.mem p' := by
  obtain ⟨⟨ib, iw, hbw, hwb⟩, htag⟩ := ht
  obtain ⟨i1, i2, m1, m2, p1, p2, f, a, b, c, d⟩ := h
  cases k with
  | best =>
    subst hqa hqb hp'
    refine ⟨rfl, ⟨⟨i1, i2, m1, m2⟩, ?_⟩, p1, f, ⟨a, b, c⟩, d⟩
    intro y hy
    have hy1 : y ∈ p.best := p1.mem_iff.1 (List.mem_cons_of_mem _ hy)
    have hne : y ≠ x := by
      intro e
      have := p1.nodup_iff.2 ib.nodup
      rw [List.nodup_cons] at this
      exact this.1 (by have hy' := hy; rw [e] at hy'; exact hy')
    rw [d y hne]
    exact htag y hy1
  | worst =>
    subst hqa hqb hp'
    refine ⟨rfl, ⟨⟨i2, i1, m2, m1⟩, ?_⟩, p2, f.mono hwb, ⟨a, c, b⟩, d⟩
    intro y hy
    have hy1 : y ∈ p.best := p2.mem_iff.1 (List.mem_cons_of_mem _ hy)
    have hne : y ≠ x := by
      intro e
      have := p2.nodup_iff.2 ib.nodup
      rw [List.nodup_cons] at this
      exact this.1 (by have hy' := hy; rw [e] at hy'; exact hy')
    rw [d y hne]
    exact htag y hy1

theorem SubPool.PopWorst_removed (m : Mem) (p : SubPool) (ht : p.Tagged m) (hl : 0 < p.Len) :
    (SubPool.PopWorst m p).2 = elemAt p.worst 0 ∧
      p.Removed m (SubPool.PopWorst m p).2 (SubPool.PopWorst m p).1.1
        (SubPool.PopWorst m p).1.2 := by
  have hlw : 0 < p.worst.length := by rw [ht.len_worst]; exact hl
  obtain ⟨⟨ib, iw, hbw, hwb⟩, htag⟩ := id ht
  have h1 := heap_Pop_take .worst m p.worst iw hlw _ rfl
  have hx : (heap.Pop (Queue .worst) ⟨m, p.worst⟩).2 ∈ p.best := by
    rw [h1.1]; exact hwb _ (elemAt_mem hlw)
  have ib1 : IdxOK .best (heap.Pop (Queue .worst) ⟨m, p.worst⟩).1.mem p.best :=
    ib.congr (fun y _ => (h1.2.2.2.1 y).2.1)
  obtain ⟨hpl, hpe, _⟩ := ib1.position hx
  have h2 := heap_Remove_take .best _ p.best _ ib1 hpl _ rfl
  rw [hpe] at h2
  have hb := take_both .worst m p.worst p.best _ iw ib hwb hbw _ _
    ⟨rfl, h1.2⟩ h2
  exact ⟨h1.1, SubPool.removed_of_take ht .worst p.worst p.best rfl rfl _ _ _ hb _ rfl⟩

theorem SubPool.PopBest_removed (m : Mem) (p : SubPool) (ht : p.Tagged m) (hl : 0 < p.Len) :
    (SubPool.PopBest m p).2 = elemAt p.best 0 ∧
      p.Removed m (SubPool.PopBest m p).2 (SubPool.PopBest m p).1.1
        (SubPool.PopBest m p).1.2 := by
  have hlb : 0 < p.best.length := hl
  obtain ⟨⟨ib, iw, hbw, hwb⟩, htag⟩ := id ht
  have h1 := heap_Pop_take .best m p.best ib hlb _ rfl
  have hx : (heap.Pop (Queue .best) ⟨m, p.best⟩).2 ∈ p.worst := by
    rw [h1.1]; exact hbw _ (elemAt_mem hlb)
  have iw1 : IdxOK .worst (heap.Pop (Queue .best) ⟨m, p.best⟩).1.mem p.worst :=
    iw.congr (fun y _ => (h1.2.2.2.1 y).2.1)
  obtain ⟨hpl, hpe, _⟩ := iw1.position hx
  have h2 := heap_Remove_take .worst _ p.worst _ iw1 hpl _ rfl
  rw [hpe] at h2
  have hb := take_both .best m p.best p.worst _ ib iw hbw hwb _ _
    ⟨rfl, h1.2⟩ h2
  exact ⟨h1.1, SubPool.removed_of_take ht .best p.best p.worst rfl rfl _ _ _ hb _ rfl⟩

theorem eq_singleton_of_mem {q : List Ptr} {x : Ptr} (hx : x ∈ q) (hl : q.length = 1) :
    q = [x] := by
  match q, hl with
  | [a], _ =>
    rw [List.mem_singleton] at hx
    rw [hx]

theorem SubPool.UnsafeRemove_removed (m : Mem) (p : SubPool) (x : Ptr) (ht : p.Tagged m)
    (hx : x ∈ p.best) :
    p.Removed m x (SubPool.UnsafeRemove m p x).1 (SubPool.UnsafeRemove m p x).2 := by
  obtain ⟨⟨ib, iw, hbw, hwb⟩, htag⟩ := id ht
  have hlb : 0 < p.best.length := List.length_pos_of_mem hx
  have hxw : x ∈ p.worst := hbw x hx
  have hlw : 0 < p.worst.length := List.length_pos_of_mem hxw
  unfold SubPool.UnsafeRemove
  rw [if_neg (by unfold SubPool.Len; omega)]
  split
  · rename_i h1
    have hb1 : p.best.length = 1 := h1.1
    have hw1 : p.worst.length = 1 := by rw [ht.len_worst]; exact hb1
    have eb := eq_singleton_of_mem hx hb1
    have ew := eq_singleton_of_mem hxw hw1
    have q1 := queue_pop_struct .worst m p.worst iw hlw _ rfl
    have e1 : ((Queue .worst).Pop ⟨m, p.worst⟩).2 = x := by
      rw [q1.1, hw1]
      rw [ew]
      rfl
    have ib1 : IdxOK .best ((Queue .worst).Pop ⟨m, p.worst⟩).1.mem p.best :=
      ib.congr (fun y _ => (q1.2.2.2.1 y).2.1)
    have q2 := queue_pop_struct .best _ p.best ib1 hlb _ rfl
    have e2 : ((Queue .best).Pop ⟨((Queue .worst).Pop ⟨m, p.worst⟩).1.mem, p.best⟩).2 = x := by
      rw [q2.1, hb1]
      rw [eb]
      rfl
    have hb := take_both .worst m p.worst p.best x iw ib hwb hbw _ _ ⟨e1, q1.2⟩ ⟨e2, q2.2⟩
    exact SubPool.removed_of_take ht .worst p.worst p.best rfl rfl _ _ _ hb _ rfl
  · obtain ⟨hpl, hpe, _⟩ := iw.position hxw
    have q1 := queue_swap_pop_struct .worst m p.worst _ iw hpl _ rfl
    rw [hpe] at q1
    have ib1 : IdxOK .best ((Queue .worst).Pop ((Queue .worst).Swap ⟨m, p.worst⟩
        (idx .worst (m x)).toNat (p.worst.length - 1))).1.mem p.best :=
      ib.congr (fun y _ => (q1.2.2.2.1 y).2.1)
    obtain ⟨hpl2, hpe2, _⟩ := ib1.position hx
    have q2 := queue_swap_pop_struct .best _ p.best _ ib1 hpl2 _ rfl
    rw [hpe2] at q2
    have hb := take_both .worst m p.worst p.best x iw ib hwb hbw _ _ q1 q2
    exact SubPool.removed_of_take ht .worst p.worst p.best rfl rfl _ _ _ hb _ rfl

/-- Putting a record into both queues of a sub-pool, first into the queue of
kind `k`, by any two operations with the effect of a push. -/
theorem put_both (k : Kind) (m : Mem) (qa qb : List Ptr) (x : Ptr) (t : Nat)
    (hia : IdxOK k m qa) (hib : IdxOK k.other m qb)
    (hab : ∀ y ∈ qa, y ∈ qb) (hba : ∀ y ∈ qb, y ∈ qa) (hx : x ∉ qa)
    (f : (m1 : Mem) → (k1 : Kind) → (q : List Ptr) → Heap)
    (hf : ∀ m1 k1 q, IdxOK k1 m1 q → x ∉ q →
      IdxOK k1 (f m1 k1 q).mem (f m1 k1 q).q ∧ (f m1 k1 q).q.Perm (x :: q) ∧
        MemStep k1 (x :: q) m1 (f m1 k1 q).mem ∧
        ∀ p, ((f m1 k1 q).mem p).currentSubPool = (m1 p).currentSubPool) :
    IdxOK k (f (f (Function.update m x { m x with currentSubPool := t }) k qa).mem k.other qb).mem
        (f (Function.update m x { m x with currentSubPool := t }) k qa).q ∧
      IdxOK k.other
        (f (f (Function.update m x { m x with currentSubPool := t }) k qa).mem k.other qb).mem
        (f (f (Function.update m x { m x with currentSubPool := t }) k qa).mem k.other qb).q ∧
      (∀ y ∈ (f (Function.update m x { m x with currentSubPool := t }) k qa).q,
        y ∈ (f (f (Function.update m x { m x with currentSubPool := t }) k qa).mem k.other
          qb).q) ∧
      (∀ y ∈ (f (f (Function.update m x { m x with currentSubPool := t }) k qa).mem k.other
          qb).q, y ∈ (f (Function.update m x { m x with currentSubPool := t }) k qa).q) ∧
      (f (Function.update m x { m x with currentSubPool := t }) k qa).q.Perm (x :: qa) ∧
      (f (f (Function.update m x { m x with currentSubPool := t }) k qa).mem k.other
        qb).q.Perm (x :: qb) ∧
      Frame (x :: qa) m
        (f (f (Function.update m x { m x with currentSubPool := t }) k qa).mem k.other qb).mem ∧
      ((f (f (Function.update m x { m x with currentSubPool := t }) k qa).mem k.other qb).mem
        x).currentSubPool = t ∧
      ∀ p, p ≠ x →
        ((f (f (Function.update m x { m x with currentSubPool := t }) k qa).mem k.other qb).mem
          p).currentSubPool = (m p).currentSubPool := by
  have f0 : Frame (x :: qa) m (Function.update m x { m x with currentSubPool := t }) :=
    Frame.update_tag (List.mem_cons_self _ _) t
  have hxb : x ∉ qb := fun h => hx (hba x h)
  have hm1 : ∀ y, y ≠ x → (Function.update m x { m x with currentSubPool := t }) y = m y :=
    fun y hy => Function.update_noteq hy _ _
  have ia1 : IdxOK k (Function.update m x { m x with currentSubPool := t }) qa :=
    hia.congr (fun y hy => by rw [hm1 y (fun h => hx (h ▸ hy))])
  have ib1 : IdxOK k.other (Function.update m x { m x with currentSubPool := t }) qb :=
    hib.congr (fun y hy => by rw [hm1 y (fun h => hxb (h ▸ hy))])
  obtain ⟨i1, p1, s1, t1⟩ := hf _ k qa ia1 hx
  have ib2 : IdxOK k.other (f (Function.update m x { m x with currentSubPool := t }) k qa).mem
      qb := ib1.congr (fun y _ => (s1 y).2.1)
  obtain ⟨i2, p2, s2, t2⟩ := hf _ k.other qb ib2 hxb
  have hsub : ∀ y ∈ x :: qb, y ∈ x :: qa := by
    intro y hy
    rcases List.mem_cons.1 hy with h | h
    · exact h ▸ List.mem_cons_self _ _
    · exact List.mem_cons_of_mem _ (hba y h)
  refine ⟨i1.congr (fun y _ => s2.idx_same y), i2, ?_, ?_, p1, p2, ?_, ?_, ?_⟩
  · intro y hy
    rcases List.mem_cons.1 (p1.mem_iff.1 hy) with h | h
    · exact p2.mem_iff.2 (h ▸ List.mem_cons_self _ _)
    · exact p2.mem_iff.2 (List.mem_cons_of_mem _ (hab y h))
  · intro y hy
    rcases List.mem_cons.1 (p2.mem_iff.1 hy) with h | h
    · exact p1.mem_iff.2 (h ▸ List.mem_cons_self _ _)
    · exact p1.mem_iff.2 (List.mem_cons_of_mem _ (hba y h))
  · exact f0.trans (s1.toFrame.trans (s2.toFrame.mono hsub))
  · rw [t2, t1, Function.update_same]
  · intro p hp
    rw [t2, t1, hm1 p hp]

theorem queue_push_struct (x : Ptr) (m : Mem) (k : Kind) (q : List Ptr) (hi : IdxOK k m q)
    (hx : x ∉ q) :
    IdxOK k ((Queue k).Push ⟨m, q⟩ x).mem ((Queue k).Push ⟨m, q⟩ x).q ∧
      ((Queue k).Push ⟨m, q⟩ x).q.Perm (x :: q) ∧
      MemStep k (x :: q) m ((Queue k).Push ⟨m, q⟩ x).mem ∧
      ∀ p, (((Queue k).Push ⟨m, q⟩ x).mem p).currentSubPool = (m p).currentSubPool := by
  have ht := (Tracks.start (S := x :: q) (fun _ h => List.mem_cons_of_mem _ h) hi).push
    (List.mem_cons_self _ _) hx
  obtain ⟨hq, _, hm, hidx⟩ := ht
  refine ⟨hidx, ?_, hm, Queue_Push_tag k ⟨m, q⟩ x⟩
  rw [hq]
  exact List.perm_append_singleton x q

theorem heap_push_struct (x : Ptr) (m : Mem) (k : Kind) (q : List Ptr) (hi : IdxOK k m q)
    (hx : x ∉ q) :
    IdxOK k (heap.Push (Queue k) ⟨m, q⟩ x).mem (heap.Push (Queue k) ⟨m, q⟩ x).q ∧
      (heap.Push (Queue k) ⟨m, q⟩ x).q.Perm (x :: q) ∧
      MemStep k (x :: q) m (heap.Push (Queue k) ⟨m, q⟩ x).mem ∧
      ∀ p, ((heap.Push (Queue k) ⟨m, q⟩ x).mem p).currentSubPool = (m p).currentSubPool := by
  obtain ⟨a, b, c⟩ := heap_Push_struct k m q x hi hx
  exact ⟨a, b, c, heap_Push_tag k ⟨m, q⟩ x⟩

theorem SubPool.Add_added (m : Mem) (p : SubPool) (x : Ptr) (ht : p.Tagged m)
    (hx : x ∉ p.best) : p.Added m x (SubPool.Add m p x).1 (SubPool.Add m p x).2 := by
  obtain ⟨⟨ib, iw, hbw, hwb⟩, htag⟩ := id ht
  obtain ⟨i1, i2, m1, m2, p1, _, f, a, d⟩ := put_both .best m p.best p.worst x p.t ib iw hbw hwb
    hx (fun m1 k1 q => heap.Push (Queue k1) ⟨m1, q⟩ x) (heap_push_struct x)
  refine ⟨rfl, ⟨⟨i1, i2, m1, m2⟩, ?_⟩, p1, f, d⟩
  intro y hy
  by_cases hyx : y = x
  · rw [hyx]; exact a
  · have hy1 : y ∈ p.best := by
      rcases List.mem_cons.1 (p1.mem_iff.1 hy) with h | h
      · exact absurd h hyx
      · exact h
    exact (d y hyx).trans (htag y hy1)

theorem SubPool.UnsafeAdd_added (m : Mem) (p : SubPool) (x : Ptr) (ht : p.Tagged m)
    (hx : x ∉ p.best) :
    p.Added m x (SubPool.UnsafeAdd m p x).1 (SubPool.UnsafeAdd m p x).2 := by
  obtain ⟨⟨ib, iw, hbw, hwb⟩, htag⟩ := id ht
  have hxw : x ∉ p.worst := fun h => hx (hwb x h)
  obtain ⟨i1, i2, m1, m2, _, p2, f, a, d⟩ := put_both .worst m p.worst p.best x p.t iw ib hwb
    hbw hxw (fun m1 k1 q => (Queue k1).Push ⟨m1, q⟩ x) (queue_push_struct x)
  have hsub : ∀ y ∈ x :: p.worst, y ∈ x :: p.best := by
    intro y hy
    rcases List.mem_cons.1 hy with h | h
    · exact h ▸ List.mem_cons_self _ _
    · exact List.mem_cons_of_mem _ (hwb y h)
  refine ⟨rfl, ⟨⟨i2, i1, m2, m1⟩, ?_⟩, p2, f.mono hsub, d⟩
  intro y hy
  by_cases hyx : y = x
  · rw [hyx]; exact a
  · have hy1 : y ∈ p.best := by
      rcases List.mem_cons.1 (p2.mem_iff.1 hy) with h | h
      · exact absurd h hyx
      · exact h
    exact (d y hyx).trans (htag y hy1)

theorem SubPool.EnforceInvariants_tagged (m : Mem) (p : SubPool) (ht : p.Tagged m) :
    (SubPool.EnforceInvariants m p).2.t = p.t ∧
      (SubPool.EnforceInvariants m p).2.Valid (SubPool.EnforceInvariants m p).1 ∧
      (SubPool.EnforceInvariants m p).2.Tagged (SubPool.EnforceInvariants m p).1 ∧
      (SubPool.EnforceInvariants m p).2.best.Perm p.best ∧
      Frame p.best m (SubPool.EnforceInvariants m p).1 ∧
      ∀ q, ((SubPool.EnforceInvariants m p).1 q).currentSubPool = (m q).currentSubPool := by
  obtain ⟨hv, hp, hf⟩ := SubPool.EnforceInvariants_spec m p ht.1
  have htag : ∀ q, ((SubPool.EnforceInvariants m p).1 q).currentSubPool =
      (m q).currentSubPool := by
    intro q
    unfold SubPool.EnforceInvariants
    dsimp only
    rw [heap_Init_tag, heap_Init_tag]
  refine ⟨rfl, hv, ⟨hv.1, ?_⟩, hp, hf, htag⟩
  intro y hy
  rw [htag y]
  exact ht.2 y (hp.mem_iff.1 hy)

/-! ### The structural invariant in full -/

theorem SubPool.consistent_iff (m : Mem) (p : SubPool) : p.Consistent m ↔ p.Tagged m := by
  constructor
  · rintro ⟨nb, nw, hbw, hwb, h⟩
    refine ⟨⟨?_, ?_, hbw, hwb⟩, fun x hx => (h x hx).2.2⟩
    · intro i hi
      obtain ⟨⟨h0, hl, he⟩, _, _⟩ := h _ (elemAt_mem hi)
      have hn := (List.nodup_iff_injective_get.1 nb)
      have : (m (elemAt p.best i)).bestIndex.toNat = i := by
        have e1 : p.best.get ⟨(m (elemAt p.best i)).bestIndex.toNat, hl⟩ = p.best.get ⟨i, hi⟩ := by
          rw [List.get_eq_getElem, List.get_eq_getElem, ← elemAt_of_lt hl, ← elemAt_of_lt hi]
          exact he
        exact congrArg Fin.val (hn e1)
      show (m (elemAt p.best i)).bestIndex = (i : Int)
      omega
    · intro i hi
      obtain ⟨_, ⟨h0, hl, he⟩, _⟩ := h _ (hwb _ (elemAt_mem hi))
      have hn := (List.nodup_iff_injective_get.1 nw)
      have : (m (elemAt p.worst i)).worstIndex.toNat = i := by
        have e1 : p.worst.get ⟨(m (elemAt p.worst i)).worstIndex.toNat, hl⟩ =
            p.worst.get ⟨i, hi⟩ := by
          rw [List.get_eq_getElem, List.get_eq_getElem, ← elemAt_of_lt hl, ← elemAt_of_lt hi]
          exact he
        exact congrArg Fin.val (hn e1)
      show (m (elemAt p.worst i)).worstIndex = (i : Int)
      omega
  · rintro ⟨⟨ib, iw, hbw, hwb⟩, htag⟩
    refine ⟨ib.nodup, iw.nodup, hbw, hwb, fun x hx => ⟨?_, ?_, htag x hx⟩⟩
    · obtain ⟨a, b, c⟩ := ib.position hx
      exact ⟨c, a, b⟩
    · obtain ⟨a, b, c⟩ := iw.position (hbw x hx)
      exact ⟨c, a, b⟩

/-! ## The three sub-pools, addressed by `Which` -/

theorem Which.tag_inj {a b : Which} (h : a.tag = b.tag) : a = b := by
  cases a <;> cases b <;> first | rfl | (exact absurd h (by decide))

theorem Which.tag_ne_zero (a : Which) : a.tag ≠ 0 := by
  cases a <;> decide

@[simp] theorem Pools.put_mem (s : Pools) (w : Which) (m : Mem) (p : SubPool) :
    (s.put w m p).mem = m := by
  cases w <;> rfl

@[simp] theorem Pools.get_put_same (s : Pools) (w : Which) (m : Mem) (p : SubPool) :
    (s.put w m p).get w = p := by
  cases w <;> rfl

theorem Pools.get_put_ne (s : Pools) {w w' : Which} (h : w' ≠ w) (m : Mem) (p : SubPool) :
    (s.put w m p).get w' = s.get w' := by
  cases w <;> cases w' <;> first | rfl | exact absurd rfl h

theorem Pools.get_put (s : Pools) (w w' : Which) (m : Mem) (p : SubPool) :
    (s.put w m p).get w' = if w' = w then p else s.get w' := by
  by_cases h : w' = w
  · rw [if_pos h, h, Pools.get_put_same]
  · rw [if_neg h, Pools.get_put_ne s h]

theorem Pools.placed_iff (s : Pools) (R : List Ptr) :
    s.Placed R ↔ (∀ w, (s.get w).t = w.tag) ∧ (∀ w, (s.get w).Tagged s.mem) ∧
      (∀ w, ∀ x ∈ (s.get w).best, x ∈ R) ∧
      (∀ x ∈ R, ∀ w, (s.mem x).currentSubPool = w.tag → x ∈ (s.get w).best) := by
  unfold Pools.Placed
  constructor
  · rintro ⟨⟨t1, t2, t3⟩, ⟨w1, w2, w3⟩, hs, ha⟩
    refine ⟨?_, ?_, ?_, ?_⟩
    · intro w; cases w
      · exact t1
      · exact t2
      · exact t3
    · intro w; cases w
      · exact w1
      · exact w2
      · exact w3
    · intro w x hx
      apply hs
      cases w
      · exact List.mem_append_left _ hx
      · exact List.mem_append_right _ (List.mem_append_left _ hx)
      · exact List.mem_append_right _ (List.mem_append_right _ hx)
    · intro x hx w hw
      cases w
      · exact (ha x hx).1 hw
      · exact (ha x hx).2.1 hw
      · exact (ha x hx).2.2 hw
  · rintro ⟨ht, hw, hs, ha⟩
    refine ⟨⟨ht .pending, ht .baseFee, ht .queued⟩, ⟨hw .pending, hw .baseFee, hw .queued⟩,
      ?_, ?_⟩
    · intro x hx
      rcases List.mem_append.1 hx with h | h
      · exact hs .pending x h
      · rcases List.mem_append.1 h with h | h
        · exact hs .baseFee x h
        · exact hs .queued x h
    · intro x hx
      exact ⟨ha x hx .pending, ha x hx .baseFee, ha x hx .queued⟩

theorem Pools.out_iff (s : Pools) (x : Ptr) : s.Out x ↔ ∀ w, x ∉ (s.get w).best := by
  unfold Pools.Out
  constructor
  · rintro ⟨a, b, c⟩ w
    cases w
    · exact a
    · exact b
    · exact c
  · intro h
    exact ⟨h .pending, h .baseFee, h .queued⟩

/-- Members of two different sub-pools are different records. -/
theorem Pools.Placed.disjoint {s : Pools} {R : List Ptr} (h : s.Placed R) {w w' : Which}
    (hne : w' ≠ w) {x : Ptr} (hx : x ∈ (s.get w).best) : x ∉ (s.get w').best := by
  obtain ⟨ht, hw, _, _⟩ := (Pools.placed_iff s R).1 h
  intro hx'
  have e1 := (hw w).2 x hx
  have e2 := (hw w').2 x hx'
  rw [ht w] at e1
  rw [ht w'] at e2
  exact hne (Which.tag_inj (e2.symm.trans e1))

theorem SubPool.Tagged.of_agree {m m' : Mem} {p : SubPool} (ht : p.Tagged m)
    (h : ∀ y ∈ p.best, shape (m' y) = shape (m y)) : p.Tagged m' := by
  obtain ⟨⟨ib, iw, hbw, hwb⟩, htag⟩ := ht
  have hs : ∀ y ∈ p.best, (m' y).bestIndex = (m y).bestIndex ∧
      (m' y).worstIndex = (m y).worstIndex ∧ (m' y).currentSubPool = (m y).currentSubPool := by
    intro y hy
    have := h y hy
    simp only [shape, Prod.mk.injEq] at this
    exact ⟨this.2.1, this.2.2.1, this.2.2.2⟩
  refine ⟨⟨ib.congr (fun y hy => (hs y hy).1), iw.congr (fun y hy => (hs y (hwb y hy)).2.1),
    hbw, hwb⟩, fun y hy => ?_⟩
  rw [(hs y hy).2.2]
  exact htag y hy

theorem SubPool.Tagged.ofFrame {m m' : Mem} {p : SubPool} {S : List Ptr} (ht : p.Tagged m)
    (hf : Frame S m m') (hd : ∀ y ∈ p.best, y ∉ S) : p.Tagged m' :=
  ht.of_agree (fun y hy => by rw [(hf y).2 (hd y hy)])

/-- Taking a member out of one sub-pool keeps the sub-pools placed. -/
theorem Pools.Placed.removed {s : Pools} {R : List Ptr} (h : s.Placed R) (w : Which) {x : Ptr}
    {m' : Mem} {p' : SubPool} (hr : (s.get w).Removed s.mem x m' p') :
    (s.put w m' p').Placed R ∧ (s.put w m' p').Out x ∧ (m' x).Detached ∧
      (∀ w' y, y ∈ ((s.put w m' p').get w').best ↔ y ∈ (s.get w').best ∧ y ≠ x) ∧
      (∀ y, core (m' y) = core (s.mem y)) ∧
      (∀ y, y ≠ x → (m' y).currentSubPool = (s.mem y).currentSubPool) := by
  have h0 := h
  obtain ⟨ht, hw, hs, ha⟩ := (Pools.placed_iff s R).1 h
  obtain ⟨e, t', hp, hf, hd, htag⟩ := hr
  have hxw : x ∈ (s.get w).best := hp.mem_iff.1 (List.mem_cons_self _ _)
  have hnd := hp.nodup_iff.2 (hw w).1.1.nodup
  rw [List.nodup_cons] at hnd
  have hmem : ∀ w' y, y ∈ ((s.put w m' p').get w').best ↔ y ∈ (s.get w').best ∧ y ≠ x := by
    intro w' y
    rw [Pools.get_put]
    by_cases hw' : w' = w
    · rw [if_pos hw', hw']
      constructor
      · intro hy
        refine ⟨hp.mem_iff.1 (List.mem_cons_of_mem _ hy), ?_⟩
        intro e
        exact hnd.1 (by have hy' := hy; rw [e] at hy'; exact hy')
      · rintro ⟨hy, hne⟩
        rcases List.mem_cons.1 (hp.mem_iff.2 hy) with h1 | h1
        · exact absurd h1 hne
        · exact h1
    · rw [if_neg hw']
      constructor
      · intro hy
        refine ⟨hy, ?_⟩
        intro e
        exact h0.disjoint hw' hxw (e ▸ hy)
      · exact fun hy => hy.1
  refine ⟨?_, ?_, hd, hmem, fun y => (hf y).1, htag⟩
  · rw [Pools.placed_iff]
    refine ⟨?_, ?_, ?_, ?_⟩
    · intro w'
      rw [Pools.get_put]
      by_cases hw' : w' = w
      · rw [if_pos hw', e, hw']; exact ht w
      · rw [if_neg hw']; exact ht w'
    · intro w'
      rw [Pools.put_mem, Pools.get_put]
      by_cases hw' : w' = w
      · rw [if_pos hw']; exact t'
      · rw [if_neg hw']
        exact (hw w').ofFrame hf (fun y hy hy' => h0.disjoint hw' hy' hy)
    · intro w' y hy
      exact hs w' y ((hmem w' y).1 hy).1
    · intro y hy w'
      rw [Pools.put_mem]
      intro hty
      by_cases hyx : y = x
      · rw [hyx, hd.1] at hty
        exact absurd hty.symm (Which.tag_ne_zero w')
      · rw [htag y hyx] at hty
        exact (hmem w' y).2 ⟨ha y hy w' hty, hyx⟩
  · rw [Pools.out_iff]
    intro w' hx
    exact ((hmem w' x).1 hx).2 rfl

/-- Putting a resident record that is in no sub-pool into one keeps the
sub-pools placed. -/
theorem Pools.Placed.afterAdd {s : Pools} {R : List Ptr} (h : s.Placed R) (w : Which) {x : Ptr}
    (hx : x ∈ R) (ho : s.Out x) {m' : Mem} {p' : SubPool}
    (hr : (s.get w).Added s.mem x m' p') :
    (s.put w m' p').Placed R ∧
      (∀ w' y, y ∈ ((s.put w m' p').get w').best ↔
        y ∈ (s.get w').best ∨ (w' = w ∧ y = x)) ∧
      (∀ y, core (m' y) = core (s.mem y)) ∧
      (∀ y, y ≠ x → (m' y).currentSubPool = (s.mem y).currentSubPool) := by
  have h0 := h
  obtain ⟨ht, hw, hs, ha⟩ := (Pools.placed_iff s R).1 h
  obtain ⟨e, t', hp, hf, htag⟩ := hr
  have hmem : ∀ w' y, y ∈ ((s.put w m' p').get w').best ↔
      y ∈ (s.get w').best ∨ (w' = w ∧ y = x) := by
    intro w' y
    rw [Pools.get_put]
    by_cases hw' : w' = w
    · rw [if_pos hw', hw', hp.mem_iff, List.mem_cons]
      constructor
      · rintro (h1 | h1)
        · exact Or.inr ⟨rfl, h1⟩
        · exact Or.inl h1
      · rintro (h1 | h1)
        · exact Or.inr h1
        · exact Or.inl h1.2
    · rw [if_neg hw']
      constructor
      · exact fun hy => Or.inl hy
      · rintro (h1 | h1)
        · exact h1
        · exact absurd h1.1 hw'
  refine ⟨?_, hmem, fun y => (hf y).1, htag⟩
  rw [Pools.placed_iff]
  refine ⟨?_, ?_, ?_, ?_⟩
  · intro w'
    rw [Pools.get_put]
    by_cases hw' : w' = w
    · rw [if_pos hw', e, hw']; exact ht w
    · rw [if_neg hw']; exact ht w'
  · intro w'
    rw [Pools.put_mem, Pools.get_put]
    by_cases hw' : w' = w
    · rw [if_pos hw']; exact t'
    · rw [if_neg hw']
      refine (hw w').ofFrame hf (fun y hy hy' => ?_)
      rcases List.mem_cons.1 hy' with h1 | h1
      · exact (s.out_iff x).1 ho w' (h1 ▸ hy)
      · exact h0.disjoint hw' h1 hy
  · intro w' y hy
    rcases (hmem w' y).1 hy with h1 | h1
    · exact hs w' y h1
    · rw [h1.2]; exact hx
  · intro y hy w'
    rw [Pools.put_mem]
    intro hty
    by_cases hyx : y = x
    · have hxp : x ∈ p'.best := hp.mem_iff.2 (List.mem_cons_self _ _)
      have e1 := t'.2 x hxp
      rw [hyx, e1, e, ht w] at hty
      exact (hmem w' y).2 (Or.inr ⟨(Which.tag_inj hty).symm, hyx⟩)
    · rw [htag y hyx] at hty
      exact (hmem w' y).2 (Or.inl (ha y hy w' hty))

/-! ## The by-nonce index as an ordered list -/

theorem sortByNonce_same_iff (a b : metaTx) :
    sortByNonce.same a b = true ↔
      (a.Tx.senderID = b.Tx.senderID ∧ a.Tx.nonce = b.Tx.nonce) := by
  unfold sortByNonce.same
  have h1 := sortByNonce_Less_iff a b
  have h2 := sortByNonce_Less_iff b a
  simp only [Bool.and_eq_true, Bool.not_eq_true', ← Bool.not_eq_true, h1, h2]
  omega

theorem sortByNonce_same_key (a : metaTx) (s n : Nat) :
    sortByNonce.same a (sortByNonce.key s n) = true ↔ (a.Tx.senderID = s ∧ a.Tx.nonce = n) := by
  rw [sortByNonce_same_iff]
  rfl

theorem pairwise_total {R : Ptr → Ptr → Prop} (l : List Ptr) (hp : l.Pairwise R) (a c : Ptr)
    (ha : a ∈ l) (hc : c ∈ l) (hac : a ≠ c) : R a c ∨ R c a := by
  induction l with
  | nil => cases ha
  | cons z zs ih =>
    rw [List.pairwise_cons] at hp
    rcases List.mem_cons.1 ha with e1 | e1
    · rcases List.mem_cons.1 hc with e2 | e2
      · exact absurd (e1.trans e2.symm) hac
      · exact Or.inl (e1 ▸ hp.1 c e2)
    · rcases List.mem_cons.1 hc with e2 | e2
      · exact Or.inr (e2 ▸ hp.1 a e1)
      · exact ih hp.2 e1 e2

/-- Two records of an ordered index with the same `(senderID, nonce)` are one. -/
theorem ByNonce.Sorted.unique {m : Mem} {b : ByNonce} (hs : ByNonce.Sorted m b) {x y : Ptr}
    (hx : x ∈ b) (hy : y ∈ b) (h1 : (m x).Tx.senderID = (m y).Tx.senderID)
    (h2 : (m x).Tx.nonce = (m y).Tx.nonce) : x = y := by
  by_contra hne
  rcases pairwise_total b hs x y hx hy hne with h | h
  · rw [sortByNonce_Less_iff] at h; omega
  · rw [sortByNonce_Less_iff] at h; omega

theorem ByNonce.Sorted.sortedCongr {m m' : Mem} {b : ByNonce} (hs : ByNonce.Sorted m b)
    (h : ∀ p ∈ b, (m' p).Tx = (m p).Tx) : ByNonce.Sorted m' b := by
  refine List.Pairwise.imp_of_mem ?_ hs
  intro x y hx hy hl
  rw [sortByNonce_Less_iff] at hl ⊢
  rw [h x hx, h y hy]
  exact hl

/-- In an ordered index `get` finds the record with the given key, if there is
one. -/
theorem ByNonce.get_eq_some {m : Mem} {b : ByNonce} (hs : ByNonce.Sorted m b) (s n : Nat)
    (x : Ptr) :
    ByNonce.get m b s n = some x ↔ (x ∈ b ∧ (m x).Tx.senderID = s ∧ (m x).Tx.nonce = n) := by
  unfold ByNonce.get
  constructor
  · intro h
    have h1 := List.find?_some h
    rw [sortByNonce_same_key] at h1
    exact ⟨List.mem_of_find?_eq_some h, h1⟩
  · rintro ⟨hx, h1, h2⟩
    cases hf : b.find? (fun y => sortByNonce.same (m y) (sortByNonce.key s n)) with
    | none =>
      rw [List.find?_eq_none] at hf
      exact absurd ((sortByNonce_same_key _ _ _).2 ⟨h1, h2⟩) (hf x hx)
    | some y =>
      have hy1 := List.find?_some hf
      rw [sortByNonce_same_key] at hy1
      have := hs.unique (List.mem_of_find?_eq_some hf) hx (hy1.1.trans h1.symm)
        (hy1.2.trans h2.symm)
      rw [this]

theorem ByNonce.get_eq_none {m : Mem} {b : ByNonce} (s n : Nat) :
    ByNonce.get m b s n = none ↔
      ∀ x ∈ b, ¬ ((m x).Tx.senderID = s ∧ (m x).Tx.nonce = n) := by
  unfold ByNonce.get
  rw [List.find?_eq_none]
  constructor
  · intro h x hx hk
    exact h x hx ((sortByNonce_same_key _ _ _).2 hk)
  · intro h x hx hk
    exact h x hx ((sortByNonce_same_key _ _ _).1 hk)

theorem eraseP_eq_erase {b : List Ptr} {x : Ptr} (p : Ptr → Bool)
    (h : ∀ y ∈ b, p y = true ↔ y = x) : b.eraseP p = b.erase x := by
  induction b with
  | nil => rfl
  | cons z zs ih =>
    by_cases hz : z = x
    · subst hz
      rw [List.eraseP_cons_of_pos ((h z (List.mem_cons_self _ _)).2 rfl), List.erase_cons_head]
    · have hpz : ¬ p z = true := fun hp => hz ((h z (List.mem_cons_self _ _)).1 hp)
      rw [List.eraseP_cons_of_neg hpz, List.erase_cons_tail (by simpa using hz),
        ih (fun y hy => h y (List.mem_cons_of_mem _ hy))]

/-- In an ordered index `delete` of a record of the index removes that record. -/
theorem ByNonce.delete_eq {m : Mem} {b : ByNonce} (hs : ByNonce.Sorted m b) {x : Ptr}
    (hx : x ∈ b) : ByNonce.delete m b x = b.erase x := by
  unfold ByNonce.delete
  apply eraseP_eq_erase
  intro y hy
  rw [sortByNonce_same_iff]
  constructor
  · rintro ⟨h1, h2⟩
    exact hs.unique hy hx h1 h2
  · intro h
    rw [h]
    exact ⟨rfl, rfl⟩

theorem ByNonce.Sorted.erase {m : Mem} {b : ByNonce} (hs : ByNonce.Sorted m b) (x : Ptr) :
    ByNonce.Sorted m (b.erase x) :=
  List.Pairwise.sublist (List.erase_sublist x b) hs

theorem ByNonce.mem_erase {m : Mem} {b : ByNonce} (hs : ByNonce.Sorted m b) (x y : Ptr) :
    y ∈ b.erase x ↔ y ∈ b ∧ y ≠ x := by
  rw [hs.indexNodup.mem_erase_iff]
  exact And.comm

theorem insert_sorted (m : Mem) (mt : Ptr) (l : List Ptr) (hs : ByNonce.Sorted m l)
    (hnew : ∀ y ∈ l, ¬ ((m y).Tx.senderID = (m mt).Tx.senderID ∧
      (m y).Tx.nonce = (m mt).Tx.nonce)) :
    ByNonce.Sorted m (l.takeWhile (fun x => sortByNonce.Less (m x) (m mt)) ++ mt ::
      l.dropWhile (fun x => sortByNonce.Less (m x) (m mt))) := by
  induction l with
  | nil => exact List.pairwise_singleton _ _
  | cons z zs ih =>
    have hp := List.pairwise_cons.1 hs
    have hz := hnew z (List.mem_cons_self _ _)
    by_cases h : sortByNonce.Less (m z) (m mt) = true
    · simp only [List.takeWhile_cons, List.dropWhile_cons, h, if_true, List.cons_append]
      refine List.pairwise_cons.2 ⟨?_, ih hp.2 (fun y hy => hnew y (List.mem_cons_of_mem _ hy))⟩
      intro y hy
      rcases List.mem_append.1 hy with h1 | h1
      · exact hp.1 y ((List.takeWhile_sublist _).subset h1)
      · rcases List.mem_cons.1 h1 with h2 | h2
        · rw [h2]; exact h
        · exact hp.1 y ((List.dropWhile_sublist _).subset h2)
    · simp only [List.takeWhile_cons, List.dropWhile_cons, h, if_false, List.nil_append]
      have hmz : sortByNonce.Less (m mt) (m z) = true := by
        rw [sortByNonce_Less_iff] at h ⊢
        omega
      refine List.pairwise_cons.2 ⟨?_, hs⟩
      intro y hy
      rcases List.mem_cons.1 hy with h1 | h1
      · rw [h1]; exact hmz
      · have := hp.1 y h1
        rw [sortByNonce_Less_iff] at this hmz ⊢
        omega

theorem insert_perm (p : Ptr → Bool) (mt : Ptr) (l : List Ptr) :
    (l.takeWhile p ++ mt :: l.dropWhile p).Perm (mt :: l) := by
  have h : (l.takeWhile p ++ mt :: l.dropWhile p).Perm (mt :: (l.takeWhile p ++ l.dropWhile p)) :=
    List.perm_middle
  rw [List.takeWhile_append_dropWhile] at h
  exact h

/-- The method `replaceOrInsert` with a record whose key is not in the index
inserts it in order. -/
theorem ByNonce.replaceOrInsert_new {m : Mem} {b : ByNonce} (hs : ByNonce.Sorted m b)
    (mt : Ptr)
    (hnew : ∀ y ∈ b, ¬ ((m y).Tx.senderID = (m mt).Tx.senderID ∧
      (m y).Tx.nonce = (m mt).Tx.nonce)) :
    ByNonce.Sorted m (ByNonce.replaceOrInsert m b mt).1 ∧
      (ByNonce.replaceOrInsert m b mt).1.Perm (mt :: b) ∧
      (ByNonce.replaceOrInsert m b mt).2 = none := by
  have he : b.eraseP (fun x => sortByNonce.same (m x) (m mt)) = b := by
    apply List.eraseP_of_forall_not
    intro y hy hk
    exact hnew y hy ((sortByNonce_same_iff _ _).1 hk)
  unfold ByNonce.replaceOrInsert
  dsimp only
  rw [he]
  refine ⟨insert_sorted m mt b hs hnew, insert_perm _ mt b, ?_⟩
  rw [List.find?_eq_none]
  intro y hy hk
  exact hnew y hy ((sortByNonce_same_iff _ _).1 hk)

/-! ## The hash map as a list of entries -/

theorem byHashGet_eq_none (h : List (Nat × Ptr)) (k : Nat) :
    byHashGet h k = none ↔ ∀ e ∈ h, e.1 ≠ k := by
  unfold byHashGet
  rw [Option.map_eq_none', List.find?_eq_none]
  constructor
  · intro hh e he hk
    exact hh e he (by simpa using hk)
  · intro hh e he hk
    exact hh e he (by simpa using hk)

theorem keys_unique {h : List (Nat × Ptr)} (hk : (h.map Prod.fst).Nodup) {e e' : Nat × Ptr}
    (he : e ∈ h) (he' : e' ∈ h) (h1 : e.1 = e'.1) : e = e' := by
  induction h with
  | nil => cases he
  | cons z zs ih =>
    rw [List.map_cons, List.nodup_cons] at hk
    rcases List.mem_cons.1 he with a | a
    · rcases List.mem_cons.1 he' with b | b
      · rw [a, b]
      · exfalso
        apply hk.1
        rw [← a, h1]
        exact List.mem_map_of_mem _ b
    · rcases List.mem_cons.1 he' with b | b
      · exfalso
        apply hk.1
        rw [← b, ← h1]
        exact List.mem_map_of_mem _ a
      · exact ih hk.2 a b

theorem byHashGet_eq_some {h : List (Nat × Ptr)} (hk : (h.map Prod.fst).Nodup) (k : Nat)
    (p : Ptr) : byHashGet h k = some p ↔ (k, p) ∈ h := by
  unfold byHashGet
  constructor
  · intro hh
    rw [Option.map_eq_some'] at hh
    obtain ⟨e, he, hp⟩ := hh
    have h1 := List.find?_some he
    have h2 := List.mem_of_find?_eq_some he
    have e1 : e.1 = k := by simpa using h1
    have : e = (k, p) := Prod.ext e1 hp
    rw [← this]
    exact h2
  · intro hm
    cases hf : h.find? (fun e => e.1 == k) with
    | none =>
      rw [List.find?_eq_none] at hf
      exact absurd (by simp) (hf (k, p) hm)
    | some e =>
      have h1 := List.find?_some hf
      have h2 := List.mem_of_find?_eq_some hf
      have e1 : e.1 = k := by simpa using h1
      have := keys_unique hk h2 hm e1
      rw [this]
      rfl

theorem mem_byHashDelete (h : List (Nat × Ptr)) (k : Nat) (e : Nat × Ptr) :
    e ∈ byHashDelete h k ↔ e ∈ h ∧ e.1 ≠ k := by
  unfold byHashDelete
  rw [List.mem_filter]
  simp

theorem mem_byHashSet (h : List (Nat × Ptr)) (k : Nat) (v : Ptr) (e : Nat × Ptr) :
    e ∈ byHashSet h k v ↔ e = (k, v) ∨ (e ∈ h ∧ e.1 ≠ k) := by
  unfold byHashSet
  rw [List.mem_cons, List.mem_filter]
  simp

theorem keys_byHashDelete {h : List (Nat × Ptr)} (hk : (h.map Prod.fst).Nodup) (k : Nat) :
    ((byHashDelete h k).map Prod.fst).Nodup :=
  List.Nodup.sublist (List.Sublist.map _ (List.filter_sublist _)) hk

theorem keys_byHashSet {h : List (Nat × Ptr)} (hk : (h.map Prod.fst).Nodup) (k : Nat)
    (v : Ptr) : ((byHashSet h k v).map Prod.fst).Nodup := by
  unfold byHashSet
  rw [List.map_cons, List.nodup_cons]
  refine ⟨?_, List.Nodup.sublist (List.Sublist.map _ (List.filter_sublist _)) hk⟩
  intro hm
  rw [List.mem_map] at hm
  obtain ⟨e, he, h1⟩ := hm
  have := (List.mem_filter.1 he).2
  simp at this
  exact this h1

theorem byHashGet_delete {h : List (Nat × Ptr)} (hk : (h.map Prod.fst).Nodup) (k k' : Nat) :
    byHashGet (byHashDelete h k) k' = if k' = k then none else byHashGet h k' := by
  by_cases e : k' = k
  · rw [if_pos e, byHashGet_eq_none]
    intro x hx
    rw [e]
    exact ((mem_byHashDelete h k x).1 hx).2
  · rw [if_neg e]
    apply Option.ext
    intro p
    rw [Option.mem_def, Option.mem_def, byHashGet_eq_some (keys_byHashDelete hk k),
      byHashGet_eq_some hk, mem_byHashDelete]
    exact ⟨fun hh => hh.1, fun hh => ⟨hh, e⟩⟩

theorem byHashGet_set {h : List (Nat × Ptr)} (hk : (h.map Prod.fst).Nodup) (k k' : Nat)
    (v : Ptr) : byHashGet (byHashSet h k v) k' = if k' = k then some v else byHashGet h k' := by
  by_cases e : k' = k
  · rw [if_pos e, byHashGet_eq_some (keys_byHashSet hk k v), mem_byHashSet, e]
    exact Or.inl rfl
  · rw [if_neg e]
    apply Option.ext
    intro p
    rw [Option.mem_def, Option.mem_def, byHashGet_eq_some (keys_byHashSet hk k v),
      byHashGet_eq_some hk, mem_byHashSet]
    constructor
    · rintro (hh | hh)
      · exact absurd (congrArg Prod.fst hh) e
      · exact hh.1
    · exact fun hh => Or.inr ⟨hh, e⟩

/-! ## The hash map and the by-nonce index together -/

theorem Registry.Consistent.regCongr {m m' : Mem} {r : Registry} (h : r.Consistent m)
    (ht : ∀ p ∈ r.byNonce, (m' p).Tx = (m p).Tx) : r.Consistent m' := by
  obtain ⟨hs, hk, hh, hi⟩ := h
  refine ⟨hs.sortedCongr ht, hk, ?_, ?_⟩
  · intro e he
    obtain ⟨a, b⟩ := hh e he
    rw [ht _ b]
    exact ⟨a, b⟩
  · intro p hp
    rw [ht p hp]
    exact hi p hp

theorem Registry.Consistent.get_hash {m : Mem} {r : Registry} (h : r.Consistent m) {x : Ptr}
    (hx : x ∈ r.byNonce) : byHashGet r.byHash (m x).Tx.idHash = some x :=
  (byHashGet_eq_some h.2.1 _ _).2 (h.2.2.2 x hx)

/-- The method `discardLocked` on a resident record takes it out of the hash
map and of the index and appends it to the deletion queue. -/
theorem Registry.Consistent.discard {m : Mem} {r : Registry} (h : r.Consistent m) {x : Ptr}
    (hx : x ∈ r.byNonce) :
    (discardLocked m x r).Consistent m ∧
      (discardLocked m x r).byNonce = r.byNonce.erase x ∧
      (∀ y, y ∈ (discardLocked m x r).byNonce ↔ y ∈ r.byNonce ∧ y ≠ x) ∧
      (discardLocked m x r).deletedTxs = r.deletedTxs ++ [x] ∧
      (∀ k, byHashGet (discardLocked m x r).byHash k =
        if k = (m x).Tx.idHash then none else byHashGet r.byHash k) := by
  obtain ⟨hs, hk, hh, hi⟩ := id h
  have e1 : (discardLocked m x r).byNonce = r.byNonce.erase x := ByNonce.delete_eq hs hx
  have e2 : (discardLocked m x r).byHash = byHashDelete r.byHash (m x).Tx.idHash := rfl
  refine ⟨⟨?_, ?_, ?_, ?_⟩, e1, ?_, rfl, ?_⟩
  · rw [e1]; exact hs.erase x
  · rw [e2]; exact keys_byHashDelete hk _
  · intro e he
    rw [e2, mem_byHashDelete] at he
    obtain ⟨a, b⟩ := hh e he.1
    refine ⟨a, ?_⟩
    rw [e1, ByNonce.mem_erase hs]
    refine ⟨b, ?_⟩
    intro c
    rw [c] at a
    exact he.2 a.symm
  · intro p hp
    rw [e1, ByNonce.mem_erase hs] at hp
    rw [e2, mem_byHashDelete]
    refine ⟨hi p hp.1, ?_⟩
    intro c
    have := keys_unique hk (hi p hp.1) (hi x hx) c
    exact hp.2 (congrArg Prod.snd this)
  · intro y
    rw [e1, ByNonce.mem_erase hs]
  · intro k
    rw [e2, byHashGet_delete hk]

/-- Registering a record whose hash and whose key are not resident. -/
theorem Registry.Consistent.insert {m : Mem} {r : Registry} (h : r.Consistent m) (mt : Ptr)
    (hkey : ∀ y ∈ r.byNonce, ¬ ((m y).Tx.senderID = (m mt).Tx.senderID ∧
      (m y).Tx.nonce = (m mt).Tx.nonce))
    (hhash : byHashGet r.byHash (m mt).Tx.idHash = none) :
    Registry.Consistent m { r with byHash := byHashSet r.byHash (m mt).Tx.idHash mt,
                                   byNonce := (ByNonce.replaceOrInsert m r.byNonce mt).1 } ∧
      (ByNonce.replaceOrInsert m r.byNonce mt).1.Perm (mt :: r.byNonce) := by
  obtain ⟨hs, hk, hh, hi⟩ := id h
  obtain ⟨s1, p1, _⟩ := ByNonce.replaceOrInsert_new hs mt hkey
  rw [byHashGet_eq_none] at hhash
  refine ⟨⟨s1, keys_byHashSet hk _ _, ?_, ?_⟩, p1⟩
  · intro e he
    dsimp only at he ⊢
    rw [mem_byHashSet] at he
    rcases he with he | he
    · rw [he]
      exact ⟨rfl, p1.mem_iff.2 (List.mem_cons_self _ _)⟩
    · obtain ⟨a, b⟩ := hh e he.1
      exact ⟨a, p1.mem_iff.2 (List.mem_cons_of_mem _ b)⟩
  · intro p hp
    dsimp only at hp ⊢
    rw [mem_byHashSet]
    rcases List.mem_cons.1 (p1.mem_iff.1 hp) with e | e
    · rw [e]; exact Or.inl rfl
    · exact Or.inr ⟨hi p e, hhash _ (hi p e)⟩

/-- The hash map and the index have the same size. -/
theorem Registry.Consistent.size_eq {m : Mem} {r : Registry} (h : r.Consistent m) :
    r.byHash.length = r.byNonce.length := by
  obtain ⟨hs, hk, hh, hi⟩ := h
  have hn : (r.byHash.map Prod.snd).Nodup := by
    rw [List.nodup_map_iff_inj_on (List.Nodup.of_map _ hk)]
    intro e he e' he' hee
    apply keys_unique hk he he'
    rw [← (hh e he).1, ← (hh e' he').1, hee]
  have hp : (r.byHash.map Prod.snd).Perm r.byNonce := by
    rw [List.perm_ext_iff_of_nodup hn hs.indexNodup]
    intro a
    constructor
    · intro ha
      rw [List.mem_map] at ha
      obtain ⟨e, he, rfl⟩ := ha
      exact (hh e he).2
    · intro ha
      exact List.mem_map.2 ⟨_, hi a ha, rfl⟩
  rw [← hp.length_eq, List.length_map]

/-! ## The sub-pools and the registry under the steps of the intake functions -/

theorem shape_core_eq {a b : metaTx} (h1 : shape a = shape b) (h2 : core a = core b) : a = b := by
  cases a
  cases b
  simp only [shape, core, Prod.mk.injEq] at h1 h2
  obtain ⟨a1, a2, a3, a4⟩ := h1
  obtain ⟨b1, b2, _⟩ := h2
  subst a1 a2 a3 a4 b1 b2
  rfl

theorem core_Tx {a b : metaTx} (h : core a = core b) : a.Tx = b.Tx := by
  simp only [core, Prod.mk.injEq] at h
  exact h.2.2

theorem shape_Tx {a b : metaTx} (h : shape a = shape b) : a.Tx = b.Tx := by
  simp only [shape, Prod.mk.injEq] at h
  exact h.1

theorem shape_tag {a b : metaTx} (h : shape a = shape b) :
    a.currentSubPool = b.currentSubPool := by
  simp only [shape, Prod.mk.injEq] at h
  exact h.2.2.2

/-- The placement of the sub-pools only reads the back-indices and tags of
resident records. -/
theorem Pools.Placed.congr_shape {s : Pools} {R : List Ptr} (h : s.Placed R) (m' : Mem)
    (hm : ∀ p ∈ R, shape (m' p) = shape (s.mem p)) : Pools.Placed { s with mem := m' } R := by
  obtain ⟨ht, hw, hs, ha⟩ := (Pools.placed_iff s R).1 h
  rw [Pools.placed_iff]
  have hg : ∀ w, (Pools.get { s with mem := m' } w) = s.get w := by
    intro w; cases w <;> rfl
  refine ⟨?_, ?_, ?_, ?_⟩
  · intro w; rw [hg]; exact ht w
  · intro w
    rw [hg]
    exact (hw w).of_agree (fun y hy => hm y (hs w y hy))
  · intro w x hx
    rw [hg] at hx
    exact hs w x hx
  · intro x hx w hw'
    rw [hg]
    have e : (m' x).currentSubPool = (s.mem x).currentSubPool := shape_tag (hm x hx)
    exact ha x hx w (e ▸ hw')

theorem Pools.Placed.shrink {s : Pools} {R R' : List Ptr} (h : s.Placed R)
    (h1 : ∀ x ∈ R', x ∈ R) (h2 : ∀ w, ∀ x ∈ (s.get w).best, x ∈ R') : s.Placed R' := by
  obtain ⟨ht, hw, hs, ha⟩ := (Pools.placed_iff s R).1 h
  rw [Pools.placed_iff]
  exact ⟨ht, hw, h2, fun x hx => ha x (h1 x hx)⟩

/-- A resident record that is in no sub-pool and has tag `0` may be added to the
residents. -/
theorem Pools.Placed.grow {s : Pools} {R R' : List Ptr} (h : s.Placed R)
    (h1 : ∀ x ∈ R, x ∈ R')
    (h2 : ∀ x ∈ R', x ∉ R → (s.mem x).currentSubPool = 0) : s.Placed R' := by
  obtain ⟨ht, hw, hs, ha⟩ := (Pools.placed_iff s R).1 h
  rw [Pools.placed_iff]
  refine ⟨ht, hw, fun w x hx => h1 x (hs w x hx), ?_⟩
  intro x hx w hw'
  by_cases hxR : x ∈ R
  · exact ha x hxR w hw'
  · rw [h2 x hx hxR] at hw'
    exact absurd hw'.symm (Which.tag_ne_zero w)

/-- The `switch` on `currentSubPool` takes a resident record out of the sub-pool
it is in. -/
theorem removeFromCurrent_spec {s : Pools} {R : List Ptr} (h : s.Placed R) {x : Ptr}
    (hx : x ∈ R) :
    (removeFromCurrent s x).Placed R ∧ (removeFromCurrent s x).Out x ∧
      (∀ w y, y ∈ ((removeFromCurrent s x).get w).best ↔ y ∈ (s.get w).best ∧ y ≠ x) ∧
      (∀ y, core ((removeFromCurrent s x).mem y) = core (s.mem y)) ∧
      (∀ y, y ≠ x → ((removeFromCurrent s x).mem y).currentSubPool =
        (s.mem y).currentSubPool) := by
  obtain ⟨ht, hw, hs, ha⟩ := (Pools.placed_iff s R).1 h
  have key : ∀ w, (s.mem x).currentSubPool = w.tag →
      (s.put w (SubPool.UnsafeRemove s.mem (s.get w) x).1
          (SubPool.UnsafeRemove s.mem (s.get w) x).2).Placed R ∧
        (s.put w (SubPool.UnsafeRemove s.mem (s.get w) x).1
          (SubPool.UnsafeRemove s.mem (s.get w) x).2).Out x ∧
        (∀ w' y, y ∈ ((s.put w (SubPool.UnsafeRemove s.mem (s.get w) x).1
          (SubPool.UnsafeRemove s.mem (s.get w) x).2).get w').best ↔
            y ∈ (s.get w').best ∧ y ≠ x) ∧
        (∀ y, core ((s.put w (SubPool.UnsafeRemove s.mem (s.get w) x).1
          (SubPool.UnsafeRemove s.mem (s.get w) x).2).mem y) = core (s.mem y)) ∧
        (∀ y, y ≠ x → ((s.put w (SubPool.UnsafeRemove s.mem (s.get w) x).1
          (SubPool.UnsafeRemove s.mem (s.get w) x).2).mem y).currentSubPool =
            (s.mem y).currentSubPool) := by
    intro w htag
    have hxw := ha x hx w htag
    obtain ⟨a, b, _, d, e, f⟩ := h.removed w
      (SubPool.UnsafeRemove_removed s.mem (s.get w) x (hw w) hxw)
    rw [Pools.put_mem]
    exact ⟨a, b, d, e, f⟩
  unfold removeFromCurrent
  split
  · rename_i h1
    exact key .pending h1
  · split
    · rename_i h2
      exact key .baseFee h2
    · split
      · rename_i h3
        exact key .queued h3
      · rename_i h1 h2 h3
        have hout : ∀ w, x ∉ (s.get w).best := by
          intro w hxw
          have := (hw w).2 x hxw
          rw [ht w] at this
          cases w
          · exact h1 this
          · exact h2 this
          · exact h3 this
        refine ⟨h, (s.out_iff x).2 hout, ?_, fun _ => rfl, fun _ _ => rfl⟩
        intro w y
        constructor
        · intro hy
          exact ⟨hy, fun e => hout w (e ▸ hy)⟩
        · exact fun hy => hy.1

/-! ### One transaction of a batch -/

/-- The tail of the loop body of `unsafeAddToPendingPool`: a fresh record whose
hash and key are not resident becomes a resident member of `pending`. -/
theorem insert_spec (st : State) (changed : List Nat) (mt : Ptr) (txn : TxSlot)
    (hreg : st.reg.Consistent st.pools.mem) (hpl : st.pools.Placed st.reg.byNonce)
    (hfr : ∀ p ∈ st.reg.byNonce, p < st.next) (hmt : mt < st.next)
    (hnot : mt ∉ st.reg.byNonce) (hTx : (st.pools.mem mt).Tx = txn)
    (htag : (st.pools.mem mt).currentSubPool = 0)
    (hkey : ∀ y ∈ st.reg.byNonce, ¬ ((st.pools.mem y).Tx.senderID = txn.senderID ∧
      (st.pools.mem y).Tx.nonce = txn.nonce))
    (hhash : byHashGet st.reg.byHash txn.idHash = none) :
    (unsafeAddToPendingPool.insert st changed mt txn).1.Inv ∧
      (unsafeAddToPendingPool.insert st changed mt txn).1.reg.byNonce.Perm
        (mt :: st.reg.byNonce) ∧
      (∀ w y, y ∈ ((unsafeAddToPendingPool.insert st changed mt txn).1.pools.get w).best ↔
        y ∈ (st.pools.get w).best ∨ (w = .pending ∧ y = mt)) ∧
      (∀ y, core ((unsafeAddToPendingPool.insert st changed mt txn).1.pools.mem y) =
        core (st.pools.mem y)) ∧
      (∀ y, y ≠ mt →
        ((unsafeAddToPendingPool.insert st changed mt txn).1.pools.mem y).currentSubPool =
          (st.pools.mem y).currentSubPool) ∧
      ((unsafeAddToPendingPool.insert st changed mt txn).1.pools.mem mt).currentSubPool =
        PendingSubPool ∧
      (∀ k, byHashGet (unsafeAddToPendingPool.insert st changed mt txn).1.reg.byHash k =
        if k = txn.idHash then some mt else byHashGet st.reg.byHash k) ∧
      (unsafeAddToPendingPool.insert st changed mt txn).1.reg.deletedTxs = st.reg.deletedTxs ∧
      (unsafeAddToPendingPool.insert st changed mt txn).1.next = st.next ∧
      (∀ c, c ∈ (unsafeAddToPendingPool.insert st changed mt txn).2 ↔
        c ∈ changed ∨ c = txn.senderID) := by
  have hkey' : ∀ y ∈ st.reg.byNonce, ¬ ((st.pools.mem y).Tx.senderID =
      (st.pools.mem mt).Tx.senderID ∧ (st.pools.mem y).Tx.nonce = (st.pools.mem mt).Tx.nonce) := by
    rw [hTx]; exact hkey
  have hhash' : byHashGet st.reg.byHash (st.pools.mem mt).Tx.idHash = none := by
    rw [hTx]; exact hhash
  obtain ⟨hc, hp⟩ := hreg.insert mt hkey' hhash'
  rw [hTx] at hc
  have hout : st.pools.Out mt := by
    rw [Pools.out_iff]
    intro w hx
    exact hnot (((Pools.placed_iff _ _).1 hpl).2.2.1 w mt hx)
  have hpl1 : st.pools.Placed (ByNonce.replaceOrInsert st.pools.mem st.reg.byNonce mt).1 := by
    refine hpl.grow (fun x hx => hp.mem_iff.2 (List.mem_cons_of_mem _ hx)) ?_
    intro x hx hxR
    rcases List.mem_cons.1 (hp.mem_iff.1 hx) with e | e
    · rw [e]; exact htag
    · exact absurd e hxR
  have had := SubPool.UnsafeAdd_added st.pools.mem st.pools.pending mt
    (((Pools.placed_iff _ _).1 hpl).2.1 .pending) ((Pools.out_iff _ _).1 hout .pending)
  obtain ⟨a, b, c, d⟩ := hpl1.afterAdd .pending (hp.mem_iff.2 (List.mem_cons_self _ _)) hout had
  have htagmt : ((SubPool.UnsafeAdd st.pools.mem st.pools.pending mt).1 mt).currentSubPool =
      PendingSubPool := by
    have h1 := had.2.1.2 mt (had.2.2.1.mem_iff.2 (List.mem_cons_self _ _))
    rw [h1, had.1]
    exact ((Pools.placed_iff _ _).1 hpl).1 .pending
  refine ⟨⟨?_, a, ?_⟩, hp, b, c, d, htagmt, ?_, rfl, rfl, ?_⟩
  · exact hc.regCongr (fun p _ => core_Tx (c p))
  · intro p hp'
    rcases List.mem_cons.1 (hp.mem_iff.1 hp') with e | e
    · rw [e]; exact hmt
    · exact hfr p e
  · intro k
    exact byHashGet_set hreg.2.1 _ _ _
  · intro c'
    unfold unsafeAddToPendingPool.insert
    dsimp only
    split
    · rename_i hin
      constructor
      · exact fun h => Or.inl h
      · rintro (h | h)
        · exact h
        · rw [h]; exact hin
    · rw [List.mem_append, List.mem_singleton]

/-- The replacing branch of the loop body of `unsafeAddToPendingPool`: the
resident record `found` with the key of the new one is taken out of its
sub-pool and discarded, and the new record takes its place. -/
theorem replace_spec (st : State) (changed : List Nat) (mt : Ptr) (txn : TxSlot) (found : Ptr)
    (hreg : st.reg.Consistent st.pools.mem) (hpl : st.pools.Placed st.reg.byNonce)
    (hfr : ∀ p ∈ st.reg.byNonce, p < st.next) (hmt : mt < st.next)
    (hnot : mt ∉ st.reg.byNonce) (hTx : (st.pools.mem mt).Tx = txn)
    (htag : (st.pools.mem mt).currentSubPool = 0)
    (hf : found ∈ st.reg.byNonce) (hfs : (st.pools.mem found).Tx.senderID = txn.senderID)
    (hfn : (st.pools.mem found).Tx.nonce = txn.nonce)
    (hhash : byHashGet st.reg.byHash txn.idHash = none)
    (r : State × List Nat)
    (hr : r = unsafeAddToPendingPool.insert
      { st with pools := removeFromCurrent st.pools found,
                reg := discardLocked (removeFromCurrent st.pools found).mem found st.reg }
      changed mt txn) :
    r.1.Inv ∧ r.1.reg.byNonce.Perm (mt :: st.reg.byNonce.erase found) ∧
      (∀ w y, y ∈ (r.1.pools.get w).best ↔
        (y ∈ (st.pools.get w).best ∧ y ≠ found) ∨ (w = .pending ∧ y = mt)) ∧
      (∀ y, core (r.1.pools.mem y) = core (st.pools.mem y)) ∧
      (r.1.pools.mem mt).currentSubPool = PendingSubPool ∧
      (∀ k, byHashGet r.1.reg.byHash k =
        if k = txn.idHash then some mt
        else if k = (st.pools.mem found).Tx.idHash then none else byHashGet st.reg.byHash k) ∧
      r.1.reg.deletedTxs = st.reg.deletedTxs ++ [found] ∧ r.1.next = st.next ∧
      (∀ c, c ∈ r.2 ↔ c ∈ changed ∨ c = txn.senderID) := by
  obtain ⟨p1, o1, m1, c1, t1⟩ := removeFromCurrent_spec hpl hf
  have hne : mt ≠ found := fun e => hnot (e ▸ hf)
  have hreg1 : st.reg.Consistent (removeFromCurrent st.pools found).mem :=
    hreg.regCongr (fun p _ => core_Tx (c1 p))
  obtain ⟨d1, d2, d3, d4, d5⟩ := hreg1.discard hf
  have hTxf : ((removeFromCurrent st.pools found).mem found).Tx = (st.pools.mem found).Tx :=
    core_Tx (c1 found)
  have hpl2 : (removeFromCurrent st.pools found).Placed
      (discardLocked (removeFromCurrent st.pools found).mem found st.reg).byNonce := by
    refine p1.shrink (fun x hx => ((d3 x).1 hx).1) ?_
    intro w x hx
    rw [d3]
    have := (m1 w x).1 hx
    exact ⟨((Pools.placed_iff _ _).1 hpl).2.2.1 w x this.1, this.2⟩
  have hi := insert_spec
    { st with pools := removeFromCurrent st.pools found,
              reg := discardLocked (removeFromCurrent st.pools found).mem found st.reg }
    changed mt txn d1 hpl2
    (fun p hp => hfr p ((d3 p).1 hp).1) hmt
    (fun h => hnot ((d3 mt).1 h).1)
    ((core_Tx (c1 mt)).trans hTx)
    ((t1 mt hne).trans htag)
    (by
      intro y hy hk
      have hy' := (d3 y).1 hy
      rw [core_Tx (c1 y)] at hk
      exact hy'.2 (hreg.1.unique hy'.1 hf (hk.1.trans hfs.symm) (hk.2.trans hfn.symm)))
    (by
      rw [d5]
      split
      · rfl
      · exact hhash)
  rw [← hr] at hi
  obtain ⟨i1, i2, i3, i4, i5, i6, i7, i8, i9, i10⟩ := hi
  refine ⟨i1, ?_, ?_, ?_, i6, ?_, ?_, i9, i10⟩
  · rw [d2] at i2; exact i2
  · intro w y
    rw [i3, m1]
  · intro y
    rw [i4]; exact c1 y
  · intro k
    rw [i7, d5, hTxf]
  · rw [i8, d4]

/-- Allocating the record of a new transaction at the next free address. -/
theorem alloc_spec (st : State) (h : st.Inv) (v : metaTx) :
    st.reg.Consistent (Function.update st.pools.mem st.next v) ∧
      Pools.Placed { st.pools with mem := Function.update st.pools.mem st.next v }
        st.reg.byNonce ∧
      st.next ∉ st.reg.byNonce ∧
      ∀ p ∈ st.reg.byNonce, Function.update st.pools.mem st.next v p = st.pools.mem p := by
  obtain ⟨hreg, hpl, hfr⟩ := h
  have hn : st.next ∉ st.reg.byNonce := fun hx => Nat.lt_irrefl _ (hfr _ hx)
  have hm : ∀ p ∈ st.reg.byNonce, Function.update st.pools.mem st.next v p = st.pools.mem p :=
    fun p hp => Function.update_noteq (fun e => hn (by rw [← e]; exact hp)) _ _
  exact ⟨hreg.regCongr (fun p hp => by rw [hm p hp]),
    hpl.congr_shape _ (fun p hp => by rw [hm p hp]), hn, hm⟩

/-- The loop body of `unsafeAddToPendingPool` keeps the representation
invariant. -/
theorem step_inv (acc : State × List Nat) (e : TxSlot × Bool) (h : acc.1.Inv) :
    (unsafeAddToPendingPool.step discardLocked acc e).1.Inv := by
  obtain ⟨a1, a2, a3, a4⟩ := alloc_spec acc.1 h (newMetaTx e.1 e.2)
  have hfr : ∀ p ∈ acc.1.reg.byNonce, p < acc.1.next + 1 :=
    fun p hp => Nat.lt_succ_of_lt (h.2.2 p hp)
  unfold unsafeAddToPendingPool.step
  dsimp only
  split
  · exact h
  · rename_i hh
    have hhash : byHashGet acc.1.reg.byHash e.1.idHash = none := by
      cases hq : byHashGet acc.1.reg.byHash e.1.idHash with
      | none => rfl
      | some v => rw [hq] at hh; exact absurd rfl hh
    split
    · rename_i found hfound
      split
      · exact ⟨a1, a2, hfr⟩
      · have hf := (ByNonce.get_eq_some a1.1 _ _ _).1 hfound
        exact (replace_spec
          { acc.1 with pools := { acc.1.pools with
                                  mem := Function.update acc.1.pools.mem acc.1.next
                                    (newMetaTx e.1 e.2) },
                       next := acc.1.next + 1 }
          acc.2 acc.1.next e.1 found a1 a2 hfr (Nat.lt_succ_self _) a3
          (by dsimp only; rw [Function.update_same]; rfl)
          (by dsimp only; rw [Function.update_same]; rfl)
          hf.1 hf.2.1 hf.2.2 hhash _ rfl).1
    · rename_i hnone
      have hk := (ByNonce.get_eq_none _ _).1 hnone
      exact (insert_spec
        { acc.1 with pools := { acc.1.pools with
                                mem := Function.update acc.1.pools.mem acc.1.next
                                  (newMetaTx e.1 e.2) },
                     next := acc.1.next + 1 }
        acc.2 acc.1.next e.1 a1 a2 hfr (Nat.lt_succ_self _) a3
        (by dsimp only; rw [Function.update_same]; rfl)
        (by dsimp only; rw [Function.update_same]; rfl)
        hk hhash).1

theorem unsafeAddToPendingPool_inv (st : State) (newTxs : List (TxSlot × Bool))
    (h : st.Inv) : (unsafeAddToPendingPool discardLocked st newTxs).1.Inv := by
  unfold unsafeAddToPendingPool
  generalize ([] : List Nat) = c
  induction newTxs generalizing st c with
  | nil => exact h
  | cons e es ih =>
    rw [List.foldl_cons]
    have := step_inv (st, c) e h
    exact ih (unsafeAddToPendingPool.step discardLocked (st, c) e).1 this
      (unsafeAddToPendingPool.step discardLocked (st, c) e).2

/-! ### Scoring and `EnforceInvariants` -/

theorem score_shape (sender : senderInfo) (pbf pend : Nat) (acc : ScoreAcc) (mt : metaTx) :
    shape (onSenderChange.score sender pbf pend acc mt).1 = shape mt := by
  unfold onSenderChange.score
  dsimp only
  split <;> rfl

theorem foldVisit_shape (sender : senderInfo) (pbf pend : Nat) (l : List Ptr)
    (st : Mem × ScoreAcc) (p : Ptr) :
    shape ((l.foldl (fun st p => (onSenderChange.visit sender pbf pend st p).1) st).1 p)
      = shape (st.1 p) := by
  induction l generalizing st with
  | nil => rfl
  | cons x xs ih =>
    simp only [List.foldl_cons]
    rw [ih]
    simp only [onSenderChange.visit]
    by_cases h : p = x
    · subst h
      rw [Function.update_same, score_shape]
    · rw [Function.update_noteq h]

/-- Scoring writes the marker and the effective tip only. -/
theorem onSenderChange_shape (id : Nat) (sender : senderInfo) (m : Mem) (b : ByNonce)
    (pbf pend : Nat) (p : Ptr) :
    shape (onSenderChange id sender m b pbf pend p) = shape (m p) := by
  unfold onSenderChange ByNonce.ascend
  rw [iterate_visit]
  exact foldVisit_shape sender pbf pend _ _ p

theorem State.Inv.rescore {st : State} (h : st.Inv) (m' : Mem)
    (hm : ∀ p, shape (m' p) = shape (st.pools.mem p)) :
    State.Inv { st with pools := { st.pools with mem := m' } } := by
  obtain ⟨hreg, hpl, hfr⟩ := h
  exact ⟨hreg.regCongr (fun p _ => shape_Tx (hm p)), hpl.congr_shape m' (fun p _ => hm p), hfr⟩

theorem scoreSenders_inv (tx : kvTx) (senders : SendersCache) (pbf pend : Nat)
    (ids : List Nat) (st : State) (h : st.Inv) :
    (scoreSenders tx senders pbf pend ids st).1.Inv := by
  induction ids generalizing st with
  | nil => exact h
  | cons id ids ih =>
    unfold scoreSenders
    split
    · exact h
    · exact ih _ (h.rescore _ (fun p => onSenderChange_shape _ _ _ _ _ _ p))

theorem Pools.Placed.enforced {s : Pools} {R : List Ptr} (h : s.Placed R) (w : Which) :
    (s.put w (SubPool.EnforceInvariants s.mem (s.get w)).1
      (SubPool.EnforceInvariants s.mem (s.get w)).2).Placed R ∧
    (∀ y, core ((SubPool.EnforceInvariants s.mem (s.get w)).1 y) = core (s.mem y)) := by
  have h0 := h
  obtain ⟨ht, hw, hs, ha⟩ := (Pools.placed_iff s R).1 h
  obtain ⟨e, _, t', hp, hf, htag⟩ := SubPool.EnforceInvariants_tagged s.mem (s.get w) (hw w)
  refine ⟨?_, fun y => (hf y).1⟩
  rw [Pools.placed_iff]
  refine ⟨?_, ?_, ?_, ?_⟩
  · intro w'
    rw [Pools.get_put]
    by_cases hw' : w' = w
    · rw [if_pos hw', e, hw']; exact ht w
    · rw [if_neg hw']; exact ht w'
  · intro w'
    rw [Pools.put_mem, Pools.get_put]
    by_cases hw' : w' = w
    · rw [if_pos hw']; exact t'
    · rw [if_neg hw']
      exact (hw w').ofFrame hf (fun y hy hy' => h0.disjoint hw' hy' hy)
  · intro w' y hy
    rw [Pools.get_put] at hy
    by_cases hw' : w' = w
    · rw [if_pos hw'] at hy
      exact hs w y (hp.mem_iff.1 hy)
    · rw [if_neg hw'] at hy
      exact hs w' y hy
  · intro y hy w'
    rw [Pools.put_mem, htag y, Pools.get_put]
    intro hty
    by_cases hw' : w' = w
    · rw [if_pos hw']
      exact hp.mem_iff.2 (hw' ▸ ha y hy w' hty)
    · rw [if_neg hw']
      exact ha y hy w' hty

theorem enforceAll_eq (s : Pools) :
    enforceAll s =
      ((s.put .pending (SubPool.EnforceInvariants s.mem s.pending).1
          (SubPool.EnforceInvariants s.mem s.pending).2).put .baseFee
        (SubPool.EnforceInvariants (SubPool.EnforceInvariants s.mem s.pending).1 s.baseFee).1
        (SubPool.EnforceInvariants (SubPool.EnforceInvariants s.mem s.pending).1
          s.baseFee).2).put .queued
        (SubPool.EnforceInvariants
          (SubPool.EnforceInvariants (SubPool.EnforceInvariants s.mem s.pending).1 s.baseFee).1
          s.queued).1
        (SubPool.EnforceInvariants
          (SubPool.EnforceInvariants (SubPool.EnforceInvariants s.mem s.pending).1 s.baseFee).1
          s.queued).2 := rfl

theorem enforceAll_placed {s : Pools} {R : List Ptr} (h : s.Placed R) :
    (enforceAll s).Placed R ∧ ∀ y, core ((enforceAll s).mem y) = core (s.mem y) := by
  rw [enforceAll_eq]
  obtain ⟨h1, c1⟩ := h.enforced .pending
  obtain ⟨h2, c2⟩ := h1.enforced .baseFee
  obtain ⟨h3, c3⟩ := h2.enforced .queued
  refine ⟨h3, fun y => ?_⟩
  rw [Pools.put_mem]
  exact (c3 y).trans ((c2 y).trans (c1 y))

/-! ## The iterations of `promote` keep the representation invariant -/

/-- Moving the element a sub-pool gave up into another sub-pool. -/
theorem Pools.Placed.afterMove {s : Pools} {R : List Ptr} (h : s.Placed R) {a b : Which}
    (hab : a ≠ b) {x : Ptr} {m' : Mem} {p' : SubPool}
    (hr : (s.get a).Removed s.mem x m' p') :
    ((s.put a m' p').put b (SubPool.Add m' (s.get b) x).1
        (SubPool.Add m' (s.get b) x).2).Placed R ∧
      ∀ y, core ((SubPool.Add m' (s.get b) x).1 y) = core (s.mem y) := by
  have hx : x ∈ (s.get a).best := hr.2.2.1.mem_iff.1 (List.mem_cons_self _ _)
  have hxR : x ∈ R := ((Pools.placed_iff s R).1 h).2.2.1 a x hx
  obtain ⟨p1, o1, _, _, c1, _⟩ := h.removed a hr
  have e2 : (s.put a m' p').get b = s.get b := Pools.get_put_ne s hab.symm m' p'
  have hwb := ((Pools.placed_iff _ _).1 p1).2.1 b
  have hxb := (Pools.out_iff _ _).1 o1 b
  rw [Pools.put_mem, e2] at hwb
  rw [e2] at hxb
  have hadd := SubPool.Add_added m' (s.get b) x hwb hxb
  have hadd' : ((s.put a m' p').get b).Added (s.put a m' p').mem x
      (SubPool.Add m' (s.get b) x).1 (SubPool.Add m' (s.get b) x).2 := by
    rw [Pools.put_mem, e2]; exact hadd
  obtain ⟨p2, _, c2, _⟩ := p1.afterAdd b hxR o1 hadd'
  refine ⟨p2, fun y => ?_⟩
  have := c2 y
  rw [Pools.put_mem] at this
  exact this.trans (c1 y)

theorem promote.Step.inv {n : Ptr} {sd sd' : Pools × Registry}
    (h : promote.Step discardLocked sd sd') (hi : State.Inv ⟨sd.1, n, sd.2⟩) :
    State.Inv ⟨sd'.1, n, sd'.2⟩ := by
  obtain ⟨hreg, hpl, hfr⟩ := hi
  dsimp only at hreg hpl hfr
  cases h with
  | moveWorst a b hab hl =>
    have hw := ((Pools.placed_iff _ _).1 hpl).2.1 a
    obtain ⟨_, hrem⟩ := SubPool.PopWorst_removed sd.1.mem (sd.1.get a) hw hl
    obtain ⟨p2, c2⟩ := hpl.afterMove hab hrem
    refine ⟨?_, p2, hfr⟩
    refine hreg.regCongr (fun p _ => core_Tx ?_)
    show core ((sd.1.moveWorst a b).mem p) = _
    unfold Pools.moveWorst
    rw [Pools.put_mem]
    exact c2 p
  | moveBest a b hab hl =>
    have hw := ((Pools.placed_iff _ _).1 hpl).2.1 a
    obtain ⟨_, hrem⟩ := SubPool.PopBest_removed sd.1.mem (sd.1.get a) hw hl
    obtain ⟨p2, c2⟩ := hpl.afterMove hab hrem
    refine ⟨?_, p2, hfr⟩
    refine hreg.regCongr (fun p _ => core_Tx ?_)
    show core ((sd.1.moveBest a b).mem p) = _
    unfold Pools.moveBest
    rw [Pools.put_mem]
    exact c2 p
  | dropWorst a hl =>
    have hw := ((Pools.placed_iff _ _).1 hpl).2.1 a
    obtain ⟨_, hrem⟩ := SubPool.PopWorst_removed sd.1.mem (sd.1.get a) hw hl
    have hx : (SubPool.PopWorst sd.1.mem (sd.1.get a)).2 ∈ (sd.1.get a).best :=
      hrem.2.2.1.mem_iff.1 (List.mem_cons_self _ _)
    have hxR := ((Pools.placed_iff _ _).1 hpl).2.2.1 a _ hx
    obtain ⟨p1, o1, _, m1, c1, _⟩ := hpl.removed a hrem
    have hreg1 : sd.2.Consistent (SubPool.PopWorst sd.1.mem (sd.1.get a)).1.1 :=
      hreg.regCongr (fun p _ => core_Tx (c1 p))
    obtain ⟨d1, _, d3, _, _⟩ := hreg1.discard hxR
    unfold Pools.dropWorst
    refine ⟨?_, ?_, ?_⟩
    · dsimp only
      rw [Pools.put_mem]
      exact d1
    · dsimp only
      refine p1.shrink (fun x hx => ((d3 x).1 hx).1) ?_
      intro w x hx'
      rw [d3]
      have := (m1 w x).1 hx'
      exact ⟨((Pools.placed_iff _ _).1 hpl).2.2.1 w x this.1, this.2⟩
    · intro p hp
      exact hfr p ((d3 p).1 hp).1

theorem promote.steps_inv {n : Ptr} {sd sd' : Pools × Registry}
    (h : Relation.ReflTransGen (promote.Step discardLocked) sd sd')
    (hi : State.Inv ⟨sd.1, n, sd.2⟩) : State.Inv ⟨sd'.1, n, sd'.2⟩ := by
  induction h with
  | refl => exact hi
  | tail _ hs ih => exact hs.inv ih

/-! ### Every loop of `promote` is a sequence of such iterations -/

theorem promote.loop1_steps {D : Type} (discard : Mem → Ptr → D → D) (f : Nat)
    (sd : Pools × D) :
    Relation.ReflTransGen (promote.Step discard) sd (promote.loop1 discard f sd) := by
  induction f generalizing sd with
  | zero => exact Relation.ReflTransGen.refl
  | succ f ih =>
    obtain ⟨s, d⟩ := sd
    simp only [promote.loop1]
    split
    · rename_i hl
      split
      · exact Relation.ReflTransGen.refl
      · split
        · exact Relation.ReflTransGen.head
            (promote.Step.moveWorst (s, d) .pending .baseFee (by decide) hl) (ih _)
        · split
          · exact Relation.ReflTransGen.head
              (promote.Step.moveWorst (s, d) .pending .queued (by decide) hl) (ih _)
          · exact Relation.ReflTransGen.head
              (promote.Step.dropWorst (s, d) .pending hl) (ih _)
    · exact Relation.ReflTransGen.refl

theorem promote.loop2_steps {D : Type} (discard : Mem → Ptr → D → D) (f : Nat)
    (sd : Pools × D) :
    Relation.ReflTransGen (promote.Step discard) sd (promote.loop2 discard f sd) := by
  induction f generalizing sd with
  | zero => exact Relation.ReflTransGen.refl
  | succ f ih =>
    obtain ⟨s, d⟩ := sd
    simp only [promote.loop2]
    split
    · rename_i hl
      split
      · exact Relation.ReflTransGen.refl
      · exact Relation.ReflTransGen.head
          (promote.Step.dropWorst (s, d) .pending (Nat.lt_of_le_of_lt (Nat.zero_le _) hl)) (ih _)
    · exact Relation.ReflTransGen.refl

theorem promote.loop3_steps {D : Type} (discard : Mem → Ptr → D → D) (f : Nat)
    (sd : Pools × D) :
    Relation.ReflTransGen (promote.Step discard) sd (promote.loop3 f sd) := by
  induction f generalizing sd with
  | zero => exact Relation.ReflTransGen.refl
  | succ f ih =>
    obtain ⟨s, d⟩ := sd
    simp only [promote.loop3]
    split
    · rename_i hl
      split
      · exact Relation.ReflTransGen.refl
      · exact Relation.ReflTransGen.head
          (promote.Step.moveBest (s, d) .baseFee .pending (by decide) hl) (ih _)
    · exact Relation.ReflTransGen.refl

theorem promote.loop4_steps {D : Type} (discard : Mem → Ptr → D → D) (f : Nat)
    (sd : Pools × D) :
    Relation.ReflTransGen (promote.Step discard) sd (promote.loop4 discard f sd) := by
  induction f generalizing sd with
  | zero => exact Relation.ReflTransGen.refl
  | succ f ih =>
    obtain ⟨s, d⟩ := sd
    simp only [promote.loop4]
    split
    · rename_i hl
      split
      · exact Relation.ReflTransGen.refl
      · split
        · exact Relation.ReflTransGen.head
            (promote.Step.moveWorst (s, d) .baseFee .queued (by decide) hl) (ih _)
        · exact Relation.ReflTransGen.head
            (promote.Step.dropWorst (s, d) .baseFee hl) (ih _)
    · exact Relation.ReflTransGen.refl

theorem promote.loop5_steps {D : Type} (discard : Mem → Ptr → D → D) (f : Nat)
    (sd : Pools × D) :
    Relation.ReflTransGen (promote.Step discard) sd (promote.loop5 discard f sd) := by
  induction f generalizing sd with
  | zero => exact Relation.ReflTransGen.refl
  | succ f ih =>
    obtain ⟨s, d⟩ := sd
    simp only [promote.loop5]
    split
    · rename_i hl
      split
      · exact Relation.ReflTransGen.refl
      · exact Relation.ReflTransGen.head
          (promote.Step.dropWorst (s, d) .baseFee (Nat.lt_of_le_of_lt (Nat.zero_le _) hl)) (ih _)
    · exact Relation.ReflTransGen.refl

theorem promote.loop6_steps {D : Type} (discard : Mem → Ptr → D → D) (f : Nat)
    (sd : Pools × D) :
    Relation.ReflTransGen (promote.Step discard) sd (promote.loop6 f sd) := by
  induction f generalizing sd with
  | zero => exact Relation.ReflTransGen.refl
  | succ f ih =>
    obtain ⟨s, d⟩ := sd
    simp only [promote.loop6]
    split
    · rename_i hl
      split
      · exact Relation.ReflTransGen.refl
      · split
        · exact Relation.ReflTransGen.head
            (promote.Step.moveBest (s, d) .queued .baseFee (by decide) hl) (ih _)
        · exact Relation.ReflTransGen.head
            (promote.Step.moveBest (s, d) .queued .pending (by decide) hl) (ih _)
    · exact Relation.ReflTransGen.refl

theorem promote.loop7_steps {D : Type} (discard : Mem → Ptr → D → D) (f : Nat)
    (sd : Pools × D) :
    Relation.ReflTransGen (promote.Step discard) sd (promote.loop7 discard f sd) := by
  induction f generalizing sd with
  | zero => exact Relation.ReflTransGen.refl
  | succ f ih =>
    obtain ⟨s, d⟩ := sd
    simp only [promote.loop7]
    split
    · rename_i hl
      split
      · exact Relation.ReflTransGen.refl
      · exact Relation.ReflTransGen.head
          (promote.Step.dropWorst (s, d) .queued hl) (ih _)
    · exact Relation.ReflTransGen.refl

theorem promote.loop8_steps {D : Type} (discard : Mem → Ptr → D → D) (f : Nat)
    (sd : Pools × D) :
    Relation.ReflTransGen (promote.Step discard) sd (promote.loop8 discard f sd) := by
  induction f generalizing sd with
  | zero => exact Relation.ReflTransGen.refl
  | succ f ih =>
    obtain ⟨s, d⟩ := sd
    simp only [promote.loop8]
    split
    · rename_i hl
      exact Relation.ReflTransGen.head
        (promote.Step.dropWorst (s, d) .queued (Nat.lt_of_le_of_lt (Nat.zero_le _) hl)) (ih _)
    · exact Relation.ReflTransGen.refl

theorem promote_steps {D : Type} (discard : Mem → Ptr → D → D) (sd : Pools × D) :
    Relation.ReflTransGen (promote.Step discard) sd (promote discard sd) := by
  unfold promote
  dsimp only
  exact (((((((promote.loop1_steps discard _ _).trans (promote.loop2_steps discard _ _)).trans
    (promote.loop3_steps discard _ _)).trans (promote.loop4_steps discard _ _)).trans
    (promote.loop5_steps discard _ _)).trans (promote.loop6_steps discard _ _)).trans
    (promote.loop7_steps discard _ _)).trans (promote.loop8_steps discard _ _)

theorem promote_inv {n : Ptr} (sd : Pools × Registry) (hi : State.Inv ⟨sd.1, n, sd.2⟩) :
    State.Inv ⟨(promote discardLocked sd).1, n, (promote discardLocked sd).2⟩ :=
  promote.steps_inv (promote_steps discardLocked sd) hi

/-! ## The intake functions keep the representation invariant -/

theorem State.empty_inv : State.empty.Inv := by decide

/-- The tail shared by `onNewTxs` and `onNewBlock`: scoring of the changed
senders, `EnforceInvariants` and `promote`. -/
theorem settle_inv (tx : kvTx) (senders : SendersCache) (pbf pend : Nat)
    (a : State × List Nat) (h : a.1.Inv) :
    (match scoreSenders tx senders pbf pend a.2 a.1 with
      | (st1, some e) => (st1, some e)
      | (st1, none) =>
        ({ st1 with pools := (promote discardLocked (enforceAll st1.pools, st1.reg)).1,
                    reg := (promote discardLocked (enforceAll st1.pools, st1.reg)).2 },
          none)).1.Inv := by
  have h1 := scoreSenders_inv tx senders pbf pend a.2 a.1 h
  generalize scoreSenders tx senders pbf pend a.2 a.1 = r at h1
  obtain ⟨st1, o⟩ := r
  cases o with
  | some e => exact h1
  | none =>
    obtain ⟨hreg, hpl, hfr⟩ := h1
    obtain ⟨p1, c1⟩ := enforceAll_placed hpl
    have hi : State.Inv ⟨enforceAll st1.pools, st1.next, st1.reg⟩ :=
      ⟨hreg.regCongr (fun p _ => core_Tx (c1 p)), p1, hfr⟩
    exact promote_inv (enforceAll st1.pools, st1.reg) hi

theorem onNewTxs_inv (tx : kvTx) (senders : SendersCache) (newTxs : List (TxSlot × Bool))
    (pbf pend : Nat) (st : State) (h : st.Inv) :
    (onNewTxs tx senders newTxs pbf pend discardLocked st).1.Inv := by
  unfold onNewTxs
  split
  · exact h
  · exact settle_inv tx senders pbf pend _ (unsafeAddToPendingPool_inv st newTxs h)

/-! ## The walk of `removeMined` over one sender -/

/-- The walk of `removeMined.visit` over resident records: the records up to
the first one with a nonce above `nonce` are taken out of their sub-pools and
noted in `toDel`. -/
theorem mined_walk (nonce : Nat) (R : List Ptr) (l : List Ptr) (s : Pools) (del : List Ptr)
    (hpl : s.Placed R) (hl : ∀ y ∈ l, y ∈ R) (hn : l.Nodup) :
    (iterate (removeMined.visit nonce) l (s, del)).1.Placed R ∧
      (iterate (removeMined.visit nonce) l (s, del)).2 =
        del ++ l.takeWhile (fun y => decide ((s.mem y).Tx.nonce ≤ nonce)) ∧
      (∀ w y, y ∈ ((iterate (removeMined.visit nonce) l (s, del)).1.get w).best ↔
        y ∈ (s.get w).best ∧
          y ∉ l.takeWhile (fun y => decide ((s.mem y).Tx.nonce ≤ nonce))) ∧
      (∀ y, core ((iterate (removeMined.visit nonce) l (s, del)).1.mem y) = core (s.mem y)) ∧
      (∀ y, y ∉ l.takeWhile (fun y => decide ((s.mem y).Tx.nonce ≤ nonce)) →
        ((iterate (removeMined.visit nonce) l (s, del)).1.mem y).currentSubPool =
          (s.mem y).currentSubPool) := by
  induction l generalizing s del with
  | nil =>
    exact ⟨hpl, (List.append_nil _).symm, fun w y => ⟨fun h => ⟨h, List.not_mem_nil _⟩,
      fun h => h.1⟩, fun _ => rfl, fun _ _ => rfl⟩
  | cons x xs ih =>
    have hxR := hl x (List.mem_cons_self _ _)
    have hnd := List.nodup_cons.1 hn
    by_cases hc : nonce < (s.mem x).Tx.nonce
    · have hstep : iterate (removeMined.visit nonce) (x :: xs) (s, del) = (s, del) := by
        simp [iterate, removeMined.visit, hc]
      have ht : (x :: xs).takeWhile (fun y => decide ((s.mem y).Tx.nonce ≤ nonce)) = [] := by
        rw [List.takeWhile_cons_of_neg (by simpa using hc)]
      rw [hstep, ht]
      exact ⟨hpl, (List.append_nil _).symm, fun w y => ⟨fun h => ⟨h, List.not_mem_nil _⟩,
        fun h => h.1⟩, fun _ => rfl, fun _ _ => rfl⟩
    · have hstep : iterate (removeMined.visit nonce) (x :: xs) (s, del) =
          iterate (removeMined.visit nonce) xs (removeFromCurrent s x, del ++ [x]) := by
        simp [iterate, removeMined.visit, hc]
      obtain ⟨p1, o1, m1, c1, t1⟩ := removeFromCurrent_spec hpl hxR
      obtain ⟨a, b, c, d, e⟩ := ih (removeFromCurrent s x) (del ++ [x]) p1
        (fun y hy => hl y (List.mem_cons_of_mem _ hy)) hnd.2
      have hpred : (fun y => decide (((removeFromCurrent s x).mem y).Tx.nonce ≤ nonce)) =
          (fun y => decide ((s.mem y).Tx.nonce ≤ nonce)) := by
        funext y
        rw [core_Tx (c1 y)]
      rw [hpred] at b c e
      have ht : (x :: xs).takeWhile (fun y => decide ((s.mem y).Tx.nonce ≤ nonce)) =
          x :: xs.takeWhile (fun y => decide ((s.mem y).Tx.nonce ≤ nonce)) := by
        rw [List.takeWhile_cons_of_pos (by simpa using hc)]
      rw [hstep, ht]
      refine ⟨a, ?_, ?_, ?_, ?_⟩
      · rw [b, List.append_assoc, List.singleton_append]
      · intro w y
        rw [c, m1, List.mem_cons]
        constructor
        · rintro ⟨⟨h1, h2⟩, h3⟩
          exact ⟨h1, fun h => h.elim h2 h3⟩
        · rintro ⟨h1, h2⟩
          exact ⟨⟨h1, fun h => h2 (Or.inl h)⟩, fun h => h2 (Or.inr h)⟩
      · intro y
        exact (d y).trans (c1 y)
      · intro y hy
        rw [List.mem_cons] at hy
        rw [e y (fun h => hy (Or.inr h)), t1 y (fun h => hy (Or.inl h))]

/-- Discarding resident records one after the other. -/
theorem discard_all (m : Mem) (l : List Ptr) (r : Registry) (hc : r.Consistent m)
    (hl : ∀ v ∈ l, v ∈ r.byNonce) (hn : l.Nodup) :
    (l.foldl (fun reg mt => discardLocked m mt reg) r).Consistent m ∧
      (∀ y, y ∈ (l.foldl (fun reg mt => discardLocked m mt reg) r).byNonce ↔
        y ∈ r.byNonce ∧ y ∉ l) ∧
      (l.foldl (fun reg mt => discardLocked m mt reg) r).deletedTxs = r.deletedTxs ++ l := by
  induction l generalizing r with
  | nil =>
    exact ⟨hc, fun y => ⟨fun h => ⟨h, List.not_mem_nil _⟩, fun h => h.1⟩,
      (List.append_nil _).symm⟩
  | cons x xs ih =>
    rw [List.foldl_cons]
    have hnd := List.nodup_cons.1 hn
    obtain ⟨d1, _, d3, d4, _⟩ := hc.discard (hl x (List.mem_cons_self _ _))
    obtain ⟨a, b, c⟩ := ih (discardLocked m x r) d1
      (fun v hv => (d3 v).2 ⟨hl v (List.mem_cons_of_mem _ hv),
        fun e => hnd.1 (by rw [← e]; exact hv)⟩) hnd.2
    refine ⟨a, ?_, ?_⟩
    · intro y
      rw [b, d3, List.mem_cons]
      constructor
      · rintro ⟨⟨h1, h2⟩, h3⟩
        exact ⟨h1, fun h => h.elim h2 h3⟩
      · rintro ⟨h1, h2⟩
        exact ⟨⟨h1, fun h => h2 (Or.inl h)⟩, fun h => h2 (Or.inr h)⟩
    · rw [c, d4, List.append_assoc, List.singleton_append]

theorem takeWhile_eq_filter_nonce (m : Mem) (n : Nat) (l : List Ptr)
    (hs : l.Pairwise (fun x y => (m x).Tx.nonce < (m y).Tx.nonce)) :
    l.takeWhile (fun y => decide ((m y).Tx.nonce ≤ n)) =
      l.filter (fun y => decide ((m y).Tx.nonce ≤ n)) := by
  induction l with
  | nil => rfl
  | cons x xs ih =>
    have hp := List.pairwise_cons.1 hs
    by_cases h : (m x).Tx.nonce ≤ n
    · rw [List.takeWhile_cons_of_pos (by simpa using h), List.filter_cons_of_pos (by simpa using h),
        ih hp.2]
    · rw [List.takeWhile_cons_of_neg (by simpa using h), List.filter_cons_of_neg (by simpa using h)]
      symm
      rw [List.filter_eq_nil_iff]
      intro y hy
      have := hp.1 y hy
      simp only [decide_eq_true_eq]
      omega

/-- The body of the second loop of `removeMined` for the entry `e` of
`noncesToRemove`: exactly the resident records of sender `e.1` with nonce at
most `e.2` leave their sub-pools and are discarded, each once. -/
theorem mined_sender (st : State) (e : Nat × Nat) (h : st.Inv) :
    (removeMined.sender discardLocked st e).Inv ∧
      (∀ y, y ∈ (removeMined.sender discardLocked st e).reg.byNonce ↔
        y ∈ st.reg.byNonce ∧ ¬ ((st.pools.mem y).Tx.senderID = e.1 ∧
          (st.pools.mem y).Tx.nonce ≤ e.2)) ∧
      (∃ l, (removeMined.sender discardLocked st e).reg.deletedTxs = st.reg.deletedTxs ++ l ∧
        l.Nodup ∧ ∀ y, y ∈ l ↔ (y ∈ st.reg.byNonce ∧ (st.pools.mem y).Tx.senderID = e.1 ∧
          (st.pools.mem y).Tx.nonce ≤ e.2)) ∧
      (∀ w y, y ∈ ((removeMined.sender discardLocked st e).pools.get w).best ↔
        y ∈ (st.pools.get w).best ∧ ¬ ((st.pools.mem y).Tx.senderID = e.1 ∧
          (st.pools.mem y).Tx.nonce ≤ e.2)) ∧
      (∀ y, core ((removeMined.sender discardLocked st e).pools.mem y) =
        core (st.pools.mem y)) ∧
      (∀ y, ¬ (y ∈ st.reg.byNonce ∧ (st.pools.mem y).Tx.senderID = e.1 ∧
          (st.pools.mem y).Tx.nonce ≤ e.2) →
        ((removeMined.sender discardLocked st e).pools.mem y).currentSubPool =
          (st.pools.mem y).currentSubPool) ∧
      (removeMined.sender discardLocked st e).next = st.next := by
  obtain ⟨hreg, hpl, hfr⟩ := id h
  have hasc := ascendItems_eq_residents st.pools.mem st.reg.byNonce e.1 hreg.1
  have hres : ∀ y ∈ ByNonce.residents st.pools.mem st.reg.byNonce e.1, y ∈ st.reg.byNonce :=
    fun y hy => (mem_residents.1 hy).1
  have hnd : (ByNonce.residents st.pools.mem st.reg.byNonce e.1).Nodup :=
    List.Nodup.sublist (List.filter_sublist _) hreg.1.indexNodup
  obtain ⟨w1, w2, w3, w4, w5⟩ := mined_walk e.2 st.reg.byNonce _ st.pools [] hpl hres hnd
  rw [takeWhile_eq_filter_nonce _ _ _ (residents_sorted e.1 hreg.1)] at w2 w3 w5
  rw [List.nil_append] at w2
  have hv : ∀ y, y ∈ (ByNonce.residents st.pools.mem st.reg.byNonce e.1).filter
      (fun y => decide ((st.pools.mem y).Tx.nonce ≤ e.2)) ↔
      (y ∈ st.reg.byNonce ∧ (st.pools.mem y).Tx.senderID = e.1 ∧
        (st.pools.mem y).Tx.nonce ≤ e.2) := by
    intro y
    rw [List.mem_filter, mem_residents, decide_eq_true_eq, and_assoc]
  have hvn : ((ByNonce.residents st.pools.mem st.reg.byNonce e.1).filter
      (fun y => decide ((st.pools.mem y).Tx.nonce ≤ e.2))).Nodup :=
    List.Nodup.sublist (List.filter_sublist _) hnd
  have hreg1 : st.reg.Consistent
      (iterate (removeMined.visit e.2) (ByNonce.residents st.pools.mem st.reg.byNonce e.1)
        (st.pools, [])).1.mem :=
    hreg.regCongr (fun p _ => core_Tx (w4 p))
  obtain ⟨d1, d2, d3⟩ := discard_all _ _ st.reg hreg1 (fun v hv' => ((hv v).1 hv').1) hvn
  have hsub : ∀ w y, y ∈ (st.pools.get w).best → y ∈ st.reg.byNonce :=
    ((Pools.placed_iff _ _).1 hpl).2.2.1
  unfold removeMined.sender ByNonce.ascend
  dsimp only
  rw [hasc, w2]
  refine ⟨⟨d1, ?_, ?_⟩, ?_, ⟨_, d3, hvn, hv⟩, ?_, w4, ?_, rfl⟩
  · refine w1.shrink (fun x hx => ((d2 x).1 hx).1) ?_
    intro w x hx
    have := (w3 w x).1 hx
    rw [d2]
    exact ⟨hsub w x this.1, this.2⟩
  · intro p hp
    exact hfr p ((d2 p).1 hp).1
  · intro y
    rw [d2, hv]
    constructor
    · rintro ⟨h1, h2⟩
      exact ⟨h1, fun h3 => h2 ⟨h1, h3⟩⟩
    · rintro ⟨h1, h2⟩
      exact ⟨h1, fun h3 => h2 h3.2⟩
  · intro w y
    rw [w3, hv]
    constructor
    · rintro ⟨h1, h2⟩
      exact ⟨h1, fun h3 => h2 ⟨hsub w y h1, h3⟩⟩
    · rintro ⟨h1, h2⟩
      exact ⟨h1, fun h3 => h2 h3.2⟩
  · intro y hy
    exact w5 y (fun h1 => hy ((hv y).1 h1))

theorem and_not_or (A E C : Prop) : ((A ∧ ¬ E) ∧ ¬ C) ↔ (A ∧ ¬ (E ∨ C)) := by tauto

theorem or_and_not (A E C : Prop) : ((A ∧ E) ∨ ((A ∧ ¬ E) ∧ C)) ↔ (A ∧ (E ∨ C)) := by tauto

/-- The second loop of `removeMined` over the entries `ns` of `noncesToRemove`. -/
theorem mined_all (ns : List (Nat × Nat)) (st : State) (h : st.Inv) :
    (ns.foldl (removeMined.sender discardLocked) st).Inv ∧
      (∀ y, y ∈ (ns.foldl (removeMined.sender discardLocked) st).reg.byNonce ↔
        y ∈ st.reg.byNonce ∧ ¬ ∃ e ∈ ns, (st.pools.mem y).Tx.senderID = e.1 ∧
          (st.pools.mem y).Tx.nonce ≤ e.2) ∧
      (∃ l, (ns.foldl (removeMined.sender discardLocked) st).reg.deletedTxs =
          st.reg.deletedTxs ++ l ∧ l.Nodup ∧
        ∀ y, y ∈ l ↔ (y ∈ st.reg.byNonce ∧ ∃ e ∈ ns, (st.pools.mem y).Tx.senderID = e.1 ∧
          (st.pools.mem y).Tx.nonce ≤ e.2)) ∧
      (∀ w y, y ∈ ((ns.foldl (removeMined.sender discardLocked) st).pools.get w).best ↔
        y ∈ (st.pools.get w).best ∧ ¬ ∃ e ∈ ns, (st.pools.mem y).Tx.senderID = e.1 ∧
          (st.pools.mem y).Tx.nonce ≤ e.2) ∧
      (∀ y, core ((ns.foldl (removeMined.sender discardLocked) st).pools.mem y) =
        core (st.pools.mem y)) ∧
      (∀ y, ¬ (y ∈ st.reg.byNonce ∧ ∃ e ∈ ns, (st.pools.mem y).Tx.senderID = e.1 ∧
          (st.pools.mem y).Tx.nonce ≤ e.2) →
        ((ns.foldl (removeMined.sender discardLocked) st).pools.mem y).currentSubPool =
          (st.pools.mem y).currentSubPool) ∧
      (ns.foldl (removeMined.sender discardLocked) st).next = st.next := by
  induction ns generalizing st with
  | nil =>
    refine ⟨h, fun y => ⟨fun hy => ⟨hy, ?_⟩, fun hy => hy.1⟩, ⟨[], (List.append_nil _).symm,
      List.nodup_nil, fun y => ⟨fun hy => absurd hy (List.not_mem_nil _), ?_⟩⟩,
      fun w y => ⟨fun hy => ⟨hy, ?_⟩, fun hy => hy.1⟩, fun _ => rfl, fun _ _ => rfl, rfl⟩
    · rintro ⟨e, he, _⟩; exact absurd he (List.not_mem_nil _)
    · rintro ⟨_, e, he, _⟩; exact absurd he (List.not_mem_nil _)
    · rintro ⟨e, he, _⟩; exact absurd he (List.not_mem_nil _)
  | cons e es ih =>
    rw [List.foldl_cons]
    obtain ⟨a1, a2, ⟨l1, a3, a4, a5⟩, a6, a7, a8, a9⟩ := mined_sender st e h
    obtain ⟨b1, b2, ⟨l2, b3, b4, b5⟩, b6, b7, b8, b9⟩ :=
      ih (removeMined.sender discardLocked st e) a1
    have htx : ∀ y, ((removeMined.sender discardLocked st e).pools.mem y).Tx =
        (st.pools.mem y).Tx := fun y => core_Tx (a7 y)
    simp only [htx] at b2 b5 b6 b8
    have hex : ∀ y, (∃ e' ∈ e :: es, (st.pools.mem y).Tx.senderID = e'.1 ∧
        (st.pools.mem y).Tx.nonce ≤ e'.2) ↔
        (((st.pools.mem y).Tx.senderID = e.1 ∧ (st.pools.mem y).Tx.nonce ≤ e.2) ∨
          ∃ e' ∈ es, (st.pools.mem y).Tx.senderID = e'.1 ∧
            (st.pools.mem y).Tx.nonce ≤ e'.2) := by
      intro y
      simp only [List.mem_cons, exists_eq_or_imp]
    refine ⟨b1, ?_, ⟨l1 ++ l2, ?_, ?_, ?_⟩, ?_, ?_, ?_, ?_⟩
    · intro y
      rw [b2, a2, hex]
      exact and_not_or _ _ _
    · rw [b3, a3, List.append_assoc]
    · rw [List.nodup_append]
      refine ⟨a4, b4, ?_⟩
      intro y hy1 hy2
      have h1 := (a5 y).1 hy1
      have h2 := (b5 y).1 hy2
      exact ((a2 y).1 h2.1).2 h1.2
    · intro y
      rw [List.mem_append, a5, b5, a2, hex]
      exact or_and_not _ _ _
    · intro w y
      rw [b6, a6, hex]
      exact and_not_or _ _ _
    · intro y
      exact (b7 y).trans (a7 y)
    · intro y hy
      rw [hex] at hy
      have hy1 : ¬ (y ∈ st.reg.byNonce ∧ (st.pools.mem y).Tx.senderID = e.1 ∧
          (st.pools.mem y).Tx.nonce ≤ e.2) := fun hh => hy ⟨hh.1, Or.inl hh.2⟩
      have hy2 : ¬ (y ∈ (removeMined.sender discardLocked st e).reg.byNonce ∧
          ∃ e' ∈ es, (st.pools.mem y).Tx.senderID = e'.1 ∧
            (st.pools.mem y).Tx.nonce ≤ e'.2) :=
        fun hh => hy ⟨((a2 y).1 hh.1).1, Or.inr hh.2⟩
      rw [b8 y hy2, a8 y hy1]
    · rw [b9, a9]

/-! ### The map `noncesToRemove` -/

theorem lookup_eq (ns : List (Nat × Nat)) (s : Nat) :
    removeMined.lookup ns s = byHashGet ns s := rfl

theorem store_keys (ns : List (Nat × Nat)) (s n : Nat) (h : (removeMined.lookup ns s).isSome) :
    (removeMined.store ns s n).map Prod.fst = ns.map Prod.fst := by
  unfold removeMined.store
  rw [if_pos h, List.map_map]
  apply List.map_congr_left
  intro e _
  simp only [Function.comp]
  split <;> rfl

/-- The entries of `noncesToRemove` against the mined transactions seen so far:
one entry per sender, each the nonce of a transaction of that sender, and at
least the nonce of every transaction of that sender. -/
theorem nonces_step (ns : List (Nat × Nat)) (done : List TxSlot) (t : TxSlot)
    (hk : (ns.map Prod.fst).Nodup)
    (h1 : ∀ e ∈ ns, ∃ u ∈ done, u.senderID = e.1 ∧ u.nonce = e.2)
    (h2 : ∀ u ∈ done, ∃ e ∈ ns, e.1 = u.senderID ∧ u.nonce ≤ e.2)
    (ns' : List (Nat × Nat))
    (hns : ns' = (match removeMined.lookup ns t.senderID with
      | some nonce =>
        if nonce < t.nonce then removeMined.store ns t.senderID t.nonce else ns
      | none => removeMined.store ns t.senderID t.nonce)) :
    (ns'.map Prod.fst).Nodup ∧
      (∀ e ∈ ns', ∃ u ∈ done ++ [t], u.senderID = e.1 ∧ u.nonce = e.2) ∧
      (∀ u ∈ done ++ [t], ∃ e ∈ ns', e.1 = u.senderID ∧ u.nonce ≤ e.2) := by
  have h1' : ∀ e ∈ ns, ∃ u ∈ done ++ [t], u.senderID = e.1 ∧ u.nonce = e.2 := by
    intro e he
    obtain ⟨u, hu, hh⟩ := h1 e he
    exact ⟨u, List.mem_append_left _ hu, hh⟩
  cases hl : removeMined.lookup ns t.senderID with
  | none =>
    rw [hl] at hns
    dsimp only at hns
    have hno : ∀ e ∈ ns, e.1 ≠ t.senderID := (byHashGet_eq_none ns t.senderID).1 hl
    have hst : removeMined.store ns t.senderID t.nonce = ns ++ [(t.senderID, t.nonce)] := by
      unfold removeMined.store
      rw [hl]
      rfl
    rw [hst] at hns
    subst hns
    refine ⟨?_, ?_, ?_⟩
    · rw [List.map_append, List.nodup_append]
      refine ⟨hk, List.nodup_singleton _, ?_⟩
      intro a ha hb
      rw [List.map_singleton, List.mem_singleton] at hb
      obtain ⟨e, he, rfl⟩ := List.mem_map.1 ha
      exact hno e he hb
    · intro e he
      rcases List.mem_append.1 he with h | h
      · exact h1' e h
      · rw [List.mem_singleton] at h
        exact ⟨t, List.mem_append_right _ (List.mem_singleton_self _), by rw [h], by rw [h]⟩
    · intro u hu
      rcases List.mem_append.1 hu with h | h
      · obtain ⟨e, he, hh⟩ := h2 u h
        exact ⟨e, List.mem_append_left _ he, hh⟩
      · rw [List.mem_singleton] at h
        exact ⟨(t.senderID, t.nonce), List.mem_append_right _ (List.mem_singleton_self _),
          by rw [h], by rw [h]⟩
  | some n =>
    rw [hl] at hns
    dsimp only at hns
    have hmem : (t.senderID, n) ∈ ns := (byHashGet_eq_some hk _ _).1 hl
    by_cases hlt : n < t.nonce
    · rw [if_pos hlt] at hns
      have hst : removeMined.store ns t.senderID t.nonce =
          ns.map (fun e => if e.1 == t.senderID then (e.1, t.nonce) else e) := by
        unfold removeMined.store
        rw [if_pos (by rw [hl]; rfl)]
      have hkeys := store_keys ns t.senderID t.nonce (by rw [hl]; rfl)
      subst hns
      refine ⟨by rw [hkeys]; exact hk, ?_, ?_⟩
      · intro e he
        rw [hst, List.mem_map] at he
        obtain ⟨e0, he0, hee⟩ := he
        by_cases hs : e0.1 = t.senderID
        · rw [if_pos (by simpa using hs)] at hee
          refine ⟨t, List.mem_append_right _ (List.mem_singleton_self _), ?_, ?_⟩
          · rw [← hee]; exact hs.symm
          · rw [← hee]
        · rw [if_neg (by simpa using hs)] at hee
          rw [← hee]
          exact h1' e0 he0
      · intro u hu
        rcases List.mem_append.1 hu with h | h
        · obtain ⟨e, he, hh⟩ := h2 u h
          by_cases hs : e.1 = t.senderID
          · refine ⟨(e.1, t.nonce), ?_, hh.1, ?_⟩
            · rw [hst, List.mem_map]
              exact ⟨e, he, by rw [if_pos (by simpa using hs)]⟩
            · have := keys_unique hk he hmem hs
              rw [this] at hh
              have h3 : u.nonce ≤ n := hh.2
              show u.nonce ≤ t.nonce
              omega
          · refine ⟨e, ?_, hh⟩
            rw [hst, List.mem_map]
            exact ⟨e, he, by rw [if_neg (by simpa using hs)]⟩
        · rw [List.mem_singleton] at h
          refine ⟨(t.senderID, t.nonce), ?_, by rw [h], by rw [h]⟩
          rw [hst, List.mem_map]
          exact ⟨(t.senderID, n), hmem, by simp⟩
    · rw [if_neg hlt] at hns
      subst hns
      refine ⟨hk, h1', ?_⟩
      intro u hu
      rcases List.mem_append.1 hu with h | h
      · exact h2 u h
      · rw [List.mem_singleton] at h
        refine ⟨(t.senderID, n), hmem, by rw [h], ?_⟩
        rw [h]
        show t.nonce ≤ n
        omega

theorem nonces_fold (txs : List TxSlot) (ns : List (Nat × Nat)) (done : List TxSlot)
    (hk : (ns.map Prod.fst).Nodup)
    (h1 : ∀ e ∈ ns, ∃ u ∈ done, u.senderID = e.1 ∧ u.nonce = e.2)
    (h2 : ∀ u ∈ done, ∃ e ∈ ns, e.1 = u.senderID ∧ u.nonce ≤ e.2) :
    (∀ e ∈ txs.foldl (fun ns txn =>
        match removeMined.lookup ns txn.senderID with
        | some nonce =>
          if nonce < txn.nonce then removeMined.store ns txn.senderID txn.nonce else ns
        | none => removeMined.store ns txn.senderID txn.nonce) ns,
        ∃ u ∈ done ++ txs, u.senderID = e.1 ∧ u.nonce = e.2) ∧
      (∀ u ∈ done ++ txs, ∃ e ∈ txs.foldl (fun ns txn =>
        match removeMined.lookup ns txn.senderID with
        | some nonce =>
          if nonce < txn.nonce then removeMined.store ns txn.senderID txn.nonce else ns
        | none => removeMined.store ns txn.senderID txn.nonce) ns,
        e.1 = u.senderID ∧ u.nonce ≤ e.2) := by
  induction txs generalizing ns done with
  | nil =>
    rw [List.append_nil]
    exact ⟨h1, h2⟩
  | cons t ts ih =>
    rw [List.foldl_cons]
    obtain ⟨a, b, c⟩ := nonces_step ns done t hk h1 h2 _ rfl
    have := ih _ (done ++ [t]) a b c
    rw [List.append_assoc, List.singleton_append] at this
    exact this

/-- An entry of `noncesToRemove` covers a key exactly when a mined transaction
does. -/
theorem nonces_covers (txs : List TxSlot) (s n : Nat) :
    (∃ e ∈ removeMined.nonces txs, s = e.1 ∧ n ≤ e.2) ↔
      (∃ t ∈ txs, t.senderID = s ∧ n ≤ t.nonce) := by
  obtain ⟨h1, h2⟩ := nonces_fold txs [] [] List.nodup_nil
    (fun e he => absurd he (List.not_mem_nil _)) (fun u hu => absurd hu (List.not_mem_nil _))
  rw [List.nil_append] at h1 h2
  constructor
  · rintro ⟨e, he, hs, hn⟩
    obtain ⟨u, hu, a, b⟩ := h1 e he
    exact ⟨u, hu, a.trans hs.symm, by rw [b]; exact hn⟩
  · rintro ⟨t, ht, hs, hn⟩
    obtain ⟨e, he, a, b⟩ := h2 t ht
    exact ⟨e, he, (a.trans hs).symm, Nat.le_trans hn b⟩

theorem bound_fold (l : List TxSlot) (o : Option Nat) :
    (l.foldl (fun o t => match o with
        | none => some t.nonce
        | some n => some (max n t.nonce)) o = none ↔ (o = none ∧ l = [])) ∧
      ∀ N, l.foldl (fun o t => match o with
        | none => some t.nonce
        | some n => some (max n t.nonce)) o = some N →
        (∀ t ∈ l, t.nonce ≤ N) ∧ (∀ n, o = some n → n ≤ N) ∧
          ((∃ t ∈ l, t.nonce = N) ∨ o = some N) := by
  induction l generalizing o with
  | nil =>
    refine ⟨⟨fun h => ⟨h, rfl⟩, fun h => h.1⟩, ?_⟩
    intro N h
    refine ⟨fun t ht => absurd ht (List.not_mem_nil _), ?_, Or.inr h⟩
    intro n hn
    rw [List.foldl_nil, hn] at h
    simp only [Option.some.injEq] at h
    omega
  | cons x xs ih =>
    rw [List.foldl_cons]
    cases o with
    | none =>
      obtain ⟨i1, i2⟩ := ih (some x.nonce)
      refine ⟨⟨fun h => ?_, fun h => absurd h.2 (List.cons_ne_nil _ _)⟩, ?_⟩
      · exact absurd (i1.1 h).1 (by simp)
      · intro N h
        obtain ⟨a, b, c⟩ := i2 N h
        have hx := b x.nonce rfl
        refine ⟨?_, fun n hn => absurd hn (by simp), Or.inl ?_⟩
        · intro t ht
          rcases List.mem_cons.1 ht with e | e
          · rw [e]; exact hx
          · exact a t e
        · rcases c with ⟨t, ht, e⟩ | e
          · exact ⟨t, List.mem_cons_of_mem _ ht, e⟩
          · simp only [Option.some.injEq] at e
            exact ⟨x, List.mem_cons_self _ _, e⟩
    | some n0 =>
      obtain ⟨i1, i2⟩ := ih (some (max n0 x.nonce))
      refine ⟨⟨fun h => ?_, fun h => absurd h.2 (List.cons_ne_nil _ _)⟩, ?_⟩
      · exact absurd (i1.1 h).1 (by simp)
      · intro N h
        obtain ⟨a, b, c⟩ := i2 N h
        have hx := b _ rfl
        have h1 : n0 ≤ max n0 x.nonce := le_max_left _ _
        have h2 : x.nonce ≤ max n0 x.nonce := le_max_right _ _
        refine ⟨?_, ?_, ?_⟩
        · intro t ht
          rcases List.mem_cons.1 ht with e | e
          · rw [e]; omega
          · exact a t e
        · intro n hn
          simp only [Option.some.injEq] at hn
          omega
        · rcases c with ⟨t, ht, e⟩ | e
          · exact Or.inl ⟨t, List.mem_cons_of_mem _ ht, e⟩
          · simp only [Option.some.injEq] at e
            by_cases hc : n0 ≤ x.nonce
            · rw [max_eq_right hc] at e
              exact Or.inl ⟨x, List.mem_cons_self _ _, e⟩
            · rw [max_eq_left (by omega)] at e
              exact Or.inr (by rw [e])

/-- A record is covered by the mined batch exactly when a mined transaction of
its sender has a nonce at least its own. -/
theorem minedOut_iff (m : Mem) (txs : List TxSlot) (y : Ptr) :
    minedOut m txs y = true ↔
      ∃ t ∈ txs, t.senderID = (m y).Tx.senderID ∧ (m y).Tx.nonce ≤ t.nonce := by
  obtain ⟨h1, h2⟩ := bound_fold (txs.filter (fun t => t.senderID == (m y).Tx.senderID)) none
  have hmem : ∀ t, t ∈ txs.filter (fun t => t.senderID == (m y).Tx.senderID) ↔
      (t ∈ txs ∧ t.senderID = (m y).Tx.senderID) := by
    intro t
    rw [List.mem_filter]
    simp
  have key : ∀ o, minedBound txs (m y).Tx.senderID = o →
      ((match o with
        | some n => decide ((m y).Tx.nonce ≤ n)
        | none => false) = true ↔
        ∃ t ∈ txs, t.senderID = (m y).Tx.senderID ∧ (m y).Tx.nonce ≤ t.nonce) := by
    intro o hb
    unfold minedBound at hb
    cases o with
    | none =>
      have hnil := (h1.1 hb).2
      refine ⟨fun hh => absurd hh (by simp), ?_⟩
      rintro ⟨t, ht, hs, _⟩
      have := (hmem t).2 ⟨ht, hs⟩
      rw [hnil] at this
      exact absurd this (List.not_mem_nil _)
    | some N =>
      obtain ⟨a, _, c⟩ := h2 N hb
      show decide ((m y).Tx.nonce ≤ N) = true ↔ _
      rw [decide_eq_true_eq]
      constructor
      · intro hle
        rcases c with ⟨t, ht, e⟩ | e
        · have := (hmem t).1 ht
          exact ⟨t, this.1, this.2, by rw [e]; exact hle⟩
        · cases e
      · rintro ⟨t, ht, hs, hle⟩
        exact Nat.le_trans hle (a t ((hmem t).2 ⟨ht, hs⟩))
  unfold minedOut
  exact key _ rfl

/-- The function `removeMined` with `discardLocked`: it keeps the representation
invariant; the resident records are those of before that the mined batch does
not cover; the covered ones are out of every sub-pool and were discarded, each
once; the other records keep their scored fields, their tag and their
sub-pool. -/
theorem removeMined_spec (st : State) (minedTxs : List TxSlot) (h : st.Inv) :
    (removeMined discardLocked st minedTxs).Inv ∧
      (∀ y, y ∈ (removeMined discardLocked st minedTxs).reg.byNonce ↔
        y ∈ st.reg.byNonce ∧ minedOut st.pools.mem minedTxs y = false) ∧
      (∃ l, (removeMined discardLocked st minedTxs).reg.deletedTxs = st.reg.deletedTxs ++ l ∧
        l.Nodup ∧
        ∀ y, y ∈ l ↔ (y ∈ st.reg.byNonce ∧ minedOut st.pools.mem minedTxs y = true)) ∧
      (∀ w y, y ∈ ((removeMined discardLocked st minedTxs).pools.get w).best ↔
        y ∈ (st.pools.get w).best ∧ minedOut st.pools.mem minedTxs y = false) ∧
      (∀ y, core ((removeMined discardLocked st minedTxs).pools.mem y) =
        core (st.pools.mem y)) ∧
      (∀ y, ¬ (y ∈ st.reg.byNonce ∧ minedOut st.pools.mem minedTxs y = true) →
        ((removeMined discardLocked st minedTxs).pools.mem y).currentSubPool =
          (st.pools.mem y).currentSubPool) ∧
      (removeMined discardLocked st minedTxs).next = st.next := by
  have hc : ∀ y, (∃ e ∈ removeMined.nonces minedTxs, (st.pools.mem y).Tx.senderID = e.1 ∧
      (st.pools.mem y).Tx.nonce ≤ e.2) ↔ minedOut st.pools.mem minedTxs y = true := by
    intro y
    rw [nonces_covers, minedOut_iff]
  have hf : ∀ y, minedOut st.pools.mem minedTxs y = false ↔
      ¬ minedOut st.pools.mem minedTxs y = true := by
    intro y
    simp
  obtain ⟨a1, a2, ⟨l, a3, a4, a5⟩, a6, a7, a8, a9⟩ :=
    mined_all (removeMined.nonces minedTxs) st h
  simp only [hc] at a2 a5 a6 a8
  refine ⟨a1, ?_, ⟨l, a3, a4, a5⟩, ?_, a7, a8, a9⟩
  · intro y
    rw [hf]
    exact a2 y
  · intro w y
    rw [hf]
    exact a6 w y

theorem onNewBlock_inv (tx : kvTx) (senders : SendersCache) (unwindTxs : List (TxSlot × Bool))
    (minedTxs : List TxSlot) (pbf pend : Nat) (st : State) (h : st.Inv) :
    (onNewBlock tx senders unwindTxs minedTxs pbf pend discardLocked st).1.Inv := by
  unfold onNewBlock
  split
  · exact h
  · split
    · exact h
    · exact settle_inv tx senders pbf pend _
        (unsafeAddToPendingPool_inv _ unwindTxs (removeMined_spec st minedTxs h).1)

/-! ## Locality, priority and base fees -/

/-- C11 (counterexample): the record at address `1` is local and has fee cap
`10`, below `protocolBaseFee = 50`; before `onSenderChange` its marker has the
`IsLocal` bit, afterwards it has not. -/
theorem onSenderChange_isLocal_counterexample :
    1 ∈ [1] ∧ (localLowFeeMem 1).Tx.senderID = 1 ∧
      hasBit (localLowFeeMem 1).subPool IsLocal ∧
      ¬ hasBit (onSenderChange 1 scenarioSender localLowFeeMem [1] 50 70 1).subPool IsLocal := by
  decide

theorem andNot_isLocal (x : Nat) : andNot x EnoughFeeCapProtocol &&& IsLocal = x &&& IsLocal := by
  unfold andNot
  rw [Nat.land_assoc]
  rfl

/-- C11 (amended): after `onSenderChange`, a resident transaction of the sender
whose fee cap is at least `protocolBaseFee` has the same `IsLocal` bit as
before; one whose fee cap is below `protocolBaseFee` has marker `0`. -/
theorem onSenderChange_isLocal (id : Nat) (sender : senderInfo) (m : Mem) (b : ByNonce)
    (protocolBaseFee pendingBaseFee : Nat) (hs : ByNonce.Sorted m b)
    (p : Ptr) (hp : p ∈ b) (hid : (m p).Tx.senderID = id) :
    (protocolBaseFee ≤ (m p).Tx.feeCap →
      (onSenderChange id sender m b protocolBaseFee pendingBaseFee p).subPool &&& IsLocal =
        (m p).subPool &&& IsLocal) ∧
    ((m p).Tx.feeCap < protocolBaseFee →
      (onSenderChange id sender m b protocolBaseFee pendingBaseFee p).subPool = 0) := by
  obtain ⟨pre, post, hr⟩ := residents_split hp hid
  rw [onSenderChange_at id sender m b _ _ hs pre p post hr, score_subPool]
  constructor
  · intro h1
    rw [if_pos h1]
    obtain ⟨_, _, _, _, b5, _⟩ := mkMarker_bits _ (andNot_protocol_lt (m p).subPool)
      (decide ((accFold sender protocolBaseFee pendingBaseFee m (onSenderChange.init sender)
        pre).noGapsNonce = (m p).Tx.nonce))
      (decide (sender.nonce < (m p).Tx.nonce ∧
        ((accFold sender protocolBaseFee pendingBaseFee m (onSenderChange.init sender)
          pre).cumulativeRequiredBalance + needBalance (m p).Tx) % two256 ≤ sender.balance))
      (decide (pendingBaseFee ≤ (m p).Tx.feeCap))
    rw [b5, andNot_isLocal]
  · intro h1
    rw [if_neg (by omega)]

theorem onSenderChange_isLocal_witness :
    (50 ≤ (scoreMem 1).Tx.feeCap →
      (onSenderChange 1 scenarioSender scoreMem scoreIndex 50 70 1).subPool &&& IsLocal =
        (scoreMem 1).subPool &&& IsLocal) ∧
    ((scoreMem 1).Tx.feeCap < 50 →
      (onSenderChange 1 scenarioSender scoreMem scoreIndex 50 70 1).subPool = 0) :=
  onSenderChange_isLocal 1 scenarioSender scoreMem scoreIndex 50 70 scoreIndex_sorted
    1 (by decide) (by decide)

/-- C12 (counterexample): the records at positions `0` and `1` of the queue
`[2, 3]` over `scoreMem` have equal markers and effective tips and nonces `2`
and `4`; `BestQueue.Less` ranks the one with the higher nonce first and
`WorstQueue.Less` the one with the lower nonce. -/
theorem less_tie_break_counterexample :
    (scoreMem 2).subPool = (scoreMem 3).subPool ∧
      (scoreMem 2).effectiveTip = (scoreMem 3).effectiveTip ∧
      (scoreMem 2).Tx.nonce < (scoreMem 3).Tx.nonce ∧
      BestQueue.Less ⟨scoreMem, [2, 3]⟩ 0 1 = false ∧
      BestQueue.Less ⟨scoreMem, [2, 3]⟩ 1 0 = true ∧
      WorstQueue.Less ⟨scoreMem, [2, 3]⟩ 1 0 = false ∧
      WorstQueue.Less ⟨scoreMem, [2, 3]⟩ 0 1 = true := by
  decide

/-- C12 (amended): for two records of a queue with equal marker and equal
effective tip, the one with the higher nonce has the higher priority: it is
the one `BestQueue.Less` ranks first, and the one with the lower nonce is the
one `WorstQueue.Less` ranks first. -/
theorem less_tie_break (h : Heap) (i j : Nat)
    (hm : (h.mem (elemAt h.q i)).subPool = (h.mem (elemAt h.q j)).subPool)
    (ht : (h.mem (elemAt h.q i)).effectiveTip = (h.mem (elemAt h.q j)).effectiveTip)
    (hn : (h.mem (elemAt h.q i)).Tx.nonce < (h.mem (elemAt h.q j)).Tx.nonce) :
    (h.mem (elemAt h.q i)).Less (h.mem (elemAt h.q j)) = true ∧
      BestQueue.Less h j i = true ∧ BestQueue.Less h i j = false ∧
      WorstQueue.Less h i j = true ∧ WorstQueue.Less h j i = false := by
  have h1 : (h.mem (elemAt h.q i)).Less (h.mem (elemAt h.q j)) = true := by
    unfold metaTx.Less
    rw [if_neg (by simp [hm]), if_neg (by simp [ht]), if_pos (by omega)]
    simpa using hn
  have h2 : (h.mem (elemAt h.q j)).Less (h.mem (elemAt h.q i)) = false := by
    unfold metaTx.Less
    rw [if_neg (by simp [hm]), if_neg (by simp [ht]), if_pos (by omega)]
    simp
    omega
  refine ⟨h1, ?_, ?_, ?_, ?_⟩
  · simp [BestQueue.Less, h2]
  · simp [BestQueue.Less, h1]
  · simp [WorstQueue.Less, h1]
  · simp [WorstQueue.Less, h2]

theorem less_tie_break_witness :
    (scoreMem 2).Less (scoreMem 3) = true ∧
      BestQueue.Less ⟨scoreMem, [2, 3]⟩ 1 0 = true ∧
      BestQueue.Less ⟨scoreMem, [2, 3]⟩ 0 1 = false ∧
      WorstQueue.Less ⟨scoreMem, [2, 3]⟩ 0 1 = true ∧
      WorstQueue.Less ⟨scoreMem, [2, 3]⟩ 1 0 = false :=
  less_tie_break ⟨scoreMem, [2, 3]⟩ 0 1 (by decide) (by decide) (by decide)

/-- C20: `setBaseFee(protocol, pending)` stores `protocol` as the protocol base
fee; it stores `max pending protocol` as the pending base fee when that maximum
is not zero and leaves the stored pending base fee alone when both arguments
are zero; it returns the two stored values; and a pending base fee it stores is
at least the protocol base fee. -/
theorem setBaseFee_spec (p : BaseFees) (protocolBaseFee pendingBaseFee : Nat) :
    (setBaseFee p protocolBaseFee pendingBaseFee).1.protocolBaseFee = protocolBaseFee ∧
      (max pendingBaseFee protocolBaseFee ≠ 0 →
        (setBaseFee p protocolBaseFee pendingBaseFee).1.pendingBaseFee =
            max pendingBaseFee protocolBaseFee ∧
          protocolBaseFee ≤ (setBaseFee p protocolBaseFee pendingBaseFee).1.pendingBaseFee) ∧
      (max pendingBaseFee protocolBaseFee = 0 →
        (setBaseFee p protocolBaseFee pendingBaseFee).1.pendingBaseFee = p.pendingBaseFee) ∧
      (setBaseFee p protocolBaseFee pendingBaseFee).2 =
        ((setBaseFee p protocolBaseFee pendingBaseFee).1.protocolBaseFee,
          (setBaseFee p protocolBaseFee pendingBaseFee).1.pendingBaseFee) := by
  unfold setBaseFee
  by_cases h1 : pendingBaseFee < protocolBaseFee
  · have hm : max pendingBaseFee protocolBaseFee = protocolBaseFee := max_eq_right (by omega)
    simp [h1, hm]
    omega
  · have hm : max pendingBaseFee protocolBaseFee = pendingBaseFee := max_eq_left (by omega)
    by_cases h2 : 0 < pendingBaseFee
    · simp [h1, h2, hm]
      omega
    · have h3 : pendingBaseFee = 0 := by omega
      have h4 : protocolBaseFee = 0 := by omega
      subst h3 h4
      simp

/-! ## A block that mines a transaction, and a block that unwinds it -/

/-- C18 (failing input): sender `1` has resident transactions with nonces `1`
and `3`; a block mines its nonces `1` and `2`, so its state nonce becomes `2`,
the base fees staying at `50` and `70`.  After `onNewBlock` the remaining
transaction (address `2`, nonce `3`) still has marker `0b10110`, without
`NoNonceGaps`, and is in Queued, whereas `onSenderChange` on the sender's
current state gives marker `0b11110`. -/
theorem onNewBlock_mined_sender_not_rescored :
    afterIntake.2 = none ∧ afterIntake.1.reg.byNonce = [1, 2] ∧
      afterMined.2 = none ∧
      afterMined.1.reg.byNonce = [2] ∧ afterMined.1.reg.deletedTxs = [1] ∧
      (afterMined.1.pools.mem 2).Tx = blockTxB ∧
      (afterMined.1.pools.mem 2).subPool = 0b10110 ∧
      afterMined.1.pools.queued.best = [2] ∧ afterMined.1.pools.pending.best = [] ∧
      (onSenderChange 1 minedSender afterMined.1.pools.mem afterMined.1.reg.byNonce 50 70
        2).subPool = 0b11110 := by
  decide

/-- C19 (failing input): `blockTxA` is resident with `IsLocal` set, a block
mines it and its hash enters the recent-locals cache; the next block unwinds
it with `isLocal = false`: the record inserted again (address `3`) has `IsLocal`
clear. -/
theorem onNewBlock_unwound_local_not_flagged :
    (afterIntake.1.pools.mem 1).Tx = blockTxA ∧
      hasBit (afterIntake.1.pools.mem 1).subPool IsLocal ∧
      afterMined.2 = none ∧ afterMined.1.reg.deletedTxs = [1] ∧
      blockTxA.idHash ∈ afterMined.1.reg.localsHistory ∧
      afterUnwind.2 = none ∧
      byHashGet afterUnwind.1.reg.byHash blockTxA.idHash = some 3 ∧
      (afterUnwind.1.pools.mem 3).Tx = blockTxA ∧
      ¬ hasBit (afterUnwind.1.pools.mem 3).subPool IsLocal := by
  decide

/-! ## The structural invariant of a sub-pool -/

theorem SubPool.Removed.out {m m' : Mem} {p p' : SubPool} {x : Ptr}
    (h : p.Removed m x m' p') (ht : p.Tagged m) :
    p'.Consistent m' ∧ (m' x).Detached ∧ x ∈ p.best ∧ x ∉ p'.best := by
  obtain ⟨_, t', hp, _, hd, _⟩ := h
  refine ⟨(SubPool.consistent_iff m' p').2 t', hd, hp.mem_iff.1 (List.mem_cons_self _ _), ?_⟩
  have := hp.nodup_iff.2 ht.1.1.nodup
  rw [List.nodup_cons] at this
  exact this.1

/-- C16 (counterexample): the sub-pool `mixedPools.pending` satisfies the
structural invariant and the record at address `3` is one of its members;
after `Add` of that record, and after `UnsafeAdd` of it, `best` holds it twice
and the invariant does not hold. -/
theorem subPool_add_member_counterexample :
    mixedPools.pending.Consistent mixedPools.mem ∧ 3 ∈ mixedPools.pending.best ∧
      (SubPool.Add mixedPools.mem mixedPools.pending 3).2.best.count 3 = 2 ∧
      ¬ (SubPool.Add mixedPools.mem mixedPools.pending 3).2.Consistent
        (SubPool.Add mixedPools.mem mixedPools.pending 3).1 ∧
      (SubPool.UnsafeAdd mixedPools.mem mixedPools.pending 3).2.best.count 3 = 2 ∧
      ¬ (SubPool.UnsafeAdd mixedPools.mem mixedPools.pending 3).2.Consistent
        (SubPool.UnsafeAdd mixedPools.mem mixedPools.pending 3).1 := by
  decide

/-- C16 (amended): the structural invariant of a sub-pool (`best` and `worst` hold the
same elements, each once; every member `x` has `best[x.bestIndex] = x`,
`worst[x.worstIndex] = x` and `x.currentSubPool` equal to the tag) is preserved
by `Add` and `UnsafeAdd` of a record that is not a member, by `UnsafeRemove` of
a member, by `PopBest` and `PopWorst` on a sub-pool that is not empty, and by
`EnforceInvariants`; and the element `UnsafeRemove`, `PopBest` or `PopWorst`
removes is a member that is no longer one and ends with `currentSubPool = 0`,
`bestIndex = -1` and `worstIndex = -1`. -/
theorem subPool_structural_invariant (m : Mem) (p : SubPool) (h : p.Consistent m) :
    (∀ x, x ∉ p.best →
      (SubPool.Add m p x).2.Consistent (SubPool.Add m p x).1 ∧ x ∈ (SubPool.Add m p x).2.best) ∧
    (∀ x, x ∉ p.best →
      (SubPool.UnsafeAdd m p x).2.Consistent (SubPool.UnsafeAdd m p x).1 ∧
        x ∈ (SubPool.UnsafeAdd m p x).2.best) ∧
    (∀ x, x ∈ p.best →
      (SubPool.UnsafeRemove m p x).2.Consistent (SubPool.UnsafeRemove m p x).1 ∧
        ((SubPool.UnsafeRemove m p x).1 x).Detached ∧ x ∉ (SubPool.UnsafeRemove m p x).2.best) ∧
    (0 < p.Len →
      (SubPool.PopBest m p).1.2.Consistent (SubPool.PopBest m p).1.1 ∧
        ((SubPool.PopBest m p).1.1 (SubPool.PopBest m p).2).Detached ∧
        (SubPool.PopBest m p).2 ∈ p.best ∧
        (SubPool.PopBest m p).2 ∉ (SubPool.PopBest m p).1.2.best) ∧
    (0 < p.Len →
      (SubPool.PopWorst m p).1.2.Consistent (SubPool.PopWorst m p).1.1 ∧
        ((SubPool.PopWorst m p).1.1 (SubPool.PopWorst m p).2).Detached ∧
        (SubPool.PopWorst m p).2 ∈ p.best ∧
        (SubPool.PopWorst m p).2 ∉ (SubPool.PopWorst m p).1.2.best) ∧
    (SubPool.EnforceInvariants m p).2.Consistent (SubPool.EnforceInvariants m p).1 := by
  have ht := (SubPool.consistent_iff m p).1 h
  refine ⟨?_, ?_, ?_, ?_, ?_, ?_⟩
  · intro x hx
    obtain ⟨_, t', hp, _⟩ := SubPool.Add_added m p x ht hx
    exact ⟨(SubPool.consistent_iff _ _).2 t', hp.mem_iff.2 (List.mem_cons_self _ _)⟩
  · intro x hx
    obtain ⟨_, t', hp, _⟩ := SubPool.UnsafeAdd_added m p x ht hx
    exact ⟨(SubPool.consistent_iff _ _).2 t', hp.mem_iff.2 (List.mem_cons_self _ _)⟩
  · intro x hx
    obtain ⟨a, b, _, d⟩ := (SubPool.UnsafeRemove_removed m p x ht hx).out ht
    exact ⟨a, b, d⟩
  · intro hl
    exact ((SubPool.PopBest_removed m p ht hl).2).out ht
  · intro hl
    exact ((SubPool.PopWorst_removed m p ht hl).2).out ht
  · exact (SubPool.consistent_iff _ _).2 (SubPool.EnforceInvariants_tagged m p ht).2.2.1

theorem subPool_structural_invariant_witness :
    mixedPools.pending.Consistent mixedPools.mem ∧
      (SubPool.Add mixedPools.mem mixedPools.pending 9).2.Consistent
        (SubPool.Add mixedPools.mem mixedPools.pending 9).1 ∧
      (SubPool.UnsafeRemove mixedPools.mem mixedPools.pending 3).2.Consistent
        (SubPool.UnsafeRemove mixedPools.mem mixedPools.pending 3).1 ∧
      ((SubPool.UnsafeRemove mixedPools.mem mixedPools.pending 3).1 3).Detached ∧
      (SubPool.PopBest mixedPools.mem mixedPools.pending).1.2.Consistent
        (SubPool.PopBest mixedPools.mem mixedPools.pending).1.1 ∧
      ((SubPool.PopWorst mixedPools.mem mixedPools.pending).1.1
        (SubPool.PopWorst mixedPools.mem mixedPools.pending).2).Detached :=
  ⟨by decide,
    ((subPool_structural_invariant mixedPools.mem mixedPools.pending (by decide)).1 9
      (by decide)).1,
    ((subPool_structural_invariant mixedPools.mem mixedPools.pending (by decide)).2.2.1 3
      (by decide)).1,
    ((subPool_structural_invariant mixedPools.mem mixedPools.pending (by decide)).2.2.1 3
      (by decide)).2.1,
    ((subPool_structural_invariant mixedPools.mem mixedPools.pending (by decide)).2.2.2.1
      (by decide)).1,
    ((subPool_structural_invariant mixedPools.mem mixedPools.pending (by decide)).2.2.2.2.1
      (by decide)).2.1⟩

/-! ## Replacement by nonce -/

/-- C13: in a pool that satisfies its representation invariant, when
`unsafeAddToPendingPool` (with `discardLocked`) processes a transaction `T`
whose hash is not resident while the resident record `R` has the same
`(senderID, nonce)` and a smaller tip, then afterwards `R` is in no sub-pool,
absent from the hash map and from the by-nonce index and appended to the
deletion queue; the new record of `T` (at the next free address) is resident
under its hash, the only record of the index with that key, a member of
`pending` with tag `PendingSubPool`; the sender is marked as changed; and the
displaced record has a smaller tip than the one kept. -/
theorem unsafeAdd_replaces (st : State) (changed : List Nat) (T : TxSlot) (isLocal : Bool)
    (R : Ptr) (hinv : st.Inv) (hnew : byHashGet st.reg.byHash T.idHash = none)
    (hR : R ∈ st.reg.byNonce) (hs : (st.pools.mem R).Tx.senderID = T.senderID)
    (hn : (st.pools.mem R).Tx.nonce = T.nonce) (htip : (st.pools.mem R).Tx.tip < T.tip) :
    (unsafeAddToPendingPool.step discardLocked (st, changed) (T, isLocal)).1.pools.Out R ∧
      byHashGet (unsafeAddToPendingPool.step discardLocked (st, changed) (T, isLocal)).1.reg.byHash
        (st.pools.mem R).Tx.idHash = none ∧
      R ∉ (unsafeAddToPendingPool.step discardLocked (st, changed) (T, isLocal)).1.reg.byNonce ∧
      (unsafeAddToPendingPool.step discardLocked (st, changed) (T, isLocal)).1.reg.deletedTxs =
        st.reg.deletedTxs ++ [R] ∧
      ((unsafeAddToPendingPool.step discardLocked (st, changed) (T, isLocal)).1.pools.mem
        st.next).Tx = T ∧
      byHashGet (unsafeAddToPendingPool.step discardLocked (st, changed) (T, isLocal)).1.reg.byHash
        T.idHash = some st.next ∧
      (∀ q, (q ∈ (unsafeAddToPendingPool.step discardLocked (st, changed)
            (T, isLocal)).1.reg.byNonce ∧
          ((unsafeAddToPendingPool.step discardLocked (st, changed) (T, isLocal)).1.pools.mem
            q).Tx.senderID = T.senderID ∧
          ((unsafeAddToPendingPool.step discardLocked (st, changed) (T, isLocal)).1.pools.mem
            q).Tx.nonce = T.nonce) ↔ q = st.next) ∧
      st.next ∈ (unsafeAddToPendingPool.step discardLocked (st, changed)
        (T, isLocal)).1.pools.pending.best ∧
      ((unsafeAddToPendingPool.step discardLocked (st, changed) (T, isLocal)).1.pools.mem
        st.next).currentSubPool = PendingSubPool ∧
      T.senderID ∈ (unsafeAddToPendingPool.step discardLocked (st, changed) (T, isLocal)).2 ∧
      ((unsafeAddToPendingPool.step discardLocked (st, changed) (T, isLocal)).1.pools.mem
          R).Tx.tip <
        ((unsafeAddToPendingPool.step discardLocked (st, changed) (T, isLocal)).1.pools.mem
          st.next).Tx.tip ∧
      (unsafeAddToPendingPool.step discardLocked (st, changed) (T, isLocal)).1.Inv := by
  obtain ⟨a1, a2, a3, a4⟩ := alloc_spec st hinv (newMetaTx T isLocal)
  have hfr : ∀ p ∈ st.reg.byNonce, p < st.next + 1 :=
    fun p hp => Nat.lt_succ_of_lt (hinv.2.2 p hp)
  have hmR : Function.update st.pools.mem st.next (newMetaTx T isLocal) R = st.pools.mem R :=
    a4 R hR
  have hget : ByNonce.get (Function.update st.pools.mem st.next (newMetaTx T isLocal))
      st.reg.byNonce T.senderID T.nonce = some R := by
    rw [ByNonce.get_eq_some a1.1, hmR]
    exact ⟨hR, hs, hn⟩
  have hrs := replace_spec
    { st with pools := { st.pools with
                         mem := Function.update st.pools.mem st.next (newMetaTx T isLocal) },
              next := st.next + 1 }
    changed st.next T R a1 a2 hfr (Nat.lt_succ_self _) a3
    (by dsimp only; rw [Function.update_same]; rfl)
    (by dsimp only; rw [Function.update_same]; rfl)
    hR (by dsimp only; rw [hmR]; exact hs) (by dsimp only; rw [hmR]; exact hn) hnew _ rfl
  have hstep : unsafeAddToPendingPool.step discardLocked (st, changed) (T, isLocal) =
      unsafeAddToPendingPool.insert
        { st with pools := removeFromCurrent { st.pools with
                    mem := Function.update st.pools.mem st.next (newMetaTx T isLocal) } R,
                  next := st.next + 1,
                  reg := discardLocked (removeFromCurrent { st.pools with
                    mem := Function.update st.pools.mem st.next (newMetaTx T isLocal) } R).mem
                    R st.reg }
        changed st.next T := by
    unfold unsafeAddToPendingPool.step
    dsimp only
    rw [if_neg (by rw [hnew]; simp), hget]
    dsimp only
    rw [hmR, if_neg (by omega)]
  rw [hstep]
  obtain ⟨r1, r2, r3, r4, r5, r6, r7, r8, r9⟩ := hrs
  dsimp only at r3 r4 r6 r7
  rw [hmR] at r6
  have hne : R ≠ st.next := fun e => a3 (e ▸ hR)
  have hhR : byHashGet st.reg.byHash (st.pools.mem R).Tx.idHash = some R :=
    hinv.1.get_hash hR
  have hhash : (st.pools.mem R).Tx.idHash ≠ T.idHash := by
    intro e
    rw [e, hnew] at hhR
    cases hhR
  have hTx : ∀ y, y ≠ st.next → ((unsafeAddToPendingPool.insert
        { st with pools := removeFromCurrent { st.pools with
                    mem := Function.update st.pools.mem st.next (newMetaTx T isLocal) } R,
                  next := st.next + 1,
                  reg := discardLocked (removeFromCurrent { st.pools with
                    mem := Function.update st.pools.mem st.next (newMetaTx T isLocal) } R).mem
                    R st.reg }
        changed st.next T).1.pools.mem y).Tx = (st.pools.mem y).Tx := by
    intro y hy
    rw [core_Tx (r4 y), Function.update_noteq hy]
  have hTn : ((unsafeAddToPendingPool.insert
        { st with pools := removeFromCurrent { st.pools with
                    mem := Function.update st.pools.mem st.next (newMetaTx T isLocal) } R,
                  next := st.next + 1,
                  reg := discardLocked (removeFromCurrent { st.pools with
                    mem := Function.update st.pools.mem st.next (newMetaTx T isLocal) } R).mem
                    R st.reg }
        changed st.next T).1.pools.mem st.next).Tx = T := by
    rw [core_Tx (r4 st.next), Function.update_same]
    rfl
  have hnd := r2.nodup_iff.1 r1.1.1.indexNodup
  refine ⟨?_, ?_, ?_, r7, hTn, ?_, ?_, ?_, r5, ?_, ?_, r1⟩
  · rw [Pools.out_iff]
    intro w hx
    rcases (r3 w R).1 hx with h | h
    · exact h.2 rfl
    · exact hne h.2
  · rw [r6, if_neg hhash, if_pos rfl]
  · intro hx
    rcases List.mem_cons.1 (r2.mem_iff.1 hx) with h | h
    · exact hne h
    · exact ((ByNonce.mem_erase hinv.1.1 R R).1 h).2 rfl
  · rw [r6, if_pos rfl]
  · intro q
    constructor
    · rintro ⟨hq, hqs, hqn⟩
      by_contra hqn'
      rcases List.mem_cons.1 (r2.mem_iff.1 hq) with h | h
      · exact hqn' h
      · have hq' := (ByNonce.mem_erase hinv.1.1 R q).1 h
        rw [hTx q hqn'] at hqs hqn
        exact hq'.2 (hinv.1.1.unique hq'.1 hR (hqs.trans hs.symm) (hqn.trans hn.symm))
    · intro e
      rw [e, hTn]
      exact ⟨r2.mem_iff.2 (List.mem_cons_self _ _), rfl, rfl⟩
  · exact (r3 .pending st.next).2 (Or.inr ⟨rfl, rfl⟩)
  · exact (r9 T.senderID).2 (Or.inr rfl)
  · rw [hTx R hne, hTn]
    exact htip

theorem unsafeAdd_replaces_witness :
    (unsafeAddToPendingPool.step discardLocked (afterIntake.1, [])
        (blockTxRaise, false)).1.pools.Out 1 ∧
      (unsafeAddToPendingPool.step discardLocked (afterIntake.1, [])
        (blockTxRaise, false)).1.reg.deletedTxs = afterIntake.1.reg.deletedTxs ++ [1] ∧
      byHashGet (unsafeAddToPendingPool.step discardLocked (afterIntake.1, [])
        (blockTxRaise, false)).1.reg.byHash blockTxRaise.idHash = some afterIntake.1.next :=
  ⟨(unsafeAdd_replaces afterIntake.1 [] blockTxRaise false 1
      (onNewTxs_inv _ _ _ _ _ _ State.empty_inv) (by decide) (by decide) (by decide)
      (by decide) (by decide)).1,
    (unsafeAdd_replaces afterIntake.1 [] blockTxRaise false 1
      (onNewTxs_inv _ _ _ _ _ _ State.empty_inv) (by decide) (by decide) (by decide)
      (by decide) (by decide)).2.2.2.1,
    (unsafeAdd_replaces afterIntake.1 [] blockTxRaise false 1
      (onNewTxs_inv _ _ _ _ _ _ State.empty_inv) (by decide) (by decide) (by decide)
      (by decide) (by decide)).2.2.2.2.2.1⟩

/-- C14: in a pool that satisfies its representation invariant, when
`unsafeAddToPendingPool` processes a transaction `T` whose hash is already
resident, or for which a resident record `R` has the same `(senderID, nonce)`
and `T.tip ≤ R.tip`, the registry (hash map, by-nonce index and deletion
queue) and the three sub-pools are left as they were, no record other than
the freshly allocated one is written, and the list of changed senders is
returned as it was received. -/
theorem unsafeAdd_rejects (st : State) (changed : List Nat) (T : TxSlot) (isLocal : Bool)
    (hinv : st.Inv)
    (h : (byHashGet st.reg.byHash T.idHash).isSome = true ∨
      ∃ R, R ∈ st.reg.byNonce ∧ (st.pools.mem R).Tx.senderID = T.senderID ∧
        (st.pools.mem R).Tx.nonce = T.nonce ∧ T.tip ≤ (st.pools.mem R).Tx.tip) :
    (unsafeAddToPendingPool.step discardLocked (st, changed) (T, isLocal)).1.reg.byHash =
        st.reg.byHash ∧
      (unsafeAddToPendingPool.step discardLocked (st, changed) (T, isLocal)).1.reg.byNonce =
        st.reg.byNonce ∧
      (unsafeAddToPendingPool.step discardLocked (st, changed) (T, isLocal)).1.reg.deletedTxs =
        st.reg.deletedTxs ∧
      (unsafeAddToPendingPool.step discardLocked (st, changed) (T, isLocal)).1.reg = st.reg ∧
      (unsafeAddToPendingPool.step discardLocked (st, changed) (T, isLocal)).1.pools.pending =
        st.pools.pending ∧
      (unsafeAddToPendingPool.step discardLocked (st, changed) (T, isLocal)).1.pools.baseFee =
        st.pools.baseFee ∧
      (unsafeAddToPendingPool.step discardLocked (st, changed) (T, isLocal)).1.pools.queued =
        st.pools.queued ∧
      (∀ p, p ≠ st.next →
        (unsafeAddToPendingPool.step discardLocked (st, changed) (T, isLocal)).1.pools.mem p =
          st.pools.mem p) ∧
      (unsafeAddToPendingPool.step discardLocked (st, changed) (T, isLocal)).2 = changed := by
  by_cases hh : (byHashGet st.reg.byHash T.idHash).isSome = true
  · have hstep : unsafeAddToPendingPool.step discardLocked (st, changed) (T, isLocal) =
        (st, changed) := by
      unfold unsafeAddToPendingPool.step
      dsimp only
      rw [if_pos hh]
    rw [hstep]
    exact ⟨rfl, rfl, rfl, rfl, rfl, rfl, rfl, fun _ _ => rfl, rfl⟩
  · rcases h with h | ⟨R, hR, hs, hn, htip⟩
    · exact absurd h hh
    · obtain ⟨a1, a2, a3, a4⟩ := alloc_spec st hinv (newMetaTx T isLocal)
      have hmR : Function.update st.pools.mem st.next (newMetaTx T isLocal) R =
          st.pools.mem R := a4 R hR
      have hget : ByNonce.get (Function.update st.pools.mem st.next (newMetaTx T isLocal))
          st.reg.byNonce T.senderID T.nonce = some R := by
        rw [ByNonce.get_eq_some a1.1, hmR]
        exact ⟨hR, hs, hn⟩
      have hstep : unsafeAddToPendingPool.step discardLocked (st, changed) (T, isLocal) =
          ({ st with pools := { st.pools with
                       mem := Function.update st.pools.mem st.next (newMetaTx T isLocal) },
                     next := st.next + 1 }, changed) := by
        unfold unsafeAddToPendingPool.step
        dsimp only
        rw [if_neg hh, hget]
        dsimp only
        rw [hmR, if_pos htip]
      rw [hstep]
      exact ⟨rfl, rfl, rfl, rfl, rfl, rfl, rfl, fun p hp => Function.update_noteq hp _ _, rfl⟩

theorem unsafeAdd_rejects_witness :
    (unsafeAddToPendingPool.step discardLocked (afterIntake.1, [])
        (blockTxSame, true)).1.reg = afterIntake.1.reg ∧
      (unsafeAddToPendingPool.step discardLocked (afterIntake.1, [])
        (blockTxSame, true)).1.pools.pending = afterIntake.1.pools.pending ∧
      (unsafeAddToPendingPool.step discardLocked (afterIntake.1, [])
        (blockTxSame, true)).2 = [] :=
  ⟨(unsafeAdd_rejects afterIntake.1 [] blockTxSame true
      (onNewTxs_inv _ _ _ _ _ _ State.empty_inv)
      (Or.inr ⟨1, by decide, by decide, by decide, by decide⟩)).2.2.2.1,
    (unsafeAdd_rejects afterIntake.1 [] blockTxSame true
      (onNewTxs_inv _ _ _ _ _ _ State.empty_inv)
      (Or.inr ⟨1, by decide, by decide, by decide, by decide⟩)).2.2.2.2.1,
    (unsafeAdd_rejects afterIntake.1 [] blockTxSame true
      (onNewTxs_inv _ _ _ _ _ _ State.empty_inv)
      (Or.inr ⟨1, by decide, by decide, by decide, by decide⟩)).2.2.2.2.2.2.2.2⟩

/-! ## Index consistency -/

/-- C15: on a pool that satisfies its representation invariant (in
particular: the hash map and the by-nonce index hold the same records, no
hash is bound twice and no two records of the index share a
`(senderID, nonce)`), the same holds after `onNewTxs` and after `onNewBlock`
run with `discardLocked`, for every batch of incoming, unwound and mined
transactions; afterwards the two indices have the same size. -/
theorem index_consistency (tx : kvTx) (senders : SendersCache)
    (newTxs unwindTxs : List (TxSlot × Bool)) (minedTxs : List TxSlot) (pbf pend : Nat)
    (st : State) (h : st.Inv) :
    ((onNewTxs tx senders newTxs pbf pend discardLocked st).1.Inv ∧
      (onNewTxs tx senders newTxs pbf pend discardLocked st).1.reg.Consistent
        (onNewTxs tx senders newTxs pbf pend discardLocked st).1.pools.mem ∧
      (onNewTxs tx senders newTxs pbf pend discardLocked st).1.reg.byHash.length =
        (onNewTxs tx senders newTxs pbf pend discardLocked st).1.reg.byNonce.length) ∧
    ((onNewBlock tx senders unwindTxs minedTxs pbf pend discardLocked st).1.Inv ∧
      (onNewBlock tx senders unwindTxs minedTxs pbf pend discardLocked st).1.reg.Consistent
        (onNewBlock tx senders unwindTxs minedTxs pbf pend discardLocked st).1.pools.mem ∧
      (onNewBlock tx senders unwindTxs minedTxs pbf pend discardLocked st).1.reg.byHash.length =
        (onNewBlock tx senders unwindTxs minedTxs pbf pend discardLocked
          st).1.reg.byNonce.length) :=
  ⟨⟨onNewTxs_inv tx senders newTxs pbf pend st h,
      (onNewTxs_inv tx senders newTxs pbf pend st h).1,
      (onNewTxs_inv tx senders newTxs pbf pend st h).1.size_eq⟩,
    ⟨onNewBlock_inv tx senders unwindTxs minedTxs pbf pend st h,
      (onNewBlock_inv tx senders unwindTxs minedTxs pbf pend st h).1,
      (onNewBlock_inv tx senders unwindTxs minedTxs pbf pend st h).1.size_eq⟩⟩

theorem index_consistency_witness :
    State.empty.Inv ∧ afterIntake.1.reg.Consistent afterIntake.1.pools.mem ∧
      afterIntake.1.reg.byHash.length = afterIntake.1.reg.byNonce.length :=
  ⟨by decide,
    (index_consistency emptyKv scenarioSenders [(blockTxA, true), (blockTxB, false)] [] []
      50 70 State.empty (by decide)).1.2⟩

/-! ## Removal of mined transactions -/

/-- C17: on a pool that satisfies its representation invariant, writing
`minedOut` for "the sender of the record has a mined transaction and the
nonce of the record is at most the largest mined nonce of that sender":
after `removeMined` (with `discardLocked`) the by-nonce index holds the
previous records that are not `minedOut`; every previous record that is
`minedOut` is in no sub-pool and absent from the hash map, and the deletion
queue is the previous one followed by those records, each once; every other
resident record keeps its transaction, marker, effective tip, sub-pool tag,
sub-pool membership and hash-map entry. -/
theorem removeMined_removes (st : State) (minedTxs : List TxSlot) (h : st.Inv) :
    (∀ y, y ∈ (removeMined discardLocked st minedTxs).reg.byNonce ↔
        (y ∈ st.reg.byNonce ∧ minedOut st.pools.mem minedTxs y = false)) ∧
      (∀ y, y ∈ st.reg.byNonce → minedOut st.pools.mem minedTxs y = true →
        (removeMined discardLocked st minedTxs).pools.Out y ∧
          byHashGet (removeMined discardLocked st minedTxs).reg.byHash
            (st.pools.mem y).Tx.idHash = none) ∧
      (∃ l, (removeMined discardLocked st minedTxs).reg.deletedTxs = st.reg.deletedTxs ++ l ∧
        l.Nodup ∧
        ∀ y, y ∈ l ↔ (y ∈ st.reg.byNonce ∧ minedOut st.pools.mem minedTxs y = true)) ∧
      (∀ y, y ∈ st.reg.byNonce → minedOut st.pools.mem minedTxs y = false →
        core ((removeMined discardLocked st minedTxs).pools.mem y) = core (st.pools.mem y) ∧
          ((removeMined discardLocked st minedTxs).pools.mem y).currentSubPool =
            (st.pools.mem y).currentSubPool ∧
          (∀ w, y ∈ ((removeMined discardLocked st minedTxs).pools.get w).best ↔
            y ∈ (st.pools.get w).best) ∧
          byHashGet (removeMined discardLocked st minedTxs).reg.byHash
            (st.pools.mem y).Tx.idHash = some y) ∧
      (∀ y, minedOut st.pools.mem minedTxs y = true ↔
        ∃ n, minedBound minedTxs (st.pools.mem y).Tx.senderID = some n ∧
          (st.pools.mem y).Tx.nonce ≤ n) ∧
      (removeMined discardLocked st minedTxs).Inv := by
  obtain ⟨r1, r2, r3, r4, r5, r6, _⟩ := removeMined_spec st minedTxs h
  have hTx : ∀ y, ((removeMined discardLocked st minedTxs).pools.mem y).Tx =
      (st.pools.mem y).Tx := fun y => core_Tx (r5 y)
  refine ⟨r2, ?_, r3, ?_, ?_, r1⟩
  · intro y hy hm
    constructor
    · rw [Pools.out_iff]
      intro w hx
      have := ((r4 w y).1 hx).2
      rw [hm] at this
      cases this
    · rw [byHashGet_eq_none]
      intro e he hk
      obtain ⟨e1, e2⟩ := r1.1.2.2.1 e he
      have hy2 := (r2 e.2).1 e2
      rw [hTx, hk] at e1
      have hey : e.2 = y := by
        have h1 := h.1.get_hash hy2.1
        have h2 := h.1.get_hash hy
        rw [e1] at h1
        rw [h1] at h2
        exact Option.some.inj h2
      rw [hey, hm] at hy2
      cases hy2.2
  · intro y hy hm
    refine ⟨r5 y, r6 y (fun c => by rw [hm] at c; cases c.2), ?_, ?_⟩
    · intro w
      rw [r4 w y]
      exact ⟨fun c => c.1, fun c => ⟨c, hm⟩⟩
    · have := r1.1.get_hash ((r2 y).2 ⟨hy, hm⟩)
      rw [hTx] at this
      exact this
  · intro y
    unfold minedOut
    cases minedBound minedTxs (st.pools.mem y).Tx.senderID with
    | none => simp
    | some n => simp

theorem removeMined_removes_witness :
    (∀ y, y ∈ (removeMined discardLocked afterIntake.1 [blockTxA, blockTxM]).reg.byNonce ↔
        (y ∈ afterIntake.1.reg.byNonce ∧
          minedOut afterIntake.1.pools.mem [blockTxA, blockTxM] y = false)) ∧
      (removeMined discardLocked afterIntake.1 [blockTxA, blockTxM]).pools.Out 1 :=
  ⟨(removeMined_removes afterIntake.1 [blockTxA, blockTxM]
      (onNewTxs_inv _ _ _ _ _ _ State.empty_inv)).1,
    ((removeMined_removes afterIntake.1 [blockTxA, blockTxM]
      (onNewTxs_inv _ _ _ _ _ _ State.empty_inv)).2.1 1 (by decide) (by decide)).1⟩

/-! ## Big-endian bytes -/

theorem putUint64_eq (x : Nat) :
    putUint64 x = [x / 256 ^ 7 % 256, x / 256 ^ 6 % 256, x / 256 ^ 5 % 256, x / 256 ^ 4 % 256,
      x / 256 ^ 3 % 256, x / 256 ^ 2 % 256, x / 256 ^ 1 % 256, x / 256 ^ 0 % 256] := by
  simp [putUint64, List.range, List.range.loop]

theorem putUint64_length (x : Nat) : (putUint64 x).length = 8 := by
  rw [putUint64_eq]
  rfl

theorem beToNat_putUint64 (x : Nat) : beToNat (putUint64 x) = x % two64 := by
  rw [putUint64_eq]
  simp only [beToNat, List.foldl, two64]
  norm_num
  omega

theorem getUint64_putUint64 (x : Nat) (rest : List Nat) :
    getUint64 (putUint64 x ++ rest) = x % two64 := by
  unfold getUint64
  rw [List.take_left' (putUint64_length x), beToNat_putUint64]

theorem beToNat_snoc (a : List Nat) (b : Nat) : beToNat (a ++ [b]) = beToNat a * 256 + b := by
  simp [beToNat, List.foldl_append]

theorem beToNat_beBytes (fuel x : Nat) (h : x < 256 ^ fuel) : beToNat (beBytes fuel x) = x := by
  induction fuel generalizing x with
  | zero =>
    have : x = 0 := by simpa using h
    subst this
    rfl
  | succ n ih =>
    unfold beBytes
    split
    · rename_i h0
      rw [h0]
      rfl
    · rw [beToNat_snoc, ih (x / 256) (by rw [Nat.div_lt_iff_lt_mul (by norm_num)]; rw [pow_succ] at h; exact h)]
      omega

theorem beBytes_length (fuel x : Nat) : (beBytes fuel x).length ≤ fuel := by
  induction fuel generalizing x with
  | zero => simp [beBytes]
  | succ n ih =>
    unfold beBytes
    split
    · simp
    · rw [List.length_append]
      have := ih (x / 256)
      simp
      omega

/-- The bytes of a number start with a byte that is not zero. -/
theorem beBytes_head (fuel x : Nat) (h : x < 256 ^ fuel) : (beBytes fuel x).head? ≠ some 0 := by
  induction fuel generalizing x with
  | zero => simp [beBytes]
  | succ n ih =>
    unfold beBytes
    split
    · simp
    · rename_i h0
      have hx : x / 256 < 256 ^ n := by
        rw [Nat.div_lt_iff_lt_mul (by norm_num)]; rw [pow_succ] at h; exact h
      cases hq : beBytes n (x / 256) with
      | nil =>
        have e := beToNat_beBytes n (x / 256) hx
        rw [hq] at e
        have : x % 256 ≠ 0 := by
          have e0 : x / 256 = 0 := e.symm
          omega
        simpa using this
      | cons b bs =>
        have := ih (x / 256) hx
        rw [hq] at this
        simpa using this

theorem beToNat_uint256Bytes (x : Nat) : beToNat (uint256Bytes x) = x % two256 := by
  unfold uint256Bytes
  apply beToNat_beBytes
  have : (256 : Nat) ^ 32 = two256 := by norm_num [two256]
  rw [this]
  exact Nat.mod_lt _ (by norm_num [two256])

theorem uint256Bytes_head (x : Nat) : (uint256Bytes x).head? ≠ some 0 := by
  unfold uint256Bytes
  apply beBytes_head
  have : (256 : Nat) ^ 32 = two256 := by norm_num [two256]
  rw [this]
  exact Nat.mod_lt _ (by norm_num [two256])

theorem encodeSender_length (info : senderInfo) : 8 ≤ (encodeSender info).length := by
  unfold encodeSender
  rw [List.length_append, putUint64_length]
  omega

theorem encodeSender_nonce (info : senderInfo) :
    getUint64 (encodeSender info) = info.nonce % two64 :=
  getUint64_putUint64 _ _

theorem encodeSender_balance (info : senderInfo) :
    beToNat ((encodeSender info).drop 8) % two256 = info.balance % two256 := by
  unfold encodeSender
  rw [List.drop_left' (putUint64_length _), beToNat_uint256Bytes, Nat.mod_mod]

theorem decode_encodeSender (info : senderInfo) (hn : info.nonce < two64)
    (hb : info.balance < two256) :
    (⟨beToNat ((encodeSender info).drop 8) % two256, getUint64 (encodeSender info)⟩ :
      senderInfo) = info := by
  rw [encodeSender_nonce, encodeSender_balance, Nat.mod_eq_of_lt hn, Nat.mod_eq_of_lt hb]

/-! ## Loops that may fail -/

/-- Induction over a loop that may fail: a property of the state and of the
part of the list already visited holds at the end for some prefix, which is the
whole list when the loop ended without error. -/
theorem forErr_induction {σ α : Type} (f : σ → α → σ × Option Err) (P : σ → List α → Prop)
    (hstep : ∀ s done a, P s done → P (f s a).1 (done ++ [a]))
    (l : List α) (s0 : σ) (pre : List α) (h0 : P s0 pre) :
    ∃ done, done <+: l ∧ P (forErr f s0 l).1 (pre ++ done) ∧
      ((forErr f s0 l).2 = none → done = l) := by
  induction l generalizing s0 pre with
  | nil => exact ⟨[], List.prefix_refl _, by simpa [forErr] using h0, fun _ => rfl⟩
  | cons a rest ih =>
    have hs := hstep s0 pre a h0
    unfold forErr
    cases hr : f s0 a with
    | mk s1 o =>
      rw [hr] at hs
      cases o with
      | some e =>
        refine ⟨[a], ?_, hs, fun h => by cases h⟩
        exact List.prefix_iff_eq_take.2 (by simp)
      | none =>
        obtain ⟨done, hp, hP, hd⟩ := ih s1 (pre ++ [a]) hs
        refine ⟨a :: done, ?_, ?_, ?_⟩
        · obtain ⟨t, ht⟩ := hp
          exact ⟨t, by rw [← ht]; rfl⟩
        · simpa using hP
        · intro h
          rw [hd h]

/-! ## Allocation of sender ids -/

theorem SendersCache.id_alloc (sc : SendersCache) (tx : kvTx) (a b : List Nat) :
    (sc.alloc a).id b tx =
      if b = a then .ok (some ((sc.senderID + 1) % two64)) else sc.id b tx := by
  unfold SendersCache.id SendersCache.alloc
  dsimp only
  by_cases h : b = a
  · rw [if_pos h, h, Function.update_same]
  · rw [if_neg h, Function.update_noteq h]

theorem SendersCache.id_info (sc : SendersCache) (tx : kvTx)
    (m : Nat → Option TxPool.senderInfo) (a : List Nat) :
    ({ sc with senderInfo := m } : SendersCache).id a tx = sc.id a tx := rfl

theorem SendersCache.Grows.same (tx : kvTx) (sc sc' : SendersCache)
    (h1 : sc'.senderID = sc.senderID) (h2 : sc'.senderIDs = sc.senderIDs) :
    SendersCache.Grows tx 0 sc sc' := by
  have hid : ∀ a, sc'.id a tx = sc.id a tx := by
    intro a
    unfold SendersCache.id
    rw [h2]
  refine ⟨by omega, by omega, fun a id h => by rw [hid]; exact h,
    fun a id h => Or.inl (by rw [← hid]; exact h), ?_, fun a h => by rw [← hid]; exact h⟩
  intro a b id ha _ ha' _
  rw [hid, ha] at ha'
  cases ha'

theorem SendersCache.Grows.relax {tx : kvTx} {k k' : Nat} {sc sc' : SendersCache}
    (h : SendersCache.Grows tx k sc sc') (hk : k ≤ k') : SendersCache.Grows tx k' sc sc' :=
  ⟨h.1, by have := h.2.1; omega, h.2.2.1, h.2.2.2.1, h.2.2.2.2⟩

theorem SendersCache.Grows.step {tx : kvTx} {sc : SendersCache} {a : List Nat}
    (hn : sc.id a tx = .ok none) (hw : sc.senderID + 1 < two64) :
    SendersCache.Grows tx 1 sc (sc.alloc a) := by
  have hs : (sc.alloc a).senderID = sc.senderID + 1 := by
    show (sc.senderID + 1) % two64 = sc.senderID + 1
    exact Nat.mod_eq_of_lt hw
  refine ⟨by omega, by omega, ?_, ?_, ?_, ?_⟩
  · intro b id hb
    rw [SendersCache.id_alloc]
    split
    · rename_i e
      rw [e, hn] at hb
      cases hb
    · exact hb
  · intro b id hb
    rw [SendersCache.id_alloc] at hb
    split at hb
    · rename_i e
      right
      have : id = sc.senderID + 1 := by
        have := Except.ok.inj hb
        rw [Nat.mod_eq_of_lt hw] at this
        exact (Option.some.inj this).symm
      rw [e]
      exact ⟨hn, by omega, by omega⟩
    · exact Or.inl hb
  · intro b c id hb hc hb' hc'
    rw [SendersCache.id_alloc] at hb' hc'
    split at hb'
    · split at hc'
      · rename_i e1 e2
        rw [e1, e2]
      · rw [hc] at hc'
        cases hc'
    · rw [hb] at hb'
      cases hb'
  · intro b hb
    rw [SendersCache.id_alloc] at hb
    split at hb
    · cases hb
    · exact hb

theorem SendersCache.Grows.comp {tx : kvTx} {k1 k2 : Nat} {s0 s1 s2 : SendersCache}
    (h1 : SendersCache.Grows tx k1 s0 s1) (h2 : SendersCache.Grows tx k2 s1 s2) :
    SendersCache.Grows tx (k1 + k2) s0 s2 := by
  obtain ⟨a1, a2, a3, a4, a5, a6⟩ := h1
  obtain ⟨b1, b2, b3, b4, b5, b6⟩ := h2
  refine ⟨by omega, by omega, fun a id h => b3 a id (a3 a id h), ?_, ?_,
    fun a h => a6 a (b6 a h)⟩
  · intro a id h
    rcases b4 a id h with h' | ⟨h', hl, hu⟩
    · rcases a4 a id h' with h'' | ⟨h'', hl, hu⟩
      · exact Or.inl h''
      · exact Or.inr ⟨h'', hl, by omega⟩
    · exact Or.inr ⟨a6 a h', by omega, hu⟩
  · intro a b id ha hb ha' hb'
    rcases b4 a id ha' with h' | ⟨h', hl, hu⟩
    · rcases b4 b id hb' with g' | ⟨g', gl, gu⟩
      · exact a5 a b id ha hb h' g'
      · rcases a4 a id h' with h'' | ⟨_, _, hu'⟩
        · rw [ha] at h''
          cases h''
        · omega
    · rcases b4 b id hb' with g' | ⟨g', gl, gu⟩
      · rcases a4 b id g' with g'' | ⟨_, _, gu'⟩
        · rw [hb] at g''
          cases g''
        · omega
      · exact b5 a b id h' g' ha' hb'

theorem SendersCache.Grows.idsOK {tx : kvTx} {k : Nat} {sc sc' : SendersCache}
    (h : SendersCache.Grows tx k sc sc') (hi : sc.IdsOK tx) : sc'.IdsOK tx := by
  obtain ⟨a1, a2, a3, a4, a5, a6⟩ := h
  constructor
  · intro a id ha
    rcases a4 a id ha with h' | ⟨_, hl, hu⟩
    · have := hi.1 a id h'
      omega
    · omega
  · intro a b id ha hb
    rcases a4 a id ha with h' | ⟨h', hl, hu⟩
    · rcases a4 b id hb with g' | ⟨g', gl, gu⟩
      · exact hi.2 a b id h' g'
      · have := hi.1 a id h'
        omega
    · rcases a4 b id hb with g' | ⟨g', gl, gu⟩
      · have := hi.1 b id g'
        omega
      · exact a5 a b id h' g' ha hb

/-- Induction over a loop that ended without error. -/
theorem forErr_ok {σ α : Type} (f : σ → α → σ × Option Err) (P : σ → List α → Prop)
    (hstep : ∀ s done a, P s done → (f s a).2 = none → P (f s a).1 (done ++ [a]))
    (l : List α) (s0 : σ) (pre : List α) (h0 : P s0 pre) (hok : (forErr f s0 l).2 = none) :
    P (forErr f s0 l).1 (pre ++ l) := by
  induction l generalizing s0 pre with
  | nil => simpa [forErr] using h0
  | cons a rest ih =>
    have hs := hstep s0 pre a h0
    unfold forErr at hok ⊢
    cases hr : f s0 a with
    | mk s1 o =>
      rw [hr] at hs hok
      cases o with
      | some e => cases hok
      | none =>
        have := ih s1 (pre ++ [a]) (hs rfl) hok
        simpa using this

theorem ensure_step_grows (tx : kvTx) (sc : SendersCache) (a : List Nat)
    (hw : sc.senderID + 1 < two64) :
    SendersCache.Grows tx 1 sc (SendersCache.ensureSenderIDOnNewTxs.step tx sc a).1 := by
  unfold SendersCache.ensureSenderIDOnNewTxs.step
  cases h : sc.id a tx with
  | error e => exact (SendersCache.Grows.same tx sc sc rfl rfl).relax (by omega)
  | ok o =>
    cases o with
    | some i => exact (SendersCache.Grows.same tx sc sc rfl rfl).relax (by omega)
    | none => exact SendersCache.Grows.step h hw

theorem change_step_grows (tx : kvTx) (sc : SendersCache) (e : List Nat × senderInfo)
    (hw : sc.senderID + 1 < two64) :
    SendersCache.Grows tx 1 sc (SendersCache.mergeStateChangesLocked.change tx sc e).1 := by
  unfold SendersCache.mergeStateChangesLocked.change
  cases h : sc.id e.1 tx with
  | error err => exact (SendersCache.Grows.same tx sc sc rfl rfl).relax (by omega)
  | ok o =>
    cases o with
    | some i => exact (SendersCache.Grows.same tx sc _ rfl rfl).relax (by omega)
    | none =>
      have h1 := SendersCache.Grows.step h hw
      have h2 := SendersCache.Grows.same tx (sc.alloc e.1)
        { sc.alloc e.1 with
          senderInfo := Function.update sc.senderInfo ((sc.senderID + 1) % two64) (some e.2) }
        rfl rfl
      exact h1.comp h2

theorem sender_step_grows (tx : kvTx) (ch : List (List Nat × senderInfo)) (sc : SendersCache)
    (a : List Nat) (hw : sc.senderID + 1 < two64) :
    SendersCache.Grows tx 1 sc (SendersCache.mergeStateChangesLocked.sender tx ch sc a).1 := by
  unfold SendersCache.mergeStateChangesLocked.sender
  cases h : sc.id a tx with
  | error err => exact (SendersCache.Grows.same tx sc sc rfl rfl).relax (by omega)
  | ok o =>
    cases o with
    | some i =>
      dsimp only
      split
      · exact (SendersCache.Grows.same tx sc sc rfl rfl).relax (by omega)
      · split
        · exact (SendersCache.Grows.same tx sc sc rfl rfl).relax (by omega)
        · exact (SendersCache.Grows.same tx sc _ rfl rfl).relax (by omega)
    | none =>
      have h1 := SendersCache.Grows.step h hw
      dsimp only
      split
      · exact h1
      · split
        · exact h1
        · exact h1.comp (SendersCache.Grows.same tx (sc.alloc a) _ rfl rfl)

/-- A loop whose body allocates at most one id allocates at most as many ids
as it has elements. -/
theorem forErr_grows {α : Type} (tx : kvTx) (f : SendersCache → α → SendersCache × Option Err)
    (hf : ∀ s a, s.senderID + 1 < two64 → SendersCache.Grows tx 1 s (f s a).1)
    (sc : SendersCache) (l : List α) (h : sc.senderID + l.length < two64) :
    SendersCache.Grows tx l.length sc (forErr f sc l).1 := by
  obtain ⟨done, hp, hP, _⟩ := forErr_induction f
    (fun s done => done.length ≤ l.length → SendersCache.Grows tx done.length sc s)
    (by
      intro s done a hP hl
      rw [List.length_append, List.length_singleton] at hl ⊢
      have hg := hP (by omega)
      exact hg.comp (hf s a (by have := hg.2.1; omega)))
    l sc [] (fun _ => SendersCache.Grows.same tx sc sc rfl rfl)
  rw [List.nil_append] at hP
  exact (hP hp.length_le).relax hp.length_le

theorem ensureSenderIDOnNewTxs_grows (sc : SendersCache) (tx : kvTx) (senders : List (List Nat))
    (h : sc.senderID + senders.length < two64) :
    SendersCache.Grows tx senders.length sc (sc.ensureSenderIDOnNewTxs tx senders).1 :=
  forErr_grows tx _ (ensure_step_grows tx) sc senders h

theorem mergeStateChangesLocked_grows (sc : SendersCache) (tx : kvTx)
    (ch : List (List Nat × senderInfo)) (u m : List (List Nat))
    (h : sc.senderID + (ch.length + u.length + m.length) < two64) :
    SendersCache.Grows tx (ch.length + u.length + m.length) sc
      (sc.mergeStateChangesLocked tx ch u m).1 := by
  have g1 := forErr_grows tx _ (change_step_grows tx) sc ch (by omega)
  unfold SendersCache.mergeStateChangesLocked
  cases h1 : forErr (SendersCache.mergeStateChangesLocked.change tx) sc ch with
  | mk s1 o1 =>
    rw [h1] at g1
    cases o1 with
    | some e => exact g1.relax (by omega)
    | none =>
      dsimp only
      have g2 := forErr_grows tx _ (sender_step_grows tx ch) s1 u
        (by have := g1.2.1; dsimp only at this; omega)
      cases h2 : forErr (SendersCache.mergeStateChangesLocked.sender tx ch) s1 u with
      | mk s2 o2 =>
        rw [h2] at g2
        cases o2 with
        | some e => exact (g1.comp g2).relax (by omega)
        | none =>
          dsimp only
          have g3 := forErr_grows tx _ (sender_step_grows tx ch) s2 m
            (by have := g1.2.1; have := g2.2.1; dsimp only at *; omega)
          exact (g1.comp g2).comp g3

/-! ## The records `mergeStateChangesLocked` leaves -/

theorem change_loop_records (tx : kvTx) (sc0 : SendersCache) (hi : sc0.IdsOK tx)
    (ch : List (List Nat × senderInfo)) (hk : (ch.map Prod.fst).Nodup)
    (hw : sc0.senderID + ch.length < two64)
    (hok : (forErr (SendersCache.mergeStateChangesLocked.change tx) sc0 ch).2 = none) :
    (∀ e ∈ ch, ∃ id,
        (forErr (SendersCache.mergeStateChangesLocked.change tx) sc0 ch).1.id e.1 tx =
          .ok (some id) ∧
        (forErr (SendersCache.mergeStateChangesLocked.change tx) sc0 ch).1.senderInfo id =
          some e.2) ∧
      (∀ id, (∀ e ∈ ch,
          (forErr (SendersCache.mergeStateChangesLocked.change tx) sc0 ch).1.id e.1 tx ≠
            .ok (some id)) →
        (forErr (SendersCache.mergeStateChangesLocked.change tx) sc0 ch).1.senderInfo id =
          sc0.senderInfo id) := by
  have key := forErr_ok (SendersCache.mergeStateChangesLocked.change tx)
    (fun s done => done.length ≤ ch.length → (done.map Prod.fst).Nodup →
      SendersCache.Grows tx done.length sc0 s ∧
      (∀ e ∈ done, ∃ id, s.id e.1 tx = .ok (some id) ∧ s.senderInfo id = some e.2) ∧
      (∀ id, (∀ e ∈ done, s.id e.1 tx ≠ .ok (some id)) → s.senderInfo id = sc0.senderInfo id))
    (by
      intro s done a hP hs hl hn
      rw [List.length_append, List.length_singleton] at hl
      rw [List.map_append, List.nodup_append] at hn
      obtain ⟨hn1, _, hn3⟩ := hn
      have hna : ∀ e ∈ done, e.1 ≠ a.1 := by
        intro e he h
        exact hn3 (List.mem_map_of_mem _ he) (by rw [h]; simp)
      obtain ⟨hg, hA, hB⟩ := hP (by omega) hn1
      have hw1 : s.senderID + 1 < two64 := by have := hg.2.1; omega
      have hg1 := hg.comp (change_step_grows tx s a hw1)
      have hi1 := hg.idsOK hi
      refine ⟨by rw [List.length_append]; exact hg1, ?_, ?_⟩
      · intro e he
        unfold SendersCache.mergeStateChangesLocked.change at hs ⊢
        cases hq : s.id a.1 tx with
        | error err => rw [hq] at hs; cases hs
        | ok o =>
          cases o with
          | some i =>
            dsimp only
            rcases List.mem_append.1 he with he | he
            · obtain ⟨id, h1, h2⟩ := hA e he
              refine ⟨id, h1, ?_⟩
              have hne : id ≠ i := fun h => hna e he (hi1.2 _ _ _ (h ▸ h1) hq)
              rw [Function.update_noteq hne]
              exact h2
            · rw [List.mem_singleton] at he
              subst he
              exact ⟨i, hq, Function.update_same _ _ _⟩
          | none =>
            dsimp only
            rcases List.mem_append.1 he with he | he
            · obtain ⟨id, h1, h2⟩ := hA e he
              refine ⟨id, ?_, ?_⟩
              · show (s.alloc a.1).id e.1 tx = _
                rw [SendersCache.id_alloc, if_neg (hna e he)]
                exact h1
              · have hb := (hi1.1 _ _ h1).2
                have hne : id ≠ (s.senderID + 1) % two64 := by
                  rw [Nat.mod_eq_of_lt hw1]
                  omega
                rw [Function.update_noteq hne]
                exact h2
            · rw [List.mem_singleton] at he
              subst he
              refine ⟨(s.senderID + 1) % two64, ?_, Function.update_same _ _ _⟩
              show (s.alloc e.1).id e.1 tx = _
              rw [SendersCache.id_alloc, if_pos rfl]
      · intro id hid
        unfold SendersCache.mergeStateChangesLocked.change at hs hid ⊢
        cases hq : s.id a.1 tx with
        | error err => rw [hq] at hs; cases hs
        | ok o =>
          cases o with
          | some i =>
            rw [hq] at hid
            dsimp only at hid ⊢
            have hne : id ≠ i := by
              intro h
              exact hid a (by simp) (h ▸ hq)
            rw [Function.update_noteq hne]
            exact hB id (fun e he => hid e (List.mem_append_left _ he))
          | none =>
            rw [hq] at hid
            dsimp only at hid ⊢
            have hne : id ≠ (s.senderID + 1) % two64 := by
              intro h
              refine hid a (by simp) ?_
              show (s.alloc a.1).id a.1 tx = _
              rw [SendersCache.id_alloc, if_pos rfl, h]
            rw [Function.update_noteq hne]
            refine hB id (fun e he h => hid e (List.mem_append_left _ he) ?_)
            show (s.alloc a.1).id e.1 tx = _
            rw [SendersCache.id_alloc, if_neg (hna e he)]
            exact h)
    ch sc0 []
    (fun _ _ => ⟨SendersCache.Grows.same tx sc0 sc0 rfl rfl,
      fun e he => absurd he (List.not_mem_nil e), fun id _ => rfl⟩)
    hok
  rw [List.nil_append] at key
  exact (key (Nat.le_refl _) hk).2

theorem any_key_iff (ch : List (List Nat × senderInfo)) (a : List Nat) :
    ch.any (fun e => e.1 == a) = true ↔ ∃ e ∈ ch, e.1 = a := by
  simp [List.any_eq_true]

theorem sender_loop_records (tx : kvTx) (ch : List (List Nat × senderInfo)) (s1 : SendersCache)
    (hE : ∀ e ∈ ch, ∃ id, s1.id e.1 tx = .ok (some id) ∧ (s1.senderInfo id).isSome)
    (l : List (List Nat)) (hw : s1.senderID + l.length < two64)
    (hok : (forErr (SendersCache.mergeStateChangesLocked.sender tx ch) s1 l).2 = none) :
    (∀ id,
        (forErr (SendersCache.mergeStateChangesLocked.sender tx ch) s1 l).1.senderInfo id =
            s1.senderInfo id ∨
          (s1.senderInfo id = none ∧
            (forErr (SendersCache.mergeStateChangesLocked.sender tx ch) s1 l).1.senderInfo id =
              some { nonce := 0, balance := 0 } ∧
            ∃ a ∈ l, ch.any (fun e => e.1 == a) = false ∧
              (forErr (SendersCache.mergeStateChangesLocked.sender tx ch) s1 l).1.id a tx =
                .ok (some id))) ∧
      (∀ a ∈ l, ∃ id,
        (forErr (SendersCache.mergeStateChangesLocked.sender tx ch) s1 l).1.id a tx =
          .ok (some id) ∧
        ((forErr (SendersCache.mergeStateChangesLocked.sender tx ch) s1 l).1.senderInfo
          id).isSome) := by
  have key := forErr_ok (SendersCache.mergeStateChangesLocked.sender tx ch)
    (fun s done => done.length ≤ l.length →
      SendersCache.Grows tx done.length s1 s ∧
      (∀ id, s.senderInfo id = s1.senderInfo id ∨
        (s1.senderInfo id = none ∧ s.senderInfo id = some { nonce := 0, balance := 0 } ∧
          ∃ a ∈ done, ch.any (fun e => e.1 == a) = false ∧ s.id a tx = .ok (some id))) ∧
      (∀ a ∈ done, ∃ id, s.id a tx = .ok (some id) ∧ (s.senderInfo id).isSome))
    (by
      intro s done a hP hs hl
      rw [List.length_append, List.length_singleton] at hl
      obtain ⟨hg, hC, hD⟩ := hP (by omega)
      have hw1 : s.senderID + 1 < two64 := by have := hg.2.1; omega
      have hst := sender_step_grows tx ch s a hw1
      have hg1 := hg.comp hst
      -- an address of `stateChanges` has an id and a record
      have hkey : ch.any (fun e => e.1 == a) = true →
          ∃ id, s.id a tx = .ok (some id) ∧ (s.senderInfo id).isSome := by
        intro h
        obtain ⟨e, he, hea⟩ := (any_key_iff ch a).1 h
        obtain ⟨id, h1, h2⟩ := hE e he
        rw [hea] at h1
        refine ⟨id, hg.2.2.1 a id h1, ?_⟩
        rcases hC id with h3 | ⟨h3, _⟩
        · rw [h3]
          exact h2
        · rw [h3] at h2
          cases h2
      -- what remains to show, given the new record map and the id of `a`
      have fin : ∀ (s' : SendersCache) (i : Nat), SendersCache.Grows tx 1 s s' →
          s'.id a tx = .ok (some i) →
          ((s'.senderInfo = s.senderInfo ∧ (s.senderInfo i).isSome) ∨
            (s.senderInfo i = none ∧ ch.any (fun e => e.1 == a) = false ∧
              s'.senderInfo = Function.update s.senderInfo i
                (some { nonce := 0, balance := 0 }))) →
          (∀ id, s'.senderInfo id = s1.senderInfo id ∨
            (s1.senderInfo id = none ∧ s'.senderInfo id = some { nonce := 0, balance := 0 } ∧
              ∃ b ∈ done ++ [a], ch.any (fun e => e.1 == b) = false ∧
                s'.id b tx = .ok (some id))) ∧
          (∀ b ∈ done ++ [a], ∃ id, s'.id b tx = .ok (some id) ∧ (s'.senderInfo id).isSome) := by
        intro s' i hg' hia hcase
        rcases hcase with ⟨hsame, hsome⟩ | ⟨hnone, hany, hupd⟩
        · constructor
          · intro id
            rw [hsame]
            rcases hC id with h | ⟨h1, h2, b, hb, hb1, hb2⟩
            · exact Or.inl h
            · exact Or.inr ⟨h1, h2, b, List.mem_append_left _ hb, hb1, hg'.2.2.1 b id hb2⟩
          · intro b hb
            rw [hsame]
            rcases List.mem_append.1 hb with hb | hb
            · obtain ⟨id, h1, h2⟩ := hD b hb
              exact ⟨id, hg'.2.2.1 b id h1, h2⟩
            · rw [List.mem_singleton] at hb
              subst hb
              exact ⟨i, hia, hsome⟩
        · constructor
          · intro id
            rw [hupd]
            by_cases hid : id = i
            · subst hid
              right
              rw [Function.update_same]
              refine ⟨?_, rfl, a, by simp, hany, hia⟩
              rcases hC id with h | ⟨h1, _⟩
              · rw [← h]
                exact hnone
              · exact h1
            · rw [Function.update_noteq hid]
              rcases hC id with h | ⟨h1, h2, b, hb, hb1, hb2⟩
              · exact Or.inl h
              · exact Or.inr ⟨h1, h2, b, List.mem_append_left _ hb, hb1, hg'.2.2.1 b id hb2⟩
          · intro b hb
            rw [hupd]
            rcases List.mem_append.1 hb with hb | hb
            · obtain ⟨id, h1, h2⟩ := hD b hb
              refine ⟨id, hg'.2.2.1 b id h1, ?_⟩
              by_cases hid : id = i
              · rw [hid, Function.update_same]
                rfl
              · rw [Function.update_noteq hid]
                exact h2
            · rw [List.mem_singleton] at hb
              subst hb
              refine ⟨i, hia, ?_⟩
              rw [Function.update_same]
              rfl
      refine ⟨by rw [List.length_append]; exact hg1, ?_⟩
      unfold SendersCache.mergeStateChangesLocked.sender at hs hst ⊢
      cases hq : s.id a tx with
      | error err => rw [hq] at hs; cases hs
      | ok o =>
        rw [hq] at hst
        cases o with
        | some i =>
          dsimp only at hst ⊢
          by_cases h1 : (s.senderInfo i).isSome = true
          · rw [if_pos h1] at hst ⊢
            exact fin s i hst hq (Or.inl ⟨rfl, h1⟩)
          · rw [if_neg h1] at hst ⊢
            by_cases h2 : ch.any (fun e => e.1 == a) = true
            · exfalso
              obtain ⟨id, h3, h4⟩ := hkey h2
              rw [hq] at h3
              cases h3
              exact h1 h4
            · rw [if_neg h2] at hst ⊢
              refine fin _ i hst hq (Or.inr ⟨?_, Bool.eq_false_iff.2 h2, rfl⟩)
              cases hsi : s.senderInfo i with
              | none => rfl
              | some v => rw [hsi] at h1; exact absurd rfl h1
        | none =>
          dsimp only at hst ⊢
          have hia : (s.alloc a).id a tx = .ok (some (s.alloc a).senderID) := by
            rw [SendersCache.id_alloc, if_pos rfl]
            rfl
          by_cases h1 : ((s.alloc a).senderInfo (s.alloc a).senderID).isSome = true
          · rw [if_pos h1] at hst ⊢
            exact fin _ _ hst hia (Or.inl ⟨rfl, h1⟩)
          · rw [if_neg h1] at hst ⊢
            by_cases h2 : ch.any (fun e => e.1 == a) = true
            · exfalso
              obtain ⟨id, h3, h4⟩ := hkey h2
              rw [hq] at h3
              cases h3
            · rw [if_neg h2] at hst ⊢
              refine fin _ _ hst hia (Or.inr ⟨?_, Bool.eq_false_iff.2 h2, rfl⟩)
              cases hsi : (s.alloc a).senderInfo (s.alloc a).senderID with
              | none => exact hsi
              | some v => rw [hsi] at h1; exact absurd rfl h1)
    l s1 []
    (fun _ => ⟨SendersCache.Grows.same tx s1 s1 rfl rfl, fun id => Or.inl rfl,
      fun a ha => absurd ha (List.not_mem_nil a)⟩)
    hok
  rw [List.nil_append] at key
  exact (key (Nat.le_refl _)).2

/-- What a successful `mergeStateChangesLocked` leaves, on a cache whose ids are
in order: the record of an address of `stateChanges` is the supplied one; the
sender of an unwound or mined transaction has an id and a record, which is the
supplied one, else the one the id had, else a new record of nonce and balance
zero; the record of any other id is the one it had. -/
theorem mergeStateChangesLocked_records (sc : SendersCache) (tx : kvTx)
    (ch : List (List Nat × senderInfo)) (u m : List (List Nat))
    (hi : sc.IdsOK tx) (hk : (ch.map Prod.fst).Nodup)
    (hw : sc.senderID + (ch.length + u.length + m.length) < two64)
    (hok : (sc.mergeStateChangesLocked tx ch u m).2 = none) :
    (∀ e ∈ ch, ∃ id, (sc.mergeStateChangesLocked tx ch u m).1.id e.1 tx = .ok (some id) ∧
        (sc.mergeStateChangesLocked tx ch u m).1.senderInfo id = some e.2) ∧
      (∀ a ∈ u ++ m, ∃ id r,
        (sc.mergeStateChangesLocked tx ch u m).1.id a tx = .ok (some id) ∧
        (sc.mergeStateChangesLocked tx ch u m).1.senderInfo id = some r ∧
        ((∃ e ∈ ch, e.1 = a ∧ r = e.2) ∨
          ((∀ e ∈ ch, e.1 ≠ a) ∧ sc.senderInfo id = some r) ∨
          ((∀ e ∈ ch, e.1 ≠ a) ∧ sc.senderInfo id = none ∧ r = { nonce := 0, balance := 0 }))) ∧
      (∀ id, (∀ e ∈ ch, (sc.mergeStateChangesLocked tx ch u m).1.id e.1 tx ≠ .ok (some id)) →
        (∀ a ∈ u ++ m, (sc.mergeStateChangesLocked tx ch u m).1.id a tx ≠ .ok (some id)) →
        (sc.mergeStateChangesLocked tx ch u m).1.senderInfo id = sc.senderInfo id) ∧
      (sc.mergeStateChangesLocked tx ch u m).1.IdsOK tx := by
  have hgr := mergeStateChangesLocked_grows sc tx ch u m hw
  have hi3 := hgr.idsOK hi
  have g1 := forErr_grows tx _ (change_step_grows tx) sc ch (by omega)
  unfold SendersCache.mergeStateChangesLocked at hok hi3 ⊢
  cases h1 : forErr (SendersCache.mergeStateChangesLocked.change tx) sc ch with
  | mk s1 o1 =>
    rw [h1] at hok hi3 g1
    cases o1 with
    | some e => cases hok
    | none =>
      dsimp only at hok hi3 g1 ⊢
      obtain ⟨A1, B1⟩ := change_loop_records tx sc hi ch hk (by omega) (by rw [h1])
      rw [h1] at A1 B1
      dsimp only at A1 B1
      have g2 := forErr_grows tx _ (sender_step_grows tx ch) s1 u
        (by have := g1.2.1; omega)
      cases h2 : forErr (SendersCache.mergeStateChangesLocked.sender tx ch) s1 u with
      | mk s2 o2 =>
        rw [h2] at hok hi3 g2
        cases o2 with
        | some e => cases hok
        | none =>
          dsimp only at hok hi3 g2 ⊢
          have hE1 : ∀ e ∈ ch, ∃ id, s1.id e.1 tx = .ok (some id) ∧
              (s1.senderInfo id).isSome := by
            intro e he
            obtain ⟨id, a1, a2⟩ := A1 e he
            exact ⟨id, a1, by rw [a2]; rfl⟩
          obtain ⟨C2, D2⟩ := sender_loop_records tx ch s1 hE1 u (by have := g1.2.1; omega)
            (by rw [h2])
          rw [h2] at C2 D2
          dsimp only at C2 D2
          have hE2 : ∀ e ∈ ch, ∃ id, s2.id e.1 tx = .ok (some id) ∧
              (s2.senderInfo id).isSome := by
            intro e he
            obtain ⟨id, a1, a2⟩ := hE1 e he
            refine ⟨id, g2.2.2.1 _ _ a1, ?_⟩
            rcases C2 id with c | ⟨c, _⟩
            · rw [c]
              exact a2
            · rw [c] at a2
              cases a2
          have g3 := forErr_grows tx _ (sender_step_grows tx ch) s2 m
            (by have := g1.2.1; have := g2.2.1; omega)
          obtain ⟨C3, D3⟩ := sender_loop_records tx ch s2 hE2 m
            (by have := g1.2.1; have := g2.2.1; omega) hok
          generalize forErr (SendersCache.mergeStateChangesLocked.sender tx ch) s2 m = r3
            at hok hi3 g3 C3 D3 ⊢
          -- the records after the two sender loops, against those after the first loop
          have C : ∀ id, r3.1.senderInfo id = s1.senderInfo id ∨
              (s1.senderInfo id = none ∧ r3.1.senderInfo id = some { nonce := 0, balance := 0 } ∧
                ∃ a ∈ u ++ m, ch.any (fun e => e.1 == a) = false ∧
                  r3.1.id a tx = .ok (some id)) := by
            intro id
            rcases C3 id with c | ⟨c1, c2, a, ha, ha1, ha2⟩
            · rw [c]
              rcases C2 id with d | ⟨d1, d2, a, ha, ha1, ha2⟩
              · exact Or.inl d
              · exact Or.inr ⟨d1, d2, a, List.mem_append_left _ ha, ha1, g3.2.2.1 _ _ ha2⟩
            · right
              refine ⟨?_, c2, a, List.mem_append_right _ ha, ha1, ha2⟩
              rcases C2 id with d | ⟨d1, _⟩
              · rw [← d]
                exact c1
              · exact d1
          have D : ∀ a ∈ u ++ m, ∃ id, r3.1.id a tx = .ok (some id) ∧
              (r3.1.senderInfo id).isSome := by
            intro a ha
            rcases List.mem_append.1 ha with ha | ha
            · obtain ⟨id, d1, d2⟩ := D2 a ha
              refine ⟨id, g3.2.2.1 _ _ d1, ?_⟩
              rcases C3 id with c | ⟨c, _⟩
              · rw [c]
                exact d2
              · rw [c] at d2
                cases d2
            · exact D3 a ha
          have keep : ∀ a id, s1.id a tx = .ok (some id) → r3.1.id a tx = .ok (some id) :=
            fun a id h => g3.2.2.1 _ _ (g2.2.2.1 _ _ h)
          have one : ∀ e ∈ ch, ∃ id, r3.1.id e.1 tx = .ok (some id) ∧
              r3.1.senderInfo id = some e.2 := by
            intro e he
            obtain ⟨id, a1, a2⟩ := A1 e he
            refine ⟨id, keep _ _ a1, ?_⟩
            rcases C id with c | ⟨c, _⟩
            · rw [c]
              exact a2
            · rw [c] at a2
              cases a2
          have old : ∀ id, (∀ e ∈ ch, r3.1.id e.1 tx ≠ .ok (some id)) →
              s1.senderInfo id = sc.senderInfo id :=
            fun id h => B1 id (fun e he h' => h e he (keep _ _ h'))
          refine ⟨one, ?_, ?_, hi3⟩
          · intro a ha
            obtain ⟨id, d1, d2⟩ := D a ha
            cases hr : r3.1.senderInfo id with
            | none => rw [hr] at d2; cases d2
            | some r =>
              refine ⟨id, r, d1, hr, ?_⟩
              by_cases hin : ∃ e ∈ ch, e.1 = a
              · obtain ⟨e, he, hea⟩ := hin
                obtain ⟨id', o1, o2⟩ := one e he
                rw [hea, d1] at o1
                cases o1
                rw [hr] at o2
                exact Or.inl ⟨e, he, hea, Option.some.inj o2⟩
              · have hnot : ∀ e ∈ ch, e.1 ≠ a := fun e he h => hin ⟨e, he, h⟩
                have hold := old id (fun e he h => hnot e he (hi3.2 _ _ _ h d1))
                right
                rcases C id with c | ⟨c1, c2, _⟩
                · left
                  rw [← hold, ← c]
                  exact ⟨hnot, hr⟩
                · right
                  rw [hr] at c2
                  exact ⟨hnot, by rw [← hold]; exact c1, Option.some.inj c2⟩
          · intro id h1' h2'
            rcases C id with c | ⟨_, _, a, ha, _, ha2⟩
            · rw [c]
              exact old id h1'
            · exact absurd ha2 (h2' a ha)

/-! ## Loading sender records from the chain state -/

theorem read_all_ok (decode : List Nat → Option (Nat × Nat)) (coreTx : kvTx)
    (l : List (Nat × List Nat))
    (h : ∀ e ∈ l, ∃ info, loadSender decode coreTx e.2 = .ok info) :
    ∃ d, SendersCache.loadFromCore.read decode coreTx l = .ok d ∧
      d.map Prod.fst = l.map Prod.fst ∧
      ∀ e ∈ l, ∀ info, loadSender decode coreTx e.2 = .ok info → (e.1, info) ∈ d := by
  induction l with
  | nil => exact ⟨[], rfl, rfl, fun e he => absurd he (List.not_mem_nil e)⟩
  | cons a rest ih =>
    obtain ⟨info, hinfo⟩ := h a (List.mem_cons_self _ _)
    obtain ⟨d, hd, hk, hm⟩ := ih (fun e he => h e (List.mem_cons_of_mem _ he))
    refine ⟨(a.1, info) :: d, ?_, by simp [hk], ?_⟩
    · unfold SendersCache.loadFromCore.read
      rw [hinfo]
      dsimp only
      rw [hd]
    · intro e he i hi
      rcases List.mem_cons.1 he with he | he
      · subst he
        rw [hinfo] at hi
        cases hi
        exact List.mem_cons_self _ _
      · exact List.mem_cons_of_mem _ (hm e he i hi)

theorem read_some_error (decode : List Nat → Option (Nat × Nat)) (coreTx : kvTx)
    (l : List (Nat × List Nat))
    (h : ∃ e ∈ l, ∃ err, loadSender decode coreTx e.2 = .error err) :
    ∃ err, SendersCache.loadFromCore.read decode coreTx l = .error err ∧
      ∃ e ∈ l, loadSender decode coreTx e.2 = .error err := by
  induction l with
  | nil =>
    obtain ⟨e, he, _⟩ := h
    cases he
  | cons a rest ih =>
    unfold SendersCache.loadFromCore.read
    cases ha : loadSender decode coreTx a.2 with
    | error err => exact ⟨err, rfl, a, List.mem_cons_self _ _, ha⟩
    | ok info =>
      dsimp only
      have hr : ∃ e ∈ rest, ∃ err, loadSender decode coreTx e.2 = .error err := by
        obtain ⟨e, he, err, herr⟩ := h
        rcases List.mem_cons.1 he with he | he
        · subst he
          rw [ha] at herr
          cases herr
        · exact ⟨e, he, err, herr⟩
      obtain ⟨err, h1, e, he, h2⟩ := ih hr
      rw [h1]
      exact ⟨err, rfl, e, List.mem_cons_of_mem _ he, h2⟩

theorem foldl_update_not_mem (d : List (Nat × senderInfo)) (m : Nat → Option senderInfo)
    (id : Nat) (h : id ∉ d.map Prod.fst) :
    d.foldl (fun (f : Nat → Option senderInfo) (x : Nat × senderInfo) =>
      Function.update f x.1 (some x.2)) m id = m id := by
  induction d generalizing m with
  | nil => rfl
  | cons a rest ih =>
    rw [List.map_cons, List.mem_cons, not_or] at h
    rw [List.foldl_cons, ih _ h.2, Function.update_noteq h.1]

theorem foldl_update_mem (d : List (Nat × senderInfo)) (m : Nat → Option senderInfo)
    (hk : (d.map Prod.fst).Nodup) (e : Nat × senderInfo) (he : e ∈ d) :
    d.foldl (fun (f : Nat → Option senderInfo) (x : Nat × senderInfo) =>
      Function.update f x.1 (some x.2)) m e.1 = some e.2 := by
  induction d generalizing m with
  | nil => cases he
  | cons a rest ih =>
    rw [List.map_cons, List.nodup_cons] at hk
    rw [List.foldl_cons]
    rcases List.mem_cons.1 he with he | he
    · subst he
      rw [foldl_update_not_mem _ _ _ hk.1, Function.update_same]
    · exact ih _ hk.2 he

/-! ## The merge of two ascending streams -/

theorem union_loop_spec (fuel : Nat) (xs ys : List Nat) (hf : xs.length + ys.length < fuel)
    (hx : xs.Pairwise (· < ·)) (hy : ys.Pairwise (· < ·)) :
    (iter.Union.loop fuel xs ys).Pairwise (· < ·) ∧
      (∀ v, v ∈ iter.Union.loop fuel xs ys ↔ v ∈ xs ∨ v ∈ ys) := by
  induction fuel generalizing xs ys with
  | zero => omega
  | succ n ih =>
    cases xs with
    | nil =>
      rw [iter.Union.loop]
      exact ⟨hy, fun v => by simp⟩
    | cons x xs =>
      cases ys with
      | nil =>
        rw [iter.Union.loop]
        · exact ⟨hx, fun v => by simp⟩
        · intro h
          cases h
      | cons y ys =>
        rw [iter.Union.loop]
        rw [List.pairwise_cons] at hx hy
        simp only [List.length_cons] at hf
        by_cases h1 : x < y
        · rw [if_pos h1]
          obtain ⟨s1, s2⟩ := ih xs (y :: ys) (by simp only [List.length_cons]; omega) hx.2
            (List.pairwise_cons.2 hy)
          refine ⟨List.pairwise_cons.2 ⟨?_, s1⟩, ?_⟩
          · intro v hv
            rcases (s2 v).1 hv with hv | hv
            · exact hx.1 v hv
            · rcases List.mem_cons.1 hv with hv | hv
              · rw [hv]
                exact h1
              · exact Nat.lt_trans h1 (hy.1 v hv)
          · intro v
            rw [List.mem_cons, s2 v, List.mem_cons, List.mem_cons]
            tauto
        · rw [if_neg h1]
          by_cases h2 : x = y
          · rw [if_pos h2]
            obtain ⟨s1, s2⟩ := ih xs ys (by omega) hx.2 hy.2
            refine ⟨List.pairwise_cons.2 ⟨?_, s1⟩, ?_⟩
            · intro v hv
              rcases (s2 v).1 hv with hv | hv
              · exact hx.1 v hv
              · rw [h2]
                exact hy.1 v hv
            · intro v
              rw [List.mem_cons, s2 v, List.mem_cons, List.mem_cons, h2]
              tauto
          · rw [if_neg h2]
            have h3 : y < x := by omega
            obtain ⟨s1, s2⟩ := ih (x :: xs) ys (by simp only [List.length_cons]; omega)
              (List.pairwise_cons.2 hx) hy.2
            refine ⟨List.pairwise_cons.2 ⟨?_, s1⟩, ?_⟩
            · intro v hv
              rcases (s2 v).1 hv with hv | hv
              · rcases List.mem_cons.1 hv with hv | hv
                · rw [hv]
                  exact h3
                · exact Nat.lt_trans h3 (hx.1 v hv)
              · exact hy.1 v hv
            · intro v
              rw [List.mem_cons, s2 v, List.mem_cons, List.mem_cons]
              tauto

theorem union_nil_left (ys : List Nat) : iter.Union [] ys = ys := by
  unfold iter.Union
  rw [iter.Union.loop]

theorem union_nil_right (xs : List Nat) : iter.Union xs [] = xs := by
  unfold iter.Union
  cases xs with
  | nil => rw [iter.Union.loop]
  | cons x xs =>
    rw [iter.Union.loop]
    intro h
    cases h

/-! ## The marker of a record -/

theorem core_subPool {a b : metaTx} (h : core a = core b) : a.subPool = b.subPool := by
  simp only [core, Prod.mk.injEq] at h
  exact h.1

/-! ## Operations of the store on one bucket leave the others alone -/

theorem Db.set_data (db : Db) (bucket : String) (l : List (List Nat × List Nat)) (b : String) :
    (db.set bucket l).data b = if b = bucket then l else db.data b := rfl

theorem Db.set_other (db : Db) (bucket : String) (l : List (List Nat × List Nat)) {b : String}
    (h : b ≠ bucket) : (db.set bucket l).data b = db.data b := by
  rw [Db.set_data, if_neg h]

theorem Db.Put_other {db db' : Db} {bucket : String} {k v : List Nat}
    (hr : db.Put bucket k v = .ok db') {b : String} (h : b ≠ bucket) :
    db'.data b = db.data b := by
  unfold Db.Put at hr
  split at hr
  · cases hr
  · cases hr
    exact Db.set_other _ _ _ h

theorem Db.Delete_other {db db' : Db} {bucket : String} {k : List Nat}
    (hr : db.Delete bucket k = .ok db') {b : String} (h : b ≠ bucket) :
    db'.data b = db.data b := by
  unfold Db.Delete at hr
  split at hr
  · cases hr
  · cases hr
    exact Db.set_other _ _ _ h

theorem Db.ClearBucket_other {db db' : Db} {bucket : String}
    (hr : db.ClearBucket bucket = .ok db') {b : String} (h : b ≠ bucket) :
    db'.data b = db.data b := by
  unfold Db.ClearBucket at hr
  split at hr
  · cases hr
  · cases hr
    exact Db.set_other _ _ _ h

theorem Db.ClearBucket_same {db db' : Db} {bucket : String}
    (hr : db.ClearBucket bucket = .ok db') : db'.data bucket = [] := by
  unfold Db.ClearBucket at hr
  split at hr
  · cases hr
  · cases hr
    rw [Db.set_data, if_pos rfl]

theorem Db.Append_other {db db' : Db} {bucket : String} {k v : List Nat}
    (hr : db.Append bucket k v = .ok db') {b : String} (h : b ≠ bucket) :
    db'.data b = db.data b := by
  unfold Db.Append at hr
  split at hr
  · cases hr
  · split at hr
    · cases hr
      exact Db.set_other _ _ _ h
    · split at hr
      · cases hr
        exact Db.set_other _ _ _ h
      · cases hr

/-- A loop over a list whose body keeps a quantity keeps it. -/
theorem forErr_keeps {σ α β : Type} (f : σ → α → σ × Option Err) (g : σ → β)
    (hf : ∀ s a, g (f s a).1 = g s) (l : List α) (s : σ) : g (forErr f s l).1 = g s := by
  induction l generalizing s with
  | nil => rfl
  | cons a rest ih =>
    unfold forErr
    have := hf s a
    cases hr : f s a with
    | mk s1 o =>
      rw [hr] at this
      cases o with
      | some e => exact this
      | none => exact (ih s1).trans this

/-! ## What `SendersCache.flush` writes -/

/-- The eviction of senders writes to the three sender buckets only. -/
theorem evict_other (sc : SendersCache) (count : Nat → Nat) (encID : List Nat) {B : String}
    (h1 : B ≠ "PooledSenderID") (h2 : B ≠ "PooledSenderIDToAdress") (h3 : B ≠ "PooledSender") :
    ∀ (fuel : Nat) (v : List Nat) (acc : Db × Nat),
      (SendersCache.flush.evict sc count encID fuel v acc).1.1.data B = acc.1.data B := by
  intro fuel
  induction fuel with
  | zero => intro v acc; rfl
  | succ fuel ih =>
    intro v acc
    unfold SendersCache.flush.evict
    split
    · rfl
    · split
      · rfl
      · dsimp only
        split
        · exact ih _ _
        · split
          · exact ih _ _
          · split
            · rfl
            · split
              · exact ih _ _
              · split
                · rfl
                · rename_i db1 hd1
                  split
                  · exact Db.Delete_other hd1 h1
                  · rename_i db2 hd2
                    split
                    · exact (Db.Delete_other hd2 h2).trans (Db.Delete_other hd1 h1)
                    · rename_i db3 hd3
                      rw [ih]
                      exact (Db.Delete_other hd3 h3).trans
                        ((Db.Delete_other hd2 h2).trans (Db.Delete_other hd1 h1))

theorem cursor_other (sc : SendersCache) (count : Nat → Nat) (encID : List Nat) (rounds : Nat)
    {B : String} (h0 : B ≠ "PoolStateEviction")
    (h1 : B ≠ "PooledSenderID") (h2 : B ≠ "PooledSenderIDToAdress") (h3 : B ≠ "PooledSender") :
    ∀ (l : List (List Nat × List Nat)) (acc : Db × Nat),
      (SendersCache.flush.cursor sc count encID rounds l acc).1.1.data B = acc.1.data B := by
  intro l
  induction l with
  | nil => intro acc; rfl
  | cons e rest ih =>
    intro acc
    unfold SendersCache.flush.cursor
    split
    · rfl
    · split
      · rfl
      · split
        · rfl
        · have he := evict_other sc count encID h1 h2 h3 (e.2.length + 1) e.2 acc
          split
          · rename_i acc1 err hq
            rw [hq] at he
            exact he
          · rename_i acc1 hq
            rw [hq] at he
            split
            · exact he
            · rename_i db hd
              rw [ih]
              exact (Db.Delete_other hd h0).trans he

theorem putID_other (sc : SendersCache) (db : Db) (addr : List Nat) {B : String}
    (h1 : B ≠ "PooledSenderID") (h2 : B ≠ "PooledSenderIDToAdress") :
    (SendersCache.flush.putID sc db addr).1.data B = db.data B := by
  unfold SendersCache.flush.putID
  split
  · rfl
  · split
    · rfl
    · split
      · rfl
      · split
        · rfl
        · rename_i db1 hd1
          split
          · exact Db.Put_other hd1 h1
          · rename_i db2 hd2
            exact (Db.Put_other hd2 h2).trans (Db.Put_other hd1 h1)

theorem putInfo_other (sc : SendersCache) (db : Db) (id : Nat) {B : String}
    (h3 : B ≠ "PooledSender") :
    (SendersCache.flush.putInfo sc db id).1.data B = db.data B := by
  unfold SendersCache.flush.putInfo
  split
  · rfl
  · split
    · rfl
    · rename_i db1 hd1
      exact Db.Put_other hd1 h3

theorem info_other (sc : SendersCache) (now : List Nat) (db db' : Db) {B : String}
    (h4 : B ≠ "PoolInfo") (h : SendersCache.flush.info sc now db = .ok db') :
    db'.data B = db.data B := by
  unfold SendersCache.flush.info at h
  split at h
  · cases h
  · rename_i db1 hd1
    split at h
    · cases h
    · rename_i db2 hd2
      split at h
      · cases h
      · rename_i db3 hd3
        split at h
        · cases h
        · rename_i db4 hd4
          exact (Db.Put_other h h4).trans ((Db.Put_other hd4 h4).trans
            ((Db.Put_other hd3 h4).trans ((Db.Put_other hd2 h4).trans (Db.Put_other hd1 h4))))

/-- The method `SendersCache.flush` writes to the buckets of the sender cache
only. -/
theorem SendersCache.flush_other (sc : SendersCache) (db : Db) (count : Nat → Nat)
    (without : List Nat) (rounds : Nat) (now : List Nat) (idOrder : List (List Nat))
    (infoOrder : List Nat) {B : String} (h0 : B ≠ "PoolStateEviction")
    (h1 : B ≠ "PooledSenderID") (h2 : B ≠ "PooledSenderIDToAdress") (h3 : B ≠ "PooledSender")
    (h4 : B ≠ "PoolInfo") :
    (sc.flush db count without rounds now idOrder infoOrder).db.data B = db.data B := by
  unfold SendersCache.flush
  dsimp only
  split
  · rfl
  · rename_i db1 hd1
    have e1 : db1.data B = db.data B := by
      split at hd1
      · exact Db.Append_other hd1 h0
      · cases hd1; rfl
    split
    · exact e1
    · have e2 := cursor_other { sc with commitID := (sc.commitID + 1) % two64 } count
        (if without = [] then List.replicate 8 0 else putUint64 ((sc.commitID + 1) % two64))
        rounds h0 h1 h2 h3 (db1.data "PoolStateEviction") (db1, 0)
      split
      · rename_i acc e hq
        rw [hq] at e2
        exact e2.trans e1
      · rename_i acc hq
        rw [hq] at e2
        have e3 := forErr_keeps
          (SendersCache.flush.putID { sc with commitID := (sc.commitID + 1) % two64 })
          (fun d : Db => d.data B) (fun s a => putID_other _ s a h1 h2) idOrder acc.1
        split
        · rename_i db2 e hq2
          rw [hq2] at e3
          exact e3.trans (e2.trans e1)
        · rename_i db2 hq2
          rw [hq2] at e3
          have e4 := forErr_keeps
            (SendersCache.flush.putInfo { sc with commitID := (sc.commitID + 1) % two64 })
            (fun d : Db => d.data B) (fun s a => putInfo_other _ s a h3) infoOrder db2
          split
          · rename_i db3 e hq3
            rw [hq3] at e4
            exact e4.trans (e3.trans (e2.trans e1))
          · rename_i db3 hq3
            rw [hq3] at e4
            split
            · exact e4.trans (e3.trans (e2.trans e1))
            · rename_i db4 hd4
              exact (info_other _ _ _ _ h4 hd4).trans (e4.trans (e3.trans (e2.trans e1)))

/-! ## Keys and the pairs of a bucket -/

theorem bytesLt_irrefl (a : List Nat) : bytesLt a a = false := by
  induction a with
  | nil => rfl
  | cons x xs ih => simp [bytesLt, ih]

theorem bytesLt_total {a b : List Nat} (h : a ≠ b) : bytesLt a b = true ∨ bytesLt b a = true := by
  induction a generalizing b with
  | nil =>
    cases b with
    | nil => exact absurd rfl h
    | cons y ys => left; rfl
  | cons x xs ih =>
    cases b with
    | nil => right; rfl
    | cons y ys =>
      simp only [bytesLt, Bool.or_eq_true, decide_eq_true_eq, Bool.and_eq_true, beq_iff_eq]
      rcases Nat.lt_trichotomy x y with hxy | hxy | hxy
      · left; left; exact hxy
      · subst hxy
        have hne : xs ≠ ys := fun e => h (by rw [e])
        rcases ih hne with h1 | h1
        · left; right; exact ⟨rfl, h1⟩
        · right; right; exact ⟨rfl, h1⟩
      · right; left; exact hxy

theorem bytesLt_asymm {a b : List Nat} (h1 : bytesLt a b = true) (h2 : bytesLt b a = true) :
    False := by
  induction a generalizing b with
  | nil =>
    cases b with
    | nil => cases h1
    | cons y ys => cases h2
  | cons x xs ih =>
    cases b with
    | nil => cases h1
    | cons y ys =>
      simp only [bytesLt, Bool.or_eq_true, decide_eq_true_eq, Bool.and_eq_true, beq_iff_eq]
        at h1 h2
      rcases h1 with h1 | ⟨h1, h1'⟩
      · rcases h2 with h2 | ⟨h2, _⟩
        · omega
        · omega
      · rcases h2 with h2 | ⟨_, h2'⟩
        · omega
        · exact ih h1' h2'

theorem find_filter_key (l : List (List Nat × List Nat)) (q : List Nat → Bool) (k : List Nat)
    (hq : q k = true) :
    (l.filter (fun e => q e.1)).find? (fun e => e.1 == k) = l.find? (fun e => e.1 == k) := by
  rw [List.find?_filter]
  congr 1
  funext a
  by_cases h : a.1 = k
  · simp [h, hq]
  · simp [h]

theorem find_filter_none (l : List (List Nat × List Nat)) (q : List Nat → Bool) (k : List Nat)
    (hq : q k = false) :
    (l.filter (fun e => q e.1)).find? (fun e => e.1 == k) = none := by
  rw [List.find?_eq_none]
  intro x hx
  have := (List.mem_filter.1 hx).2
  intro hk
  have hk' : x.1 = k := by simpa using hk
  rw [hk', hq] at this
  cases this

/-- The value under a key after `Put`. -/
theorem Db.Put_find {db db' : Db} {bucket : String} {k v : List Nat}
    (hr : db.Put bucket k v = .ok db') (k' : List Nat) :
    Db.find (db'.data bucket) k' = if k' = k then v else Db.find (db.data bucket) k' := by
  unfold Db.Put at hr
  split at hr
  · cases hr
  · cases hr
    rw [Db.set_data, if_pos rfl]
    unfold Db.find
    by_cases hk : k' = k
    · rw [if_pos hk, hk, List.find?_append,
        find_filter_none _ (fun x => bytesLt x k) k (bytesLt_irrefl k)]
      simp
    · rw [if_neg hk, List.find?_append]
      rcases bytesLt_total hk with h1 | h1
      · rw [find_filter_key _ (fun x => bytesLt x k) k' h1]
        cases hf : (db.data bucket).find? (fun e => e.1 == k') with
        | some e => rfl
        | none =>
          have : List.find? (fun e => e.1 == k')
              ((k, v) :: List.filter (fun e => bytesLt k e.1) (db.data bucket)) = none := by
            rw [List.find?_cons_of_neg _ (by simpa using fun e => hk e.symm), List.find?_eq_none]
            intro x hx
            exact List.find?_eq_none.1 hf x (List.mem_filter.1 hx).1
          simp [this]
      · have hn : bytesLt k' k = false := by
          cases hb : bytesLt k' k with
          | false => rfl
          | true =>
            exfalso
            exact bytesLt_asymm hb h1
        rw [find_filter_none _ (fun x => bytesLt x k) k' hn]
        simp only [Option.none_or, Option.or_none]
        rw [List.find?_cons_of_neg _ (by simpa using fun e => hk e.symm),
          find_filter_key _ (fun x => bytesLt k x) k' h1]

/-! ## The sender records `SendersCache.flush` writes -/

theorem putUint64_inj {a b : Nat} (ha : a < two64) (hb : b < two64)
    (h : putUint64 a = putUint64 b) : a = b := by
  have e := congrArg beToNat h
  rw [beToNat_putUint64, beToNat_putUint64, Nat.mod_eq_of_lt ha, Nat.mod_eq_of_lt hb] at e
  exact e

/-- One iteration of the loop of `SendersCache.flush` over `senderInfo` that
ends without error: the row of the visited id holds the stored form of its
record, and the rows of the other ids are as they were. -/
theorem putInfo_row (sc : SendersCache) (db db' : Db) (a : Nat) (ha : a < two64)
    (h : SendersCache.flush.putInfo sc db a = (db', none)) (id : Nat) (hid : id < two64) :
    Db.find (db'.data "PooledSender") (putUint64 id) =
      if id = a then
        (match sc.senderInfo a with
          | some info => encodeSender info
          | none => Db.find (db.data "PooledSender") (putUint64 id))
      else Db.find (db.data "PooledSender") (putUint64 id) := by
  unfold SendersCache.flush.putInfo at h
  cases hs : sc.senderInfo a with
  | none =>
    rw [hs] at h
    dsimp only at h
    cases h
    split <;> rfl
  | some info =>
    rw [hs] at h
    dsimp only at h
    cases hp : db.Put "PooledSender" (putUint64 a) (encodeSender info) with
    | error e =>
      rw [hp] at h
      cases h
    | ok db1 =>
      rw [hp] at h
      dsimp only at h
      cases h
      rw [Db.Put_find hp]
      by_cases e : id = a
      · rw [if_pos e, if_pos (by rw [e])]
      · rw [if_neg e, if_neg (fun k => e (putUint64_inj hid ha k))]

/-- The loop of `SendersCache.flush` over `senderInfo`, when it ends without
error: the row of every visited id that has a record holds the stored form of
the record. -/
theorem putInfo_loop (sc : SendersCache) (id : Nat) (info : senderInfo) (hid : id < two64)
    (hrec : sc.senderInfo id = some info) (l : List Nat) (hl : ∀ j ∈ l, j < two64) (db db' : Db)
    (h : forErr (SendersCache.flush.putInfo sc) db l = (db', none))
    (hpre : id ∈ l ∨ Db.find (db.data "PooledSender") (putUint64 id) = encodeSender info) :
    Db.find (db'.data "PooledSender") (putUint64 id) = encodeSender info := by
  induction l generalizing db with
  | nil =>
    unfold forErr at h
    cases h
    rcases hpre with h1 | h1
    · cases h1
    · exact h1
  | cons a rest ih =>
    unfold forErr at h
    cases hr : SendersCache.flush.putInfo sc db a with
    | mk s1 o =>
      rw [hr] at h
      cases o with
      | some e =>
        dsimp only at h
        cases h
      | none =>
        dsimp only at h
        have row := putInfo_row sc db s1 a (hl a (List.mem_cons_self _ _)) hr id hid
        refine ih (fun j hj => hl j (List.mem_cons_of_mem _ hj)) s1 h ?_
        by_cases e : id = a
        · right
          rw [row, if_pos e, ← e, hrec]
        · rcases hpre with h1 | h1
          · rcases List.mem_cons.1 h1 with h2 | h2
            · exact absurd h2 e
            · exact Or.inl h2
          · right
            rw [row, if_neg e]
            exact h1

/-- A `SendersCache.flush` that ends without error leaves a cache without
in-memory records and a store whose table `PooledSender` holds, under the key
of every id of `senderInfo`, the stored form of its record. -/
theorem SendersCache.flush_writes (sc : SendersCache) (db : Db) (count : Nat → Nat)
    (without : List Nat) (rounds : Nat) (now : List Nat) (idOrder : List (List Nat))
    (infoOrder : List Nat) (hl : ∀ j ∈ infoOrder, j < two64)
    (hf : (sc.flush db count without rounds now idOrder infoOrder).err = none) :
    (∀ id, (sc.flush db count without rounds now idOrder infoOrder).sc.senderInfo id = none) ∧
      ∀ id ∈ infoOrder, ∀ info, sc.senderInfo id = some info →
        Db.find ((sc.flush db count without rounds now idOrder infoOrder).db.data "PooledSender")
          (putUint64 id) = encodeSender info := by
  generalize hF : sc.flush db count without rounds now idOrder infoOrder = F at hf ⊢
  unfold SendersCache.flush at hF
  dsimp only at hF
  split at hF
  · subst hF; cases hf
  · split at hF
    · subst hF; cases hf
    · split at hF
      · subst hF; cases hf
      · split at hF
        · subst hF; cases hf
        · rename_i db2 _
          split at hF
          · subst hF; cases hf
          · rename_i db3 hq3
            split at hF
            · subst hF; cases hf
            · rename_i db4 hd4
              subst hF
              refine ⟨fun _ => rfl, ?_⟩
              intro id hid info hrec
              dsimp only
              rw [info_other _ _ _ _ (show "PooledSender" ≠ "PoolInfo" by decide) hd4]
              exact putInfo_loop _ id info (hl id hid) hrec infoOrder hl db2 db3 hq3 (Or.inl hid)

/-- The method `SendersCache.info`, with either value of `expectMiss`, on an id
without in-memory record whose row in the table `PooledSender` holds the stored
form of a record: the record is returned. -/
theorem SendersCache.info_stored (sc : SendersCache) (tx : kvTx) (id : Nat)
    (info : TxPool.senderInfo)
    (hn : info.nonce < two64) (hb : info.balance < two256) (hmem : sc.senderInfo id = none)
    (hdb : tx.GetOne "PooledSender" (putUint64 id) = some (encodeSender info)) :
    sc.info id tx = .ok info ∧ sc.infoExpectMiss id tx = .ok (some info) := by
  have hl := encodeSender_length info
  have hdec := decode_encodeSender info hn hb
  constructor
  · unfold SendersCache.info
    rw [hmem]
    dsimp only
    rw [hdb]
    dsimp only
    rw [if_neg (by omega), if_neg (by omega), hdec]
  · unfold SendersCache.infoExpectMiss
    rw [hmem]
    dsimp only
    rw [hdb]
    dsimp only
    rw [if_neg (by omega), if_neg (by omega), hdec]

/-! ## A batch of transactions of new senders -/

/-- The loop body of `unsafeAddToPendingPool` for a transaction whose hash and
whose sender and nonce are not resident: the new record becomes a member of
`pending`. -/
theorem step_fresh (acc : State × List Nat) (e : TxSlot × Bool) (h : acc.1.Inv)
    (hhash : byHashGet acc.1.reg.byHash e.1.idHash = none)
    (hkey : ∀ y ∈ acc.1.reg.byNonce, ¬ ((acc.1.pools.mem y).Tx.senderID = e.1.senderID ∧
      (acc.1.pools.mem y).Tx.nonce = e.1.nonce)) :
    (unsafeAddToPendingPool.step discardLocked acc e).1.Inv ∧
      (unsafeAddToPendingPool.step discardLocked acc e).1.reg.byNonce.Perm
        (acc.1.next :: acc.1.reg.byNonce) ∧
      (∀ w y, y ∈ ((unsafeAddToPendingPool.step discardLocked acc e).1.pools.get w).best ↔
        y ∈ (acc.1.pools.get w).best ∨ (w = .pending ∧ y = acc.1.next)) ∧
      (∀ y, y ≠ acc.1.next →
        core ((unsafeAddToPendingPool.step discardLocked acc e).1.pools.mem y) =
          core (acc.1.pools.mem y)) ∧
      core ((unsafeAddToPendingPool.step discardLocked acc e).1.pools.mem acc.1.next) =
        core (newMetaTx e.1 e.2) ∧
      (∀ k, byHashGet (unsafeAddToPendingPool.step discardLocked acc e).1.reg.byHash k =
        if k = e.1.idHash then some acc.1.next else byHashGet acc.1.reg.byHash k) ∧
      (unsafeAddToPendingPool.step discardLocked acc e).1.reg.deletedTxs =
        acc.1.reg.deletedTxs ∧
      (∀ c, c ∈ (unsafeAddToPendingPool.step discardLocked acc e).2 ↔
        c ∈ acc.2 ∨ c = e.1.senderID) := by
  obtain ⟨a1, a2, a3, a4⟩ := alloc_spec acc.1 h (newMetaTx e.1 e.2)
  have hfr : ∀ p ∈ acc.1.reg.byNonce, p < acc.1.next + 1 :=
    fun p hp => Nat.lt_succ_of_lt (h.2.2 p hp)
  have hk : ∀ y ∈ acc.1.reg.byNonce,
      ¬ ((Function.update acc.1.pools.mem acc.1.next (newMetaTx e.1 e.2) y).Tx.senderID =
          e.1.senderID ∧
        (Function.update acc.1.pools.mem acc.1.next (newMetaTx e.1 e.2) y).Tx.nonce =
          e.1.nonce) := by
    intro y hy
    rw [a4 y hy]
    exact hkey y hy
  have hnone := (ByNonce.get_eq_none (m := Function.update acc.1.pools.mem acc.1.next
    (newMetaTx e.1 e.2)) (b := acc.1.reg.byNonce) e.1.senderID e.1.nonce).2 hk
  have hs := insert_spec
    { acc.1 with pools := { acc.1.pools with
                            mem := Function.update acc.1.pools.mem acc.1.next
                              (newMetaTx e.1 e.2) },
                 next := acc.1.next + 1 }
    acc.2 acc.1.next e.1 a1 a2 hfr (Nat.lt_succ_self _) a3
    (by dsimp only; rw [Function.update_same]; rfl)
    (by dsimp only; rw [Function.update_same]; rfl)
    hk hhash
  have hstep : unsafeAddToPendingPool.step discardLocked acc e =
      unsafeAddToPendingPool.insert
        { acc.1 with pools := { acc.1.pools with
                                mem := Function.update acc.1.pools.mem acc.1.next
                                  (newMetaTx e.1 e.2) },
                     next := acc.1.next + 1 }
        acc.2 acc.1.next e.1 := by
    unfold unsafeAddToPendingPool.step
    dsimp only
    rw [hhash, hnone]
    rfl
  rw [hstep]
  obtain ⟨s1, s2, s3, s4, _, _, s7, s8, _, s10⟩ := hs
  refine ⟨s1, s2, s3, ?_, ?_, s7, s8, s10⟩
  · intro y hy
    rw [s4 y]
    dsimp only
    rw [Function.update_noteq hy]
  · rw [s4 acc.1.next]
    dsimp only
    rw [Function.update_same]

theorem capacityBatch_succ (k : Nat) :
    capacityBatch (k + 1) = capacityBatch k ++ [(capacityTx k, true)] := by
  unfold capacityBatch
  rw [List.range_succ, List.map_append, List.map_singleton]

theorem core_fields {a b : metaTx} (h : core a = core b) :
    a.subPool = b.subPool ∧ a.effectiveTip = b.effectiveTip ∧ a.Tx = b.Tx := by
  simp only [core, Prod.mk.injEq] at h
  exact h

/-- The state `unsafeAddToPendingPool` leaves on the empty pool for the first
`k` transactions of the capacity scenario: every one is resident and a member of
`pending`, none has been discarded, and every sender is in the set of changed
senders. -/
theorem capacity_added (k : Nat) :
    ∀ a, a = unsafeAddToPendingPool discardLocked State.empty (capacityBatch k) →
      a.1.Inv ∧ a.1.reg.byNonce.length = k ∧
      (∀ p ∈ a.1.reg.byNonce, p ∈ a.1.pools.pending.best) ∧
      (∀ y, y ∉ a.1.pools.baseFee.best) ∧ (∀ y, y ∉ a.1.pools.queued.best) ∧
      a.1.reg.deletedTxs = [] ∧
      (∀ p ∈ a.1.reg.byNonce, ∃ i, i < k ∧ (a.1.pools.mem p).Tx = capacityTx i ∧
        (a.1.pools.mem p).subPool = IsLocal) ∧
      (∀ p ∈ a.1.reg.byNonce, ∀ q ∈ a.1.reg.byNonce,
        (a.1.pools.mem p).Tx.senderID = (a.1.pools.mem q).Tx.senderID → p = q) ∧
      (∀ i, i < k → i + 1 ∈ a.2) ∧
      (∀ h, k < h → byHashGet a.1.reg.byHash h = none) := by
  induction k with
  | zero =>
    intro a ha
    subst ha
    refine ⟨State.empty_inv, rfl, ?_, ?_, ?_, rfl, ?_, ?_, ?_, ?_⟩
    · intro p hp; cases hp
    · intro y hy; cases hy
    · intro y hy; cases hy
    · intro p hp; cases hp
    · intro p hp; cases hp
    · intro i hi; omega
    · intro h _; rfl
  | succ k ih =>
    intro a ha
    obtain ⟨i1, i2, i3, i4, i5, i6, i7, i8, i9, i10⟩ := ih _ rfl
    have hstep : a = unsafeAddToPendingPool.step discardLocked
        (unsafeAddToPendingPool discardLocked State.empty (capacityBatch k))
        (capacityTx k, true) := by
      rw [ha, capacityBatch_succ]
      unfold unsafeAddToPendingPool
      rw [List.foldl_append]
      rfl
    generalize unsafeAddToPendingPool discardLocked State.empty (capacityBatch k) = a0
      at i1 i2 i3 i4 i5 i6 i7 i8 i9 i10 hstep
    have hkey : ∀ y ∈ a0.1.reg.byNonce, ¬ ((a0.1.pools.mem y).Tx.senderID = k + 1 ∧
        (a0.1.pools.mem y).Tx.nonce = 1) := by
      intro y hy hq
      obtain ⟨i, hi, hT, _⟩ := i7 y hy
      rw [hT] at hq
      have : i + 1 = k + 1 := hq.1
      omega
    obtain ⟨s1, s2, s3, s4, s5, s6, s7, s8⟩ :=
      step_fresh a0 (capacityTx k, true) i1 (i10 (k + 1) (Nat.lt_succ_self _)) hkey
    rw [← hstep] at s1 s2 s3 s4 s5 s6 s7 s8
    have hnext : ∀ p ∈ a0.1.reg.byNonce, p ≠ a0.1.next :=
      fun p hp e => Nat.lt_irrefl _ (e ▸ i1.2.2 p hp)
    have hnew := core_fields s5
    have hfacts : ∀ p ∈ a.1.reg.byNonce, ∃ i, i < k + 1 ∧ (a.1.pools.mem p).Tx = capacityTx i ∧
        (a.1.pools.mem p).subPool = IsLocal := by
      intro p hp
      rcases List.mem_cons.1 (s2.mem_iff.1 hp) with e | e
      · rw [e]
        exact ⟨k, Nat.lt_succ_self _, hnew.2.2, hnew.1⟩
      · obtain ⟨i, hi, hT, hS⟩ := i7 p e
        have hc := core_fields (s4 p (hnext p e))
        exact ⟨i, Nat.lt_succ_of_lt hi, hc.2.2.trans hT, hc.1.trans hS⟩
    refine ⟨s1, ?_, ?_, ?_, ?_, s7.trans i6, hfacts, ?_, ?_, ?_⟩
    · rw [s2.length_eq, List.length_cons, i2]
    · intro p hp
      have := (s3 .pending p).2
      rcases List.mem_cons.1 (s2.mem_iff.1 hp) with e | e
      · exact this (Or.inr ⟨rfl, e⟩)
      · exact this (Or.inl (i3 p e))
    · intro y hy
      rcases (s3 .baseFee y).1 hy with e | e
      · exact i4 y e
      · cases e.1
    · intro y hy
      rcases (s3 .queued y).1 hy with e | e
      · exact i5 y e
      · cases e.1
    · intro p hp q hq hpq
      have hsend : ∀ x ∈ a0.1.reg.byNonce, (a.1.pools.mem x).Tx.senderID ≠ k + 1 := by
        intro x hx e
        obtain ⟨i, hi, hT, _⟩ := i7 x hx
        rw [(core_fields (s4 x (hnext x hx))).2.2, hT] at e
        have : i + 1 = k + 1 := e
        omega
      have hsn : (a.1.pools.mem a0.1.next).Tx.senderID = k + 1 := by
        rw [hnew.2.2]; rfl
      rcases List.mem_cons.1 (s2.mem_iff.1 hp) with e | e
      · rcases List.mem_cons.1 (s2.mem_iff.1 hq) with e' | e'
        · rw [e, e']
        · rw [e, hsn] at hpq
          exact absurd hpq.symm (hsend q e')
      · rcases List.mem_cons.1 (s2.mem_iff.1 hq) with e' | e'
        · rw [e', hsn] at hpq
          exact absurd hpq (hsend p e)
        · refine i8 p e q e' ?_
          rw [← (core_fields (s4 p (hnext p e))).2.2, ← (core_fields (s4 q (hnext q e'))).2.2]
          exact hpq
    · intro i hi
      rw [s8]
      rcases Nat.lt_succ_iff_lt_or_eq.1 hi with h | h
      · exact Or.inl (i9 i h)
      · right; rw [h]; rfl
    · intro h hh
      rw [s6, if_neg (by intro e; have : h = k + 1 := e; omega)]
      exact i10 h (by omega)

/-! ### Scoring the batch -/

set_option maxRecDepth 100000 in
theorem all_bits_ge : ∀ x, x < 256 → (x &&& EnoughFeeCapProtocol ≠ 0 ∧ x &&& NoNonceGaps ≠ 0 ∧
    x &&& EnoughBalance ≠ 0 ∧ x &&& EnoughFeeCapBlock ≠ 0 ∧ x &&& IsLocal ≠ 0) → 0b11111 ≤ x := by
  decide

/-- The marker `onSenderChange` leaves on the only resident transaction of a
sender of the capacity scenario, when it is local: all five bits. -/
theorem capacity_score_one (m : Mem) (b : ByNonce) (hs : ByNonce.Sorted m b) (p : Ptr)
    (hp : p ∈ b) (i : Nat) (hT : (m p).Tx = capacityTx i)
    (hL : (m p).subPool &&& IsLocal ≠ 0)
    (hU : ∀ q ∈ b, (m q).Tx.senderID = (m p).Tx.senderID → q = p) :
    0b11111 ≤ (onSenderChange (i + 1) scenarioSender m b 50 70 p).subPool ∧
      (onSenderChange (i + 1) scenarioSender m b 50 70 p).subPool &&& IsLocal ≠ 0 := by
  have hid : (m p).Tx.senderID = i + 1 := by rw [hT]; rfl
  obtain ⟨pre, post, hr⟩ := residents_split hp hid
  have hnd : (pre ++ p :: post).Nodup :=
    hr ▸ (List.Nodup.sublist (List.filter_sublist _) hs.indexNodup)
  have hpre : pre = [] := by
    cases pre with
    | nil => rfl
    | cons x xs =>
      exfalso
      have hx : x ∈ ByNonce.residents m b (i + 1) := by
        rw [hr]; exact List.mem_cons_self _ _
      have hxp : x = p := hU x (mem_residents.1 hx).1 ((mem_residents.1 hx).2.trans hid.symm)
      rw [List.cons_append, List.nodup_cons] at hnd
      exact hnd.1 (hxp ▸ List.mem_append_right _ (List.mem_cons_self _ _))
  subst hpre
  rw [onSenderChange_at (i + 1) scenarioSender m b 50 70 hs [] p post hr, score_subPool, hT]
  have h50 : 50 ≤ (capacityTx i).feeCap := by show 50 ≤ 100; decide
  rw [if_pos h50]
  have hg : decide ((accFold scenarioSender 50 70 m (onSenderChange.init scenarioSender)
      []).noGapsNonce = (capacityTx i).nonce) = true := by
    rw [decide_eq_true_eq]; rfl
  have hb : decide (scenarioSender.nonce < (capacityTx i).nonce ∧
      ((accFold scenarioSender 50 70 m (onSenderChange.init scenarioSender)
        []).cumulativeRequiredBalance + needBalance (capacityTx i)) % two256 ≤
          scenarioSender.balance) = true := by
    rw [decide_eq_true_eq]
    have hn : needBalance (capacityTx i) = 2100000 := by
      unfold needBalance capacityTx
      norm_num [two256]
    have h0 : (accFold scenarioSender 50 70 m (onSenderChange.init scenarioSender)
        []).cumulativeRequiredBalance = 0 := rfl
    rw [hn, h0]
    refine ⟨by show 0 < 1; decide, ?_⟩
    norm_num [two256, scenarioSender]
  have hf : decide (70 ≤ (capacityTx i).feeCap) = true := by
    rw [decide_eq_true_eq]; show 70 ≤ 100; decide
  rw [hg, hb, hf]
  obtain ⟨b1, b2, b3, b4, b5, b6⟩ := mkMarker_bits _ (andNot_protocol_lt (m p).subPool)
    true true true
  have hloc : mkMarker (andNot (m p).subPool EnoughFeeCapProtocol) true true true &&& IsLocal ≠
      0 := by
    rw [b5, andNot_isLocal]; exact hL
  exact ⟨all_bits_ge _ b6 ⟨b1, b2.2 rfl, b3.2 rfl, b4.2 rfl, hloc⟩, hloc⟩

/-- Scoring the senders of the capacity scenario never fails, moves no record,
and leaves all five bits on the transaction of every sender it visits. -/
theorem capacity_scored (ids : List Nat) : ∀ (st : State),
    ByNonce.Sorted st.pools.mem st.reg.byNonce →
    (∀ p ∈ st.reg.byNonce, ∃ i, (st.pools.mem p).Tx = capacityTx i) →
    (∀ p ∈ st.reg.byNonce, (st.pools.mem p).subPool &&& IsLocal ≠ 0) →
    (∀ p ∈ st.reg.byNonce, ∀ q ∈ st.reg.byNonce,
      (st.pools.mem p).Tx.senderID = (st.pools.mem q).Tx.senderID → p = q) →
    (scoreSenders emptyKv capacitySenders 50 70 ids st).2 = none ∧
      (scoreSenders emptyKv capacitySenders 50 70 ids st).1.reg = st.reg ∧
      (scoreSenders emptyKv capacitySenders 50 70 ids st).1.next = st.next ∧
      (scoreSenders emptyKv capacitySenders 50 70 ids st).1.pools.pending = st.pools.pending ∧
      (scoreSenders emptyKv capacitySenders 50 70 ids st).1.pools.baseFee = st.pools.baseFee ∧
      (scoreSenders emptyKv capacitySenders 50 70 ids st).1.pools.queued = st.pools.queued ∧
      (∀ p, shape ((scoreSenders emptyKv capacitySenders 50 70 ids st).1.pools.mem p) =
        shape (st.pools.mem p)) ∧
      (∀ p ∈ st.reg.byNonce,
        (0b11111 ≤ (st.pools.mem p).subPool ∨ (st.pools.mem p).Tx.senderID ∈ ids) →
        0b11111 ≤ ((scoreSenders emptyKv capacitySenders 50 70 ids st).1.pools.mem p).subPool) := by
  induction ids with
  | nil =>
    intro st _ _ _ _
    refine ⟨rfl, rfl, rfl, rfl, rfl, rfl, fun _ => rfl, ?_⟩
    intro p _ h
    rcases h with h | h
    · exact h
    · cases h
  | cons id ids ih =>
    intro st hs hT hL hU
    have hinfo : capacitySenders.info id emptyKv = .ok scenarioSender := rfl
    rw [scoreSenders, hinfo]
    dsimp only
    have hsh : ∀ p, shape (onSenderChange id scenarioSender st.pools.mem st.reg.byNonce 50 70 p) =
        shape (st.pools.mem p) := fun p => onSenderChange_shape _ _ _ _ _ _ p
    have hTx : ∀ p, (onSenderChange id scenarioSender st.pools.mem st.reg.byNonce 50 70 p).Tx =
        (st.pools.mem p).Tx := fun p => shape_Tx (hsh p)
    have hone : ∀ p ∈ st.reg.byNonce, (st.pools.mem p).Tx.senderID = id →
        0b11111 ≤ (onSenderChange id scenarioSender st.pools.mem st.reg.byNonce 50 70 p).subPool ∧
          (onSenderChange id scenarioSender st.pools.mem st.reg.byNonce 50 70 p).subPool &&&
            IsLocal ≠ 0 := by
      intro p hp hid
      obtain ⟨i, hi⟩ := hT p hp
      have : id = i + 1 := by rw [← hid, hi]; rfl
      rw [this]
      exact capacity_score_one _ _ hs p hp i hi (hL p hp) (fun q hq e => hU q hq p hp e)
    have hoth : ∀ p ∈ st.reg.byNonce, (st.pools.mem p).Tx.senderID ≠ id →
        onSenderChange id scenarioSender st.pools.mem st.reg.byNonce 50 70 p = st.pools.mem p :=
      fun p _ hid => onSenderChange_other _ _ _ _ _ _ hs p (fun h => hid (mem_residents.1 h).2)
    obtain ⟨r1, r2, r3, r4, r5, r6, r7, r8⟩ := ih
      { st with pools := { st.pools with
          mem := onSenderChange id scenarioSender st.pools.mem st.reg.byNonce 50 70 } }
      (hs.sortedCongr (fun p _ => hTx p))
      (fun p hp => by obtain ⟨i, hi⟩ := hT p hp; exact ⟨i, (hTx p).trans hi⟩)
      (fun p hp => by
        by_cases hid : (st.pools.mem p).Tx.senderID = id
        · exact (hone p hp hid).2
        · show (onSenderChange id scenarioSender st.pools.mem st.reg.byNonce 50 70 p).subPool &&&
            IsLocal ≠ 0
          rw [hoth p hp hid]; exact hL p hp)
      (fun p hp q hq e => hU p hp q hq (by rw [← hTx p, ← hTx q]; exact e))
    refine ⟨r1, r2, r3, r4, r5, r6, fun p => (r7 p).trans (hsh p), ?_⟩
    intro p hp h
    refine r8 p hp ?_
    by_cases hid : (st.pools.mem p).Tx.senderID = id
    · exact Or.inl (hone p hp hid).1
    · rcases h with h | h
      · left
        show 0b11111 ≤ (onSenderChange id scenarioSender st.pools.mem st.reg.byNonce 50 70
          p).subPool
        rw [hoth p hp hid]; exact h
      · right
        show (onSenderChange id scenarioSender st.pools.mem st.reg.byNonce 50 70 p).Tx.senderID ∈
          ids
        rw [hTx p]
        rcases List.mem_cons.1 h with e | e
        · exact absurd e hid
        · exact e

/-! ### `EnforceInvariants` and `promote` on the scored batch -/

/-- The three calls of `EnforceInvariants` keep the members of every
sub-pool. -/
theorem enforceAll_perm {s : Pools} {R : List Ptr} (h : s.Placed R) :
    (enforceAll s).pending.best.Perm s.pending.best ∧
      (enforceAll s).baseFee.best.Perm s.baseFee.best ∧
      (enforceAll s).queued.best.Perm s.queued.best := by
  obtain ⟨h1, _⟩ := h.enforced .pending
  obtain ⟨h2, _⟩ := h1.enforced .baseFee
  have t0 := ((Pools.placed_iff _ _).1 h).2.1 .pending
  have t1 := ((Pools.placed_iff _ _).1 h1).2.1 .baseFee
  have t2 := ((Pools.placed_iff _ _).1 h2).2.1 .queued
  rw [Pools.put_mem] at t1 t2
  exact ⟨(SubPool.EnforceInvariants_tagged _ _ t0).2.2.2.1,
    (SubPool.EnforceInvariants_tagged _ _ t1).2.2.2.1,
    (SubPool.EnforceInvariants_tagged _ _ t2).2.2.2.1⟩

theorem SubPool.worst_marker_struct {m : Mem} {p : SubPool} (hs : p.Struct m) (hl : 0 < p.Len) :
    ∃ x ∈ p.best, markerAt m p.Worst = (m x).subPool := by
  obtain ⟨y, hy⟩ := List.exists_mem_of_length_pos (show 0 < p.best.length from hl)
  have h1 : 0 < p.worst.length := List.length_pos_of_mem (hs.2.2.1 y hy)
  refine ⟨elemAt p.worst 0, hs.2.2.2 _ (elemAt_mem h1), ?_⟩
  simp [markerAt, SubPool.Worst, Nat.pos_iff_ne_zero.1 h1]

/-- On the empty pool `onNewTxs` with the first `n` transactions of the capacity
scenario ends without error, keeps all `n` transactions in `pending` and
discards none, whatever `n` is. -/
theorem capacity_intake (n : Nat) (hn : 0 < n) :
    (onNewTxs emptyKv capacitySenders (capacityBatch n) 50 70 discardLocked State.empty).2 =
        none ∧
      (onNewTxs emptyKv capacitySenders (capacityBatch n) 50 70 discardLocked
        State.empty).1.pools.pending.Len = n ∧
      (onNewTxs emptyKv capacitySenders (capacityBatch n) 50 70 discardLocked
        State.empty).1.reg.deletedTxs = [] ∧
      (onNewTxs emptyKv capacitySenders (capacityBatch n) 50 70 discardLocked
        State.empty).1.reg.byNonce.length = n ∧
      (∀ p ∈ (onNewTxs emptyKv capacitySenders (capacityBatch n) 50 70 discardLocked
          State.empty).1.pools.pending.best,
        0b11111 ≤ ((onNewTxs emptyKv capacitySenders (capacityBatch n) 50 70 discardLocked
          State.empty).1.pools.mem p).subPool) ∧
      (onNewTxs emptyKv capacitySenders (capacityBatch n) 50 70 discardLocked
        State.empty).1.pools.baseFee.Len = 0 ∧
      (onNewTxs emptyKv capacitySenders (capacityBatch n) 50 70 discardLocked
        State.empty).1.pools.queued.Len = 0 ∧
      (∀ p ∈ (onNewTxs emptyKv capacitySenders (capacityBatch n) 50 70 discardLocked
          State.empty).1.reg.byNonce,
        ((onNewTxs emptyKv capacitySenders (capacityBatch n) 50 70 discardLocked
          State.empty).1.pools.mem p).Tx.senderID ≤ n) ∧
      ∀ k, n < k → byHashGet (onNewTxs emptyKv capacitySenders (capacityBatch n) 50 70
        discardLocked State.empty).1.reg.byHash k = none := by
  have hany : ¬ ((capacityBatch n).any (fun e => e.1.senderID == 0) = true) := by
    rw [List.any_eq_true]
    rintro ⟨e, he, h0⟩
    obtain ⟨i, _, rfl⟩ := List.mem_map.1 he
    simp [capacityTx] at h0
  unfold onNewTxs
  rw [if_neg hany]
  obtain ⟨i1, i2, i3, i4, i5, i6, i7, i8, i9, i10⟩ := capacity_added n _ rfl
  generalize unsafeAddToPendingPool discardLocked State.empty (capacityBatch n) = a
    at i1 i2 i3 i4 i5 i6 i7 i8 i9 i10
  have hinv1 := scoreSenders_inv emptyKv capacitySenders 50 70 a.2 a.1 i1
  obtain ⟨r1, r2, r3, r4, r5, r6, r7, r8⟩ := capacity_scored a.2 a.1 i1.1.1
    (fun p hp => by obtain ⟨i, _, hT, _⟩ := i7 p hp; exact ⟨i, hT⟩)
    (fun p hp => by obtain ⟨i, _, _, hS⟩ := i7 p hp; rw [hS]; decide)
    i8
  dsimp only
  generalize scoreSenders emptyKv capacitySenders 50 70 a.2 a.1 = r at hinv1 r1 r2 r3 r4 r5 r6 r7 r8
  obtain ⟨st1, o⟩ := r
  dsimp only at hinv1 r1 r2 r3 r4 r5 r6 r7 r8
  subst r1
  dsimp only
  obtain ⟨hreg, hpl, hfr⟩ := hinv1
  obtain ⟨p1, c1⟩ := enforceAll_placed hpl
  obtain ⟨e1, e2, e3⟩ := enforceAll_perm hpl
  have hmk : ∀ p ∈ st1.reg.byNonce, 0b11111 ≤ (st1.pools.mem p).subPool := by
    intro p hp
    rw [r2] at hp
    refine r8 p hp (Or.inr ?_)
    obtain ⟨i, hi, hT, _⟩ := i7 p hp
    rw [hT]
    exact i9 i hi
  have hlen : st1.pools.pending.best.length = n := by
    rw [r4, ← i2]
    refine List.Perm.length_eq ((List.perm_ext_iff_of_nodup ?_ i1.1.1.indexNodup).2 ?_)
    · exact (((Pools.placed_iff _ _).1 i1.2.1).2.1 .pending).1.1.nodup
    · intro x
      exact ⟨fun hx => ((Pools.placed_iff _ _).1 i1.2.1).2.2.1 .pending x hx, fun hx => i3 x hx⟩
  have hb0 : st1.pools.baseFee.best = [] := by
    rw [r5]; exact List.eq_nil_iff_forall_not_mem.2 i4
  have hq0 : st1.pools.queued.best = [] := by
    rw [r6]; exact List.eq_nil_iff_forall_not_mem.2 i5
  have hEl : (enforceAll st1.pools).pending.Len = n := by
    unfold SubPool.Len
    rw [e1.length_eq, hlen]
  have hEb : (enforceAll st1.pools).baseFee.Len = 0 := by
    unfold SubPool.Len
    rw [e2.length_eq, hb0]; rfl
  have hEq : (enforceAll st1.pools).queued.Len = 0 := by
    unfold SubPool.Len
    rw [e3.length_eq, hq0]; rfl
  have hw : 0b11111 ≤ markerAt (enforceAll st1.pools).mem (enforceAll st1.pools).pending.Worst := by
    have hst : (enforceAll st1.pools).pending.Struct (enforceAll st1.pools).mem :=
      (((Pools.placed_iff _ _).1 p1).2.1 .pending).1
    obtain ⟨x, hx, hm⟩ := SubPool.worst_marker_struct hst (by rw [hEl]; exact hn)
    rw [hm, core_subPool (c1 x)]
    exact hmk x (((Pools.placed_iff _ _).1 p1).2.2.1 .pending x hx)
  rw [promote_all_local discardLocked (enforceAll st1.pools) st1.reg (by rw [hEl]; exact hn) hw
    hEb hEq]
  dsimp only
  refine ⟨rfl, hEl, ?_, ?_, ?_, hEb, hEq, ?_, ?_⟩
  · rw [r2]; exact i6
  · rw [r2]; exact i2
  · intro p hp
    rw [core_subPool (c1 p)]
    exact hmk p (((Pools.placed_iff _ _).1 p1).2.2.1 .pending p hp)
  · intro p hp
    rw [r2] at hp
    obtain ⟨i, hi, hT, _⟩ := i7 p hp
    rw [core_Tx (c1 p), shape_Tx (r7 p), hT]
    show i + 1 ≤ n
    omega
  · intro k hk
    rw [r2]
    exact i10 k hk

/-! ## `onNewTxs` on a full pool -/

/-- After the three calls of `EnforceInvariants` the sub-pools have valid
heaps, share no element, and their members have the markers they had. -/
theorem enforceAll_inv3 {s : Pools} {R : List Ptr} (h : s.Placed R) (PA PB PC : Nat → Prop)
    (hA : AllMk PA s.mem s.pending.best) (hB : AllMk PB s.mem s.baseFee.best)
    (hC : AllMk PC s.mem s.queued.best) : Pools.Inv PA PB PC (enforceAll s) := by
  obtain ⟨h1, _⟩ := h.enforced .pending
  obtain ⟨h2, _⟩ := h1.enforced .baseFee
  have t0 := ((Pools.placed_iff _ _).1 h).2.1 .pending
  have t1 := ((Pools.placed_iff _ _).1 h1).2.1 .baseFee
  have t2 := ((Pools.placed_iff _ _).1 h2).2.1 .queued
  rw [Pools.put_mem] at t1 t2
  obtain ⟨_, vp, _, pp, _, _⟩ := SubPool.EnforceInvariants_tagged _ _ t0
  obtain ⟨_, vb, _, pb, fb, _⟩ := SubPool.EnforceInvariants_tagged _ _ t1
  obtain ⟨_, vq, _, pq, fq, _⟩ := SubPool.EnforceInvariants_tagged _ _ t2
  obtain ⟨_, c⟩ := enforceAll_placed h
  have dPB : ∀ y ∈ s.pending.best, y ∉ s.baseFee.best :=
    fun y hy => @Pools.Placed.disjoint _ _ h Which.pending Which.baseFee (by decide) y hy
  have dPQ : ∀ y ∈ s.pending.best, y ∉ s.queued.best :=
    fun y hy => @Pools.Placed.disjoint _ _ h Which.pending Which.queued (by decide) y hy
  have dBQ : ∀ y ∈ s.baseFee.best, y ∉ s.queued.best :=
    fun y hy => @Pools.Placed.disjoint _ _ h Which.baseFee Which.queued (by decide) y hy
  have mk : ∀ {P : Nat → Prop} {l l' : List Ptr}, AllMk P s.mem l → l'.Perm l →
      AllMk P (enforceAll s).mem l' := by
    intro P l l' hl hp y hy
    rw [core_subPool (c y)]
    exact hl y (hp.mem_iff.1 hy)
  refine ⟨?_, ?_, vq, ?_, ?_, ?_, mk hA pp, mk hB pb, mk hC pq⟩
  · exact (vp.of_frame fb (fun y hy => dPB y (pp.mem_iff.1 hy))).of_frame fq
      (fun y hy => dPQ y (pp.mem_iff.1 hy))
  · exact vb.of_frame fq (fun y hy => dBQ y (pb.mem_iff.1 hy))
  · exact fun y hy hy' => dPB y (pp.mem_iff.1 hy) (pb.mem_iff.1 hy')
  · exact fun y hy hy' => dPQ y (pp.mem_iff.1 hy) (pq.mem_iff.1 hy')
  · exact fun y hy hy' => dBQ y (pb.mem_iff.1 hy) (pq.mem_iff.1 hy')

/-! ### The loops of `promote` that change nothing -/

theorem loop1_stop {D : Type} (discard : Mem → Ptr → D → D) (f : Nat) (s : Pools) (d : D)
    (hv : s.pending.Valid s.mem) (hm : AllMk (fun v => 0b11110 ≤ v) s.mem s.pending.best) :
    promote.loop1 discard f (s, d) = (s, d) := by
  cases f with
  | zero => rfl
  | succ f =>
    rw [promote.loop1]
    split
    · rename_i hl
      obtain ⟨x, hx, he⟩ := SubPool.worst_marker_mem hv hl
      dsimp only
      rw [if_pos (by rw [he]; exact hm x hx)]
    · rfl

theorem loop2_stop {D : Type} (discard : Mem → Ptr → D → D) (f : Nat) (s : Pools) (d : D)
    (hl : s.pending.Len ≤ PendingSubPoolLimit) : promote.loop2 discard f (s, d) = (s, d) := by
  cases f with
  | zero => rfl
  | succ f => rw [promote.loop2, if_neg (by omega)]

theorem loop3_stop {D : Type} (f : Nat) (s : Pools) (d : D) (hl : s.baseFee.Len = 0) :
    promote.loop3 f (s, d) = (s, d) := by
  cases f with
  | zero => rfl
  | succ f => rw [promote.loop3, if_neg (by omega)]

theorem loop4_stop {D : Type} (discard : Mem → Ptr → D → D) (f : Nat) (s : Pools) (d : D)
    (hl : s.baseFee.Len = 0) : promote.loop4 discard f (s, d) = (s, d) := by
  cases f with
  | zero => rfl
  | succ f => rw [promote.loop4, if_neg (by omega)]

theorem loop5_stop {D : Type} (discard : Mem → Ptr → D → D) (f : Nat) (s : Pools) (d : D)
    (hl : s.baseFee.Len = 0) : promote.loop5 discard f (s, d) = (s, d) := by
  cases f with
  | zero => rfl
  | succ f => rw [promote.loop5, if_neg (by omega)]

theorem loop6_empty {D : Type} (f : Nat) (s : Pools) (d : D) (hl : s.queued.Len = 0) :
    promote.loop6 f (s, d) = (s, d) := by
  cases f with
  | zero => rfl
  | succ f => rw [promote.loop6, if_neg (by omega)]

theorem loop6_stop {D : Type} (f : Nat) (s : Pools) (d : D)
    (hm : AllMk (fun v => v < 0b11100) s.mem s.queued.best) :
    promote.loop6 f (s, d) = (s, d) := by
  cases f with
  | zero => rfl
  | succ f =>
    rw [promote.loop6]
    split
    · rename_i hl
      obtain ⟨x, hx, he⟩ := SubPool.best_marker_mem (m := s.mem) hl
      dsimp only
      rw [if_pos (by rw [he]; exact hm x hx)]
    · rfl

theorem loop7_stop {D : Type} (discard : Mem → Ptr → D → D) (f : Nat) (s : Pools) (d : D)
    (hv : s.queued.Valid s.mem) (hm : AllMk (fun v => 0b10000 ≤ v) s.mem s.queued.best) :
    promote.loop7 discard f (s, d) = (s, d) := by
  cases f with
  | zero => rfl
  | succ f =>
    rw [promote.loop7]
    split
    · rename_i hl
      obtain ⟨x, hx, he⟩ := SubPool.worst_marker_mem hv hl
      dsimp only
      rw [if_pos (by rw [he]; exact hm x hx)]
    · rfl

theorem loop8_stop {D : Type} (discard : Mem → Ptr → D → D) (f : Nat) (s : Pools) (d : D)
    (hl : s.queued.Len ≤ QueuedSubPoolLimit) : promote.loop8 discard f (s, d) = (s, d) := by
  cases f with
  | zero => rfl
  | succ f => rw [promote.loop8, if_neg (by omega)]

/-! ### One iteration of a loop of `promote` -/

theorem loop1_moveQ {D : Type} (discard : Mem → Ptr → D → D) (f : Nat) (s : Pools) (d : D)
    (hl : 0 < s.pending.Len) (h1 : 0b10000 ≤ markerAt s.mem s.pending.Worst)
    (h2 : markerAt s.mem s.pending.Worst < 0b11100) :
    promote.loop1 discard (f + 1) (s, d) =
      promote.loop1 discard f
        ({ s with mem := (SubPool.Add (SubPool.PopWorst s.mem s.pending).1.1 s.queued
                    (SubPool.PopWorst s.mem s.pending).2).1,
                  pending := (SubPool.PopWorst s.mem s.pending).1.2,
                  queued := (SubPool.Add (SubPool.PopWorst s.mem s.pending).1.1 s.queued
                    (SubPool.PopWorst s.mem s.pending).2).2 }, d) := by
  rw [promote.loop1, if_pos hl]
  dsimp only
  rw [if_neg (by omega), if_neg (by omega), if_pos h1]

theorem loop2_drop {D : Type} (discard : Mem → Ptr → D → D) (f : Nat) (s : Pools) (d : D)
    (hl : PendingSubPoolLimit < s.pending.Len) (h1 : markerAt s.mem s.pending.Worst < 0b11111) :
    promote.loop2 discard (f + 1) (s, d) =
      promote.loop2 discard f
        ({ s with mem := (SubPool.PopWorst s.mem s.pending).1.1,
                  pending := (SubPool.PopWorst s.mem s.pending).1.2 },
          discard (SubPool.PopWorst s.mem s.pending).1.1 (SubPool.PopWorst s.mem s.pending).2 d) := by
  rw [promote.loop2, if_pos hl]
  dsimp only
  rw [if_neg (by omega)]

theorem loop6_moveP {D : Type} (f : Nat) (s : Pools) (d : D)
    (hl : 0 < s.queued.Len) (h1 : 0b11110 ≤ markerAt s.mem s.queued.Best) :
    promote.loop6 (f + 1) (s, d) =
      promote.loop6 f
        ({ s with mem := (SubPool.Add (SubPool.PopBest s.mem s.queued).1.1 s.pending
                    (SubPool.PopBest s.mem s.queued).2).1,
                  queued := (SubPool.PopBest s.mem s.queued).1.2,
                  pending := (SubPool.Add (SubPool.PopBest s.mem s.queued).1.1 s.pending
                    (SubPool.PopBest s.mem s.queued).2).2 }, d) := by
  rw [promote.loop6, if_pos hl]
  dsimp only
  rw [if_neg (by omega), if_neg (by omega)]

theorem loop7_empty {D : Type} (discard : Mem → Ptr → D → D) (f : Nat) (s : Pools) (d : D)
    (hl : s.queued.Len = 0) : promote.loop7 discard f (s, d) = (s, d) := by
  cases f with
  | zero => rfl
  | succ f => rw [promote.loop7, if_neg (by omega)]

/-- What `PopWorst` does to the first of three sub-pools with valid heaps. -/
theorem popWorst_facts {m : Mem} {A B C : SubPool} {PA PB PC : Nat → Prop}
    (h : Inv3 m A B C PA PB PC) (hl : 0 < A.Len) :
    Inv3 (SubPool.PopWorst m A).1.1 (SubPool.PopWorst m A).1.2 B C PA PB PC ∧
      (SubPool.PopWorst m A).2 ∈ A.best ∧
      (SubPool.PopWorst m A).2 ∉ (SubPool.PopWorst m A).1.2.best ∧
      ((SubPool.PopWorst m A).2 :: (SubPool.PopWorst m A).1.2.best).Perm A.best ∧
      (∀ y, core ((SubPool.PopWorst m A).1.1 y) = core (m y)) ∧
      markerAt m A.Worst = (m (SubPool.PopWorst m A).2).subPool ∧
      (∀ y ∈ A.best, (m (SubPool.PopWorst m A).2).subPool ≤ (m y).subPool) := by
  obtain ⟨_, hrv, hrp, hrf, _⟩ := SubPool.PopWorst_spec m A h.vA hl
  obtain ⟨i, a, b⟩ := h.popped _ hrv hrp hrf
  refine ⟨i, a, b, hrp, hrf.core, SubPool.worst_eq h.vA hl, ?_⟩
  intro y hy
  rw [← SubPool.worst_eq h.vA hl]
  exact SubPool.worst_min h.vA hl y hy

/-- What `PopBest` does to the first of three sub-pools with valid heaps. -/
theorem popBest_facts {m : Mem} {A B C : SubPool} {PA PB PC : Nat → Prop}
    (h : Inv3 m A B C PA PB PC) (hl : 0 < A.Len) :
    Inv3 (SubPool.PopBest m A).1.1 (SubPool.PopBest m A).1.2 B C PA PB PC ∧
      (SubPool.PopBest m A).2 ∈ A.best ∧
      (SubPool.PopBest m A).2 ∉ (SubPool.PopBest m A).1.2.best ∧
      ((SubPool.PopBest m A).2 :: (SubPool.PopBest m A).1.2.best).Perm A.best ∧
      (∀ y, core ((SubPool.PopBest m A).1.1 y) = core (m y)) ∧
      markerAt m A.Best = (m (SubPool.PopBest m A).2).subPool := by
  obtain ⟨_, hrv, hrp, hrf, _⟩ := SubPool.PopBest_spec m A h.vA hl
  obtain ⟨i, a, b⟩ := h.popped _ hrv hrp hrf
  exact ⟨i, a, b, hrp, hrf.core, SubPool.best_eq h.vA hl⟩

/-- Step 2 of `promote` on a `pending` that is two over its limit and has two
members without the bit `IsLocal`: both iterations discard. -/
theorem loop2_trim2 (f : Nat) (s : Pools) (d : Registry) (x y0 : Ptr)
    (h : Pools.Inv (fun _ => True) (fun _ => True) (fun _ => True) s)
    (hx : x ∈ s.pending.best) (hy : y0 ∈ s.pending.best) (hxy : x ≠ y0)
    (mx : (s.mem x).subPool < 0b11111) (my : (s.mem y0).subPool < 0b11111)
    (hl : s.pending.Len = PendingSubPoolLimit + 2) :
    ∃ s2 d2, promote.loop2 discardLocked (f + 2) (s, d) = (s2, d2) ∧
      s2.pending.Len = PendingSubPoolLimit ∧ s2.baseFee = s.baseFee ∧ s2.queued = s.queued := by
  have hl0 : 0 < s.pending.Len := by omega
  obtain ⟨i1, a1, b1, p1, c1, e1, n1⟩ := popWorst_facts h hl0
  have hw1 : markerAt s.mem s.pending.Worst < 0b11111 := by
    rw [e1]; exact Nat.lt_of_le_of_lt (n1 x hx) mx
  rw [loop2_drop discardLocked (f + 1) s d (by omega) hw1]
  have hlen1 : (SubPool.PopWorst s.mem s.pending).1.2.Len = PendingSubPoolLimit + 1 := by
    have := SubPool.PopWorst_len h.vA hl0
    omega
  obtain ⟨z, hz, mz⟩ : ∃ z, z ∈ (SubPool.PopWorst s.mem s.pending).1.2.best ∧
      ((SubPool.PopWorst s.mem s.pending).1.1 z).subPool < 0b11111 := by
    by_cases hq : (SubPool.PopWorst s.mem s.pending).2 = x
    · refine ⟨y0, ?_, ?_⟩
      · rcases List.mem_cons.1 (p1.mem_iff.2 hy) with e | e
        · exact absurd (e.trans hq) hxy.symm
        · exact e
      · rw [core_subPool (c1 y0)]; exact my
    · refine ⟨x, ?_, ?_⟩
      · rcases List.mem_cons.1 (p1.mem_iff.2 hx) with e | e
        · exact absurd e.symm hq
        · exact e
      · rw [core_subPool (c1 x)]; exact mx
  have hl1 : 0 < (SubPool.PopWorst s.mem s.pending).1.2.Len := by omega
  obtain ⟨i2, _, _, _, _, e2, n2⟩ := popWorst_facts i1 hl1
  have hw2 : markerAt (SubPool.PopWorst s.mem s.pending).1.1
      (SubPool.PopWorst s.mem s.pending).1.2.Worst < 0b11111 := by
    rw [e2]; exact Nat.lt_of_le_of_lt (n2 z hz) mz
  rw [loop2_drop discardLocked f _ _ (by dsimp only; omega) hw2]
  dsimp only
  have hlen2 := SubPool.PopWorst_len i1.vA hl1
  rw [loop2_stop discardLocked f _ _ (by dsimp only; omega)]
  exact ⟨_, _, rfl, by dsimp only; omega, rfl, rfl⟩

/-- The function `promote` on a `pending` that holds Pending candidates only, is
two over its limit and has two members without the bit `IsLocal`, the other
sub-pools being empty: `pending` is cut to its limit. -/
theorem promote_trim2 (s : Pools) (d : Registry) (x y0 : Ptr)
    (h : Pools.Inv (fun v => 0b11110 ≤ v) (fun _ => True) (fun _ => True) s)
    (hx : x ∈ s.pending.best) (hy : y0 ∈ s.pending.best) (hxy : x ≠ y0)
    (mx : (s.mem x).subPool < 0b11111) (my : (s.mem y0).subPool < 0b11111)
    (hl : s.pending.Len = PendingSubPoolLimit + 2) (hb : s.baseFee.Len = 0)
    (hq : s.queued.Len = 0) :
    (promote discardLocked (s, d)).1.pending.Len = PendingSubPoolLimit := by
  have e1 := loop1_stop discardLocked (s.pending.Len + 1) s d h.vA h.mA
  obtain ⟨s2, d2, e2, l2, b2, q2⟩ := loop2_trim2 (PendingSubPoolLimit + 1) s d x y0
    (Inv3.weaken h (fun _ _ => trivial) (fun _ h => h) (fun _ h => h)) hx hy hxy mx my hl
  have hf : s.pending.Len + 1 = PendingSubPoolLimit + 1 + 2 := by omega
  have hb2 : s2.baseFee.Len = 0 := by rw [b2]; exact hb
  have hq2 : s2.queued.Len = 0 := by rw [q2]; exact hq
  unfold promote
  dsimp only
  rw [e1]
  dsimp only
  rw [hf, e2]
  dsimp only
  rw [loop3_stop _ s2 d2 hb2]
  dsimp only
  rw [loop4_stop _ _ s2 d2 hb2]
  dsimp only
  rw [loop5_stop _ _ s2 d2 hb2]
  dsimp only
  rw [loop6_empty _ s2 d2 hq2]
  dsimp only
  rw [loop7_empty _ _ s2 d2 hq2]
  dsimp only
  rw [loop8_stop _ _ s2 d2 (by omega)]
  exact l2

/-- The function `promote` on a `pending` within one of its limit whose only
member below `0b11111` has a marker for `queued`, the other sub-pools being
empty: that member moves to `queued`, nothing is discarded. -/
theorem promote_demote (s : Pools) (d : Registry) (x : Ptr)
    (h : Pools.Inv (fun _ => True) (fun _ => True) (fun _ => True) s)
    (hx : x ∈ s.pending.best) (mx1 : 0b10000 ≤ (s.mem x).subPool)
    (mx2 : (s.mem x).subPool < 0b11100)
    (ho : ∀ y ∈ s.pending.best, y ≠ x → 0b11111 ≤ (s.mem y).subPool)
    (hl : s.pending.Len ≤ PendingSubPoolLimit + 1) (hb : s.baseFee.Len = 0)
    (hq : s.queued.Len = 0) :
    (promote discardLocked (s, d)).2 = d ∧
      (promote discardLocked (s, d)).1.pending.Len + 1 = s.pending.Len ∧
      (∀ y ∈ (promote discardLocked (s, d)).1.pending.best, y ∈ s.pending.best ∧ y ≠ x) ∧
      (promote discardLocked (s, d)).1.baseFee.Len = 0 ∧
      (promote discardLocked (s, d)).1.queued.Len = 1 ∧
      x ∈ (promote discardLocked (s, d)).1.queued.best ∧
      (∀ y, core ((promote discardLocked (s, d)).1.mem y) = core (s.mem y)) := by
  have hl0 : 0 < s.pending.Len := List.length_pos_of_mem hx
  obtain ⟨i1, a1, b1, p1, c1, e1, n1⟩ := popWorst_facts h hl0
  have hpop : (SubPool.PopWorst s.mem s.pending).2 = x := by
    by_contra hne
    have := ho _ a1 hne
    have := n1 x hx
    omega
  have hqe : s.queued.best = [] := List.length_eq_zero.1 hq
  obtain ⟨i2, p2, c2⟩ := i1.swap23.added x (hpop ▸ b1) (by rw [hqe]; exact List.not_mem_nil x)
    (fun hxB => h.dAB x hx hxB) trivial
  have hstep := loop1_moveQ discardLocked s.pending.Len s d hl0 (by rw [e1, hpop]; exact mx1)
    (by rw [e1, hpop]; exact mx2)
  rw [hpop] at hstep
  have hcore : ∀ y, core ((SubPool.Add (SubPool.PopWorst s.mem s.pending).1.1 s.queued x).1 y) =
      core (s.mem y) := fun y => (c2 y).trans (c1 y)
  have hmem : ∀ y ∈ (SubPool.PopWorst s.mem s.pending).1.2.best, y ∈ s.pending.best ∧ y ≠ x := by
    intro y hy
    refine ⟨p1.mem_iff.1 (List.mem_cons_of_mem _ hy), fun e => ?_⟩
    rw [e, ← hpop] at hy
    exact b1 hy
  have hA : AllMk (fun v => 0b11110 ≤ v)
      (SubPool.Add (SubPool.PopWorst s.mem s.pending).1.1 s.queued x).1
      (SubPool.PopWorst s.mem s.pending).1.2.best := by
    intro y hy
    rw [core_subPool (hcore y)]
    have := ho y (hmem y hy).1 (hmem y hy).2
    omega
  have hQ : ∀ y ∈ (SubPool.Add (SubPool.PopWorst s.mem s.pending).1.1 s.queued x).2.best,
      y = x := by
    intro y hy
    have := p2.mem_iff.1 hy
    rw [hqe] at this
    exact List.mem_singleton.1 this
  have hQl : (SubPool.Add (SubPool.PopWorst s.mem s.pending).1.1 s.queued x).2.Len = 1 := by
    unfold SubPool.Len
    rw [p2.length_eq, hqe]
    rfl
  have hlen := SubPool.PopWorst_len h.vA hl0
  unfold promote
  dsimp only
  rw [hstep, loop1_stop discardLocked _ _ d i2.vA hA]
  dsimp only
  rw [loop2_stop discardLocked _ _ d (by dsimp only; omega)]
  dsimp only
  rw [loop3_stop _ _ d (by exact hb)]
  dsimp only
  rw [loop4_stop _ _ _ d (by exact hb)]
  dsimp only
  rw [loop5_stop _ _ _ d (by exact hb)]
  dsimp only
  rw [loop6_stop _ _ d (by
    intro y hy
    rw [hQ y hy, core_subPool (hcore x)]
    exact mx2)]
  dsimp only
  rw [loop7_stop _ _ _ d i2.vB (by
    intro y hy
    rw [hQ y hy, core_subPool (hcore x)]
    exact mx1)]
  dsimp only
  rw [loop8_stop _ _ _ d (by dsimp only; rw [hQl]; decide)]
  refine ⟨rfl, hlen, hmem, hb, hQl, ?_, hcore⟩
  exact p2.mem_iff.2 (List.mem_cons_self _ _)

/-- The function `promote` on a `pending` that is one over its limit and whose
only member below `0b11111` is a Pending candidate, while the only member of
`queued` is a Pending candidate too and `baseFee` is empty: step 2 discards the
member of `pending`, and step 6 then moves the member of `queued` into
`pending`, which is left one over its limit. -/
theorem promote_swap (s : Pools) (d : Registry) (x y0 : Ptr)
    (h : Pools.Inv (fun v => 0b11110 ≤ v) (fun _ => True) (fun _ => True) s)
    (hy : y0 ∈ s.pending.best) (my : (s.mem y0).subPool < 0b11111)
    (ho : ∀ y ∈ s.pending.best, y ≠ y0 → 0b11111 ≤ (s.mem y).subPool)
    (hl : s.pending.Len = PendingSubPoolLimit + 1) (hb : s.baseFee.Len = 0)
    (hq : s.queued.Len = 1) (hx : x ∈ s.queued.best) (mx : 0b11110 ≤ (s.mem x).subPool) :
    (∃ m', (∀ y, core (m' y) = core (s.mem y)) ∧
        (promote discardLocked (s, d)).2 = discardLocked m' y0 d) ∧
      (promote discardLocked (s, d)).1.pending.Len = PendingSubPoolLimit + 1 ∧
      x ∈ (promote discardLocked (s, d)).1.pending.best ∧
      (∀ y ∈ (promote discardLocked (s, d)).1.pending.best,
        y = x ∨ (y ∈ s.pending.best ∧ y ≠ y0)) ∧
      (promote discardLocked (s, d)).1.baseFee.Len = 0 ∧
      (promote discardLocked (s, d)).1.queued.Len = 0 ∧
      (∀ y, core ((promote discardLocked (s, d)).1.mem y) = core (s.mem y)) := by
  have hl0 : 0 < s.pending.Len := by omega
  have hw := Inv3.weaken h (fun _ _ => trivial) (fun _ h => h) (fun _ h => h)
  obtain ⟨i1, a1, b1, p1, c1, e1, n1⟩ := popWorst_facts hw hl0
  have hpop : (SubPool.PopWorst s.mem s.pending).2 = y0 := by
    by_contra hne
    have := ho _ a1 hne
    have := n1 y0 hy
    omega
  have hstep2 := loop2_drop discardLocked (PendingSubPoolLimit + 1) s d (by omega)
    (by rw [e1, hpop]; exact my)
  rw [hpop] at hstep2
  have hlen1 := SubPool.PopWorst_len h.vA hl0
  have hmem1 : ∀ y ∈ (SubPool.PopWorst s.mem s.pending).1.2.best,
      y ∈ s.pending.best ∧ y ≠ y0 := by
    intro y hy'
    refine ⟨p1.mem_iff.1 (List.mem_cons_of_mem _ hy'), fun e => ?_⟩
    rw [e, ← hpop] at hy'
    exact b1 hy'
  have hq0 : 0 < s.queued.Len := by omega
  obtain ⟨j1, ja, jb, jp, jc, je⟩ := popBest_facts i1.swap13 hq0
  have hqx : ∀ y ∈ s.queued.best, y = x := by
    intro y hy'
    have h1 : s.queued.best.length = 1 := hq
    obtain ⟨z, hz⟩ := List.length_eq_one.1 h1
    rw [hz] at hy' hx
    rw [List.mem_singleton.1 hy', List.mem_singleton.1 hx]
  have hbest : (SubPool.PopBest (SubPool.PopWorst s.mem s.pending).1.1 s.queued).2 = x :=
    hqx _ ja
  have hstep6 := loop6_moveP (D := Registry) 1
    { s with mem := (SubPool.PopWorst s.mem s.pending).1.1,
             pending := (SubPool.PopWorst s.mem s.pending).1.2 }
    (discardLocked (SubPool.PopWorst s.mem s.pending).1.1 y0 d) hq0
    (by dsimp only; rw [je, hbest, core_subPool (c1 x)]; exact mx)
  dsimp only at hstep6
  rw [hbest] at hstep6
  have hxP : x ∉ (SubPool.PopWorst s.mem s.pending).1.2.best :=
    fun hx' => h.dAC x (hmem1 x hx').1 hx
  have hxB : x ∉ s.baseFee.best := fun hx' => h.dBC x hx' hx
  obtain ⟨k1, kp, kc⟩ := j1.swap23.added x (hbest ▸ jb) hxP hxB trivial
  have hqlen := SubPool.PopBest_len i1.vC hq0
  have hcore : ∀ y, core ((SubPool.Add (SubPool.PopBest (SubPool.PopWorst s.mem
      s.pending).1.1 s.queued).1.1 (SubPool.PopWorst s.mem s.pending).1.2 x).1 y) =
      core (s.mem y) := fun y => (kc y).trans ((jc y).trans (c1 y))
  have hPl : (SubPool.Add (SubPool.PopBest (SubPool.PopWorst s.mem s.pending).1.1
      s.queued).1.1 (SubPool.PopWorst s.mem s.pending).1.2 x).2.Len =
      PendingSubPoolLimit + 1 := by
    have hl' : s.pending.best.length = PendingSubPoolLimit + 1 := hl
    unfold SubPool.Len at hlen1 ⊢
    rw [kp.length_eq, List.length_cons]
    omega
  have hf : s.pending.Len + 1 = PendingSubPoolLimit + 1 + 1 := by omega
  unfold promote
  dsimp only
  rw [loop1_stop discardLocked _ s d h.vA h.mA]
  dsimp only
  rw [hf, hstep2, loop2_stop discardLocked _ _ _ (by dsimp only; omega)]
  dsimp only
  rw [loop3_stop _ _ _ (by exact hb)]
  dsimp only
  rw [loop4_stop _ _ _ _ (by exact hb)]
  dsimp only
  rw [loop5_stop _ _ _ _ (by exact hb)]
  dsimp only
  rw [hq, hstep6, loop6_empty _ _ _ (by dsimp only; omega)]
  dsimp only
  rw [loop7_empty _ _ _ _ (by dsimp only; omega)]
  dsimp only
  rw [loop8_stop _ _ _ _ (by dsimp only; omega)]
  refine ⟨⟨_, c1, rfl⟩, hPl, kp.mem_iff.2 (List.mem_cons_self _ _), ?_, hb, by dsimp only; omega,
    hcore⟩
  intro y hy'
  rcases List.mem_cons.1 (kp.mem_iff.1 hy') with e | e
  · exact Or.inl e
  · exact Or.inr (hmem1 y e)

/-! ### Scoring a sender with one or two resident transactions -/

theorem residents_single {m : Mem} {b : ByNonce} {id : Nat} {p : Ptr}
    (hs : ByNonce.Sorted m b) (hp : p ∈ b) (hid : (m p).Tx.senderID = id)
    (hU : ∀ q ∈ b, (m q).Tx.senderID = id → q = p) : ByNonce.residents m b id = [p] := by
  have hnd : (ByNonce.residents m b id).Nodup :=
    List.Nodup.sublist (List.filter_sublist _) hs.indexNodup
  have hall : ∀ q ∈ ByNonce.residents m b id, q = p :=
    fun q hq => hU q (mem_residents.1 hq).1 (mem_residents.1 hq).2
  have hin : p ∈ ByNonce.residents m b id := mem_residents.2 ⟨hp, hid⟩
  generalize ByNonce.residents m b id = l at hnd hall hin
  match l, hnd, hall, hin with
  | [a], _, hall, _ => rw [hall a (List.mem_singleton_self _)]
  | a :: c :: rest, hnd, hall, _ =>
    exfalso
    have e1 := hall a (List.mem_cons_self _ _)
    have e2 := hall c (List.mem_cons_of_mem _ (List.mem_cons_self _ _))
    rw [List.nodup_cons] at hnd
    exact hnd.1 (by rw [e1, ← e2]; exact List.mem_cons_self _ _)

theorem residents_pair {m : Mem} {b : ByNonce} {id : Nat} {p q : Ptr}
    (hs : ByNonce.Sorted m b) (hp : p ∈ b) (hq : q ∈ b) (hpid : (m p).Tx.senderID = id)
    (hqid : (m q).Tx.senderID = id) (hlt : (m p).Tx.nonce < (m q).Tx.nonce)
    (hU : ∀ z ∈ b, (m z).Tx.senderID = id → z = p ∨ z = q) :
    ByNonce.residents m b id = [p, q] := by
  have hso := residents_sorted id hs
  have hall : ∀ z ∈ ByNonce.residents m b id, z = p ∨ z = q :=
    fun z hz => hU z (mem_residents.1 hz).1 (mem_residents.1 hz).2
  have hinp : p ∈ ByNonce.residents m b id := mem_residents.2 ⟨hp, hpid⟩
  have hinq : q ∈ ByNonce.residents m b id := mem_residents.2 ⟨hq, hqid⟩
  generalize ByNonce.residents m b id = l at hso hall hinp hinq
  have key : ∀ z, (m z).Tx.nonce < (m z).Tx.nonce → False := fun z h => Nat.lt_irrefl _ h
  match l, hso, hall, hinp, hinq with
  | [a], _, _, hinp, hinq =>
    exfalso
    rw [List.mem_singleton] at hinp hinq
    rw [hinp, hinq] at hlt
    exact key a hlt
  | [a, c], hso, hall, _, _ =>
    have hac : (m a).Tx.nonce < (m c).Tx.nonce :=
      (List.pairwise_cons.1 hso).1 c (List.mem_singleton_self _)
    rcases hall a (List.mem_cons_self _ _) with ea | ea <;>
      rcases hall c (List.mem_cons_of_mem _ (List.mem_cons_self _ _)) with ec | ec
    · rw [ea, ec] at hac; exact absurd hac (Nat.lt_irrefl _)
    · rw [ea, ec]
    · rw [ea, ec] at hac; omega
    · rw [ea, ec] at hac; exact absurd hac (Nat.lt_irrefl _)
  | a :: c :: e :: rest, hso, hall, _, _ =>
    exfalso
    rw [List.pairwise_cons, List.pairwise_cons] at hso
    have hac := hso.1 c (List.mem_cons_self _ _)
    have hae := hso.1 e (List.mem_cons_of_mem _ (List.mem_cons_self _ _))
    have hce := hso.2.1 e (List.mem_cons_self _ _)
    rcases hall a (List.mem_cons_self _ _) with ea | ea <;>
      rcases hall c (List.mem_cons_of_mem _ (List.mem_cons_self _ _)) with ec | ec <;>
      rcases hall e (List.mem_cons_of_mem _ (List.mem_cons_of_mem _ (List.mem_cons_self _ _)))
        with ee | ee <;>
      rw [ea, ec] at hac <;> rw [ea, ee] at hae <;> rw [ec, ee] at hce <;> omega

/-- The records `onSenderChange` leaves for a sender with one resident
transaction. -/
theorem score_single_at (id : Nat) (sender : senderInfo) (m : Mem) (b : ByNonce)
    (pbf pend : Nat) (hs : ByNonce.Sorted m b) (p : Ptr) (hp : p ∈ b)
    (hid : (m p).Tx.senderID = id) (hU : ∀ q ∈ b, (m q).Tx.senderID = id → q = p) :
    onSenderChange id sender m b pbf pend p =
        (onSenderChange.score sender pbf pend (onSenderChange.init sender) (m p)).1 ∧
      ∀ z, z ≠ p → onSenderChange id sender m b pbf pend z = m z := by
  have hr := residents_single hs hp hid hU
  constructor
  · rw [onSenderChange_at id sender m b pbf pend hs [] p [] (by rw [hr]; rfl)]
    rfl
  · intro z hz
    refine onSenderChange_other id sender m b pbf pend hs z ?_
    rw [hr, List.mem_singleton]
    exact hz

/-- The records `onSenderChange` leaves for a sender with two resident
transactions. -/
theorem score_pair_at (id : Nat) (sender : senderInfo) (m : Mem) (b : ByNonce)
    (pbf pend : Nat) (hs : ByNonce.Sorted m b) (p q : Ptr) (hp : p ∈ b) (hq : q ∈ b)
    (hpid : (m p).Tx.senderID = id) (hqid : (m q).Tx.senderID = id)
    (hlt : (m p).Tx.nonce < (m q).Tx.nonce)
    (hU : ∀ z ∈ b, (m z).Tx.senderID = id → z = p ∨ z = q) :
    onSenderChange id sender m b pbf pend p =
        (onSenderChange.score sender pbf pend (onSenderChange.init sender) (m p)).1 ∧
      onSenderChange id sender m b pbf pend q =
        (onSenderChange.score sender pbf pend
          (onSenderChange.score sender pbf pend (onSenderChange.init sender) (m p)).2 (m q)).1 ∧
      ∀ z, z ≠ p → z ≠ q → onSenderChange id sender m b pbf pend z = m z := by
  have hr := residents_pair hs hp hq hpid hqid hlt hU
  refine ⟨?_, ?_, ?_⟩
  · rw [onSenderChange_at id sender m b pbf pend hs [] p [q] (by rw [hr]; rfl)]
    rfl
  · rw [onSenderChange_at id sender m b pbf pend hs [p] q [] (by rw [hr]; rfl)]
    rfl
  · intro z hz1 hz2
    refine onSenderChange_other id sender m b pbf pend hs z ?_
    rw [hr]
    simp [hz1, hz2]

/-! ### `onNewTxs` with one new transaction -/

theorem step_fresh_changed (acc : State × List Nat) (e : TxSlot × Bool) (h : acc.1.Inv)
    (hhash : byHashGet acc.1.reg.byHash e.1.idHash = none)
    (hkey : ∀ y ∈ acc.1.reg.byNonce, ¬ ((acc.1.pools.mem y).Tx.senderID = e.1.senderID ∧
      (acc.1.pools.mem y).Tx.nonce = e.1.nonce)) :
    (unsafeAddToPendingPool.step discardLocked acc e).2 =
      if e.1.senderID ∈ acc.2 then acc.2 else acc.2 ++ [e.1.senderID] := by
  obtain ⟨_, _, _, a4⟩ := alloc_spec acc.1 h (newMetaTx e.1 e.2)
  have hk : ∀ y ∈ acc.1.reg.byNonce,
      ¬ ((Function.update acc.1.pools.mem acc.1.next (newMetaTx e.1 e.2) y).Tx.senderID =
          e.1.senderID ∧
        (Function.update acc.1.pools.mem acc.1.next (newMetaTx e.1 e.2) y).Tx.nonce =
          e.1.nonce) := by
    intro y hy
    rw [a4 y hy]
    exact hkey y hy
  have hnone := (ByNonce.get_eq_none (m := Function.update acc.1.pools.mem acc.1.next
    (newMetaTx e.1 e.2)) (b := acc.1.reg.byNonce) e.1.senderID e.1.nonce).2 hk
  unfold unsafeAddToPendingPool.step
  dsimp only
  rw [hhash, hnone]
  rfl

/-- The function `onNewTxs` for a batch of one transaction whose hash and whose
sender and nonce are not resident, in the capacity scenario: the record is
added, its sender is scored, and `promote` runs. -/
theorem onNewTxs_fresh_one (st : State) (e : TxSlot × Bool) (h : st.Inv)
    (h0 : e.1.senderID ≠ 0) (hhash : byHashGet st.reg.byHash e.1.idHash = none)
    (hkey : ∀ y ∈ st.reg.byNonce, ¬ ((st.pools.mem y).Tx.senderID = e.1.senderID ∧
      (st.pools.mem y).Tx.nonce = e.1.nonce)) :
    onNewTxs emptyKv capacitySenders [e] 50 70 discardLocked st =
      ({ pools := (promote discardLocked
            (enforceAll { (unsafeAddToPendingPool.step discardLocked (st, []) e).1.pools with
              mem := onSenderChange e.1.senderID scenarioSender
                (unsafeAddToPendingPool.step discardLocked (st, []) e).1.pools.mem
                (unsafeAddToPendingPool.step discardLocked (st, []) e).1.reg.byNonce 50 70 },
              (unsafeAddToPendingPool.step discardLocked (st, []) e).1.reg)).1,
         next := (unsafeAddToPendingPool.step discardLocked (st, []) e).1.next,
         reg := (promote discardLocked
            (enforceAll { (unsafeAddToPendingPool.step discardLocked (st, []) e).1.pools with
              mem := onSenderChange e.1.senderID scenarioSender
                (unsafeAddToPendingPool.step discardLocked (st, []) e).1.pools.mem
                (unsafeAddToPendingPool.step discardLocked (st, []) e).1.reg.byNonce 50 70 },
              (unsafeAddToPendingPool.step discardLocked (st, []) e).1.reg)).2 }, none) := by
  have hany : ¬ (([e] : List (TxSlot × Bool)).any (fun e => e.1.senderID == 0) = true) := by
    simp [h0]
  have hch := step_fresh_changed (st, []) e h hhash hkey
  rw [if_neg (List.not_mem_nil _), List.nil_append] at hch
  have hinfo : capacitySenders.info e.1.senderID emptyKv = .ok scenarioSender := rfl
  unfold onNewTxs
  rw [if_neg hany]
  unfold unsafeAddToPendingPool
  rw [List.foldl_cons, List.foldl_nil]
  dsimp only
  rw [hch, scoreSenders, hinfo]
  dsimp only
  rw [scoreSenders]

theorem length_of_mem_iff {l l' : List Ptr} (h : l.Nodup) (h' : l'.Nodup)
    (hm : ∀ y, y ∈ l' ↔ y ∈ l) : l'.length = l.length :=
  List.Perm.length_eq ((List.perm_ext_iff_of_nodup h' h).2 hm)

theorem length_succ_of_mem_iff {l l' : List Ptr} {x : Ptr} (h : l.Nodup) (h' : l'.Nodup)
    (hx : x ∉ l) (hm : ∀ y, y ∈ l' ↔ y ∈ l ∨ y = x) : l'.length = l.length + 1 := by
  have hp : l'.Perm (x :: l) := by
    refine (List.perm_ext_iff_of_nodup h' (List.nodup_cons.2 ⟨hx, h⟩)).2 ?_
    intro y
    rw [hm y, List.mem_cons]
    exact Or.comm
  rw [hp.length_eq, List.length_cons]

theorem Pools.Placed.membersNodup {s : Pools} {R : List Ptr} (h : s.Placed R) (w : Which) :
    (s.get w).best.Nodup :=
  (((Pools.placed_iff _ _).1 h).2.1 w).1.1.nodup

/-- The sub-pools after a new record has been added to `pending`, its sender
has been scored (the memory `m1`) and `EnforceInvariants` has run. -/
theorem fresh_setup (st : State) (e : TxSlot × Bool) (h : st.Inv)
    (hhash : byHashGet st.reg.byHash e.1.idHash = none)
    (hkey : ∀ y ∈ st.reg.byNonce, ¬ ((st.pools.mem y).Tx.senderID = e.1.senderID ∧
      (st.pools.mem y).Tx.nonce = e.1.nonce))
    (m1 : Mem)
    (hm1 : ∀ p, shape (m1 p) =
      shape ((unsafeAddToPendingPool.step discardLocked (st, []) e).1.pools.mem p)) :
    Pools.Inv (fun _ => True) (fun _ => True) (fun _ => True)
        (enforceAll { (unsafeAddToPendingPool.step discardLocked (st, []) e).1.pools with
          mem := m1 }) ∧
      (∀ y, core ((enforceAll
          { (unsafeAddToPendingPool.step discardLocked (st, []) e).1.pools with
            mem := m1 }).mem y) = core (m1 y)) ∧
      (∀ y, y ∈ (enforceAll { (unsafeAddToPendingPool.step discardLocked (st, []) e).1.pools with
          mem := m1 }).pending.best ↔ y ∈ st.pools.pending.best ∨ y = st.next) ∧
      (enforceAll { (unsafeAddToPendingPool.step discardLocked (st, []) e).1.pools with
          mem := m1 }).pending.Len = st.pools.pending.Len + 1 ∧
      (enforceAll { (unsafeAddToPendingPool.step discardLocked (st, []) e).1.pools with
          mem := m1 }).baseFee.Len = st.pools.baseFee.Len ∧
      (enforceAll { (unsafeAddToPendingPool.step discardLocked (st, []) e).1.pools with
          mem := m1 }).queued.Len = st.pools.queued.Len ∧
      (∀ y, y ∈ (enforceAll { (unsafeAddToPendingPool.step discardLocked (st, []) e).1.pools with
          mem := m1 }).queued.best ↔ y ∈ st.pools.queued.best) ∧
      State.Inv ⟨enforceAll { (unsafeAddToPendingPool.step discardLocked (st, []) e).1.pools with
          mem := m1 }, (unsafeAddToPendingPool.step discardLocked (st, []) e).1.next,
        (unsafeAddToPendingPool.step discardLocked (st, []) e).1.reg⟩ := by
  obtain ⟨s1, _, s3, _, _, _, _, _⟩ := step_fresh (st, []) e h hhash hkey
  have hi := s1.rescore m1 hm1
  generalize (unsafeAddToPendingPool.step discardLocked (st, []) e).1 = stA at s1 s3 hm1 hi ⊢
  obtain ⟨hreg, hpl, hfr⟩ := hi
  dsimp only at hreg hpl hfr
  obtain ⟨p1, c1⟩ := enforceAll_placed hpl
  obtain ⟨e1, e2, e3⟩ := enforceAll_perm hpl
  have hI := enforceAll_inv3 hpl (fun _ => True) (fun _ => True) (fun _ => True)
    (fun _ _ => trivial) (fun _ _ => trivial) (fun _ _ => trivial)
  have hnext : st.next ∉ st.pools.pending.best := by
    intro hx
    have := h.2.2 _ (((Pools.placed_iff _ _).1 h.2.1).2.2.1 .pending _ hx)
    exact Nat.lt_irrefl _ this
  have hP : ∀ y, y ∈ stA.pools.pending.best ↔ y ∈ st.pools.pending.best ∨ y = st.next := by
    intro y
    have := s3 .pending y
    constructor
    · intro hy
      rcases this.1 hy with a | a
      · exact Or.inl a
      · exact Or.inr a.2
    · intro hy
      rcases hy with a | a
      · exact this.2 (Or.inl a)
      · exact this.2 (Or.inr ⟨rfl, a⟩)
  have hB : ∀ y, y ∈ stA.pools.baseFee.best ↔ y ∈ st.pools.baseFee.best := by
    intro y
    have := s3 .baseFee y
    constructor
    · intro hy
      rcases this.1 hy with a | a
      · exact a
      · cases a.1
    · exact fun hy => this.2 (Or.inl hy)
  have hQ : ∀ y, y ∈ stA.pools.queued.best ↔ y ∈ st.pools.queued.best := by
    intro y
    have := s3 .queued y
    constructor
    · intro hy
      rcases this.1 hy with a | a
      · exact a
      · cases a.1
    · exact fun hy => this.2 (Or.inl hy)
  refine ⟨hI, c1, fun y => (e1.mem_iff).trans (hP y), ?_, ?_, ?_,
    fun y => (e3.mem_iff).trans (hQ y), ⟨hreg.regCongr (fun p _ => core_Tx (c1 p)), p1, hfr⟩⟩
  · unfold SubPool.Len
    rw [e1.length_eq]
    exact length_succ_of_mem_iff (h.2.1.membersNodup .pending) (s1.2.1.membersNodup .pending) hnext hP
  · unfold SubPool.Len
    rw [e2.length_eq]
    exact length_of_mem_iff (h.2.1.membersNodup .baseFee) (s1.2.1.membersNodup .baseFee) hB
  · unfold SubPool.Len
    rw [e3.length_eq]
    exact length_of_mem_iff (h.2.1.membersNodup .queued) (s1.2.1.membersNodup .queued) hQ

/-! ### The three calls of the scenario -/

theorem score_marker_gap (mt : metaTx) (hT : mt.Tx = gapTx) (hS : mt.subPool = 0) :
    (onSenderChange.score scenarioSender 50 70 (onSenderChange.init scenarioSender)
      mt).1.subPool = 0b10110 := by
  rw [score_subPool, hT, hS]
  decide

theorem score_marker_fill (mt : metaTx) (hT : mt.Tx = fillTx) (hS : mt.subPool = 0) :
    (onSenderChange.score scenarioSender 50 70 (onSenderChange.init scenarioSender)
      mt).1.subPool = 0b11110 := by
  rw [score_subPool, hT, hS]
  decide

theorem score_marker_filled (mt mt' : metaTx) (hT : mt.Tx = fillTx) (hT' : mt'.Tx = gapTx)
    (hS : mt'.subPool = 0b10110 ∨ mt'.subPool = 0b11110) :
    (onSenderChange.score scenarioSender 50 70
      (onSenderChange.score scenarioSender 50 70 (onSenderChange.init scenarioSender) mt).2
      mt').1.subPool = 0b11110 := by
  have ha : (onSenderChange.score scenarioSender 50 70 (onSenderChange.init scenarioSender)
      mt).2 = (onSenderChange.score scenarioSender 50 70 (onSenderChange.init scenarioSender)
      (newMetaTx fillTx false)).2 := score_acc_congr _ _ _ _ (by rw [hT]; rfl)
  rw [ha, score_subPool, hT']
  rcases hS with hS | hS <;> rw [hS] <;> decide

/-- The call of `onNewTxs` with the transaction `gapTx` on a pool of local
transactions of the senders `1` to `10240` that is within its limit: the
transaction ends in `queued` with the marker `0b10110`, nothing is discarded. -/
theorem gap_call (st : State) (L : Nat) (h : st.Inv) (hL : st.pools.pending.Len = L)
    (hLl : L ≤ PendingSubPoolLimit)
    (hA : AllMk (fun v => 0b11111 ≤ v) st.pools.mem st.pools.pending.best)
    (hb : st.pools.baseFee.Len = 0) (hq : st.pools.queued.Len = 0)
    (hs : ∀ p ∈ st.reg.byNonce, (st.pools.mem p).Tx.senderID ≤ 10240)
    (hh : ∀ k, 10240 < k → byHashGet st.reg.byHash k = none) :
    ∀ r, r = onNewTxs emptyKv capacitySenders [(gapTx, false)] 50 70 discardLocked st →
      r.2 = none ∧ r.1.Inv ∧ r.1.pools.pending.Len = L ∧
      AllMk (fun v => 0b11111 ≤ v) r.1.pools.mem r.1.pools.pending.best ∧
      r.1.pools.baseFee.Len = 0 ∧ r.1.pools.queued.Len = 1 ∧
      st.next ∈ r.1.pools.queued.best ∧ (r.1.pools.mem st.next).Tx = gapTx ∧
      (r.1.pools.mem st.next).subPool = 0b10110 ∧ st.next ∈ r.1.reg.byNonce ∧
      (∀ p ∈ r.1.reg.byNonce, p = st.next ∨ (r.1.pools.mem p).Tx.senderID ≤ 10240) ∧
      byHashGet r.1.reg.byHash fillTx.idHash = none := by
  intro r hr
  have hkey : ∀ y ∈ st.reg.byNonce, ¬ ((st.pools.mem y).Tx.senderID = gapTx.senderID ∧
      (st.pools.mem y).Tx.nonce = gapTx.nonce) := by
    intro y hy hc
    have := hs y hy
    rw [hc.1] at this
    exact absurd this (by decide)
  have hhash : byHashGet st.reg.byHash gapTx.idHash = none := hh _ (by decide)
  have hinv := onNewTxs_inv emptyKv capacitySenders [(gapTx, false)] 50 70 st h
  rw [← hr] at hinv
  rw [onNewTxs_fresh_one st (gapTx, false) h (by decide) hhash hkey] at hr
  obtain ⟨s1, s2, _, s4, s5, s6, _, _⟩ := step_fresh (st, []) (gapTx, false) h hhash hkey
  have hsetup := fresh_setup st (gapTx, false) h hhash hkey
    (onSenderChange gapTx.senderID scenarioSender
      (unsafeAddToPendingPool.step discardLocked (st, []) (gapTx, false)).1.pools.mem
      (unsafeAddToPendingPool.step discardLocked (st, []) (gapTx, false)).1.reg.byNonce 50 70)
    (fun p => onSenderChange_shape _ _ _ _ _ _ p)
  have hnext : ∀ p ∈ st.reg.byNonce, p ≠ st.next :=
    fun p hp e => Nat.lt_irrefl _ (e ▸ h.2.2 p hp)
  have hnew := core_fields s5
  generalize (unsafeAddToPendingPool.step discardLocked (st, []) (gapTx, false)).1 = stA
    at hr s1 s2 s4 s5 s6 hsetup hnew
  dsimp only at hr s2 s4 s6 hnew
  have hold : ∀ p ∈ st.reg.byNonce, (stA.pools.mem p).Tx.senderID ≤ 10240 := by
    intro p hp
    rw [(core_fields (s4 p (hnext p hp))).2.2]
    exact hs p hp
  have hxin : st.next ∈ stA.reg.byNonce := s2.mem_iff.2 (List.mem_cons_self _ _)
  have hsid : (stA.pools.mem st.next).Tx.senderID = gapTx.senderID := by rw [hnew.2.2]; rfl
  obtain ⟨q1, q2⟩ := score_single_at gapTx.senderID scenarioSender stA.pools.mem
    stA.reg.byNonce 50 70 s1.1.1 st.next hxin hsid (by
      intro q hq he
      rcases List.mem_cons.1 (s2.mem_iff.1 hq) with e | e
      · exact e
      · have := hold q e
        rw [he] at this
        exact absurd this (by decide))
  have hmx : (onSenderChange gapTx.senderID scenarioSender stA.pools.mem stA.reg.byNonce 50 70
      st.next).subPool = 0b10110 := by
    rw [q1]
    exact score_marker_gap _ hnew.2.2 (by rw [hnew.1]; rfl)
  generalize onSenderChange gapTx.senderID scenarioSender stA.pools.mem stA.reg.byNonce 50 70 = m1
    at hr hsetup q1 q2 hmx
  obtain ⟨hI, c1, t3, t4, t5, t6, _, _⟩ := hsetup
  generalize enforceAll { stA.pools with mem := m1 } = E at hr hI c1 t3 t4 t5 t6
  have hEx : (E.mem st.next).subPool = 0b10110 := by rw [core_subPool (c1 _)]; exact hmx
  obtain ⟨d1, d2, d3, d4, d5, d6, d7⟩ := promote_demote E stA.reg st.next hI
    ((t3 _).2 (Or.inr rfl)) (by rw [hEx]; decide) (by rw [hEx]; decide)
    (by
      intro y hy hne
      rcases (t3 y).1 hy with a | a
      · rw [core_subPool (c1 y), q2 y hne, core_subPool (s4 y hne)]
        exact hA y a
      · exact absurd a hne)
    (by rw [t4, hL]; omega) (by rw [t5]; exact hb) (by rw [t6]; exact hq)
  generalize promote discardLocked (E, stA.reg) = R at hr d1 d2 d3 d4 d5 d6 d7
  subst hr
  dsimp only at hinv ⊢
  have hTx : ∀ y, (R.1.mem y).Tx = (stA.pools.mem y).Tx := by
    intro y
    rw [core_Tx (d7 y), core_Tx (c1 y)]
    by_cases hy : y = st.next
    · rw [hy, q1, score_Tx]
    · rw [q2 y hy]
  refine ⟨rfl, hinv, ?_, ?_, d4, d5, d6, ?_, ?_, ?_, ?_, ?_⟩
  · rw [t4, hL] at d2; omega
  · intro y hy
    obtain ⟨a, b⟩ := d3 y hy
    rw [core_subPool (d7 y), core_subPool (c1 y), q2 y b, core_subPool (s4 y b)]
    rcases (t3 y).1 a with a' | a'
    · exact hA y a'
    · exact absurd a' b
  · rw [hTx, hnew.2.2]; rfl
  · rw [core_subPool (d7 _)]; exact hEx
  · rw [d1]; exact hxin
  · intro p hp
    rw [d1] at hp
    rcases List.mem_cons.1 (s2.mem_iff.1 hp) with e | e
    · exact Or.inl e
    · right
      rw [hTx]
      exact hold p e
  · rw [d1, s6, if_neg (by decide)]
    exact hh _ (by decide)

/-- What the two calls with the transaction `fillTx` share: the new record is
added to `pending`, and scoring leaves the marker `0b11110` on it and on the
resident record of `gapTx`. -/
theorem fill_scored (st : State) (x : Ptr) (h : st.Inv)
    (hxT : (st.pools.mem x).Tx = gapTx)
    (hxS : (st.pools.mem x).subPool = 0b10110 ∨ (st.pools.mem x).subPool = 0b11110)
    (hxin : x ∈ st.reg.byNonce)
    (hs : ∀ p ∈ st.reg.byNonce, p = x ∨ (st.pools.mem p).Tx.senderID ≤ 10240)
    (hh : byHashGet st.reg.byHash fillTx.idHash = none) :
    (∀ y ∈ st.reg.byNonce, ¬ ((st.pools.mem y).Tx.senderID = fillTx.senderID ∧
      (st.pools.mem y).Tx.nonce = fillTx.nonce)) ∧ x ≠ st.next ∧
    (onSenderChange fillTx.senderID scenarioSender
      (unsafeAddToPendingPool.step discardLocked (st, []) (fillTx, false)).1.pools.mem
      (unsafeAddToPendingPool.step discardLocked (st, []) (fillTx, false)).1.reg.byNonce 50 70
      st.next).subPool = 0b11110 ∧
    (onSenderChange fillTx.senderID scenarioSender
      (unsafeAddToPendingPool.step discardLocked (st, []) (fillTx, false)).1.pools.mem
      (unsafeAddToPendingPool.step discardLocked (st, []) (fillTx, false)).1.reg.byNonce 50 70
      x).subPool = 0b11110 ∧
    (∀ z, z ≠ st.next → z ≠ x →
      core (onSenderChange fillTx.senderID scenarioSender
        (unsafeAddToPendingPool.step discardLocked (st, []) (fillTx, false)).1.pools.mem
        (unsafeAddToPendingPool.step discardLocked (st, []) (fillTx, false)).1.reg.byNonce 50 70
        z) = core (st.pools.mem z)) ∧
    (∀ z, z ≠ st.next →
      (onSenderChange fillTx.senderID scenarioSender
        (unsafeAddToPendingPool.step discardLocked (st, []) (fillTx, false)).1.pools.mem
        (unsafeAddToPendingPool.step discardLocked (st, []) (fillTx, false)).1.reg.byNonce 50 70
        z).Tx = (st.pools.mem z).Tx) ∧
    (onSenderChange fillTx.senderID scenarioSender
      (unsafeAddToPendingPool.step discardLocked (st, []) (fillTx, false)).1.pools.mem
      (unsafeAddToPendingPool.step discardLocked (st, []) (fillTx, false)).1.reg.byNonce 50 70
      st.next).Tx = fillTx := by
  have hkey : ∀ y ∈ st.reg.byNonce, ¬ ((st.pools.mem y).Tx.senderID = fillTx.senderID ∧
      (st.pools.mem y).Tx.nonce = fillTx.nonce) := by
    intro y hy hc
    rcases hs y hy with e | e
    · rw [e, hxT] at hc
      exact absurd hc.2 (by decide)
    · rw [hc.1] at e
      exact absurd e (by decide)
  have hxn : x ≠ st.next := fun e => Nat.lt_irrefl _ (e ▸ h.2.2 x hxin)
  obtain ⟨s1, s2, _, s4, s5, _, _, _⟩ := step_fresh (st, []) (fillTx, false) h hh hkey
  have hnew := core_fields s5
  have hsh : ∀ p, shape (onSenderChange fillTx.senderID scenarioSender
      (unsafeAddToPendingPool.step discardLocked (st, []) (fillTx, false)).1.pools.mem
      (unsafeAddToPendingPool.step discardLocked (st, []) (fillTx, false)).1.reg.byNonce 50 70
      p) = shape ((unsafeAddToPendingPool.step discardLocked (st, [])
        (fillTx, false)).1.pools.mem p) := fun p => onSenderChange_shape _ _ _ _ _ _ p
  generalize (unsafeAddToPendingPool.step discardLocked (st, []) (fillTx, false)).1 = stA
    at s1 s2 s4 s5 hnew hsh ⊢
  dsimp only at s2 s4 hnew
  have hxA : core (stA.pools.mem x) = core (st.pools.mem x) := s4 x hxn
  obtain ⟨q1, q2, q3⟩ := score_pair_at fillTx.senderID scenarioSender stA.pools.mem
    stA.reg.byNonce 50 70 s1.1.1 st.next x (s2.mem_iff.2 (List.mem_cons_self _ _))
    (s2.mem_iff.2 (List.mem_cons_of_mem _ hxin)) (by rw [hnew.2.2]; rfl)
    (by rw [core_Tx hxA, hxT]; rfl) (by rw [hnew.2.2, core_Tx hxA, hxT]; decide)
    (by
      intro z hz he
      rcases List.mem_cons.1 (s2.mem_iff.1 hz) with e | e
      · exact Or.inl e
      · rcases hs z e with e' | e'
        · exact Or.inr e'
        · have hzn : z ≠ st.next := fun e'' => Nat.lt_irrefl _ (e'' ▸ h.2.2 z e)
          rw [core_Tx (s4 z hzn)] at he
          rw [he] at e'
          exact absurd e' (by decide))
  refine ⟨hkey, hxn, ?_, ?_, ?_, ?_, ?_⟩
  · rw [q1]
    exact score_marker_fill _ hnew.2.2 (by rw [hnew.1]; rfl)
  · rw [q2]
    refine score_marker_filled _ _ hnew.2.2 (by rw [core_Tx hxA, hxT]) ?_
    rw [core_subPool hxA]
    exact hxS
  · intro z hz1 hz2
    rw [q3 z hz1 hz2]
    exact s4 z hz1
  · intro z hz
    rw [shape_Tx (hsh z), core_Tx (s4 z hz)]
  · rw [shape_Tx (hsh _), hnew.2.2]
    rfl

/-- The first call of `onNewTxs` with the transaction `fillTx`, on a pool whose
`pending` holds `PendingSubPoolLimit` local transactions and whose `queued`
holds `gapTx`: the record of `fillTx` is discarded in step 2 of `promote`, and
`gapTx` moves to `pending` in step 6, which is left one over its limit. -/
theorem fill_call (st : State) (x : Ptr) (h : st.Inv)
    (hL : st.pools.pending.Len = PendingSubPoolLimit)
    (hA : AllMk (fun v => 0b11111 ≤ v) st.pools.mem st.pools.pending.best)
    (hb : st.pools.baseFee.Len = 0) (hq : st.pools.queued.Len = 1)
    (hx : x ∈ st.pools.queued.best) (hxT : (st.pools.mem x).Tx = gapTx)
    (hxS : (st.pools.mem x).subPool = 0b10110) (hxin : x ∈ st.reg.byNonce)
    (hs : ∀ p ∈ st.reg.byNonce, p = x ∨ (st.pools.mem p).Tx.senderID ≤ 10240)
    (hh : byHashGet st.reg.byHash fillTx.idHash = none) :
    ∀ r, r = onNewTxs emptyKv capacitySenders [(fillTx, false)] 50 70 discardLocked st →
      r.2 = none ∧ r.1.Inv ∧ r.1.pools.pending.Len = PendingSubPoolLimit + 1 ∧
      x ∈ r.1.pools.pending.best ∧ (r.1.pools.mem x).subPool = 0b11110 ∧
      (r.1.pools.mem x).Tx = gapTx ∧
      (∀ y ∈ r.1.pools.pending.best, y = x ∨ 0b11111 ≤ (r.1.pools.mem y).subPool) ∧
      r.1.pools.baseFee.Len = 0 ∧ r.1.pools.queued.Len = 0 ∧ x ∈ r.1.reg.byNonce ∧
      (∀ p ∈ r.1.reg.byNonce, p = x ∨ (r.1.pools.mem p).Tx.senderID ≤ 10240) ∧
      byHashGet r.1.reg.byHash fillTx.idHash = none := by
  intro r hr
  obtain ⟨hkey, hxn, f1, f2, f3, f4, f5⟩ := fill_scored st x h hxT (Or.inl hxS) hxin hs hh
  have hinv := onNewTxs_inv emptyKv capacitySenders [(fillTx, false)] 50 70 st h
  rw [← hr] at hinv
  rw [onNewTxs_fresh_one st (fillTx, false) h (by decide) hh hkey] at hr
  obtain ⟨s1, s2, _, _, _, _, _, _⟩ := step_fresh (st, []) (fillTx, false) h hh hkey
  have hsetup := fresh_setup st (fillTx, false) h hh hkey
    (onSenderChange fillTx.senderID scenarioSender
      (unsafeAddToPendingPool.step discardLocked (st, []) (fillTx, false)).1.pools.mem
      (unsafeAddToPendingPool.step discardLocked (st, []) (fillTx, false)).1.reg.byNonce 50 70)
    (fun p => onSenderChange_shape _ _ _ _ _ _ p)
  generalize (unsafeAddToPendingPool.step discardLocked (st, []) (fillTx, false)).1 = stA
    at hr s1 s2 hsetup f1 f2 f3 f4 f5
  dsimp only at hr s2
  generalize onSenderChange fillTx.senderID scenarioSender stA.pools.mem stA.reg.byNonce 50 70 = m1
    at hr hsetup f1 f2 f3 f4 f5
  obtain ⟨hI, c1, t3, t4, t5, t6, t7, hiE⟩ := hsetup
  generalize enforceAll { stA.pools with mem := m1 } = E at hr hI c1 t3 t4 t5 t6 t7 hiE
  have hxP : x ∉ st.pools.pending.best := fun hx' =>
    @Pools.Placed.disjoint _ _ h.2.1 Which.pending Which.queued (by decide) x hx' hx
  have hnP : st.next ∉ st.pools.pending.best := fun hx' =>
    Nat.lt_irrefl _ (h.2.2 _ (((Pools.placed_iff _ _).1 h.2.1).2.2.1 .pending _ hx'))
  have hold : ∀ y ∈ st.pools.pending.best, 0b11111 ≤ (E.mem y).subPool := by
    intro y hy
    rw [core_subPool (c1 y), core_subPool (f3 y (fun e => hnP (e ▸ hy)) (fun e => hxP (e ▸ hy)))]
    exact hA y hy
  have hEn : (E.mem st.next).subPool = 0b11110 := by rw [core_subPool (c1 _)]; exact f1
  have hEx : (E.mem x).subPool = 0b11110 := by rw [core_subPool (c1 _)]; exact f2
  have hI30 : Pools.Inv (fun v => 0b11110 ≤ v) (fun _ => True) (fun _ => True) E := by
    refine ⟨hI.vA, hI.vB, hI.vC, hI.dAB, hI.dAC, hI.dBC, ?_, hI.mB, hI.mC⟩
    intro y hy
    rcases (t3 y).1 hy with a | a
    · have := hold y a
      show 0b11110 ≤ (E.mem y).subPool
      omega
    · rw [a]
      show 0b11110 ≤ (E.mem st.next).subPool
      rw [hEn]
  obtain ⟨⟨m', dm, d1⟩, d2, d3, d4, d5, d6, d7⟩ := promote_swap E stA.reg x st.next hI30
    ((t3 _).2 (Or.inr rfl)) (by rw [hEn]; decide)
    (by
      intro y hy hne
      rcases (t3 y).1 hy with a | a
      · exact hold y a
      · exact absurd a hne)
    (by rw [t4, hL]) (by rw [t5]; exact hb) (by rw [t6]; exact hq) ((t7 x).2 hx)
    (by rw [hEx])
  have hregA : stA.reg.Consistent m' :=
    hiE.1.regCongr (fun p _ => core_Tx (dm p))
  obtain ⟨_, _, g3, _, g5⟩ := hregA.discard (x := st.next)
    (s2.mem_iff.2 (List.mem_cons_self _ _))
  rw [← d1] at g3 g5
  generalize promote discardLocked (E, stA.reg) = R at hr d1 d2 d3 d4 d5 d6 d7 g3 g5
  subst hr
  dsimp only at hinv ⊢
  have hTx : ∀ y, y ≠ st.next → (R.1.mem y).Tx = (st.pools.mem y).Tx := by
    intro y hy
    rw [core_Tx (d7 y), core_Tx (c1 y), f4 y hy]
  have hres : ∀ p ∈ R.2.byNonce, p ∈ st.reg.byNonce ∧ p ≠ st.next := by
    intro p hp
    obtain ⟨a, b⟩ := (g3 p).1 hp
    rcases List.mem_cons.1 (s2.mem_iff.1 a) with e | e
    · exact absurd e b
    · exact ⟨e, b⟩
  refine ⟨rfl, hinv, d2, d3, ?_, ?_, ?_, d5, d6, ?_, ?_, ?_⟩
  · rw [core_subPool (d7 x)]; exact hEx
  · rw [hTx x hxn]; exact hxT
  · intro y hy
    rcases d4 y hy with a | a
    · exact Or.inl a
    · right
      rw [core_subPool (d7 y)]
      rcases (t3 y).1 a.1 with a' | a'
      · exact hold y a'
      · exact absurd a' a.2
  · exact (g3 x).2 ⟨s2.mem_iff.2 (List.mem_cons_of_mem _ hxin), hxn⟩
  · intro p hp
    obtain ⟨a, b⟩ := hres p hp
    rcases hs p a with e | e
    · exact Or.inl e
    · right
      rw [hTx p b]
      exact e
  · rw [g5, if_pos]
    rw [core_Tx (dm _), core_Tx (c1 _), f5]

/-- The second call of `onNewTxs` with the transaction `fillTx`: the record of
`fillTx` is added again, `pending` is two over its limit, and step 2 of
`promote` discards both `fillTx` and `gapTx`. -/
theorem refill_call (st : State) (x : Ptr) (h : st.Inv)
    (hL : st.pools.pending.Len = PendingSubPoolLimit + 1)
    (hx : x ∈ st.pools.pending.best) (hxS : (st.pools.mem x).subPool = 0b11110)
    (hxT : (st.pools.mem x).Tx = gapTx)
    (hA : ∀ y ∈ st.pools.pending.best, y = x ∨ 0b11111 ≤ (st.pools.mem y).subPool)
    (hb : st.pools.baseFee.Len = 0) (hq : st.pools.queued.Len = 0)
    (hxin : x ∈ st.reg.byNonce)
    (hs : ∀ p ∈ st.reg.byNonce, p = x ∨ (st.pools.mem p).Tx.senderID ≤ 10240)
    (hh : byHashGet st.reg.byHash fillTx.idHash = none) :
    ∀ r, r = onNewTxs emptyKv capacitySenders [(fillTx, false)] 50 70 discardLocked st →
      r.2 = none ∧ r.1.pools.pending.Len = PendingSubPoolLimit := by
  intro r hr
  obtain ⟨hkey, hxn, f1, f2, f3, _, _⟩ := fill_scored st x h hxT (Or.inr hxS) hxin hs hh
  rw [onNewTxs_fresh_one st (fillTx, false) h (by decide) hh hkey] at hr
  have hsetup := fresh_setup st (fillTx, false) h hh hkey
    (onSenderChange fillTx.senderID scenarioSender
      (unsafeAddToPendingPool.step discardLocked (st, []) (fillTx, false)).1.pools.mem
      (unsafeAddToPendingPool.step discardLocked (st, []) (fillTx, false)).1.reg.byNonce 50 70)
    (fun p => onSenderChange_shape _ _ _ _ _ _ p)
  generalize (unsafeAddToPendingPool.step discardLocked (st, []) (fillTx, false)).1 = stA
    at hr hsetup f1 f2 f3
  dsimp only at hr
  generalize onSenderChange fillTx.senderID scenarioSender stA.pools.mem stA.reg.byNonce 50 70 = m1
    at hr hsetup f1 f2 f3
  obtain ⟨hI, c1, t3, t4, t5, t6, _, _⟩ := hsetup
  generalize enforceAll { stA.pools with mem := m1 } = E at hr hI c1 t3 t4 t5 t6
  have hnP : st.next ∉ st.pools.pending.best := fun hx' =>
    Nat.lt_irrefl _ (h.2.2 _ (((Pools.placed_iff _ _).1 h.2.1).2.2.1 .pending _ hx'))
  have hEn : (E.mem st.next).subPool = 0b11110 := by rw [core_subPool (c1 _)]; exact f1
  have hEx : (E.mem x).subPool = 0b11110 := by rw [core_subPool (c1 _)]; exact f2
  have hI30 : Pools.Inv (fun v => 0b11110 ≤ v) (fun _ => True) (fun _ => True) E := by
    refine ⟨hI.vA, hI.vB, hI.vC, hI.dAB, hI.dAC, hI.dBC, ?_, hI.mB, hI.mC⟩
    intro y hy
    show 0b11110 ≤ (E.mem y).subPool
    rcases (t3 y).1 hy with a | a
    · by_cases hyx : y = x
      · rw [hyx, hEx]
      · rcases hA y a with e | e
        · exact absurd e hyx
        · rw [core_subPool (c1 y), core_subPool (f3 y (fun e' => hnP (e' ▸ a)) hyx)]
          omega
    · rw [a, hEn]
  have := promote_trim2 E stA.reg x st.next hI30 ((t3 _).2 (Or.inl hx))
    ((t3 _).2 (Or.inr rfl)) hxn (by rw [hEx]; decide) (by rw [hEn]; decide)
    (by rw [t4, hL]) (by rw [t5]; exact hb) (by rw [t6]; exact hq)
  generalize promote discardLocked (E, stA.reg) = R at hr this
  subst hr
  exact ⟨rfl, this⟩

/-! ## Intake validation -/

/-- C21: if a transaction of the batch passed to `onNewTxs` has sender id `0`,
the call returns an error and leaves the whole state (hash map, by-nonce index,
sub-pools, records with their markers, deletion queue) as it was; likewise
`onNewBlock` when an unwound or a mined transaction has sender id `0`. -/
theorem intake_validation (tx : kvTx) (senders : SendersCache)
    (newTxs unwindTxs : List (TxSlot × Bool)) (minedTxs : List TxSlot) (pbf pend : Nat)
    (discard : Mem → Ptr → Registry → Registry) (st : State) :
    ((∃ e ∈ newTxs, e.1.senderID = 0) →
      onNewTxs tx senders newTxs pbf pend discard st = (st, some Err.senderIDZero)) ∧
    (((∃ e ∈ unwindTxs, e.1.senderID = 0) ∨ (∃ t ∈ minedTxs, t.senderID = 0)) →
      onNewBlock tx senders unwindTxs minedTxs pbf pend discard st =
        (st, some Err.senderIDZero)) := by
  constructor
  · rintro ⟨e, he, h0⟩
    unfold onNewTxs
    rw [if_pos]
    rw [List.any_eq_true]
    exact ⟨e, he, by simp [h0]⟩
  · intro h
    unfold onNewBlock
    by_cases hu : unwindTxs.any (fun e => e.1.senderID == 0) = true
    · rw [if_pos hu]
    · rw [if_neg hu, if_pos]
      rcases h with ⟨e, he, h0⟩ | ⟨t, ht, h0⟩
      · exact absurd (List.any_eq_true.2 ⟨e, he, by simp [h0]⟩) hu
      · exact List.any_eq_true.2 ⟨t, ht, by simp [h0]⟩

theorem intake_validation_witness :
    onNewTxs emptyKv scenarioSenders [(blockTxB, false), ({ blockTxA with senderID := 0 }, true)]
        50 70 discardLocked afterIntake.1 = (afterIntake.1, some Err.senderIDZero) ∧
      onNewBlock emptyKv scenarioSenders [] [{ blockTxA with senderID := 0 }] 50 70 discardLocked
        afterIntake.1 = (afterIntake.1, some Err.senderIDZero) :=
  ⟨(intake_validation emptyKv scenarioSenders
      [(blockTxB, false), ({ blockTxA with senderID := 0 }, true)] [] [] 50 70 discardLocked
      afterIntake.1).1 ⟨_, List.mem_cons_of_mem _ (List.mem_cons_self _ _), rfl⟩,
    (intake_validation emptyKv scenarioSenders [] [] [{ blockTxA with senderID := 0 }] 50 70
      discardLocked afterIntake.1).2 (Or.inr ⟨_, List.mem_cons_self _ _, rfl⟩)⟩

/-! ## The sender cache -/

theorem newCache_id (a : List Nat) : NewSendersCache.id a emptyKv = .ok none := rfl

theorem newCache_idsOK : NewSendersCache.IdsOK emptyKv :=
  ⟨fun a id h => (by rw [newCache_id] at h; cases h),
    fun a b id h _ => (by rw [newCache_id] at h; cases h)⟩

theorem coreKv_loads :
    ∀ e ∈ [((1 : Nat), [(1 : Nat)]), (3, [5])], ∃ info,
      loadSender coreDecode coreKv e.2 = .ok info := by
  intro e he
  simp only [List.mem_cons, List.mem_singleton, List.not_mem_nil, or_false] at he
  rcases he with rfl | rfl
  · exact ⟨_, rfl⟩
  · exact ⟨_, rfl⟩

/-- C24: on a cache whose ids are in order (each positive, at most the counter,
no two addresses with the same id), and absent wrap-around of the 64-bit
counter: an allocation gives the address the id `senderID + 1`, which is not
zero and above every id found before; after `ensureSenderIDOnNewTxs` and after
`mergeStateChangesLocked` (also when they end with an error) an address that
had an id, in memory or in the table `PooledSenderID`, has the same id; an id
found afterwards was there before or is above the old counter; and the ids are
in order again, so no two addresses share an id. -/
theorem senderID_allocation (sc : SendersCache) (tx : kvTx) (senders : List (List Nat))
    (ch : List (List Nat × senderInfo)) (u m : List (List Nat)) (hi : sc.IdsOK tx)
    (h1 : sc.senderID + senders.length < two64)
    (h2 : sc.senderID + (ch.length + u.length + m.length) < two64) :
    (∀ a, sc.id a tx = .ok none → sc.senderID + 1 < two64 →
      (sc.alloc a).id a tx = .ok (some (sc.senderID + 1)) ∧
        (sc.alloc a).senderID = sc.senderID + 1 ∧
        ∀ b id, sc.id b tx = .ok (some id) → 0 < id ∧ id < sc.senderID + 1) ∧
    (∀ r, (r = (sc.ensureSenderIDOnNewTxs tx senders).1 ∨
          r = (sc.mergeStateChangesLocked tx ch u m).1) →
      sc.senderID ≤ r.senderID ∧
        (∀ a id, sc.id a tx = .ok (some id) → r.id a tx = .ok (some id)) ∧
        (∀ a id, r.id a tx = .ok (some id) →
          sc.id a tx = .ok (some id) ∨
            (sc.id a tx = .ok none ∧ sc.senderID < id ∧ id ≤ r.senderID)) ∧
        (∀ a id, r.id a tx = .ok (some id) → 0 < id ∧ id ≤ r.senderID) ∧
        (∀ a b id, r.id a tx = .ok (some id) → r.id b tx = .ok (some id) → a = b)) := by
  constructor
  · intro a _ hw
    refine ⟨?_, ?_, ?_⟩
    · rw [SendersCache.id_alloc, if_pos rfl, Nat.mod_eq_of_lt hw]
    · show (sc.senderID + 1) % two64 = sc.senderID + 1
      exact Nat.mod_eq_of_lt hw
    · intro b id hb
      have := hi.1 b id hb
      omega
  · intro r hr
    have hg : ∃ k, SendersCache.Grows tx k sc r := by
      rcases hr with hr | hr
      · exact ⟨_, hr ▸ ensureSenderIDOnNewTxs_grows sc tx senders h1⟩
      · exact ⟨_, hr ▸ mergeStateChangesLocked_grows sc tx ch u m h2⟩
    obtain ⟨k, hg⟩ := hg
    have hi' := hg.idsOK hi
    exact ⟨hg.1, hg.2.2.1, hg.2.2.2.1, hi'.1, hi'.2⟩

theorem senderID_allocation_witness :
    (NewSendersCache.ensureSenderIDOnNewTxs emptyKv [[1], [2], [1]]).1.id [1] emptyKv =
        .ok (some 1) ∧
      (NewSendersCache.ensureSenderIDOnNewTxs emptyKv [[1], [2], [1]]).1.id [2] emptyKv =
        .ok (some 2) ∧
      (NewSendersCache.ensureSenderIDOnNewTxs emptyKv [[1], [2], [1]]).1.senderID = 2 ∧
      ∀ a b id,
        (NewSendersCache.ensureSenderIDOnNewTxs emptyKv [[1], [2], [1]]).1.id a emptyKv =
          .ok (some id) →
        (NewSendersCache.ensureSenderIDOnNewTxs emptyKv [[1], [2], [1]]).1.id b emptyKv =
          .ok (some id) → a = b :=
  ⟨by decide, by decide, by decide,
    ((senderID_allocation NewSendersCache emptyKv [[1], [2], [1]] [] [] [] newCache_idsOK
      (by decide) (by decide)).2 _ (Or.inl rfl)).2.2.2.2⟩

/-- C25 (counterexample): on a new cache, `onNewBlock` with the state change
`[1] ↦ (nonce 0, balance 0)` and a mined transaction of the sender `[1]`
succeeds; the sender gets the id `1` and its record has nonce and balance zero,
although the sender is in `stateChanges`. -/
theorem onNewBlock_zero_record_counterexample :
    (NewSendersCache.onNewBlock emptyKv zeroChanges [] [([1], blockTxA)] 1 []).2 = none ∧
      (NewSendersCache.onNewBlock emptyKv zeroChanges [] [([1], blockTxA)] 1 []).1.sc.id [1]
        emptyKv = .ok (some 1) ∧
      (NewSendersCache.onNewBlock emptyKv zeroChanges [] [([1], blockTxA)] 1 []).1.sc.senderInfo 1 =
        some { nonce := 0, balance := 0 } ∧
      NewSendersCache.senderInfo 1 = none ∧
      ¬ (∀ e ∈ zeroChanges, e.1 ≠ [1]) := by
  decide

theorem onNewBlock_sc (sc : SendersCache) (tx : kvTx) (ch : List (List Nat × senderInfo))
    (unwindTxs minedTxs : List (List Nat × TxSlot)) (bh : Nat) (hash : List Nat)
    (hok : (sc.onNewBlock tx ch unwindTxs minedTxs bh hash).2 = none) :
    (sc.onNewBlock tx ch unwindTxs minedTxs bh hash).1.sc =
        (({ sc with blockHeight := bh, blockHash := hash } : SendersCache).mergeStateChangesLocked
          tx ch (unwindTxs.map Prod.fst) (minedTxs.map Prod.fst)).1 ∧
      (({ sc with blockHeight := bh, blockHash := hash } : SendersCache).mergeStateChangesLocked
          tx ch (unwindTxs.map Prod.fst) (minedTxs.map Prod.fst)).2 = none := by
  unfold SendersCache.onNewBlock at hok ⊢
  dsimp only at hok ⊢
  cases h1 : ({ sc with blockHeight := bh, blockHash := hash } :
      SendersCache).mergeStateChangesLocked tx ch (unwindTxs.map Prod.fst)
      (minedTxs.map Prod.fst) with
  | mk s1 o1 =>
    rw [h1] at hok
    cases o1 with
    | some e => cases hok
    | none =>
      dsimp only at hok ⊢
      cases h2 : s1.setTxSenderID tx unwindTxs with
      | mk u o2 =>
        rw [h2] at hok
        cases o2 with
        | some e => cases hok
        | none =>
          dsimp only at hok ⊢
          cases h3 : s1.setTxSenderID tx minedTxs with
          | mk m o3 =>
            rw [h3] at hok
            cases o3 with
            | some e => cases hok
            | none => exact ⟨rfl, rfl⟩

/-- C25 (amended): on a cache whose ids are in order, absent wrap-around of
the counter, after `SendersCache.onNewBlock` succeeds: every address of
`stateChanges` has an id whose in-memory record is the supplied one; every
sender of an unwound or mined transaction has an id and an in-memory record,
which is the supplied record when the sender is in `stateChanges`, else the
in-memory record that id had before the call when it had one, else a new
record of nonce and balance zero; the records of all other ids are as before. -/
theorem onNewBlock_sender_records (sc : SendersCache) (tx : kvTx)
    (ch : List (List Nat × senderInfo)) (unwindTxs minedTxs : List (List Nat × TxSlot))
    (bh : Nat) (hash : List Nat) (hi : sc.IdsOK tx) (hk : (ch.map Prod.fst).Nodup)
    (hw : sc.senderID + (ch.length + unwindTxs.length + minedTxs.length) < two64)
    (hok : (sc.onNewBlock tx ch unwindTxs minedTxs bh hash).2 = none) :
    (∀ e ∈ ch, ∃ id,
        (sc.onNewBlock tx ch unwindTxs minedTxs bh hash).1.sc.id e.1 tx = .ok (some id) ∧
        (sc.onNewBlock tx ch unwindTxs minedTxs bh hash).1.sc.senderInfo id = some e.2) ∧
      (∀ a ∈ unwindTxs.map Prod.fst ++ minedTxs.map Prod.fst, ∃ id r,
        (sc.onNewBlock tx ch unwindTxs minedTxs bh hash).1.sc.id a tx = .ok (some id) ∧
        (sc.onNewBlock tx ch unwindTxs minedTxs bh hash).1.sc.senderInfo id = some r ∧
        ((∃ e ∈ ch, e.1 = a ∧ r = e.2) ∨
          ((∀ e ∈ ch, e.1 ≠ a) ∧ sc.senderInfo id = some r) ∨
          ((∀ e ∈ ch, e.1 ≠ a) ∧ sc.senderInfo id = none ∧
            r = { nonce := 0, balance := 0 }))) ∧
      (∀ id,
        (∀ e ∈ ch,
          (sc.onNewBlock tx ch unwindTxs minedTxs bh hash).1.sc.id e.1 tx ≠ .ok (some id)) →
        (∀ a ∈ unwindTxs.map Prod.fst ++ minedTxs.map Prod.fst,
          (sc.onNewBlock tx ch unwindTxs minedTxs bh hash).1.sc.id a tx ≠ .ok (some id)) →
        (sc.onNewBlock tx ch unwindTxs minedTxs bh hash).1.sc.senderInfo id =
          sc.senderInfo id) := by
  obtain ⟨e1, e2⟩ := onNewBlock_sc sc tx ch unwindTxs minedTxs bh hash hok
  rw [e1]
  obtain ⟨r1, r2, r3, _⟩ := mergeStateChangesLocked_records
    ({ sc with blockHeight := bh, blockHash := hash } : SendersCache) tx ch
    (unwindTxs.map Prod.fst) (minedTxs.map Prod.fst) hi hk
    (by rw [List.length_map, List.length_map]; exact hw) e2
  exact ⟨r1, r2, r3⟩

theorem onNewBlock_sender_records_witness :
    (∃ id, (NewSendersCache.onNewBlock emptyKv oneChange [([2], blockTxB)] [([1], blockTxA)]
          1 []).1.sc.id [1] emptyKv = .ok (some id) ∧
        (NewSendersCache.onNewBlock emptyKv oneChange [([2], blockTxB)] [([1], blockTxA)]
          1 []).1.sc.senderInfo id = some { nonce := 5, balance := 900 }) ∧
      (NewSendersCache.onNewBlock emptyKv oneChange [([2], blockTxB)] [([1], blockTxA)]
          1 []).1.sc.senderInfo 2 = some { nonce := 0, balance := 0 } :=
  ⟨(onNewBlock_sender_records NewSendersCache emptyKv oneChange [([2], blockTxB)]
      [([1], blockTxA)] 1 [] newCache_idsOK (by decide) (by decide) (by decide)).1 _
      (List.mem_cons_self _ _), by decide⟩

/-- C26: `loadFromCore` is atomic on failure.  If the lookup of some requested
id fails, the call returns the error of a failing lookup and leaves the cache
as it was; if every lookup succeeds, the call returns no error, each requested
id has the record loaded for its address, the record of every other id and the
ids are as before; and an account absent from the chain state loads as nonce
and balance zero. -/
theorem loadFromCore_atomic (decode : List Nat → Option (Nat × Nat)) (sc : SendersCache)
    (coreTx : kvTx) (toLoad : List (Nat × List Nat)) (hk : (toLoad.map Prod.fst).Nodup) :
    ((∃ e ∈ toLoad, ∃ err, loadSender decode coreTx e.2 = .error err) →
      (sc.loadFromCore decode coreTx toLoad).1 = sc ∧
        ∃ err, (sc.loadFromCore decode coreTx toLoad).2 = some err ∧
          ∃ e ∈ toLoad, loadSender decode coreTx e.2 = .error err) ∧
    ((∀ e ∈ toLoad, ∃ info, loadSender decode coreTx e.2 = .ok info) →
      (sc.loadFromCore decode coreTx toLoad).2 = none ∧
        (∀ e ∈ toLoad, ∀ info, loadSender decode coreTx e.2 = .ok info →
          (sc.loadFromCore decode coreTx toLoad).1.senderInfo e.1 = some info) ∧
        (∀ id, id ∉ toLoad.map Prod.fst →
          (sc.loadFromCore decode coreTx toLoad).1.senderInfo id = sc.senderInfo id) ∧
        (sc.loadFromCore decode coreTx toLoad).1.senderIDs = sc.senderIDs ∧
        (sc.loadFromCore decode coreTx toLoad).1.senderID = sc.senderID) ∧
    (∀ addr, coreTx.GetOne "PlainState" addr = some [] →
      loadSender decode coreTx addr = .ok { nonce := 0, balance := 0 }) := by
  refine ⟨?_, ?_, ?_⟩
  · intro h
    obtain ⟨err, h1, h2⟩ := read_some_error decode coreTx toLoad h
    unfold SendersCache.loadFromCore
    rw [h1]
    exact ⟨rfl, err, rfl, h2⟩
  · intro h
    obtain ⟨d, h1, h2, h3⟩ := read_all_ok decode coreTx toLoad h
    unfold SendersCache.loadFromCore
    rw [h1]
    refine ⟨rfl, ?_, ?_, rfl, rfl⟩
    · intro e he info hinfo
      exact foldl_update_mem d sc.senderInfo (by rw [h2]; exact hk) (e.1, info) (h3 e he info hinfo)
    · intro id hid
      exact foldl_update_not_mem d sc.senderInfo id (by rw [h2]; exact hid)
  · intro addr h
    unfold loadSender
    rw [h]
    rfl

theorem loadFromCore_atomic_witness :
    ((NewSendersCache.loadFromCore coreDecode coreKv [(1, [1]), (2, [9]), (3, [5])]).1 =
        NewSendersCache ∧
      ∃ err, (NewSendersCache.loadFromCore coreDecode coreKv [(1, [1]), (2, [9]), (3, [5])]).2 =
        some err ∧
        ∃ e ∈ [(1, [1]), (2, [9]), (3, [5])], loadSender coreDecode coreKv e.2 = .error err) ∧
      (NewSendersCache.loadFromCore coreDecode coreKv [(1, [1]), (3, [5])]).1.senderInfo 1 =
        some { nonce := 3, balance := 1000 } ∧
      (NewSendersCache.loadFromCore coreDecode coreKv [(1, [1]), (3, [5])]).1.senderInfo 3 =
        some { nonce := 0, balance := 0 } :=
  ⟨(loadFromCore_atomic coreDecode NewSendersCache coreKv [(1, [1]), (2, [9]), (3, [5])]
      (by decide)).1 ⟨(2, [9]), by decide, Err.backend, by decide⟩,
    ((loadFromCore_atomic coreDecode NewSendersCache coreKv [(1, [1]), (3, [5])]
      (by decide)).2.1 coreKv_loads).2.1 (1, [1]) (by decide) _ (by decide),
    ((loadFromCore_atomic coreDecode NewSendersCache coreKv [(1, [1]), (3, [5])]
      (by decide)).2.1 coreKv_loads).2.1 (3, [5]) (by decide) _ (by decide)⟩

/-- C27: let `SendersCache.flush` end without error on a cache whose map
`senderInfo` (its ids are below `2^64` and are visited in the order
`infoOrder`) holds for `id` a record with `nonce < 2^64` and
`balance < 2^256`.  In the store the flush leaves, the table `PooledSender`
holds under the key of `id` the 8 bytes of the nonce followed by the bytes of
the balance, which start with no zero byte and give the balance back.  When the
read of that row does not fail, `SendersCache.info`, with either value of
`expectMiss`, on a cache that has no in-memory record of `id` decodes the row
to the same nonce and balance; the flushed cache itself is such a cache.  The
row has at least 8 bytes, exactly 8 for a balance of zero, so it is not taken
for a miss. -/
theorem sender_record_round_trip (sc : SendersCache) (db : Db) (count : Nat → Nat)
    (without : List Nat) (rounds : Nat) (now : List Nat) (idOrder : List (List Nat))
    (infoOrder : List Nat) (id : Nat) (info : senderInfo) (reader : SendersCache)
    (hl : ∀ j ∈ infoOrder, j < two64) (hid : id ∈ infoOrder)
    (hrec : sc.senderInfo id = some info)
    (hn : info.nonce < two64) (hb : info.balance < two256)
    (hf : (sc.flush db count without rounds now idOrder infoOrder).err = none)
    (hget : (sc.flush db count without rounds now idOrder infoOrder).db.fails
      (.get "PooledSender" (putUint64 id)) = false)
    (hmem : reader.senderInfo id = none) :
    Db.find ((sc.flush db count without rounds now idOrder infoOrder).db.data "PooledSender")
        (putUint64 id) = putUint64 info.nonce ++ uint256Bytes info.balance ∧
      (uint256Bytes info.balance).head? ≠ some 0 ∧
      beToNat (uint256Bytes info.balance) = info.balance ∧
      reader.info id (sc.flush db count without rounds now idOrder infoOrder).db.tx =
        .ok info ∧
      reader.infoExpectMiss id (sc.flush db count without rounds now idOrder infoOrder).db.tx =
        .ok (some info) ∧
      (sc.flush db count without rounds now idOrder infoOrder).sc.info id
        (sc.flush db count without rounds now idOrder infoOrder).db.tx = .ok info ∧
      8 ≤ (Db.find ((sc.flush db count without rounds now idOrder infoOrder).db.data
        "PooledSender") (putUint64 id)).length ∧
      (info.balance = 0 →
        (Db.find ((sc.flush db count without rounds now idOrder infoOrder).db.data
          "PooledSender") (putUint64 id)).length = 8) := by
  obtain ⟨w1, w2⟩ :=
    SendersCache.flush_writes sc db count without rounds now idOrder infoOrder hl hf
  have hrow := w2 id hid info hrec
  generalize sc.flush db count without rounds now idOrder infoOrder = F at w1 hrow hget ⊢
  have hread : F.db.tx.GetOne "PooledSender" (putUint64 id) = some (encodeSender info) := by
    unfold Db.tx
    dsimp only
    rw [hget, hrow]
    rfl
  rw [hrow]
  refine ⟨rfl, uint256Bytes_head _, ?_, (SendersCache.info_stored reader _ id info hn hb hmem hread).1,
    (SendersCache.info_stored reader _ id info hn hb hmem hread).2,
    (SendersCache.info_stored F.sc _ id info hn hb (w1 id) hread).1,
    encodeSender_length info, ?_⟩
  · rw [beToNat_uint256Bytes, Nat.mod_eq_of_lt hb]
  · intro h0
    unfold encodeSender uint256Bytes
    rw [h0, List.length_append, putUint64_length]
    rfl

theorem sender_record_round_trip_witness :
    twoSendersFlushed.err = none ∧
      Db.find (twoSendersFlushed.db.data "PooledSender") (putUint64 4) =
        [0, 0, 0, 0, 0, 0, 0, 9] ∧
      NewSendersCache.info 4 twoSendersFlushed.db.tx = .ok { nonce := 9, balance := 0 } ∧
      twoSendersFlushed.sc.info 4 twoSendersFlushed.db.tx = .ok { nonce := 9, balance := 0 } :=
  have h1 : ∀ j ∈ [5, 4], j < two64 := by decide
  have h2 : twoSendersFlushed.err = none := by decide
  have h3 : twoSendersFlushed.db.fails (.get "PooledSender" (putUint64 4)) = false := by decide
  have h := sender_record_round_trip twoSenders emptyDb (fun _ => 1) [] 10 [1] [[4], [5]] [5, 4]
    4 { nonce := 9, balance := 0 } NewSendersCache h1 (by decide) rfl (by decide) (by decide)
    h2 h3 rfl
  ⟨h2, h.1, h.2.2.2.1, h.2.2.2.2.2.1⟩

/-! ## Capacity -/

/-- C23 (failing input): `onNewTxs` on the empty pool with the batch of 10241
local transactions of the capacity scenario (each of a sender of its own with
state nonce `0` and balance `10^18`, nonce `1`, fee cap `100`, tip `10`, at base
fees `50` and `70`) ends without error; all 10241 transactions are left in
`pending`, each with all five bits of the marker set, and none has been
discarded: `pending` is over `PendingSubPoolLimit`. -/
theorem onNewTxs_capacity_over_limit :
    (onNewTxs emptyKv capacitySenders (capacityBatch 10241) 50 70 discardLocked
        State.empty).2 = none ∧
      (onNewTxs emptyKv capacitySenders (capacityBatch 10241) 50 70 discardLocked
        State.empty).1.pools.pending.Len = 10241 ∧
      PendingSubPoolLimit < (onNewTxs emptyKv capacitySenders (capacityBatch 10241) 50 70
        discardLocked State.empty).1.pools.pending.Len ∧
      (onNewTxs emptyKv capacitySenders (capacityBatch 10241) 50 70 discardLocked
        State.empty).1.reg.deletedTxs = [] ∧
      ∀ p ∈ (onNewTxs emptyKv capacitySenders (capacityBatch 10241) 50 70 discardLocked
          State.empty).1.pools.pending.best,
        0b11111 ≤ ((onNewTxs emptyKv capacitySenders (capacityBatch 10241) 50 70 discardLocked
          State.empty).1.pools.mem p).subPool := by
  obtain ⟨h1, h2, h3, _, h5, _⟩ := capacity_intake 10241 (by decide)
  refine ⟨h1, h2, ?_, h3, h5⟩
  rw [h2]
  decide

/-- C22 (failing input): `gapRun` leaves the pool in which the 10240 local
transactions of the capacity scenario and then `gapTx` (sender 10241, nonce `2`,
not local, kept in `queued` for its nonce gap) have been taken in.  Taking in
the batch of the single transaction `fillTx` (sender 10241, nonce `1`, not
local) on it ends without error and leaves 10241 transactions in `pending`
(`fillOnce`); taking in the same batch once more ends without error and leaves
10240 transactions in `pending` (`fillTwice`): the pool after two deliveries is
not the pool after one. -/
theorem onNewTxs_twice_differs :
    fillOnce.2 = none ∧ fillOnce.1.pools.pending.Len = 10241 ∧
      fillTwice.2 = none ∧ fillTwice.1.pools.pending.Len = 10240 := by
  unfold fillTwice fillOnce gapRun fullRun
  have a0 := onNewTxs_inv emptyKv capacitySenders (capacityBatch 10240) 50 70 State.empty
    State.empty_inv
  obtain ⟨_, a2, _, _, a5, a6, a7, a8, a9⟩ := capacity_intake 10240 (by decide)
  generalize (onNewTxs emptyKv capacitySenders (capacityBatch 10240) 50 70 discardLocked
    State.empty).1 = s0 at a0 a2 a5 a6 a7 a8 a9 ⊢
  obtain ⟨_, b1, b2, b3, b4, b5, b6, b7, b8, b9, b10, b11⟩ :=
    gap_call s0 10240 a0 a2 (Nat.le_refl _) a5 a6 a7 a8 a9 _ rfl
  generalize (onNewTxs emptyKv capacitySenders [(gapTx, false)] 50 70 discardLocked s0).1 = s1
    at b1 b2 b3 b4 b5 b6 b7 b8 b9 b10 b11 ⊢
  obtain ⟨c0, c1, c2, c3, c4, c5, c6, c7, c8, c9, c10, c11⟩ :=
    fill_call s1 s0.next b1 b2 b3 b4 b5 b6 b7 b8 b9 b10 b11 _ rfl
  generalize onNewTxs emptyKv capacitySenders [(fillTx, false)] 50 70 discardLocked s1 = r2
    at c0 c1 c2 c3 c4 c5 c6 c7 c8 c9 c10 c11 ⊢
  obtain ⟨d0, d1⟩ :=
    refill_call r2.1 s0.next c1 c2 c3 c4 c5 c6 c7 c8 c9 c10 c11 _ rfl
  exact ⟨c0, c2, d0, d1⟩

/-! ## Flush and restart -/

set_option maxRecDepth 100000

/-- C28 (failing input): `queuePool` holds the transactions at the addresses
`1` and `3` with their bytes and the discarded record `2` in its deletion
queue.  Three flushes of it that end with an error leave the in-memory state
changed: when clearing the bucket `RecentLocalTransaction` fails, the entry of
the deletion queue is `nil`; when the write of the base fee fails, the
transaction at address `1` has lost its bytes; when the cursor of the sender
cache fails, the commit id has gone from `0` to `1`. -/
theorem flushLocked_failure_side_effects :
    queuePool.st.reg.deletedTxs = [2] ∧
      (flushLocked 10 [1] [[1]] [1] queuePool clearFailsDb).err = some Err.backend ∧
      (flushLocked 10 [1] [[1]] [1] queuePool clearFailsDb).deletedTxs = [none] ∧
      queuePool.rlp 1 = some [170] ∧
      (flushLocked 10 [1] [[1]] [1] queuePool infoFailsDb).err = some Err.backend ∧
      (flushLocked 10 [1] [[1]] [1] queuePool infoFailsDb).rlp 1 = none ∧
      queuePool.sc.commitID = 0 ∧
      (flushLocked 10 [1] [[1]] [1] queuePool cursorFailsDb).err = some Err.backend ∧
      (flushLocked 10 [1] [[1]] [1] queuePool cursorFailsDb).sc.commitID = 1 := by
  decide

/-- C29 (failing input): `localPool` holds the transaction `blockTxA`, which
was submitted as local and never discarded: its record (address `1`) has the
bit `IsLocal`, the deletion queue and the recent-locals cache are empty.  The
flush into the empty store ends without error; it stores the transaction under
its hash (sender id, eight zero bytes, the bytes of the transaction) and leaves
the bucket `RecentLocalTransaction` empty.  The restart of a fresh pool from
that store, with a parser that returns `blockTxA` for the stored bytes, ends
without error and has the transaction under its hash again, but the restored
record does not have the bit `IsLocal`. -/
theorem flush_restart_loses_locality :
    hasBit (localPool.st.pools.mem 1).subPool IsLocal ∧
      (localPool.st.pools.mem 1).Tx = blockTxA ∧
      byHashGet localPool.st.reg.byHash blockTxA.idHash = some 1 ∧
      localPool.st.reg.deletedTxs = [] ∧ localPool.st.reg.localsHistory = [] ∧
      localFlushed.err = none ∧
      localFlushed.db.data "PooledTransaction" =
        [(hashBytes blockTxA.idHash, putUint64 1 ++ putUint64 0 ++ [170])] ∧
      localFlushed.db.data "RecentLocalTransaction" = [] ∧
      parseA [170] = some blockTxA ∧
      localRestored.2 = none ∧
      byHashGet localRestored.1.1.st.reg.byHash blockTxA.idHash = some 1 ∧
      (localRestored.1.1.st.pools.mem 1).Tx = blockTxA ∧
      ¬ hasBit (localRestored.1.1.st.pools.mem 1).subPool IsLocal := by
  decide

/-! ## The union of two streams -/

/-- C30: for two ascending, duplicate-free sequences of values, `iter.Union`
(as modelled) yields an ascending, duplicate-free sequence that holds exactly
the values occurring in either input, a common value once; when one input is
empty the result is the other input, and when both are empty it is empty. -/
theorem union_ascending (xs ys : List Nat) (hx : xs.Pairwise (· < ·))
    (hy : ys.Pairwise (· < ·)) :
    (iter.Union xs ys).Pairwise (· < ·) ∧
      (∀ v, v ∈ iter.Union xs ys ↔ v ∈ xs ∨ v ∈ ys) ∧
      iter.Union [] ys = ys ∧ iter.Union xs [] = xs ∧ iter.Union [] [] = [] := by
  obtain ⟨h1, h2⟩ := union_loop_spec (xs.length + ys.length + 1) xs ys (by omega) hx hy
  exact ⟨h1, h2, union_nil_left ys, union_nil_right xs, rfl⟩

theorem union_ascending_witness :
    (iter.Union [1, 3, 4, 5, 6, 7] [2, 3, 7, 8]).Pairwise (· < ·) ∧
      iter.Union [1, 3, 4, 5, 6, 7] [2, 3, 7, 8] = [1, 2, 3, 4, 5, 6, 7, 8] ∧
      iter.Union [] [2, 3, 7, 8] = [2, 3, 7, 8] ∧
      iter.Union [1, 3, 4, 5, 6, 7] [] = [1, 3, 4, 5, 6, 7] :=
  ⟨(union_ascending [1, 3, 4, 5, 6, 7] [2, 3, 7, 8] (by decide) (by decide)).1, by decide,
    by decide, by decide⟩

/-! ## The intersection of two ascending streams -/

theorem intersect_loop_spec (fuel : Nat) (xs ys : List Nat) (hf : xs.length + ys.length < fuel)
    (hx : xs.Pairwise (· < ·)) (hy : ys.Pairwise (· < ·)) :
    (iter.Intersect.loop fuel xs ys).Pairwise (· < ·) ∧
      (∀ v, v ∈ iter.Intersect.loop fuel xs ys ↔ v ∈ xs ∧ v ∈ ys) := by
  induction fuel generalizing xs ys with
  | zero => omega
  | succ n ih =>
    cases xs with
    | nil =>
      rw [iter.Intersect.loop]
      exact ⟨List.Pairwise.nil, fun v => by simp⟩
    | cons x xs =>
      cases ys with
      | nil =>
        rw [iter.Intersect.loop]
        exact ⟨List.Pairwise.nil, fun v => by simp⟩
      | cons y ys =>
        rw [iter.Intersect.loop]
        rw [List.pairwise_cons] at hx hy
        simp only [List.length_cons] at hf
        by_cases h1 : x < y
        · rw [if_pos h1]
          obtain ⟨s1, s2⟩ := ih xs (y :: ys) (by simp only [List.length_cons]; omega) hx.2
            (List.pairwise_cons.2 hy)
          refine ⟨s1, fun v => ?_⟩
          rw [s2 v, List.mem_cons, List.mem_cons]
          constructor
          · rintro ⟨a, b⟩
            exact ⟨Or.inr a, b⟩
          · rintro ⟨a | a, b⟩
            · exfalso
              rcases b with b | b
              · omega
              · have := hy.1 v b
                omega
            · exact ⟨a, b⟩
        · rw [if_neg h1]
          by_cases h2 : x = y
          · rw [if_pos h2]
            obtain ⟨s1, s2⟩ := ih xs ys (by omega) hx.2 hy.2
            refine ⟨List.pairwise_cons.2 ⟨fun v hv => hx.1 v ((s2 v).1 hv).1, s1⟩, fun v => ?_⟩
            rw [List.mem_cons, s2 v, List.mem_cons, List.mem_cons]
            constructor
            · rintro (a | ⟨a, b⟩)
              · exact ⟨Or.inl a, Or.inl (a.trans h2)⟩
              · exact ⟨Or.inr a, Or.inr b⟩
            · rintro ⟨a | a, b | b⟩
              · exact Or.inl a
              · exact Or.inl a
              · exact Or.inl (b.trans h2.symm)
              · exact Or.inr ⟨a, b⟩
          · rw [if_neg h2]
            have h3 : y < x := by omega
            obtain ⟨s1, s2⟩ := ih (x :: xs) ys (by simp only [List.length_cons]; omega)
              (List.pairwise_cons.2 hx) hy.2
            refine ⟨s1, fun v => ?_⟩
            rw [s2 v, List.mem_cons, List.mem_cons]
            constructor
            · rintro ⟨a, b⟩
              exact ⟨a, Or.inr b⟩
            · rintro ⟨a, b | b⟩
              · exfalso
                rcases a with a | a
                · omega
                · have := hx.1 v a
                  omega
              · exact ⟨a, b⟩

theorem intersect_nil_left (ys : List Nat) : iter.Intersect [] ys = [] := by
  unfold iter.Intersect
  rw [iter.Intersect.loop]

theorem intersect_nil_right (xs : List Nat) : iter.Intersect xs [] = [] := by
  unfold iter.Intersect
  cases xs with
  | nil => rw [iter.Intersect.loop]
  | cons x xs => rw [iter.Intersect.loop]

/-! ## Every loop of `promote` as a sequence of iterations -/

theorem promote.loop1_trace {D : Type} (discard : Mem → Ptr → D → D) (f : Nat)
    (sd : Pools × D) :
    Relation.ReflTransGen (promote.Iter discard) sd (promote.loop1 discard f sd) := by
  induction f generalizing sd with
  | zero => exact Relation.ReflTransGen.refl
  | succ f ih =>
    obtain ⟨s, d⟩ := sd
    simp only [promote.loop1]
    split
    · rename_i hl
      split
      · exact Relation.ReflTransGen.refl
      · split
        · exact Relation.ReflTransGen.head
            (promote.Iter.moveWorst (s, d) .pending .baseFee (by decide) hl) (ih _)
        · split
          · exact Relation.ReflTransGen.head
              (promote.Iter.moveWorst (s, d) .pending .queued (by decide) hl) (ih _)
          · rename_i h1 h2 h3
            exact Relation.ReflTransGen.head
              (promote.Iter.dropLow (s, d) .pending hl (Nat.lt_of_not_le h3)) (ih _)
    · exact Relation.ReflTransGen.refl

theorem promote.loop2_trace {D : Type} (discard : Mem → Ptr → D → D) (f : Nat)
    (sd : Pools × D) :
    Relation.ReflTransGen (promote.Iter discard) sd (promote.loop2 discard f sd) := by
  induction f generalizing sd with
  | zero => exact Relation.ReflTransGen.refl
  | succ f ih =>
    obtain ⟨s, d⟩ := sd
    simp only [promote.loop2]
    split
    · rename_i hl
      split
      · exact Relation.ReflTransGen.refl
      · exact Relation.ReflTransGen.head (promote.Iter.dropOver (s, d) .pending hl) (ih _)
    · exact Relation.ReflTransGen.refl

theorem promote.loop3_trace {D : Type} (discard : Mem → Ptr → D → D) (f : Nat)
    (sd : Pools × D) :
    Relation.ReflTransGen (promote.Iter discard) sd (promote.loop3 f sd) := by
  induction f generalizing sd with
  | zero => exact Relation.ReflTransGen.refl
  | succ f ih =>
    obtain ⟨s, d⟩ := sd
    simp only [promote.loop3]
    split
    · rename_i hl
      split
      · exact Relation.ReflTransGen.refl
      · exact Relation.ReflTransGen.head
          (promote.Iter.moveBest (s, d) .baseFee .pending (by decide) hl) (ih _)
    · exact Relation.ReflTransGen.refl

theorem promote.loop4_trace {D : Type} (discard : Mem → Ptr → D → D) (f : Nat)
    (sd : Pools × D) :
    Relation.ReflTransGen (promote.Iter discard) sd (promote.loop4 discard f sd) := by
  induction f generalizing sd with
  | zero => exact Relation.ReflTransGen.refl
  | succ f ih =>
    obtain ⟨s, d⟩ := sd
    simp only [promote.loop4]
    split
    · rename_i hl
      split
      · exact Relation.ReflTransGen.refl
      · split
        · exact Relation.ReflTransGen.head
            (promote.Iter.moveWorst (s, d) .baseFee .queued (by decide) hl) (ih _)
        · rename_i h1 h2
          exact Relation.ReflTransGen.head
            (promote.Iter.dropLow (s, d) .baseFee hl (Nat.lt_of_not_le h2)) (ih _)
    · exact Relation.ReflTransGen.refl

theorem promote.loop5_trace {D : Type} (discard : Mem → Ptr → D → D) (f : Nat)
    (sd : Pools × D) :
    Relation.ReflTransGen (promote.Iter discard) sd (promote.loop5 discard f sd) := by
  induction f generalizing sd with
  | zero => exact Relation.ReflTransGen.refl
  | succ f ih =>
    obtain ⟨s, d⟩ := sd
    simp only [promote.loop5]
    split
    · rename_i hl
      split
      · exact Relation.ReflTransGen.refl
      · exact Relation.ReflTransGen.head (promote.Iter.dropOver (s, d) .baseFee hl) (ih _)
    · exact Relation.ReflTransGen.refl

theorem promote.loop6_trace {D : Type} (discard : Mem → Ptr → D → D) (f : Nat)
    (sd : Pools × D) :
    Relation.ReflTransGen (promote.Iter discard) sd (promote.loop6 f sd) := by
  induction f generalizing sd with
  | zero => exact Relation.ReflTransGen.refl
  | succ f ih =>
    obtain ⟨s, d⟩ := sd
    simp only [promote.loop6]
    split
    · rename_i hl
      split
      · exact Relation.ReflTransGen.refl
      · split
        · exact Relation.ReflTransGen.head
            (promote.Iter.moveBest (s, d) .queued .baseFee (by decide) hl) (ih _)
        · exact Relation.ReflTransGen.head
            (promote.Iter.moveBest (s, d) .queued .pending (by decide) hl) (ih _)
    · exact Relation.ReflTransGen.refl

theorem promote.loop7_trace {D : Type} (discard : Mem → Ptr → D → D) (f : Nat)
    (sd : Pools × D) :
    Relation.ReflTransGen (promote.Iter discard) sd (promote.loop7 discard f sd) := by
  induction f generalizing sd with
  | zero => exact Relation.ReflTransGen.refl
  | succ f ih =>
    obtain ⟨s, d⟩ := sd
    simp only [promote.loop7]
    split
    · rename_i hl
      split
      · exact Relation.ReflTransGen.refl
      · rename_i h1
        exact Relation.ReflTransGen.head
          (promote.Iter.dropLow (s, d) .queued hl (Nat.lt_of_not_le h1)) (ih _)
    · exact Relation.ReflTransGen.refl

theorem promote.loop8_trace {D : Type} (discard : Mem → Ptr → D → D) (f : Nat)
    (sd : Pools × D) :
    Relation.ReflTransGen (promote.Iter discard) sd (promote.loop8 discard f sd) := by
  induction f generalizing sd with
  | zero => exact Relation.ReflTransGen.refl
  | succ f ih =>
    obtain ⟨s, d⟩ := sd
    simp only [promote.loop8]
    split
    · rename_i hl
      exact Relation.ReflTransGen.head (promote.Iter.dropOver (s, d) .queued hl) (ih _)
    · exact Relation.ReflTransGen.refl

/-- The function `promote` is a sequence of iterations. -/
theorem promote_trace {D : Type} (discard : Mem → Ptr → D → D) (sd : Pools × D) :
    Relation.ReflTransGen (promote.Iter discard) sd (promote discard sd) := by
  unfold promote
  dsimp only
  exact (((((((promote.loop1_trace discard _ _).trans (promote.loop2_trace discard _ _)).trans
    (promote.loop3_trace discard _ _)).trans (promote.loop4_trace discard _ _)).trans
    (promote.loop5_trace discard _ _)).trans (promote.loop6_trace discard _ _)).trans
    (promote.loop7_trace discard _ _)).trans (promote.loop8_trace discard _ _)

/-! ## The two queues of a sub-pool with valid heaps -/

theorem SubPool.Valid.worstPerm {m : Mem} {p : SubPool} (hv : p.Valid m) :
    p.worst.Perm p.best :=
  (List.perm_ext_iff_of_nodup hv.1.2.1.nodup hv.1.1.nodup).2
    (fun a => ⟨hv.1.2.2.2 a, hv.1.2.2.1 a⟩)

/-- An element taken out of `best` has been taken out of `worst` too. -/
theorem SubPool.Valid.popped_worst {m m' : Mem} {p p' : SubPool} {x : Ptr} (hv : p.Valid m)
    (hv' : p'.Valid m') (hp : (x :: p'.best).Perm p.best) : (x :: p'.worst).Perm p.worst :=
  ((List.Perm.cons x hv'.worstPerm).trans hp).trans hv.worstPerm.symm

/-! ## The three sub-pools, by name -/

theorem Pools.valid_get_iff (s : Pools) :
    s.Valid ↔ (∀ w, (s.get w).Valid s.mem) ∧
      ∀ w w', w ≠ w' → Disj (s.get w).best (s.get w').best := by
  constructor
  · rintro ⟨a, b, c, d1, d2, d3⟩
    refine ⟨fun w => ?_, fun w w' h => ?_⟩
    · cases w
      · exact a
      · exact b
      · exact c
    · cases w <;> cases w'
      · exact absurd rfl h
      · exact d1
      · exact d2
      · exact d1.symm
      · exact absurd rfl h
      · exact d3
      · exact d2.symm
      · exact d3.symm
      · exact absurd rfl h
  · rintro ⟨h1, h2⟩
    exact ⟨h1 .pending, h1 .baseFee, h1 .queued, h2 .pending .baseFee (by decide),
      h2 .pending .queued (by decide), h2 .baseFee .queued (by decide)⟩

theorem Pools.mem_members (s : Pools) (x : Ptr) :
    x ∈ s.members ↔ ∃ w, x ∈ (s.get w).best := by
  unfold Pools.members
  rw [List.mem_append, List.mem_append]
  constructor
  · rintro (h | h | h)
    · exact ⟨.pending, h⟩
    · exact ⟨.baseFee, h⟩
    · exact ⟨.queued, h⟩
  · rintro ⟨w, h⟩
    cases w
    · exact Or.inl h
    · exact Or.inr (Or.inl h)
    · exact Or.inr (Or.inr h)

theorem Pools.Valid.members_nodup {s : Pools} (hv : s.Valid) : s.members.Nodup := by
  obtain ⟨a, b, c, d1, d2, d3⟩ := hv
  unfold Pools.members
  rw [List.nodup_append, List.nodup_append]
  refine ⟨a.bestNodup, ⟨b.bestNodup, c.bestNodup, ?_⟩, ?_⟩
  · intro x hx hx'
    exact d3 x hx hx'
  · intro x hx hx'
    rcases List.mem_append.1 hx' with h | h
    · exact d1 x hx h
    · exact d2 x hx h

theorem Pools.len_le_members (s : Pools) (w : Which) : (s.get w).Len ≤ s.members.length := by
  unfold Pools.members SubPool.Len
  rw [List.length_append, List.length_append]
  cases w
  · show s.pending.best.length ≤ _
    omega
  · show s.baseFee.best.length ≤ _
    omega
  · show s.queued.best.length ≤ _
    omega

theorem Pools.count_members_put (s : Pools) (a : Which) (m' : Mem) (p' : SubPool) (y : Ptr) :
    (s.put a m' p').members.count y + (s.get a).best.count y =
      s.members.count y + p'.best.count y := by
  cases a <;>
    simp only [Pools.members, Pools.put, Pools.get, List.count_append] <;> omega

/-- The sub-pools after an element has been taken out of one of them. -/
theorem Pools.Valid.taken {s : Pools} (hv : s.Valid) (a : Which) (r : (Mem × SubPool) × Ptr)
    (hrv : r.1.2.Valid r.1.1) (hrp : (r.2 :: r.1.2.best).Perm (s.get a).best)
    (hrf : Frame (s.get a).best s.mem r.1.1) :
    (s.put a r.1.1 r.1.2).Valid ∧ (∀ w, r.2 ∉ ((s.put a r.1.1 r.1.2).get w).best) ∧
      (r.2 :: (s.put a r.1.1 r.1.2).members).Perm s.members ∧
      (∀ w, w ≠ a → (s.put a r.1.1 r.1.2).get w = s.get w) ∧
      r.2 ∈ (s.get a).best := by
  obtain ⟨h1, h2⟩ := (Pools.valid_get_iff s).1 hv
  have hxa : r.2 ∈ (s.get a).best := hrp.mem_iff.1 (List.mem_cons_self _ _)
  have hnd : (r.2 :: r.1.2.best).Nodup := hrp.nodup_iff.2 (h1 a).bestNodup
  have hsub : ∀ y ∈ r.1.2.best, y ∈ (s.get a).best :=
    fun y hy => hrp.mem_iff.1 (List.mem_cons_of_mem _ hy)
  have hsubs : ∀ w, ∀ y ∈ ((s.put a r.1.1 r.1.2).get w).best, y ∈ (s.get w).best := by
    intro w y hy
    rw [Pools.get_put] at hy
    by_cases hw : w = a
    · rw [if_pos hw] at hy
      rw [hw]
      exact hsub y hy
    · rw [if_neg hw] at hy
      exact hy
  refine ⟨(Pools.valid_get_iff _).2 ⟨?_, ?_⟩, ?_, ?_, fun w hw => Pools.get_put_ne s hw _ _, hxa⟩
  · intro w
    rw [Pools.put_mem, Pools.get_put]
    by_cases hw : w = a
    · rw [if_pos hw]
      exact hrv
    · rw [if_neg hw]
      exact (h1 w).of_frame hrf (fun y hy => h2 w a hw y hy)
  · intro w w' hne y hy hy'
    exact h2 w w' hne y (hsubs w y hy) (hsubs w' y hy')
  · intro w hx
    rw [Pools.get_put] at hx
    by_cases hw : w = a
    · rw [if_pos hw] at hx
      exact (List.nodup_cons.1 hnd).1 hx
    · rw [if_neg hw] at hx
      exact h2 w a hw _ hx hxa
  · rw [List.perm_iff_count]
    intro y
    have h := Pools.count_members_put s a r.1.1 r.1.2 y
    have h' := hrp.count_eq y
    rw [List.count_cons] at h' ⊢
    omega

/-- The sub-pools after `Add` of a record that is in none of them. -/
theorem Pools.Valid.put_added {s : Pools} (hv : s.Valid) (b : Which) (x : Ptr)
    (hx : ∀ w, x ∉ (s.get w).best) :
    (s.put b (SubPool.Add s.mem (s.get b) x).1 (SubPool.Add s.mem (s.get b) x).2).Valid ∧
      (s.put b (SubPool.Add s.mem (s.get b) x).1
        (SubPool.Add s.mem (s.get b) x).2).members.Perm (x :: s.members) ∧
      (∀ y, core ((SubPool.Add s.mem (s.get b) x).1 y) = core (s.mem y)) := by
  obtain ⟨h1, h2⟩ := (Pools.valid_get_iff s).1 hv
  obtain ⟨av, ap, af⟩ := SubPool.Add_spec s.mem (s.get b) x (h1 b) (hx b)
  have hmem : ∀ w, ∀ y ∈ ((s.put b (SubPool.Add s.mem (s.get b) x).1
      (SubPool.Add s.mem (s.get b) x).2).get w).best, y ∈ (s.get w).best ∨ (w = b ∧ y = x) := by
    intro w y hy
    rw [Pools.get_put] at hy
    by_cases hw : w = b
    · rw [if_pos hw] at hy
      rcases List.mem_cons.1 (ap.mem_iff.1 hy) with e | e
      · exact Or.inr ⟨hw, e⟩
      · rw [hw]
        exact Or.inl e
    · rw [if_neg hw] at hy
      exact Or.inl hy
  refine ⟨(Pools.valid_get_iff _).2 ⟨?_, ?_⟩, ?_, af.core⟩
  · intro w
    rw [Pools.put_mem, Pools.get_put]
    by_cases hw : w = b
    · rw [if_pos hw]
      exact av
    · rw [if_neg hw]
      refine (h1 w).of_frame af (fun y hy hm => ?_)
      rcases List.mem_cons.1 hm with e | e
      · exact hx w (e ▸ hy)
      · exact h2 w b hw y hy e
  · intro w w' hne y hy hy'
    rcases hmem w y hy with e | ⟨e1, e2⟩
    · rcases hmem w' y hy' with e' | ⟨e1', e2'⟩
      · exact h2 w w' hne y e e'
      · exact hx w (e2' ▸ e)
    · rcases hmem w' y hy' with e' | ⟨e1', _⟩
      · exact hx w' (e2 ▸ e')
      · exact hne (e1.trans e1'.symm)
  · rw [List.perm_iff_count]
    intro y
    have h := Pools.count_members_put s b (SubPool.Add s.mem (s.get b) x).1
      (SubPool.Add s.mem (s.get b) x).2 y
    have h' := ap.count_eq y
    rw [List.count_cons] at h' ⊢
    omega

/-! ## What an iteration of `promote` does -/

theorem Which.limit_eq (a : Which) : a.limit = 10240 := by
  cases a <;> rfl

/-- An iteration of `promote` on sub-pools with valid heaps keeps the heaps
valid and the scored fields of every record; it keeps the members, or it
discards one of them, whose marker is below `0b10000` unless a sub-pool is over
its limit. -/
theorem promote.Iter.effect {D : Type} {discard : Mem → Ptr → D → D} {sd sd' : Pools × D}
    (h : promote.Iter discard sd sd') (hv : sd.1.Valid) :
    sd'.1.Valid ∧ (∀ y, core (sd'.1.mem y) = core (sd.1.mem y)) ∧
      ((sd'.2 = sd.2 ∧ sd'.1.members.Perm sd.1.members) ∨
        ∃ x, sd'.2 = discard sd'.1.mem x sd.2 ∧ (x :: sd'.1.members).Perm sd.1.members ∧
          ((sd.1.mem x).subPool < 0b10000 ∨ ∃ a, a.limit < (sd.1.get a).Len)) := by
  obtain ⟨h1, _⟩ := (Pools.valid_get_iff sd.1).1 hv
  cases h with
  | moveWorst a b hab hl =>
    obtain ⟨_, hrv, hrp, hrf, _⟩ := SubPool.PopWorst_spec sd.1.mem (sd.1.get a) (h1 a) hl
    obtain ⟨v1, o1, p1, g1, _⟩ := hv.taken a _ hrv hrp hrf
    have h2 := v1.put_added b _ o1
    rw [Pools.put_mem, g1 b hab.symm] at h2
    refine ⟨h2.1, fun y => ?_, Or.inl ⟨rfl, h2.2.1.trans p1⟩⟩
    show core ((sd.1.moveWorst a b).mem y) = _
    unfold Pools.moveWorst
    rw [Pools.put_mem]
    exact (h2.2.2 y).trans (hrf.core y)
  | moveBest a b hab hl =>
    obtain ⟨_, hrv, hrp, hrf, _⟩ := SubPool.PopBest_spec sd.1.mem (sd.1.get a) (h1 a) hl
    obtain ⟨v1, o1, p1, g1, _⟩ := hv.taken a _ hrv hrp hrf
    have h2 := v1.put_added b _ o1
    rw [Pools.put_mem, g1 b hab.symm] at h2
    refine ⟨h2.1, fun y => ?_, Or.inl ⟨rfl, h2.2.1.trans p1⟩⟩
    show core ((sd.1.moveBest a b).mem y) = _
    unfold Pools.moveBest
    rw [Pools.put_mem]
    exact (h2.2.2 y).trans (hrf.core y)
  | dropLow a hl hm =>
    obtain ⟨_, hrv, hrp, hrf, _⟩ := SubPool.PopWorst_spec sd.1.mem (sd.1.get a) (h1 a) hl
    obtain ⟨v1, _, p1, _, _⟩ := hv.taken a _ hrv hrp hrf
    refine ⟨v1, fun y => ?_, Or.inr ⟨(SubPool.PopWorst sd.1.mem (sd.1.get a)).2, ?_, p1, ?_⟩⟩
    · show core ((sd.1.put a _ _).mem y) = _
      rw [Pools.put_mem]
      exact hrf.core y
    · show discard _ _ sd.2 = discard (sd.1.put a _ _).mem _ sd.2
      rw [Pools.put_mem]
    · left
      rw [← SubPool.worst_eq (h1 a) hl]
      exact hm
  | dropOver a hl =>
    have hl0 : 0 < (sd.1.get a).Len := Nat.lt_of_le_of_lt (Nat.zero_le _) hl
    obtain ⟨_, hrv, hrp, hrf, _⟩ := SubPool.PopWorst_spec sd.1.mem (sd.1.get a) (h1 a) hl0
    obtain ⟨v1, _, p1, _, _⟩ := hv.taken a _ hrv hrp hrf
    refine ⟨v1, fun y => ?_, Or.inr ⟨(SubPool.PopWorst sd.1.mem (sd.1.get a)).2, ?_, p1, ?_⟩⟩
    · show core ((sd.1.put a _ _).mem y) = _
      rw [Pools.put_mem]
      exact hrf.core y
    · show discard _ _ sd.2 = discard (sd.1.put a _ _).mem _ sd.2
      rw [Pools.put_mem]
    · exact Or.inr ⟨a, hl⟩

/-- A sequence of iterations of `promote` with a callback whose state has a
log `g` of the records it was called with: the members and the records logged
since the start together are the members at the start, and when the sub-pools
hold at most 10240 records at the start, every logged record has a marker below
`0b10000`. -/
theorem promote.iters_effect {D : Type} {discard : Mem → Ptr → D → D} (g : D → List Ptr)
    (hg : ∀ m x d, g (discard m x d) = g d ++ [x]) {sd sd' : Pools × D}
    (h : Relation.ReflTransGen (promote.Iter discard) sd sd') (hv : sd.1.Valid) :
    sd'.1.Valid ∧ (∀ y, core (sd'.1.mem y) = core (sd.1.mem y)) ∧
      ∃ l, g sd'.2 = g sd.2 ++ l ∧ (sd'.1.members ++ l).Perm sd.1.members ∧
        (sd.1.members.length ≤ 10240 → ∀ x ∈ l, (sd.1.mem x).subPool < 0b10000) := by
  induction h with
  | refl =>
    exact ⟨hv, fun _ => rfl, [], (List.append_nil _).symm, by rw [List.append_nil],
      fun _ x hx => by cases hx⟩
  | tail hab hs ih =>
    rename_i mid fin
    obtain ⟨v, c, l, e, p, low⟩ := ih
    obtain ⟨v', c', hcase⟩ := hs.effect v
    refine ⟨v', fun y => (c' y).trans (c y), ?_⟩
    rcases hcase with ⟨e', p'⟩ | ⟨x, e', p', hx⟩
    · exact ⟨l, by rw [e', e], (List.Perm.append_right l p').trans p, low⟩
    · refine ⟨l ++ [x], ?_, ?_, ?_⟩
      · rw [e', hg, e, List.append_assoc]
      · refine List.Perm.trans ?_ p
        rw [← List.append_assoc]
        refine (List.perm_append_comm).trans ?_
        rw [List.singleton_append]
        exact List.Perm.append_right l p'
      · intro hcap y hy
        rcases List.mem_append.1 hy with hy | hy
        · exact low hcap y hy
        · rw [List.mem_singleton] at hy
          rw [hy]
          rcases hx with hx | ⟨a, ha⟩
          · rw [← core_subPool (c x)]
            exact hx
          · exfalso
            have h1 := Pools.len_le_members mid.1 a
            have h2 := p.length_eq
            rw [List.length_append] at h2
            rw [Which.limit_eq] at ha
            omega

/-! ## `promote` on sub-pools that `promote` has left over their limit -/

theorem loop3_halt {D : Type} (f : Nat) (s : Pools) (d : D)
    (hm : AllMk (fun v => v < 0b11110) s.mem s.baseFee.best) :
    promote.loop3 f (s, d) = (s, d) := by
  cases f with
  | zero => rfl
  | succ f =>
    rw [promote.loop3]
    split
    · rename_i hl
      obtain ⟨x, hx, he⟩ := SubPool.best_marker_mem (m := s.mem) hl
      dsimp only
      rw [if_pos (by rw [he]; exact hm x hx)]
    · rfl

theorem loop4_halt {D : Type} (discard : Mem → Ptr → D → D) (f : Nat) (s : Pools) (d : D)
    (hv : s.baseFee.Valid s.mem) (hm : AllMk (fun v => 0b11100 ≤ v) s.mem s.baseFee.best) :
    promote.loop4 discard f (s, d) = (s, d) := by
  cases f with
  | zero => rfl
  | succ f =>
    rw [promote.loop4]
    split
    · rename_i hl
      obtain ⟨x, hx, he⟩ := SubPool.worst_marker_mem hv hl
      dsimp only
      rw [if_pos (by rw [he]; exact hm x hx)]
    · rfl

theorem loop5_within {D : Type} (discard : Mem → Ptr → D → D) (f : Nat) (s : Pools) (d : D)
    (hl : s.baseFee.Len ≤ BaseFeeSubPoolLimit) : promote.loop5 discard f (s, d) = (s, d) := by
  cases f with
  | zero => rfl
  | succ f => rw [promote.loop5, if_neg (by omega)]

theorem loop5_drop {D : Type} (discard : Mem → Ptr → D → D) (f : Nat) (s : Pools) (d : D)
    (hl : BaseFeeSubPoolLimit < s.baseFee.Len) (h1 : markerAt s.mem s.baseFee.Worst < 0b11110) :
    promote.loop5 discard (f + 1) (s, d) =
      promote.loop5 discard f
        ({ s with mem := (SubPool.PopWorst s.mem s.baseFee).1.1,
                  baseFee := (SubPool.PopWorst s.mem s.baseFee).1.2 },
          discard (SubPool.PopWorst s.mem s.baseFee).1.1 (SubPool.PopWorst s.mem s.baseFee).2 d) := by
  rw [promote.loop5, if_pos hl]
  dsimp only
  rw [if_neg (by omega)]

/-- On sub-pools with valid heaps whose `baseFee` is one over its limit, with
markers that keep its elements there, and whose other sub-pools are empty,
`promote` discards one element of `baseFee`. -/
theorem promote_trims_baseFee {D : Type} (discard : Mem → Ptr → D → D) (s : Pools) (d : D)
    (hv : s.Valid) (hp : s.pending.Len = 0) (hq : s.queued.Len = 0)
    (hb : s.baseFee.Len = BaseFeeSubPoolLimit + 1)
    (hm : AllMk (fun v => 0b11100 ≤ v ∧ v < 0b11110) s.mem s.baseFee.best) :
    ∃ m' x, (promote discard (s, d)).2 = discard m' x d ∧
      (promote discard (s, d)).1.baseFee.Len = BaseFeeSubPoolLimit := by
  obtain ⟨vp, vb, vq, _⟩ := hv
  have e1 := loop1_stop discard (s.pending.Len + 1) s d vp
    (AllMk.of_empty (by omega))
  have e2 := loop2_stop discard (s.pending.Len + 1) s d (by omega)
  have e3 := loop3_halt (s.baseFee.Len + 1) s d (fun x hx => (hm x hx).2)
  have e4 := loop4_halt discard (s.baseFee.Len + 1) s d vb (fun x hx => (hm x hx).1)
  have hl0 : 0 < s.baseFee.Len := by omega
  obtain ⟨x, hx, he⟩ := SubPool.worst_marker_mem vb hl0
  have hw : markerAt s.mem s.baseFee.Worst < 0b11110 := by rw [he]; exact (hm x hx).2
  have hlen := SubPool.PopWorst_len vb hl0
  have e5 := loop5_drop discard s.baseFee.Len s d (by omega) hw
  have e5' := loop5_within discard s.baseFee.Len
    { s with mem := (SubPool.PopWorst s.mem s.baseFee).1.1,
             baseFee := (SubPool.PopWorst s.mem s.baseFee).1.2 }
    (discard (SubPool.PopWorst s.mem s.baseFee).1.1 (SubPool.PopWorst s.mem s.baseFee).2 d)
    (by dsimp only; omega)
  refine ⟨(SubPool.PopWorst s.mem s.baseFee).1.1, (SubPool.PopWorst s.mem s.baseFee).2, ?_⟩
  unfold promote
  dsimp only
  rw [e1, e2, e3, e4]
  dsimp only
  rw [e5, e5']
  dsimp only
  have hq' : ({ s with mem := (SubPool.PopWorst s.mem s.baseFee).1.1,
                       baseFee := (SubPool.PopWorst s.mem s.baseFee).1.2 } : Pools).queued.Len = 0 :=
    hq
  rw [loop6_empty _ _ _ hq', loop7_empty discard _ _ _ hq', loop8_stop discard _ _ _ (by
    rw [hq']; exact Nat.zero_le _)]
  exact ⟨rfl, by dsimp only; omega⟩

/-! ## Every resident record is in a sub-pool -/

theorem State.Housed.carry {st st' : State} (hh : st.Housed)
    (hb : ∀ p ∈ st'.reg.byNonce, p ∈ st.reg.byNonce)
    (hg : ∀ w, ∀ p ∈ (st.pools.get w).best, p ∈ st'.reg.byNonce → p ∈ (st'.pools.get w).best) :
    st'.Housed := by
  intro p hp
  obtain ⟨w, hw⟩ := hh p (hb p hp)
  exact ⟨w, hg w p hw hp⟩

theorem Pools.get_mem_only (s : Pools) (m : Mem) (w : Which) :
    Pools.get { s with mem := m } w = s.get w := by
  cases w <;> rfl

/-- The members of the sub-pools after an element has moved from one of them
to another. -/
theorem Pools.Placed.afterMove_mem {s : Pools} {R : List Ptr} (h : s.Placed R) {a b : Which}
    (hab : a ≠ b) {x : Ptr} {m' : Mem} {p' : SubPool}
    (hr : (s.get a).Removed s.mem x m' p') :
    ∀ w y, y ∈ (((s.put a m' p').put b (SubPool.Add m' (s.get b) x).1
        (SubPool.Add m' (s.get b) x).2).get w).best ↔
      (y ∈ (s.get w).best ∧ y ≠ x) ∨ (w = b ∧ y = x) := by
  have hx : x ∈ (s.get a).best := hr.2.2.1.mem_iff.1 (List.mem_cons_self _ _)
  have hxR : x ∈ R := ((Pools.placed_iff s R).1 h).2.2.1 a x hx
  obtain ⟨p1, o1, _, m1, _, _⟩ := h.removed a hr
  have e2 : (s.put a m' p').get b = s.get b := Pools.get_put_ne s hab.symm m' p'
  have hwb := ((Pools.placed_iff _ _).1 p1).2.1 b
  have hxb := (Pools.out_iff _ _).1 o1 b
  rw [Pools.put_mem, e2] at hwb
  rw [e2] at hxb
  have hadd := SubPool.Add_added m' (s.get b) x hwb hxb
  have hadd' : ((s.put a m' p').get b).Added (s.put a m' p').mem x
      (SubPool.Add m' (s.get b) x).1 (SubPool.Add m' (s.get b) x).2 := by
    rw [Pools.put_mem, e2]; exact hadd
  obtain ⟨_, m2, _, _⟩ := p1.afterAdd b hxR o1 hadd'
  intro w y
  rw [m2 w y, m1 w y]

/-- An iteration of `promote` keeps every resident record in a sub-pool. -/
theorem promote.Step.housed {n : Ptr} {sd sd' : Pools × Registry}
    (h : promote.Step discardLocked sd sd') (hi : State.Inv ⟨sd.1, n, sd.2⟩)
    (hh : State.Housed ⟨sd.1, n, sd.2⟩) : State.Housed ⟨sd'.1, n, sd'.2⟩ := by
  obtain ⟨hreg, hpl, hfr⟩ := hi
  dsimp only at hreg hpl hfr
  cases h with
  | moveWorst a b hab hl =>
    have hw := ((Pools.placed_iff _ _).1 hpl).2.1 a
    obtain ⟨_, hrem⟩ := SubPool.PopWorst_removed sd.1.mem (sd.1.get a) hw hl
    have hm := hpl.afterMove_mem hab hrem
    intro p hp
    obtain ⟨w, hw'⟩ := hh p hp
    show ∃ w, p ∈ ((sd.1.moveWorst a b).get w).best
    unfold Pools.moveWorst
    by_cases hx : p = (SubPool.PopWorst sd.1.mem (sd.1.get a)).2
    · exact ⟨b, (hm b p).2 (Or.inr ⟨rfl, hx⟩)⟩
    · exact ⟨w, (hm w p).2 (Or.inl ⟨hw', hx⟩)⟩
  | moveBest a b hab hl =>
    have hw := ((Pools.placed_iff _ _).1 hpl).2.1 a
    obtain ⟨_, hrem⟩ := SubPool.PopBest_removed sd.1.mem (sd.1.get a) hw hl
    have hm := hpl.afterMove_mem hab hrem
    intro p hp
    obtain ⟨w, hw'⟩ := hh p hp
    show ∃ w, p ∈ ((sd.1.moveBest a b).get w).best
    unfold Pools.moveBest
    by_cases hx : p = (SubPool.PopBest sd.1.mem (sd.1.get a)).2
    · exact ⟨b, (hm b p).2 (Or.inr ⟨rfl, hx⟩)⟩
    · exact ⟨w, (hm w p).2 (Or.inl ⟨hw', hx⟩)⟩
  | dropWorst a hl =>
    have hw := ((Pools.placed_iff _ _).1 hpl).2.1 a
    obtain ⟨_, hrem⟩ := SubPool.PopWorst_removed sd.1.mem (sd.1.get a) hw hl
    have hx : (SubPool.PopWorst sd.1.mem (sd.1.get a)).2 ∈ (sd.1.get a).best :=
      hrem.2.2.1.mem_iff.1 (List.mem_cons_self _ _)
    have hxR := ((Pools.placed_iff _ _).1 hpl).2.2.1 a _ hx
    obtain ⟨_, _, _, m1, c1, _⟩ := hpl.removed a hrem
    have hreg1 : sd.2.Consistent (SubPool.PopWorst sd.1.mem (sd.1.get a)).1.1 :=
      hreg.regCongr (fun p _ => core_Tx (c1 p))
    obtain ⟨_, _, d3, _, _⟩ := hreg1.discard hxR
    intro p hp
    have hp' := (d3 p).1 hp
    obtain ⟨w, hw'⟩ := hh p hp'.1
    exact ⟨w, (m1 w p).2 ⟨hw', hp'.2⟩⟩

theorem promote.steps_housed {n : Ptr} {sd sd' : Pools × Registry}
    (h : Relation.ReflTransGen (promote.Step discardLocked) sd sd')
    (hi : State.Inv ⟨sd.1, n, sd.2⟩) (hh : State.Housed ⟨sd.1, n, sd.2⟩) :
    State.Housed ⟨sd'.1, n, sd'.2⟩ := by
  induction h with
  | refl => exact hh
  | tail hs1 hs ih => exact hs.housed (promote.steps_inv hs1 hi) ih

/-- The loop body of `unsafeAddToPendingPool` keeps every resident record in a
sub-pool. -/
theorem step_housed (acc : State × List Nat) (e : TxSlot × Bool) (h : acc.1.Inv)
    (hh : acc.1.Housed) : (unsafeAddToPendingPool.step discardLocked acc e).1.Housed := by
  obtain ⟨a1, a2, a3, a4⟩ := alloc_spec acc.1 h (newMetaTx e.1 e.2)
  have hfr : ∀ p ∈ acc.1.reg.byNonce, p < acc.1.next + 1 :=
    fun p hp => Nat.lt_succ_of_lt (h.2.2 p hp)
  have hnd : acc.1.reg.byNonce.Nodup := h.1.1.indexNodup
  unfold unsafeAddToPendingPool.step
  dsimp only
  split
  · exact hh
  · rename_i hne
    have hhash : byHashGet acc.1.reg.byHash e.1.idHash = none := by
      cases hq : byHashGet acc.1.reg.byHash e.1.idHash with
      | none => rfl
      | some v => rw [hq] at hne; exact absurd rfl hne
    split
    · rename_i found hfound
      split
      · exact hh.carry (fun p hp => hp) (fun w p hp _ => by rw [Pools.get_mem_only]; exact hp)
      · have hf := (ByNonce.get_eq_some a1.1 _ _ _).1 hfound
        obtain ⟨_, hb, hm, _⟩ := replace_spec
          { acc.1 with pools := { acc.1.pools with
                                  mem := Function.update acc.1.pools.mem acc.1.next
                                    (newMetaTx e.1 e.2) },
                       next := acc.1.next + 1 }
          acc.2 acc.1.next e.1 found a1 a2 hfr (Nat.lt_succ_self _) a3
          (by dsimp only; rw [Function.update_same]; rfl)
          (by dsimp only; rw [Function.update_same]; rfl)
          hf.1 hf.2.1 hf.2.2 hhash _ rfl
        intro p hp
        rcases List.mem_cons.1 (hb.mem_iff.1 hp) with hp1 | hp1
        · exact ⟨.pending, (hm .pending p).2 (Or.inr ⟨rfl, hp1⟩)⟩
        · have hp2 := (List.Nodup.mem_erase_iff hnd).1 hp1
          obtain ⟨w, hw⟩ := hh p hp2.2
          refine ⟨w, (hm w p).2 (Or.inl ⟨?_, hp2.1⟩)⟩
          rw [Pools.get_mem_only]
          exact hw
    · rename_i hnone
      have hk := (ByNonce.get_eq_none _ _).1 hnone
      obtain ⟨_, hb, hm, _⟩ := insert_spec
        { acc.1 with pools := { acc.1.pools with
                                mem := Function.update acc.1.pools.mem acc.1.next
                                  (newMetaTx e.1 e.2) },
                     next := acc.1.next + 1 }
        acc.2 acc.1.next e.1 a1 a2 hfr (Nat.lt_succ_self _) a3
        (by dsimp only; rw [Function.update_same]; rfl)
        (by dsimp only; rw [Function.update_same]; rfl)
        hk hhash
      intro p hp
      rcases List.mem_cons.1 (hb.mem_iff.1 hp) with hp1 | hp1
      · exact ⟨.pending, (hm .pending p).2 (Or.inr ⟨rfl, hp1⟩)⟩
      · obtain ⟨w, hw⟩ := hh p hp1
        refine ⟨w, (hm w p).2 (Or.inl ?_)⟩
        rw [Pools.get_mem_only]
        exact hw

theorem unsafeAddToPendingPool_housed (st : State) (newTxs : List (TxSlot × Bool))
    (h : st.Inv) (hh : st.Housed) :
    (unsafeAddToPendingPool discardLocked st newTxs).1.Housed := by
  unfold unsafeAddToPendingPool
  generalize ([] : List Nat) = c
  induction newTxs generalizing st c with
  | nil => exact hh
  | cons e es ih =>
    rw [List.foldl_cons]
    exact ih (unsafeAddToPendingPool.step discardLocked (st, c) e).1 (step_inv (st, c) e h)
      (step_housed (st, c) e h hh) (unsafeAddToPendingPool.step discardLocked (st, c) e).2

theorem scoreSenders_housed (tx : kvTx) (senders : SendersCache) (pbf pend : Nat)
    (ids : List Nat) (st : State) (hh : st.Housed) :
    (scoreSenders tx senders pbf pend ids st).1.Housed := by
  induction ids generalizing st with
  | nil => exact hh
  | cons id ids ih =>
    unfold scoreSenders
    split
    · exact hh
    · exact ih _ (hh.carry (fun p hp => hp)
        (fun w p hp _ => by rw [Pools.get_mem_only]; exact hp))

/-- The tail shared by `onNewTxs` and `onNewBlock` keeps every resident record
in a sub-pool. -/
theorem settle_housed (tx : kvTx) (senders : SendersCache) (pbf pend : Nat)
    (a : State × List Nat) (h : a.1.Inv) (hh : a.1.Housed) :
    (match scoreSenders tx senders pbf pend a.2 a.1 with
      | (st1, some e) => (st1, some e)
      | (st1, none) =>
        ({ st1 with pools := (promote discardLocked (enforceAll st1.pools, st1.reg)).1,
                    reg := (promote discardLocked (enforceAll st1.pools, st1.reg)).2 },
          none)).1.Housed := by
  have h1 := scoreSenders_inv tx senders pbf pend a.2 a.1 h
  have hh1 := scoreSenders_housed tx senders pbf pend a.2 a.1 hh
  generalize scoreSenders tx senders pbf pend a.2 a.1 = r at h1 hh1
  obtain ⟨st1, o⟩ := r
  cases o with
  | some e => exact hh1
  | none =>
    obtain ⟨hreg, hpl, hfr⟩ := h1
    obtain ⟨p1, c1⟩ := enforceAll_placed hpl
    obtain ⟨e1, e2, e3⟩ := enforceAll_perm hpl
    have hi : State.Inv ⟨enforceAll st1.pools, st1.next, st1.reg⟩ :=
      ⟨hreg.regCongr (fun p _ => core_Tx (c1 p)), p1, hfr⟩
    have hhe : State.Housed ⟨enforceAll st1.pools, st1.next, st1.reg⟩ := by
      refine hh1.carry (fun p hp => hp) (fun w p hp _ => ?_)
      cases w
      · exact e1.mem_iff.2 hp
      · exact e2.mem_iff.2 hp
      · exact e3.mem_iff.2 hp
    exact promote.steps_housed (promote_steps discardLocked (enforceAll st1.pools, st1.reg)) hi hhe

theorem onNewTxs_housed (tx : kvTx) (senders : SendersCache) (newTxs : List (TxSlot × Bool))
    (pbf pend : Nat) (st : State) (h : st.Inv) (hh : st.Housed) :
    (onNewTxs tx senders newTxs pbf pend discardLocked st).1.Housed := by
  unfold onNewTxs
  split
  · exact hh
  · exact settle_housed tx senders pbf pend _ (unsafeAddToPendingPool_inv st newTxs h)
      (unsafeAddToPendingPool_housed st newTxs h hh)

theorem removeMined_housed (st : State) (minedTxs : List TxSlot) (h : st.Inv)
    (hh : st.Housed) : (removeMined discardLocked st minedTxs).Housed := by
  obtain ⟨_, hb, _, hm, _⟩ := removeMined_spec st minedTxs h
  intro p hp
  have hp' := (hb p).1 hp
  obtain ⟨w, hw⟩ := hh p hp'.1
  exact ⟨w, (hm w p).2 ⟨hw, hp'.2⟩⟩

theorem onNewBlock_housed (tx : kvTx) (senders : SendersCache)
    (unwindTxs : List (TxSlot × Bool)) (minedTxs : List TxSlot) (pbf pend : Nat) (st : State)
    (h : st.Inv) (hh : st.Housed) :
    (onNewBlock tx senders unwindTxs minedTxs pbf pend discardLocked st).1.Housed := by
  unfold onNewBlock
  split
  · exact hh
  · split
    · exact hh
    · exact settle_housed tx senders pbf pend _
        (unsafeAddToPendingPool_inv _ unwindTxs (removeMined_spec st minedTxs h).1)
        (unsafeAddToPendingPool_housed _ unwindTxs (removeMined_spec st minedTxs h).1
          (removeMined_housed st minedTxs h hh))

/-- In a pool that satisfies its representation invariant and keeps every
resident record in a sub-pool, residency is membership, and a record that is not
in the hash map is in no sub-pool. -/
theorem State.Inv.resident {st : State} (h : st.Inv) (hh : st.Housed) :
    st.Resident ∧ ∀ x, (∀ e ∈ st.reg.byHash, e.2 ≠ x) → st.pools.Out x := by
  obtain ⟨hreg, hpl, _⟩ := h
  obtain ⟨_, _, hmap, hidx⟩ := hreg
  obtain ⟨_, htag, hsub, _⟩ := (Pools.placed_iff _ _).1 hpl
  have hin : ∀ w, ∀ x ∈ (st.pools.get w).best,
      ((st.pools.mem x).Tx.idHash, x) ∈ st.reg.byHash :=
    fun w x hx => hidx x (hsub w x hx)
  refine ⟨⟨fun e he => ?_, hin⟩, fun x hx => ?_⟩
  · obtain ⟨w, hw⟩ := hh e.2 (hmap e he).2
    obtain ⟨⟨ib, iw, hbw, _⟩, _⟩ := htag w
    refine ⟨w, hw, fun w' hw' => ?_, ?_, ?_⟩
    · by_contra hne
      exact hpl.disjoint hne hw hw'
    · obtain ⟨i, hi, he'⟩ := exists_elemAt_of_mem hw
      have := ib i hi
      rw [he'] at this
      have h2 : (st.pools.mem e.2).bestIndex = (i : Int) := this
      rw [h2]
      exact Int.natCast_nonneg i
    · obtain ⟨i, hi, he'⟩ := exists_elemAt_of_mem (hbw e.2 hw)
      have := iw i hi
      rw [he'] at this
      have h2 : (st.pools.mem e.2).worstIndex = (i : Int) := this
      rw [h2]
      exact Int.natCast_nonneg i
  · rw [Pools.out_iff]
    intro w hw
    exact hx _ (hin w x hw) rfl

/-! # Claims C31 to C40 -/

/-! ## The intersection of two streams -/

/-- C31: for two ascending, duplicate-free sequences of values,
`iter.Intersect` (as modelled) yields an ascending sequence that holds exactly
the values present in both inputs; when either input is empty the result is
empty. -/
theorem intersect_ascending (xs ys : List Nat) (hx : xs.Pairwise (· < ·))
    (hy : ys.Pairwise (· < ·)) :
    (iter.Intersect xs ys).Pairwise (· < ·) ∧
      (∀ v, v ∈ iter.Intersect xs ys ↔ v ∈ xs ∧ v ∈ ys) ∧
      iter.Intersect [] ys = [] ∧ iter.Intersect xs [] = [] := by
  obtain ⟨h1, h2⟩ := intersect_loop_spec (xs.length + ys.length + 1) xs ys (by omega) hx hy
  exact ⟨h1, h2, intersect_nil_left ys, intersect_nil_right xs⟩

theorem intersect_ascending_witness :
    (iter.Intersect [1, 3, 4, 5, 6, 7] [2, 3, 7]).Pairwise (· < ·) ∧
      iter.Intersect [1, 3, 4, 5, 6, 7] [2, 3, 7] = [3, 7] ∧
      iter.Intersect [] [2, 3, 7, 8] = [] ∧
      iter.Intersect [1, 3, 4, 5, 6, 7] [] = [] :=
  ⟨(intersect_ascending [1, 3, 4, 5, 6, 7] [2, 3, 7] (by decide) (by decide)).1, by decide,
    by decide, by decide⟩

/-! ## The extremes of a sub-pool -/

/-- C33: on a sub-pool with valid heaps, `Best` and `Worst` return `nil` when
it is empty; otherwise `Best` returns a member `b` with `b.Less(x)` for no
member `x`, and `Worst` a member `w` with `x.Less(w)` for no member `x`;
`PopBest` and `PopWorst` return that element, take exactly it out of both
queues and leave the heaps valid; and `Add` of a record that is not a member
and `EnforceInvariants` leave the heaps valid. -/
theorem subPool_extremes (m : Mem) (p : SubPool) (hv : p.Valid m) :
    (p.Len = 0 → p.Best = none ∧ p.Worst = none) ∧
    (0 < p.Len →
      (∃ b, p.Best = some b ∧ b ∈ p.best ∧ (∀ x ∈ p.best, (m b).Less (m x) = false) ∧
        (SubPool.PopBest m p).2 = b ∧
        (SubPool.PopBest m p).1.2.Valid (SubPool.PopBest m p).1.1 ∧
        (b :: (SubPool.PopBest m p).1.2.best).Perm p.best ∧
        (b :: (SubPool.PopBest m p).1.2.worst).Perm p.worst) ∧
      (∃ w, p.Worst = some w ∧ w ∈ p.best ∧ (∀ x ∈ p.best, (m x).Less (m w) = false) ∧
        (SubPool.PopWorst m p).2 = w ∧
        (SubPool.PopWorst m p).1.2.Valid (SubPool.PopWorst m p).1.1 ∧
        (w :: (SubPool.PopWorst m p).1.2.best).Perm p.best ∧
        (w :: (SubPool.PopWorst m p).1.2.worst).Perm p.worst)) ∧
    (∀ x, x ∉ p.best → (SubPool.Add m p x).2.Valid (SubPool.Add m p x).1) ∧
    (SubPool.EnforceInvariants m p).2.Valid (SubPool.EnforceInvariants m p).1 := by
  refine ⟨?_, ?_, fun x hx => (SubPool.Add_spec m p x hv hx).1,
    (SubPool.EnforceInvariants_spec m p hv.1).1⟩
  · intro h0
    have hb : p.best = [] := List.length_eq_zero.1 h0
    have hw : p.worst = [] := by
      cases hq : p.worst with
      | nil => rfl
      | cons a l =>
        have := hv.1.2.2.2 a (by rw [hq]; exact List.mem_cons_self _ _)
        rw [hb] at this
        cases this
    simp [SubPool.Best, SubPool.Worst, hb, hw]
  · intro hl
    have hlb : 0 < p.best.length := hl
    have hlw := SubPool.worst_pos hv hl
    obtain ⟨b1, b2, b3, _, b5⟩ := SubPool.PopBest_spec m p hv hl
    obtain ⟨w1, w2, w3, _, w5⟩ := SubPool.PopWorst_spec m p hv hl
    refine ⟨⟨elemAt p.best 0, ?_, elemAt_mem hlb, ?_, b1, b2, ?_, ?_⟩,
      ⟨elemAt p.worst 0, ?_, hv.1.2.2.2 _ (elemAt_mem hlw), ?_, w1, w2, ?_, ?_⟩⟩
    · simp [SubPool.Best, Nat.pos_iff_ne_zero.1 hlb]
    · rw [← b1]; exact b5
    · rw [← b1]; exact b3
    · rw [← b1]; exact hv.popped_worst b2 b3
    · simp [SubPool.Worst, Nat.pos_iff_ne_zero.1 hlw]
    · rw [← w1]; exact w5
    · rw [← w1]; exact w3
    · rw [← w1]; exact hv.popped_worst w2 w3

theorem subPool_extremes_witness :
    mixedPools.pending.Valid mixedPools.mem ∧ mixedPools.pending.Len = 8 ∧
      mixedPools.pending.Best = some 7 ∧ mixedPools.pending.Worst = some 6 ∧
      (SubPool.PopBest mixedPools.mem mixedPools.pending).2 = 7 ∧
      (SubPool.PopWorst mixedPools.mem mixedPools.pending).2 = 6 ∧
      (SubPool.PopWorst mixedPools.mem mixedPools.pending).1.2.Valid
        (SubPool.PopWorst mixedPools.mem mixedPools.pending).1.1 :=
  ⟨by decide, by decide, by decide, by decide, by decide, by decide,
    ((subPool_extremes mixedPools.mem mixedPools.pending (by decide)).2.1
      (by decide)).2.choose_spec.2.2.2.2.1⟩

/-! ## Promotion: what happens to the elements -/

/-- C37: for sub-pools with valid heaps (that share no element) and a callback
`discard` whose state logs the records it is called with, `promote` leaves the
heaps valid, and the members of the three sub-pools after the call together with
the records passed to `discard` during the call are the members before the
call, each once: every element ends in exactly one sub-pool or has been
discarded exactly once, and none is lost, duplicated or created. -/
theorem promote_conserves {D : Type} (discard : Mem → Ptr → D → D) (g : D → List Ptr)
    (hg : ∀ m x d, g (discard m x d) = g d ++ [x]) (sd : Pools × D) (hv : sd.1.Valid) :
    (promote discard sd).1.Valid ∧
      ∃ l, g (promote discard sd).2 = g sd.2 ++ l ∧
        ((promote discard sd).1.members ++ l).Perm sd.1.members ∧
        ((promote discard sd).1.members ++ l).Nodup := by
  obtain ⟨v, _, l, e, p, _⟩ := promote.iters_effect g hg (promote_trace discard sd) hv
  exact ⟨v, l, e, p, p.nodup_iff.2 hv.members_nodup⟩

theorem promote_conserves_witness :
    mixedPools.Valid ∧ (promote logDiscard (mixedPools, [])).1.Valid ∧
      ∃ l, (promote logDiscard (mixedPools, [])).2 = [] ++ l ∧
        ((promote logDiscard (mixedPools, [])).1.members ++ l).Perm mixedPools.members ∧
        ((promote logDiscard (mixedPools, [])).1.members ++ l).Nodup :=
  ⟨by decide,
    promote_conserves logDiscard (fun d => d) (fun _ _ _ => rfl) (mixedPools, []) (by decide)⟩

/-- C38: for sub-pools with valid heaps that together hold at most 10240
elements and a callback `discard` whose state logs the records it is called
with, the records `promote` passes to `discard` are exactly the elements whose
marker is below `0b10000`, and every other element ends in the sub-pool of its
marker: `pending` for `>= 0b11110`, `baseFee` for `0b11100` and `0b11101`,
`queued` for `0b10000` to `0b11011`, whatever sub-pool it was in. -/
theorem promote_below_capacity {D : Type} (discard : Mem → Ptr → D → D) (g : D → List Ptr)
    (hg : ∀ m x d, g (discard m x d) = g d ++ [x]) (sd : Pools × D) (hv : sd.1.Valid)
    (hcap : sd.1.members.length ≤ 10240) :
    ∃ l, g (promote discard sd).2 = g sd.2 ++ l ∧ l.Nodup ∧
      ∀ x ∈ sd.1.members,
        (x ∈ l ↔ (sd.1.mem x).subPool < 0b10000) ∧
        (x ∈ (promote discard sd).1.pending.best ↔ 0b11110 ≤ (sd.1.mem x).subPool) ∧
        (x ∈ (promote discard sd).1.baseFee.best ↔
          0b11100 ≤ (sd.1.mem x).subPool ∧ (sd.1.mem x).subPool < 0b11110) ∧
        (x ∈ (promote discard sd).1.queued.best ↔
          0b10000 ≤ (sd.1.mem x).subPool ∧ (sd.1.mem x).subPool < 0b11100) := by
  obtain ⟨_, c, l, e, p, low⟩ := promote.iters_effect g hg (promote_trace discard sd) hv
  obtain ⟨hs, _⟩ := promote_spec discard sd hv
  generalize promote discard sd = r at c e p hs ⊢
  have hs : Inv3 r.1.mem r.1.pending r.1.baseFee r.1.queued (fun v => 0b11110 ≤ v)
      (fun v => 0b11100 ≤ v ∧ v < 0b11110) (fun v => 0b10000 ≤ v ∧ v < 0b11100) := hs
  have hnd : (r.1.members ++ l).Nodup := p.nodup_iff.2 hv.members_nodup
  have mA : ∀ x ∈ r.1.pending.best, 0b11110 ≤ (sd.1.mem x).subPool :=
    fun x hx => by rw [← core_subPool (c x)]; exact hs.mA x hx
  have mB : ∀ x ∈ r.1.baseFee.best,
      0b11100 ≤ (sd.1.mem x).subPool ∧ (sd.1.mem x).subPool < 0b11110 :=
    fun x hx => by rw [← core_subPool (c x)]; exact hs.mB x hx
  have mC : ∀ x ∈ r.1.queued.best,
      0b10000 ≤ (sd.1.mem x).subPool ∧ (sd.1.mem x).subPool < 0b11100 :=
    fun x hx => by rw [← core_subPool (c x)]; exact hs.mC x hx
  refine ⟨l, e, (List.nodup_append.1 hnd).2.1, fun x hx => ?_⟩
  have hx' : x ∈ r.1.members ++ l := p.mem_iff.2 hx
  have hcases : x ∈ r.1.pending.best ∨
      x ∈ r.1.baseFee.best ∨ x ∈ r.1.queued.best ∨
      x ∈ l := by
    rcases List.mem_append.1 hx' with h | h
    · obtain ⟨w, hw⟩ := (Pools.mem_members _ x).1 h
      cases w
      · exact Or.inl hw
      · exact Or.inr (Or.inl hw)
      · exact Or.inr (Or.inr (Or.inl hw))
    · exact Or.inr (Or.inr (Or.inr h))
  have hl := low hcap x
  refine ⟨⟨hl, fun h => ?_⟩, ⟨mA x, fun h => ?_⟩, ⟨mB x, fun h => ?_⟩, ⟨mC x, fun h => ?_⟩⟩
  · rcases hcases with h1 | h1 | h1 | h1
    · have := mA x h1; omega
    · have := mB x h1; omega
    · have := mC x h1; omega
    · exact h1
  · rcases hcases with h1 | h1 | h1 | h1
    · exact h1
    · have := mB x h1; omega
    · have := mC x h1; omega
    · have := hl h1; omega
  · rcases hcases with h1 | h1 | h1 | h1
    · have := mA x h1; omega
    · exact h1
    · have := mC x h1; omega
    · have := hl h1; omega
  · rcases hcases with h1 | h1 | h1 | h1
    · have := mA x h1; omega
    · have := mB x h1; omega
    · exact h1
    · have := hl h1; omega

theorem promote_below_capacity_witness :
    mixedPools.Valid ∧ mixedPools.members.length = 8 ∧
      ∃ l, (promote logDiscard (mixedPools, [])).2 = [] ++ l ∧ l.Nodup ∧
        ∀ x ∈ mixedPools.members,
          (x ∈ l ↔ (mixedPools.mem x).subPool < 0b10000) ∧
          (x ∈ (promote logDiscard (mixedPools, [])).1.pending.best ↔
            0b11110 ≤ (mixedPools.mem x).subPool) ∧
          (x ∈ (promote logDiscard (mixedPools, [])).1.baseFee.best ↔
            0b11100 ≤ (mixedPools.mem x).subPool ∧ (mixedPools.mem x).subPool < 0b11110) ∧
          (x ∈ (promote logDiscard (mixedPools, [])).1.queued.best ↔
            0b10000 ≤ (mixedPools.mem x).subPool ∧ (mixedPools.mem x).subPool < 0b11100) :=
  ⟨by decide, by decide,
    promote_below_capacity logDiscard (fun d => d) (fun _ _ _ => rfl) (mixedPools, [])
      (by decide) (by decide)⟩

/-- C40 (failing input): `baseFeeFull` has valid heaps, 10240 elements of
marker `0b11100` in BaseFee and one element of that marker in Queued.  The call
of `promote` on it (`baseFeeOnce`) discards nothing and leaves 10241 elements in
BaseFee; the call of `promote` on the sub-pools it leaves (`baseFeeTwice`),
with the markers as they are, discards one element and leaves 10240 elements in
BaseFee. -/
theorem promote_twice_discards :
    baseFeeFull.Valid ∧ baseFeeOnce.2 = [] ∧ baseFeeOnce.1.baseFee.Len = 10241 ∧
      baseFeeTwice.2.length = 1 ∧ baseFeeTwice.1.baseFee.Len = 10240 := by
  unfold baseFeeTwice baseFeeOnce
  have hv := baseFeeFull_valid
  have hbf : baseFeeFull.baseFee = ⟨BaseFeeSubPool, List.range BaseFeeSubPoolLimit,
      List.range BaseFeeSubPoolLimit⟩ := rfl
  have hlen : baseFeeFull.baseFee.Len = 10240 := by
    rw [hbf, SubPool.Len, List.length_range]
    norm_num [BaseFeeSubPoolLimit]
  have hg := promote_baseFee_grows logDiscard baseFeeFull [] hv rfl
    (by rw [hlen]; norm_num) (by rw [hlen]; norm_num [BaseFeeSubPoolLimit])
    (fun x _ => ⟨Nat.le_refl _, by show (0b11100 : Nat) < 0b11110; norm_num⟩) rfl
    (fun x _ => ⟨Nat.le_refl _, by show (0b11100 : Nat) < 0b11110; norm_num⟩)
  obtain ⟨v1, _, l, e, p, _⟩ := promote.iters_effect (fun d => d) (fun _ _ _ => rfl)
    (promote_trace logDiscard (baseFeeFull, [])) hv
  obtain ⟨hs, _⟩ := promote_spec logDiscard (baseFeeFull, []) hv
  have hm : baseFeeFull.members.length = 10241 := by
    have hpf : baseFeeFull.pending = NewSubPool PendingSubPool := rfl
    have hqf : baseFeeFull.queued = ⟨QueuedSubPool, [BaseFeeSubPoolLimit],
      [BaseFeeSubPoolLimit]⟩ := rfl
    unfold Pools.members
    rw [hpf, hqf, hbf]
    dsimp only [NewSubPool]
    rw [List.nil_append, List.length_append, List.length_range, List.length_singleton]
    norm_num [BaseFeeSubPoolLimit]
  generalize promote logDiscard (baseFeeFull, []) = r at hg v1 e p hs ⊢
  have e : r.2 = [] ++ l := e
  have hs : Inv3 r.1.mem r.1.pending r.1.baseFee r.1.queued (fun v => 0b11110 ≤ v)
      (fun v => 0b11100 ≤ v ∧ v < 0b11110) (fun v => 0b10000 ≤ v ∧ v < 0b11100) := hs
  have h2 := p.length_eq
  have h3 : r.1.members.length = r.1.pending.Len + (r.1.baseFee.Len + r.1.queued.Len) := by
    unfold Pools.members SubPool.Len
    rw [List.length_append, List.length_append]
  rw [List.length_append, h3, hm, hg, hlen] at h2
  have hl : l = [] := List.length_eq_zero.1 (by omega)
  rw [hl] at e
  obtain ⟨m', x, e2, l2⟩ := promote_trims_baseFee logDiscard r.1 [] v1 (by omega) (by omega)
    (by rw [hg, hlen]; rfl) hs.mB
  rw [e2, l2, hg, hlen]
  exact ⟨hv, e, rfl, rfl, rfl⟩

/-! ## Residency and membership -/

/-- C39: in a pool that satisfies its representation invariant and in which
every resident record is a member of a sub-pool (so that residency is
membership: every record of the hash map is in exactly one sub-pool, at
back-indices that are not negative, and every member of a sub-pool is in the
hash map), the same holds after `onNewTxs` and after `onNewBlock` run with
`discardLocked`, and a record that is not in the hash map afterwards (every
discarded or mined one) is in no sub-pool. -/
theorem residency_membership (tx : kvTx) (senders : SendersCache)
    (newTxs unwindTxs : List (TxSlot × Bool)) (minedTxs : List TxSlot) (pbf pend : Nat)
    (st : State) (h : st.Inv) (hh : st.Housed) :
    st.Resident ∧
    ((onNewTxs tx senders newTxs pbf pend discardLocked st).1.Inv ∧
      (onNewTxs tx senders newTxs pbf pend discardLocked st).1.Housed ∧
      (onNewTxs tx senders newTxs pbf pend discardLocked st).1.Resident ∧
      ∀ x, (∀ e ∈ (onNewTxs tx senders newTxs pbf pend discardLocked st).1.reg.byHash, e.2 ≠ x) →
        (onNewTxs tx senders newTxs pbf pend discardLocked st).1.pools.Out x) ∧
    ((onNewBlock tx senders unwindTxs minedTxs pbf pend discardLocked st).1.Inv ∧
      (onNewBlock tx senders unwindTxs minedTxs pbf pend discardLocked st).1.Housed ∧
      (onNewBlock tx senders unwindTxs minedTxs pbf pend discardLocked st).1.Resident ∧
      ∀ x, (∀ e ∈ (onNewBlock tx senders unwindTxs minedTxs pbf pend discardLocked
          st).1.reg.byHash, e.2 ≠ x) →
        (onNewBlock tx senders unwindTxs minedTxs pbf pend discardLocked st).1.pools.Out x) := by
  have i1 := onNewTxs_inv tx senders newTxs pbf pend st h
  have h1 := onNewTxs_housed tx senders newTxs pbf pend st h hh
  have i2 := onNewBlock_inv tx senders unwindTxs minedTxs pbf pend st h
  have h2 := onNewBlock_housed tx senders unwindTxs minedTxs pbf pend st h hh
  generalize onNewTxs tx senders newTxs pbf pend discardLocked st = r1 at i1 h1 ⊢
  generalize onNewBlock tx senders unwindTxs minedTxs pbf pend discardLocked st = r2 at i2 h2 ⊢
  exact ⟨(h.resident hh).1, ⟨i1, h1, (i1.resident h1).1, (i1.resident h1).2⟩,
    ⟨i2, h2, (i2.resident h2).1, (i2.resident h2).2⟩⟩

theorem residency_membership_witness :
    afterIntake.1.Inv ∧ afterIntake.1.Housed ∧
      (onNewBlock emptyKv minedSenders [] [blockTxA, blockTxM] 50 70 discardLocked
        afterIntake.1).1.Resident ∧
      ∀ x, (∀ e ∈ (onNewBlock emptyKv minedSenders [] [blockTxA, blockTxM] 50 70 discardLocked
          afterIntake.1).1.reg.byHash, e.2 ≠ x) →
        (onNewBlock emptyKv minedSenders [] [blockTxA, blockTxM] 50 70 discardLocked
          afterIntake.1).1.pools.Out x :=
  ⟨onNewTxs_inv _ _ _ _ _ _ State.empty_inv,
    onNewTxs_housed _ _ _ _ _ _ State.empty_inv (fun _ hp => by cases hp),
    (residency_membership emptyKv minedSenders [] [] [blockTxA, blockTxM] 50 70 afterIntake.1
      (onNewTxs_inv _ _ _ _ _ _ State.empty_inv)
      (onNewTxs_housed _ _ _ _ _ _ State.empty_inv (fun _ hp => by cases hp))).2.2.2.2⟩

/-! ## Eviction of senders -/

set_option maxRecDepth 100000

/-- C32 (failing input): the store `evictDb` holds the rows of the senders `2`
and `3`, and its eviction list of commit `1` names the sender `2`, which has no
record in memory and no transaction.  The flush `evictFlushed` (commit `3`,
eviction after two rounds, the sender `1` without transactions in this round)
ends without error and counts one evicted sender; afterwards the rows of the
sender `2` are all in place, and the rows of the sender `3` in
`PooledSenderIDToAdress` and `PooledSender` are gone. -/
theorem flush_evicts_other_rows :
    evictFlushed.err = none ∧ evictFlushed.evicted = 1 ∧
      Db.find (evictDb.data "PooledSenderIDToAdress") (putUint64 3) = [3] ∧
      Db.find (evictDb.data "PooledSender") (putUint64 3) =
        encodeSender { nonce := 7, balance := 900 } ∧
      Db.find (evictFlushed.db.data "PooledSender") (putUint64 2) =
        encodeSender { nonce := 4, balance := 500 } ∧
      Db.find (evictFlushed.db.data "PooledSenderIDToAdress") (putUint64 2) = [2] ∧
      Db.find (evictFlushed.db.data "PooledSenderID") [2] = putUint64 2 ∧
      Db.find (evictFlushed.db.data "PooledSenderIDToAdress") (putUint64 3) = [] ∧
      Db.find (evictFlushed.db.data "PooledSender") (putUint64 3) = [] ∧
      Db.find (evictFlushed.db.data "PooledSenderID") [3] = putUint64 3 := by
  decide

/-! ## The effective tip -/

/-- C34 (failing input): the only transaction of the sender `1` in `highTipMem`
has fee cap `100` and tip `50`; with `pendingBaseFee = 70` the function
`onSenderChange` gives it the effective tip `30`, whereas
`max(minTip, minFeeCap - pendingBaseFee)` is `50`. -/
theorem onSenderChange_effectiveTip_not_max :
    (highTipMem 1).Tx.feeCap = 100 ∧ (highTipMem 1).Tx.tip = 50 ∧
      (onSenderChange 1 scenarioSender highTipMem [1] 50 70 1).effectiveTip = 30 ∧
      max (highTipMem 1).Tx.tip ((highTipMem 1).Tx.feeCap - 70) = 50 := by
  decide

/-! ## The buffers of the broadcast loop -/

/-- C35 (failing input): in the pool `afterIntake` the hash `7001` is local and
the hashes `7002` and `7003` are not.  For the batch `[7001, 7002]` the bytes
passed to `BroadcastRemotePooledTxs` are the local hash followed by the remote
one, not the remote hash alone; for the batch `[7002, 7003]` they are the hash
`7003` alone, not both remote hashes. -/
theorem broadcast_remote_buffer :
    IdHashIsLocal afterIntake.1 7001 = true ∧ IdHashIsLocal afterIntake.1 7002 = false ∧
      IdHashIsLocal afterIntake.1 7003 = false ∧
      (BroadcastLoop.newTxs afterIntake.1 Buffers.new [7001, 7002]).2.1 = hashBytes 7001 ∧
      (BroadcastLoop.newTxs afterIntake.1 Buffers.new [7001, 7002]).2.2 =
        hashBytes 7001 ++ hashBytes 7002 ∧
      hashesWhere afterIntake.1 false [7001, 7002] = hashBytes 7002 ∧
      (BroadcastLoop.newTxs afterIntake.1 Buffers.new [7002, 7003]).2.1 = [] ∧
      (BroadcastLoop.newTxs afterIntake.1 Buffers.new [7002, 7003]).2.2 = hashBytes 7003 ∧
      hashesWhere afterIntake.1 false [7002, 7003] = hashBytes 7002 ++ hashBytes 7003 := by
  decide

/-! ## The recent-locals cache in a flush -/

/-- C36 (failing input): the recent-locals cache of `minedPool` holds the hash
of the mined local transaction `blockTxA`; `flushLocked` on it, into a store in
which every operation succeeds, ends in the panic of the type assertion and
leaves the table `RecentLocalTransaction` empty. -/
theorem flushLocked_locals_panics :
    minedPool.st.reg.localsHistory = [blockTxA.idHash] ∧
      (flushLocked 10 [1] [[1]] [1] minedPool emptyDb).err = some Err.panic ∧
      (flushLocked 10 [1] [[1]] [1] minedPool emptyDb).db.data "RecentLocalTransaction" = [] := by
  decide

end TxPool
